import Mathlib

/-! # gotextile: a verification development

A shallow embedding of the Textile-to-HTML converter `SoCloz/gotextile`
(`textile.go`, `parser/parser.go`, `document/document.go`).

Modelling conventions.

* A Go `string` is a `Str`, a list of characters.  Go measures strings in bytes
  and its `regexp` package walks them rune by rune; every offset the program
  computes is a match boundary, so counting in characters instead of bytes
  changes no decision the program takes.
* A function that may panic or loop forever returns an `Option`; `none` stands
  for "no result" (a panic, or the fuel given to the loops ran out).
* An `error` result is an `Err`; `none` is Go's `nil`.
* The `regexp` package is not part of the repository.  It is modelled by a
  backtracking matcher with the package's leftmost-first semantics, over the
  fragment of the pattern language that the repository's patterns use.
-/

namespace Gotextile

/-- A Go string, as the sequence of its characters. -/
abbrev Str := List Char

/-- A Go `error` value; `none` is `nil`. -/
abbrev Err := Option Str

/-! ## The `regexp` fragment -/

/-- The first of two results that exists (backtracking order). -/
def orElse {α : Type} (a b : Option α) : Option α :=
  match a with
  | some x => some x
  | none => b

/-- Perl class `\s` of Go's `regexp/syntax`: tab, line feed, form feed, carriage return, space. -/
def isSpace (c : Char) : Bool :=
  c == Char.ofNat 9 || c == Char.ofNat 10 || c == Char.ofNat 12 || c == Char.ofNat 13 || c == ' '

/-- ASCII word characters `[0-9A-Za-z_]`, the ones `\b` and `\B` look at. -/
def isWord (c : Char) : Bool :=
  c.isAlphanum || c == '_'

/-- Single-character pattern items. -/
inductive Cls where
  /-- `.` under the `s` flag: any character, the line feed included. -/
  | any
  /-- A literal character. -/
  | lit (c : Char)
  /-- The class `\s`. -/
  | space
  /-- A negated class `[^...]` of literal characters. -/
  | non (cs : List Char)
  /-- A negated class `[^\s...]`: no white space and none of the listed characters. -/
  | nonSpace (cs : List Char)

/-- Whether a single-character item accepts a character. -/
def Cls.test : Cls → Char → Bool
  | .any, _ => true
  | .lit a, c => c == a
  | .space, c => isSpace c
  | .non cs, c => !(cs.contains c)
  | .nonSpace cs, c => !(isSpace c) && !(cs.contains c)

/-- Patterns.  Repetition applies to single-character items only, which is all
the repository's patterns need; `greedy` is the repetition's effective
preference (the `U` flag swaps it). -/
inductive Re where
  /-- The empty pattern. -/
  | empty
  /-- One character of a class. -/
  | cls (p : Cls)
  /-- `p*`: zero or more. -/
  | star (p : Cls) (greedy : Bool)
  /-- `p+`: one or more. -/
  | plus (p : Cls) (greedy : Bool)
  /-- `p{n}`: exactly `n`. -/
  | rep (p : Cls) (n : Nat)
  /-- `r?`, preferring one occurrence. -/
  | opt (r : Re)
  /-- Concatenation. -/
  | seq (a b : Re)
  /-- Capture group number `i`. -/
  | group (i : Nat) (r : Re)
  /-- `$` without the `m` flag: the end of the text. -/
  | endText
  /-- `\b`: at an ASCII word boundary. -/
  | wordBoundary
  /-- `\B`: not at an ASCII word boundary. -/
  | noWordBoundary

/-- Matcher state: the offset reached, the character before it, the text from
it on, and the capture groups closed so far (latest first). -/
structure St where
  off : Nat
  prev : Option Char
  rest : Str
  caps : List (Nat × Str)

/-- Whether the position of a state is an ASCII word boundary. -/
def St.atBoundary (s : St) : Bool :=
  (match s.prev with | some c => isWord c | none => false) !=
  (match s.rest with | c :: _ => isWord c | [] => false)

/-- Repetition `p*` followed by the continuation `k`. -/
def starM (p : Cls) (greedy : Bool) (k : St → Option St) (caps : List (Nat × Str)) :
    Nat → Option Char → Str → Option St
  | off, prev, [] => k ⟨off, prev, [], caps⟩
  | off, prev, c :: cs =>
    if p.test c then
      if greedy then
        orElse (starM p greedy k caps (off + 1) (some c) cs) (k ⟨off, prev, c :: cs, caps⟩)
      else
        orElse (k ⟨off, prev, c :: cs, caps⟩) (starM p greedy k caps (off + 1) (some c) cs)
    else k ⟨off, prev, c :: cs, caps⟩

/-- Exactly `n` characters of class `p`, then the continuation `k`. -/
def repM (p : Cls) (k : St → Option St) (caps : List (Nat × Str)) :
    Nat → Nat → Option Char → Str → Option St
  | 0, off, prev, rest => k ⟨off, prev, rest, caps⟩
  | _ + 1, _, _, [] => none
  | n + 1, off, _, c :: cs =>
    if p.test c then repM p k caps n (off + 1) (some c) cs else none

/-- Backtracking matcher in continuation-passing style: `r.m k s` is the first
result, in the preference order of Go's leftmost-first semantics, of matching
`r` from state `s` and then running `k`. -/
def Re.m : Re → (St → Option St) → St → Option St
  | .empty, k, s => k s
  | .cls p, k, s =>
    match s.rest with
    | [] => none
    | c :: cs => if p.test c then k ⟨s.off + 1, some c, cs, s.caps⟩ else none
  | .star p g, k, s => starM p g k s.caps s.off s.prev s.rest
  | .plus p g, k, s =>
    match s.rest with
    | [] => none
    | c :: cs => if p.test c then starM p g k s.caps (s.off + 1) (some c) cs else none
  | .rep p n, k, s => repM p k s.caps n s.off s.prev s.rest
  | .opt r, k, s => orElse (r.m k s) (k s)
  | .seq a b, k, s => a.m (b.m k) s
  | .group i r, k, s =>
    r.m (fun e => k ⟨e.off, e.prev, e.rest, (i, s.rest.take (e.off - s.off)) :: e.caps⟩) s
  | .endText, k, s => if s.rest.isEmpty then k s else none
  | .wordBoundary, k, s => if s.atBoundary then k s else none
  | .noWordBoundary, k, s => if s.atBoundary then none else k s

/-- Number of capture groups of a pattern. -/
def Re.numSubexp : Re → Nat
  | .opt r => r.numSubexp
  | .seq a b => a.numSubexp + b.numSubexp
  | .group _ r => r.numSubexp + 1
  | _ => 0

/-- A match: where it starts and ends, the matched text, the groups closed. -/
structure Match where
  start : Nat
  stop : Nat
  whole : Str
  caps : List (Nat × Str)

/-- Text of group `i` in a match; an unmatched group gives the empty string,
as in `FindStringSubmatch`. -/
def Match.group (m : Match) (i : Nat) : Str :=
  match m.caps.lookup i with
  | some s => s
  | none => []

/-- Leftmost match search: try each start offset in turn. -/
def findFrom (r : Re) : Nat → Option Char → Str → Option Match
  | off, prev, [] =>
    match r.m some ⟨off, prev, [], []⟩ with
    | some e => some ⟨off, e.off, [], e.caps⟩
    | none => none
  | off, prev, c :: cs =>
    match r.m some ⟨off, prev, c :: cs, []⟩ with
    | some e => some ⟨off, e.off, (c :: cs).take (e.off - off), e.caps⟩
    | none => findFrom r (off + 1) (some c) cs

/-- Leftmost-first match of `r` in `text` (`FindStringIndex` reads `start` and
`stop`, `FindStringSubmatch` reads `whole` and the groups). -/
def Re.find (r : Re) (text : Str) : Option Match :=
  findFrom r 0 none text

/-- A literal string as a pattern. -/
def Re.lits : Str → Re
  | [] => .empty
  | c :: cs => .seq (.cls (.lit c)) (Re.lits cs)

/-- Concatenation of a list of patterns. -/
def Re.cat : List Re → Re
  | [] => .empty
  | r :: rs => .seq r (Re.cat rs)

/-! ## `parser.go`: the pattern registry -/

/-- The sub-parser a rule names in its `Parse` field. -/
inductive Custom where
  | parseList
  | parseTable

/-- The `Parser` struct.  `Typ` is the field `Type`; `ParseAttributes` is never
set nor called and is left out. -/
structure Parser where
  Re : Re
  Tag : Str
  Typ : Str
  AllowedChildren : List Str
  OffsetEnd : Int
  Parse : Option Custom

/-- The line feed. -/
def nl : Char := Char.ofNat 10

/-- The double quote. -/
def dq : Char := Char.ofNat 34

/-- The pattern `.*` under the flags `Us`. -/
def anyStar : Re := .star .any false

/-- The pattern `.+` under the flags `Us`. -/
def anyPlus : Re := .plus .any false

/-- The pattern `\n*` under the flag `U`. -/
def nlStar : Re := .star (.lit nl) false

/-- A literal character as a pattern. -/
def chr (c : Char) : Re := .cls (.lit c)

/-- A literal string as a pattern. -/
def str (s : String) : Re := Re.lits s.toList

/-- A phrase rule `\B m (.+) m \B` for a marker `m` of non-word characters. -/
def phraseB (m : String) (tag : String) : Parser :=
  ⟨Re.cat [.noWordBoundary, str m, .group 1 anyPlus, str m, .noWordBoundary],
    tag.toList, "phrase".toList, ["phrase".toList], 0, none⟩

/-- A phrase rule `\[ m (.+) m \]`. -/
def phraseBr (m : String) (tag : String) : Parser :=
  ⟨Re.cat [chr '[', str m, .group 1 anyPlus, str m, chr ']'],
    tag.toList, "phrase".toList, ["phrase".toList], 0, none⟩

/-- The registry built by `init`, every pattern compiled under `(?Us)`.
An unescaped `.` of a pattern is the any-character item, also in the
prefixes `p. `, `h1. `, `bc. `, `pre. ` and `###. `. -/
def parsers : List Parser := [
  -- 0: "p. (.*)\n*$"
  ⟨Re.cat [chr 'p', .cls .any, chr ' ', .group 1 anyStar, nlStar, .endText],
    "p".toList, "block".toList, ["phrase".toList], 0, none⟩,
  -- 1: "h1. (.*)\n*$"
  ⟨Re.cat [str "h1", .cls .any, chr ' ', .group 1 anyStar, nlStar, .endText],
    "h1".toList, "block".toList, ["phrase".toList], 0, none⟩,
  -- 2: "(\\*+ .*)\n*$"
  ⟨Re.cat [.group 1 (Re.cat [.plus (.lit '*') false, chr ' ', anyStar]), nlStar, .endText],
    "ul".toList, "list".toList, [], 0, some .parseList⟩,
  -- 3: "(\\#+ .*)\n*$"
  ⟨Re.cat [.group 1 (Re.cat [.plus (.lit '#') false, chr ' ', anyStar]), nlStar, .endText],
    "ol".toList, "list".toList, [], 0, some .parseList⟩,
  -- 4: "(- .* := .*)\n*$"
  ⟨Re.cat [.group 1 (Re.cat [str "- ", anyStar, str " := ", anyStar]), nlStar, .endText],
    "dl".toList, "list".toList,
    ["definition-term".toList, "definition-definition".toList], 0, none⟩,
  -- 5: "- (.*) :="
  ⟨Re.cat [str "- ", .group 1 anyStar, str " :="],
    "dt".toList, "definition-term".toList, ["phrase".toList], -2, none⟩,
  -- 6: ":= ([^\n]*)\n-"
  ⟨Re.cat [str ":= ", .group 1 (.star (.non [nl]) false), chr nl, chr '-'],
    "dd".toList, "definition-definition".toList, ["phrase".toList], -1, none⟩,
  -- 7: ":= ([^\n]*)\n$"
  ⟨Re.cat [str ":= ", .group 1 (.star (.non [nl]) false), chr nl, .endText],
    "dd".toList, "definition-definition".toList, ["phrase".toList], 0, none⟩,
  -- 8: ":= (.*) =:\n"
  ⟨Re.cat [str ":= ", .group 1 anyStar, str " =:", chr nl],
    "dd".toList, "definition-definition".toList, ["phrase".toList], 0, none⟩,
  -- 9: "bc. (.*)\n*$"
  ⟨Re.cat [str "bc", .cls .any, chr ' ', .group 1 anyStar, nlStar, .endText],
    "pre+code".toList, "block".toList, [], 0, none⟩,
  -- 10: "pre. (.*)\n*$"
  ⟨Re.cat [str "pre", .cls .any, chr ' ', .group 1 anyStar, nlStar, .endText],
    "pre".toList, "block".toList, [], 0, none⟩,
  -- 11: "###. .*$"
  ⟨Re.cat [str "###", .cls .any, chr ' ', anyStar, .endText],
    [], "block".toList, [], 0, none⟩,
  -- 12: "(\\|.*\\|)\n*$"
  ⟨Re.cat [.group 1 (Re.cat [chr '|', anyStar, chr '|']), nlStar, .endText],
    "table".toList, "block".toList, [], 0, some .parseTable⟩,
  -- 13: "(.*)\n*$"
  ⟨Re.cat [.group 1 anyStar, nlStar, .endText],
    "p".toList, "block".toList, ["phrase".toList], 0, none⟩,
  -- 14: "\n"
  ⟨chr nl, "br".toList, "phrase".toList, [], 0, none⟩,
  -- 15: "\\b\"([^\"]+)\":[^\\s]+\\b"
  ⟨Re.cat [.wordBoundary, chr dq, .group 1 (.plus (.non [dq]) false), chr dq, chr ':',
      .plus (.nonSpace []) false, .wordBoundary],
    "a".toList, "phrase".toList, [], 0, none⟩,
  -- 16: "\\b![^\\s!]+!\\b"
  ⟨Re.cat [.wordBoundary, chr '!', .plus (.nonSpace ['!']) false, chr '!', .wordBoundary],
    "img".toList, "phrase".toList, [], 0, none⟩,
  -- 17: "\\B\\*\\*(.+)\\*\\*\\B"
  phraseB "**" "b",
  -- 18: "\\[\\*\\*(.+)\\*\\*\\]"
  phraseBr "**" "b",
  -- 19: "\\B\\*(.+[^\\*])\\*\\s"
  ⟨Re.cat [.noWordBoundary, chr '*', .group 1 (Re.cat [anyPlus, .cls (.non ['*'])]), chr '*',
      .cls .space],
    "strong".toList, "phrase".toList, ["phrase".toList], -1, none⟩,
  -- 20: "\\[\\*(.+)\\*\\]"
  phraseBr "*" "strong",
  -- 21: "\\b__(.+)__\\b"
  ⟨Re.cat [.wordBoundary, str "__", .group 1 anyPlus, str "__", .wordBoundary],
    "i".toList, "phrase".toList, ["phrase".toList], 0, none⟩,
  -- 22: "\\[__(.+)__\\]"
  phraseBr "__" "i",
  -- 23: "\\b_(.+)_\\b"
  ⟨Re.cat [.wordBoundary, str "_", .group 1 anyPlus, str "_", .wordBoundary],
    "em".toList, "phrase".toList, ["phrase".toList], 0, none⟩,
  -- 24: "\\[_(.+)_\\]"
  phraseBr "_" "em",
  -- 25: "\\B~(.+)~\\B"
  phraseB "~" "sub",
  -- 26: "\\[~(.+)~\\]"
  phraseBr "~" "sub",
  -- 27: "\\B\\^(.+)\\^\\B"
  phraseB "^" "sup",
  -- 28: "\\[\\^(.+)\\^\\]"
  phraseBr "^" "sup",
  -- 29: "\\B\\+(.+)\\+\\B"
  phraseB "+" "ins",
  -- 30: "\\[\\+(.+)\\+\\]"
  phraseBr "+" "ins",
  -- 31: "\\B-(.+)-\\B"
  phraseB "-" "del",
  -- 32: "\\[-(.+)-\\]"
  phraseBr "-" "del",
  -- 33: "\\B@(.+)@\\B"
  phraseB "@" "code",
  -- 34: "\\?\\?(.+)\\?\\?"
  ⟨Re.cat [str "??", .group 1 anyPlus, str "??"],
    "cite".toList, "phrase".toList, ["phrase".toList], 0, none⟩]

/-- The pattern `(?s)((P{level}) ([^P]+)\n*)?(P+)?` that `parseListAtLevel`
compiles for the marker character `P` (greedy: no `U` flag). -/
def listRe (pfx : Char) (level : Nat) : Re :=
  Re.cat [
    .opt (.group 1 (Re.cat [.group 2 (.rep (.lit pfx) level), chr ' ',
      .group 3 (.plus (.non [pfx]) true), .star (.lit nl) true])),
    .opt (.group 4 (.plus (.lit pfx) true))]

/-- The pattern `(?Us)\|(.*)\|\n` of `parseTable`. -/
def tableRe : Re :=
  Re.cat [chr '|', .group 1 anyStar, chr '|', chr nl]

/-! ## `document.go` -/

/-- The node `D` of the output tree.  The field `Attr` is never written nor
read by the program and is left out. -/
inductive D where
  | mk (Tag : Str) (Text : Str) (Children : List D)

/-- Field `Tag`. -/
def D.Tag : D → Str
  | .mk t _ _ => t

/-- Field `Text`. -/
def D.Text : D → Str
  | .mk _ x _ => x

/-- Field `Children`. -/
def D.Children : D → List D
  | .mk _ _ cs => cs

/-- `document.New(tag)`. -/
def D.New (tag : Str) : D := .mk tag [] []

/-- A leaf `&document.D{Text: text}`. -/
def D.leaf (text : Str) : D := .mk [] text []

/-- `d.AddChild(c)`. -/
def D.AddChild (d : D) (c : D) : D :=
  match d with
  | .mk t x cs => .mk t x (cs ++ [c])

/-- `html.EscapeString` on one character. -/
def escapeChar (c : Char) : Str :=
  if c = '&' then "&amp;".toList
  else if c = Char.ofNat 39 then "&#39;".toList
  else if c = '<' then "&lt;".toList
  else if c = '>' then "&gt;".toList
  else if c = dq then "&#34;".toList
  else [c]

/-- `html.EscapeString`. -/
def EscapeString : Str → Str
  | [] => []
  | c :: cs => escapeChar c ++ EscapeString cs

/-- `fmt.Sprintf` for string operands and the verb `%s`.  The result is `none`
when the format uses `%` in another way or when the number of `%s` differs
from the number of operands; those outputs of Go are not modelled. -/
def Sprintf : Str → List Str → Option Str
  | [], [] => some []
  | [], _ :: _ => none
  | c :: f, args =>
    if c = '%' then
      match f, args with
      | v :: g, a :: rest => if v = 's' then (Sprintf g rest).map (a ++ ·) else none
      | _, _ => none
    else (Sprintf f args).map (c :: ·)

/-- Pieces of `s` between occurrences of a non-empty `sep`, scanning left to
right; the first argument counts the characters of a separator still to skip. -/
def splitGo (sep : Str) : Nat → Str → List Str
  | _, [] => [[]]
  | skip + 1, _ :: s => splitGo sep skip s
  | 0, c :: s =>
    if sep.isPrefixOf (c :: s) then [] :: splitGo sep (sep.length - 1) s
    else
      match splitGo sep 0 s with
      | [] => [[c]]
      | h :: t => (c :: h) :: t

/-- `strings.Split(s, sep)`. -/
def Split (s sep : Str) : List Str :=
  if sep.isEmpty then s.map (fun c => [c]) else splitGo sep 0 s

/-- `strings.Trim(s, cutset)`. -/
def Trim (s cutset : Str) : Str :=
  ((s.dropWhile cutset.contains).reverse.dropWhile cutset.contains).reverse

/-- The loop of `ToHtml` that nests one tag pair per name into the format. -/
def nestFormat : List Str → Str → Option Str
  | [], format => some format
  | tag :: list, format =>
    match Sprintf "<%s>%s</%s>".toList [tag, "%s".toList, tag] with
    | some pair =>
      match Sprintf format [pair] with
      | some format1 => nestFormat list format1
      | none => none
    | none => none

/-- The part of `ToHtml` after `text` is computed. -/
def wrapTag (tag text : Str) : Option Str :=
  if tag = [] then some text
  else if text = [] then Sprintf "<%s>".toList [tag]
  else
    match nestFormat (Split tag "+".toList) "%s".toList with
    | some format => Sprintf format [text]
    | none => none

mutual
/-- `d.ToHtml()`. -/
def D.ToHtml : D → Option Str
  | .mk tag text children =>
    match (if children.length > 0 then D.ToHtmlList children else some (EscapeString text)) with
    | some inner => wrapTag tag inner
    | none => none
/-- The loop `for _, c := range d.Children { text += c.ToHtml() }`. -/
def D.ToHtmlList : List D → Option Str
  | [] => some []
  | c :: cs =>
    match D.ToHtml c with
    | some a =>
      match D.ToHtmlList cs with
      | some b => some (a ++ b)
      | none => none
    | none => none
end

/-! ## `parser.go`: the Driver and the sub-parsers -/

/-- `canAddChild`. -/
def canAddChild (t : Str) : List Str → Bool
  | [] => false
  | v :: vs => if v = t then true else canAddChild t vs

/-- The variables `bestPos` and `bestParser` of `parse`; the rule is kept with
its registry index. -/
structure Best where
  pos0 : Nat
  pos1 : Nat
  parser : Option (Nat × Parser)

/-- One pass of the body of `for i, p := range parsers`. -/
def selectStep (text : Str) (parsed : Nat) (allowedChildren : List Str)
    (b : Best) (i : Nat) (p : Parser) : Best :=
  if canAddChild p.Typ allowedChildren then
    match p.Re.find (text.drop parsed ++ [nl]) with
    | some loc =>
      if loc.start < text.length - parsed ∧ loc.start < b.pos0 then ⟨loc.start, loc.stop, some (i, p)⟩
      else b
    | none => b
  else b

/-- The loop `for i, p := range parsers` over the rules from index `i` on. -/
def selectFrom (text : Str) (parsed : Nat) (allowedChildren : List Str) :
    List Parser → Nat → Best → Best
  | [], _, b => b
  | p :: ps, i, b =>
    selectFrom text parsed allowedChildren ps (i + 1) (selectStep text parsed allowedChildren b i p)

/-- The selection loop of `parse` (lines 268 to 279). -/
def selectBest (text : Str) (parsed : Nat) (allowedChildren : List Str) : Best :=
  selectFrom text parsed allowedChildren parsers 0 ⟨text.length + 1, 0, none⟩

/-- The signature of `parse`, for the calls the sub-parsers make. -/
abbrev ParseFn := Str → Str → List Str → Option (D × Err)

/-- The compilation at the head of `parseListAtLevel`: `text[0:1]` panics on an
empty text and `MustCompile` panics on a repeat count above 1000. -/
def listEnter (text : Str) (level : Nat) : Option Re :=
  match text with
  | [] => none
  | pfx :: _ => if 1000 < level then none else some (listRe pfx level)

/-- The loop of `parseListAtLevel`, from the state `(parsed, d)`, for the
pattern `re` compiled at the head of the call.  The nested call at `level + 1`
is this loop again on `text[parsed:]`. -/
def listLoop (parse : ParseFn) (tag : Str) :
    Nat → Re → Str → Nat → Nat → D → Option (D × Nat × Err)
  | 0, _, text, _, parsed, d =>
    if parsed < text.length then none else some (d, parsed, none)
  | fuel + 1, re, text, level, parsed, d =>
    if parsed < text.length then
      match re.find (text.drop parsed) with
      | some m =>
        match parse (Trim (m.group 3) [nl]) "li".toList ["phrase".toList] with
        | none => none
        | some (_, some err) => some (d, parsed, some err)
        | some (c, none) =>
          if (m.group 4).length > level then
            match listEnter (text.drop (parsed + (m.group 1).length)) (level + 1) with
            | none => none
            | some re1 =>
              match listLoop parse tag fuel re1 (text.drop (parsed + (m.group 1).length))
                  (level + 1) 0 (D.New tag) with
              | none => none
              | some (_, _, some err) => some (d, parsed + (m.group 1).length, some err)
              | some (cc, offset, none) =>
                listLoop parse tag fuel re text level (parsed + (m.group 1).length + offset)
                  (d.AddChild (c.AddChild cc))
          else if (m.group 4).length < level then
            some (d.AddChild c, parsed + (m.group 1).length, none)
          else listLoop parse tag fuel re text level (parsed + (m.group 1).length) (d.AddChild c)
      | none => some (d, parsed, none)
    else some (d, parsed, none)

/-- `parseListAtLevel`. -/
def parseListAtLevel (parse : ParseFn) (fuel : Nat) (text tag : Str) (level : Nat) :
    Option (D × Nat × Err) :=
  match listEnter text level with
  | none => none
  | some re => listLoop parse tag fuel re text level 0 (D.New tag)

/-- `parseList`. -/
def parseList (parse : ParseFn) (fuel : Nat) (text tag : Str) : Option (D × Err) :=
  match parseListAtLevel parse fuel text tag 1 with
  | some (d, _, err) => some (d, err)
  | none => none

/-- The loop over the cells of one table row, filling the row node `tr`. -/
def tableCells (parse : ParseFn) : List Str → D → Option (D × Err)
  | [], tr => some (tr, none)
  | cell :: cells, tr =>
    match parse cell "td".toList ["phrase".toList] with
    | none => none
    | some (_, some err) => some (tr, some err)
    | some (td, none) => tableCells parse cells (tr.AddChild td)

/-- The loop of `parseTable`, from the state `(parsed, d)`. -/
def tableLoop (parse : ParseFn) (text : Str) : Nat → Nat → D → Option (D × Err)
  | 0, parsed, d => if parsed < text.length then none else some (d, none)
  | fuel + 1, parsed, d =>
    if parsed < text.length then
      match tableRe.find (text.drop parsed ++ [nl]) with
      | some m =>
        match tableCells parse (Split (m.group 1) "|".toList) (D.New "tr".toList) with
        | none => none
        | some (tr, some err) => some (d.AddChild tr, some err)
        | some (tr, none) => tableLoop parse text fuel (parsed + m.whole.length) (d.AddChild tr)
      | none => some (d, none)
    else some (d, none)

/-- `parseTable`. -/
def parseTable (parse : ParseFn) (fuel : Nat) (text tag : Str) : Option (D × Err) :=
  tableLoop parse text fuel 0 (D.New tag)

/-- The child a selected rule `bp` contributes for the match `m` (lines 287 to 300):
the node `d` after the child is added. -/
def addMatched (parse : ParseFn) (sub : Custom → Str → Str → Option (D × Err))
    (bp : Parser) (m : Match) (d : D) : Option D :=
  if bp.Re.numSubexp > 0 then
    match (match bp.Parse with
      | some f => sub f (m.group 1) bp.Tag
      | none => parse (m.group 1) bp.Tag bp.AllowedChildren) with
    | none => none
    | some (c, none) => some (d.AddChild c)
    | some (_, some _) => some d
  else some (d.AddChild (D.mk bp.Tag [] []))

/-- The node after lines 281 to 284: when the selected match starts after the
cursor, the skipped text is added as a literal child. -/
def gapChild (text : Str) (parsed : Nat) (allowedChildren : List Str) (d : D) : D :=
  if (selectBest text parsed allowedChildren).pos0 > 0 then
    d.AddChild (D.leaf ((text.drop parsed).take (selectBest text parsed allowedChildren).pos0))
  else d

/-- The cursor after lines 281 to 284: moved to the start of the selected match. -/
def gapEnd (text : Str) (parsed : Nat) (allowedChildren : List Str) : Nat :=
  if (selectBest text parsed allowedChildren).pos0 > 0 then
    parsed + (selectBest text parsed allowedChildren).pos0
  else parsed

/-- The loop `Iteration` of `parse`, from the state `(parsed, d)`.  A negative
`parsed` makes the next `text[parsed:]` panic. -/
def parseLoop (parse : ParseFn) (sub : Custom → Str → Str → Option (D × Err))
    (text : Str) (allowedChildren : List Str) : Nat → Nat → D → Option (D × Err)
  | 0, parsed, d => if parsed < text.length then none else some (d, none)
  | fuel + 1, parsed, d =>
    if parsed < text.length then
      match (selectBest text parsed allowedChildren).parser with
      | some (_, bp) =>
        match bp.Re.find (text.drop (gapEnd text parsed allowedChildren) ++ [nl]) with
        | some m =>
          match addMatched parse sub bp m (gapChild text parsed allowedChildren d) with
          | none => none
          | some d2 =>
            if (gapEnd text parsed allowedChildren : Int) + (m.whole.length : Int) + bp.OffsetEnd < 0
            then none
            else parseLoop parse sub text allowedChildren fuel
              ((gapEnd text parsed allowedChildren : Int) + (m.whole.length : Int)
                + bp.OffsetEnd).toNat d2
        | none =>
          some ((gapChild text parsed allowedChildren d).AddChild
            (D.leaf (text.drop (gapEnd text parsed allowedChildren))), none)
      | none => some (d.AddChild (D.leaf (text.drop parsed)), none)
    else some (d, none)

/-- The sub-parsers behind the `Parse` field of a rule. -/
def subParse (parse : ParseFn) (fuel : Nat) : Custom → Str → Str → Option (D × Err)
  | .parseList => parseList parse fuel
  | .parseTable => parseTable parse fuel

/-- `parse` with `fuel` bounding both the nesting of calls and the number of
passes of every loop. -/
def parseN : Nat → ParseFn
  | 0 => fun _ _ _ => none
  | n + 1 => fun text tag allowedChildren =>
    parseLoop (parseN n) (subParse (parseN n) n) text allowedChildren (n + 1) 0 (D.New tag)

/-- `parse`. -/
def parse (fuel : Nat) (text tag : Str) (allowedChildren : List Str) : Option (D × Err) :=
  parseN fuel text tag allowedChildren

/-- The categories `ParseDocument` allows at the top of a block. -/
def topCategories : List Str := ["block".toList, "list".toList, "phrase".toList]

/-- The loop of `ParseDocument` over the blocks. -/
def parseBlocks (fuel : Nat) : List Str → D → Option D
  | [], d => some d
  | text :: blocks, d =>
    match parse fuel text [] topCategories with
    | none => none
    | some (c, none) => parseBlocks fuel blocks (d.AddChild c)
    | some (_, some _) => parseBlocks fuel blocks d

/-- `ParseDocument`. -/
def ParseDocument (fuel : Nat) (text : Str) : Option (D × Err) :=
  match parseBlocks fuel (Split text [nl, nl]) (D.New []) with
  | some d => some (d, none)
  | none => none

/-- `TextileToHtml`. -/
def TextileToHtml (fuel : Nat) (text : Str) : Option (Str × Err) :=
  match ParseDocument fuel text with
  | some (doc, err) =>
    match doc.ToHtml with
    | some html => some (html, err)
    | none => none
  | none => none

mutual
/-- Decision procedure for equality of nodes. -/
def D.decEq : (a b : D) → Decidable (a = b)
  | .mk t1 x1 c1, .mk t2 x2 c2 =>
    if h1 : t1 = t2 then
      if h2 : x1 = x2 then
        match D.decEqList c1 c2 with
        | isTrue h3 => isTrue (by rw [h1, h2, h3])
        | isFalse h3 => isFalse (by intro h; cases h; exact h3 rfl)
      else isFalse (by intro h; cases h; exact h2 rfl)
    else isFalse (by intro h; cases h; exact h1 rfl)
/-- Decision procedure for equality of lists of nodes. -/
def D.decEqList : (a b : List D) → Decidable (a = b)
  | [], [] => isTrue rfl
  | [], _ :: _ => isFalse (by intro h; cases h)
  | _ :: _, [] => isFalse (by intro h; cases h)
  | a :: as, b :: bs =>
    match D.decEq a b with
    | isTrue h1 =>
      match D.decEqList as bs with
      | isTrue h2 => isTrue (by rw [h1, h2])
      | isFalse h2 => isFalse (by intro h; cases h; exact h2 rfl)
    | isFalse h1 => isFalse (by intro h; cases h; exact h1 rfl)
end

instance : DecidableEq D := D.decEq

/-! ## Definitions used to state the claims -/

/-- The opening tags `<t1>...<tn>`. -/
def openTags : List Str → Str
  | [] => []
  | t :: ts => '<' :: t ++ '>' :: openTags ts

/-- The closing tags `</tn>...</t1>`. -/
def closeTags : List Str → Str
  | [] => []
  | t :: ts => closeTags ts ++ ('<' :: '/' :: t ++ ['>'])

/-- The nesting `<t1>...<tn> inner </tn>...</t1>` of claim C3, the first name outermost. -/
def nestSpec : List Str → Str → Str
  | [], inner => inner
  | t :: ts, inner => '<' :: t ++ '>' :: nestSpec ts inner ++ ('<' :: '/' :: t ++ ['>'])

/-- Concatenation of rendered children; no result when a child has none. -/
def concatHtml : List (Option Str) → Option Str
  | [] => some []
  | none :: _ => none
  | some a :: rest =>
    match concatHtml rest with
    | some b => some (a ++ b)
    | none => none

/-- The `inner` of claim C3: the children's renderings in child order when
there is a child, the escaped text otherwise. -/
def innerSpec (text : Str) (children : List D) : Option Str :=
  if children.isEmpty then some (EscapeString text) else concatHtml (children.map D.ToHtml)

/-- The `wrap` of claim C3, for the tag made of `names` joined by `+`. -/
def wrapSpec (names : List Str) (inner : Str) : Str :=
  if ['+'].intercalate names = [] then inner
  else if inner = [] then '<' :: ['+'].intercalate names ++ ['>']
  else nestSpec names inner

/-- The children `parseBlocks` adds, one per block whose parse reports no error. -/
def blockNodes (fuel : Nat) : List Str → Option (List D)
  | [] => some []
  | text :: blocks =>
    match parse fuel text [] topCategories with
    | none => none
    | some (c, none) =>
      match blockNodes fuel blocks with
      | some cs => some (c :: cs)
      | none => none
    | some (_, some _) => blockNodes fuel blocks

/-- The match that makes rule `p` a candidate of a Driver cycle with remaining
text `r` and allowed categories `A`: the rule's category is in `A` and its
leftmost match in `r` followed by one synthetic line break starts at an offset
strictly less than `len(r)`. -/
def candidate (r : Str) (A : List Str) (p : Parser) : Option Match :=
  if canAddChild p.Typ A then
    match p.Re.find (r ++ [nl]) with
    | some loc => if loc.start < r.length then some loc else none
    | none => none
  else none

/-- The matcher state at the head of a text. -/
def startSt (r : Str) : St := ⟨0, none, r, []⟩

/-- `g` returns every result that `f` returns. -/
def ParseFn.Le (f g : ParseFn) : Prop :=
  ∀ t tag al r, f t tag al = some r → g t tag al = some r

/-- A literal item that accepts no character satisfying `ok`. -/
def Cls.deadOn (ok : Char → Bool) : Cls → Bool
  | .lit c => !ok c
  | _ => false

/-- Sufficient condition for a pattern to have no match in a text all of whose
characters satisfy `ok`: an item it cannot skip accepts no such character. -/
def Re.deadOn (ok : Char → Bool) : Re → Bool
  | .cls p => p.deadOn ok
  | .plus p _ => p.deadOn ok
  | .rep p n => decide (0 < n) && p.deadOn ok
  | .seq a b => a.deadOn ok || b.deadOn ok
  | .group _ r => r.deadOn ok
  | _ => false

/-- Zero-width patterns: they run the continuation on the same state or fail. -/
def Re.passes : Re → Bool
  | .empty => true
  | .endText => true
  | .wordBoundary => true
  | .noWordBoundary => true
  | _ => false

/-- Sufficient condition for a pattern not to match at the head of a text whose
first character is `c`. -/
def Re.rejects (c : Char) : Re → Bool
  | .cls p => !p.test c
  | .plus p _ => !p.test c
  | .rep p n => decide (0 < n) && !p.test c
  | .seq a b => a.rejects c || (a.passes && b.rejects c)
  | .group _ r => r.rejects c
  | .endText => true
  | .wordBoundary => !isWord c
  | .noWordBoundary => isWord c
  | _ => false

/-- The character before the cursor after `xs` is consumed. -/
def lastOr (prev : Option Char) : Str → Option Char
  | [] => prev
  | c :: cs => lastOr (some c) cs

/-- Characters of plain words: ASCII letters, digits, the space and the dot. -/
def plainChar (c : Char) : Bool :=
  c.isAlphanum || c == ' ' || c == '.'

/-- Plain characters and the line feed. -/
def okPlain (c : Char) : Bool :=
  plainChar c || c == nl

/-- Whether a pattern is the single literal `a`. -/
def Re.isLit (a : Char) : Re → Bool
  | .cls (.lit c) => c == a
  | _ => false

/-- Always true: used where the dead-pattern test has nothing to exclude. -/
def okAll (_ : Char) : Bool := true

/-- Every character but the space. -/
def okNoSpace (c : Char) : Bool := c != ' '

/-- Letters, digits and the dot: the characters of table cells in claim C8. -/
def cellChar (c : Char) : Bool := c.isAlphanum || c == '.'

/-- The line `|c1|...|ck|` of a table row. -/
def rowLine (cells : List Str) : Str := '|' :: ['|'].intercalate cells ++ ['|']

/-- The lines of the rows joined by single line breaks. -/
def tableText (rows : List (List Str)) : Str := [nl].intercalate (rows.map rowLine)

/-- The node of a cell. -/
def tdNode (cell : Str) : D := .mk "td".toList [] [D.leaf cell]

/-- The node of a row. -/
def trNode (cells : List Str) : D := .mk "tr".toList [] (cells.map tdNode)

/-- The rendering `<tr><td>c1</td>...<td>ck</td></tr>` of a row. -/
def rowHtml (cells : List Str) : Str :=
  "<tr>".toList ++ (cells.map (fun c => "<td>".toList ++ c ++ "</td>".toList)).flatten
    ++ "</tr>".toList

/-- The rendering of a table: `<table>`, the rows in order, `</table>`. -/
def tableHtml (rows : List (List Str)) : Str :=
  "<table>".toList ++ (rows.map rowHtml).flatten ++ "</table>".toList

/-- The line `- t := d` of a definition. -/
def dlLine (p : Str × Str) : Str := "- ".toList ++ p.1 ++ " := ".toList ++ p.2

/-- The definition lines joined by single line breaks. -/
def dlText (pairs : List (Str × Str)) : Str := [nl].intercalate (pairs.map dlLine)

/-- The rendering `<dl><dt>t1</dt><dd>d1</dd>...</dl>`. -/
def dlHtml (pairs : List (Str × Str)) : Str :=
  "<dl>".toList ++ (pairs.map (fun p => "<dt>".toList ++ p.1 ++ "</dt><dd>".toList ++ p.2
    ++ "</dd>".toList)).flatten ++ "</dl>".toList

/-- The term and definition nodes of the pairs, alternating. -/
def dlNodes : List (Str × Str) → List D
  | [] => []
  | p :: ps => .mk "dt".toList [] [D.leaf p.1] :: .mk "dd".toList [] [D.leaf p.2] :: dlNodes ps

/-- Every character but the dash. -/
def okNoDash (c : Char) : Bool := c != '-'

/-- The categories the definition-list rule allows for its children. -/
def dlCats : List Str := ["definition-term".toList, "definition-definition".toList]

/-- Text of a group among the closed groups, empty when the group is unset. -/
def capText (caps : List (Nat × Str)) (i : Nat) : Str :=
  match caps.lookup i with
  | some s => s
  | none => []

/-- The node of a list item without nested list. -/
def liNode (w : Str) : D := .mk "li".toList [] [D.leaf w]

/-- The lines, each preceded by a line feed. -/
def nlLines (ls : List Str) : Str := (ls.map (fun l => nl :: l)).flatten

/-- The line `mm s` of a second-level item. -/
def subLine (m : Char) (s : Str) : Str := m :: m :: ' ' :: s

/-- The lines of a top-level item: `m a`, then the lines of its second-level items. -/
def itemLines (m : Char) (it : Str × List Str) : List Str :=
  (m :: ' ' :: it.1) :: it.2.map (subLine m)

/-- The lines of a two-level list. -/
def listLines (m : Char) (items : List (Str × List Str)) : List Str :=
  (items.map (itemLines m)).flatten

/-- The text of a two-level list: its lines joined by single line feeds. -/
def listText (m : Char) (items : List (Str × List Str)) : Str :=
  [nl].intercalate (listLines m items)

/-- The node of a top-level item: its text, then the nested list when it has
second-level items. -/
def itemNode (tag : Str) (it : Str × List Str) : D :=
  .mk "li".toList [] (D.leaf it.1 ::
    (if it.2.isEmpty then [] else [.mk tag [] (it.2.map liNode)]))

/-- The list tag of a marker: `ul` for the star, `ol` otherwise. -/
def listTag (m : Char) : Str := if m = '*' then "ul".toList else "ol".toList

/-- The rendering of an item without nested list. -/
def liHtml (w : Str) : Str := "<li>".toList ++ w ++ "</li>".toList

/-- The rendering of the nested list of an item: nothing without second-level item. -/
def nestedHtml (tag : Str) (subs : List Str) : Str :=
  if subs.isEmpty then []
  else '<' :: tag ++ '>' :: (subs.map liHtml).flatten ++ ('<' :: '/' :: tag ++ ['>'])

/-- The rendering of a top-level item. -/
def itemHtml (tag : Str) (it : Str × List Str) : Str :=
  "<li>".toList ++ it.1 ++ nestedHtml tag it.2 ++ "</li>".toList

/-- The rendering of a two-level list. -/
def listHtml (tag : Str) (items : List (Str × List Str)) : Str :=
  '<' :: tag ++ '>' :: (items.map (itemHtml tag)).flatten ++ ('<' :: '/' :: tag ++ ['>'])





/-- Whether a text contains a blank line: two consecutive line feeds. -/
def hasBlankLine : Str → Bool
  | a :: b :: rest => (a == nl && b == nl) || hasBlankLine (b :: rest)
  | _ => false

/-- The text of a list that starts at level 2: the lines `mm s` of the
second-level items, then the lines `m a` of the top-level items, joined by
single line feeds. -/
def hostText (m : Char) (subs : List Str) (tops : List Str) : Str :=
  [nl].intercalate (subs.map (subLine m) ++ listLines m (tops.map (fun a => (a, []))))

/-- The rendering of a list that starts at level 2: one item without text hosts
the nested list, the top-level items follow. -/
def hostHtml (tag : Str) (subs : List Str) (tops : List Str) : Str :=
  '<' :: tag ++ '>' :: ("<li>".toList ++ nestedHtml tag subs ++ "</li>".toList ++
    (tops.map liHtml).flatten) ++ ('<' :: '/' :: tag ++ ['>'])

/-- Sufficient condition for a pattern to fail wherever the next character is
not `x`: after zero-width items, its first item is the literal `x`. -/
def Re.needs (x : Char) : Re → Bool
  | .cls p => p.deadOn (fun c => c != x)
  | .plus p _ => p.deadOn (fun c => c != x)
  | .rep p n => decide (0 < n) && p.deadOn (fun c => c != x)
  | .seq a b => a.needs x || (a.passes && b.needs x)
  | .group _ r => r.needs x
  | _ => false

/-- No `*` of the text is directly followed by a white-space character. -/
def noStarSpace : Str → Bool
  | a :: b :: rest => !(a == '*' && isSpace b) && noStarSpace (b :: rest)
  | _ => true

/-- The characters of a word around the marker `x`: ASCII letters and digits, the
marker, and the line feed the Driver appends. -/
def okMark (x : Char) (c : Char) : Bool := c.isAlphanum || c == x || c == nl

/-- Sufficient condition for a pattern to fail at a character that follows a word
character: it starts with `\b` and the character is a word character (`w` true),
or it starts with `\B` and the character is not (`w` false). -/
def Re.guard (w : Bool) : Re → Bool
  | .seq .wordBoundary _ => w
  | .seq .noWordBoundary _ => !w
  | _ => false

/-- The least number of characters a match of the pattern consumes. -/
def Re.minLen : Re → Nat
  | .cls _ => 1
  | .plus _ _ => 1
  | .rep _ n => n
  | .seq a b => a.minLen + b.minLen
  | .group _ r => r.minLen
  | _ => 0

/-- The least number of characters a match consumes outside capture group 1. -/
def Re.outLen : Re → Nat
  | .cls _ => 1
  | .plus _ _ => 1
  | .rep _ n => n
  | .seq a b => a.outLen + b.outLen
  | .group i r => if i = 1 then 0 else r.outLen
  | _ => 0

/-- How the state `e` after a pattern relates to the state `s` before it: the
cursor advanced by the least length at least, the cursor and the remaining text
still add up to the same end, and the cursor advanced outside group 1 by the
least outside length at least. -/
def Reach (r : Re) (s e : St) : Prop :=
  s.off + r.minLen ≤ e.off ∧ e.off + e.rest.length = s.off + s.rest.length ∧
    s.off + r.outLen + (capText e.caps 1).length ≤ e.off + (capText s.caps 1).length

/-- The tag names the parsers give to nodes: those of the registry, and `li`, `tr`
and `td` of the sub-parsers; `pre+code` stands for the pair `pre`, `code`. -/
def tagNames : List Str :=
  ["p", "h1", "ul", "ol", "li", "dl", "dt", "dd", "pre", "code", "pre+code", "table", "tr",
    "td", "br", "a", "img", "b", "strong", "i", "em", "sub", "sup", "ins", "del",
    "cite"].map String.toList

/-- An opening or a closing tag with one of the fixed names. -/
def isTagPiece (s : Str) : Prop :=
  ∃ n ∈ tagNames, s = '<' :: n ++ ['>'] ∨ s = '<' :: '/' :: n ++ ['>']

/-- An escaped text: it holds none of the characters `<`, `>`, the double quote
and the apostrophe. -/
def isTextPiece (s : Str) : Prop :=
  (∃ x, s = EscapeString x) ∧ ∀ c ∈ s, c ≠ '<' ∧ c ≠ '>' ∧ c ≠ dq ∧ c ≠ Char.ofNat 39

/-- A concatenation of tags with fixed names and of escaped texts. -/
def Pieces (out : Str) : Prop :=
  ∃ ps : List Str, out = ps.flatten ∧ ∀ p ∈ ps, isTagPiece p ∨ isTextPiece p

/-- A tree all of whose nodes have no tag or a tag with a fixed name. -/
inductive D.Wf : D → Prop
  | mk (tag x : Str) (cs : List D) (htag : tag = [] ∨ tag ∈ tagNames)
      (hcs : ∀ c ∈ cs, D.Wf c) : D.Wf (.mk tag x cs)

/-! ## Theorems -/

/-! ### Rendering (`ToHtml`) -/

theorem Sprintf_cons_ne (c : Char) (f : Str) (args : List Str) (hc : c ≠ '%') :
    Sprintf (c :: f) args = (Sprintf f args).map (fun r => c :: r) := by
  rw [Sprintf.eq_def]
  simp [hc]

theorem Sprintf_verb (g a : Str) (rest : List Str) :
    Sprintf ('%' :: 's' :: g) (a :: rest) = (Sprintf g rest).map (fun r => a ++ r) := by
  rw [Sprintf.eq_def]
  simp

theorem Sprintf_plain (f : Str) (h : '%' ∉ f) : Sprintf f [] = some f := by
  induction f with
  | nil => rfl
  | cons c f ih =>
    have hc : c ≠ '%' := fun e => h (by simp [e])
    have hf : '%' ∉ f := fun e => h (by simp [e])
    simp [Sprintf_cons_ne _ _ _ hc, ih hf]

theorem Sprintf_hole (a b x : Str) (args : List Str) (ha : '%' ∉ a) :
    Sprintf (a ++ '%' :: 's' :: b) (x :: args) = (Sprintf b args).map (fun r => a ++ (x ++ r)) := by
  induction a with
  | nil => simp [Sprintf_verb]
  | cons c a ih =>
    have hc : c ≠ '%' := fun e => ha (by simp [e])
    have hf : '%' ∉ a := fun e => ha (by simp [e])
    simp [Sprintf_cons_ne _ _ _ hc, ih hf, Option.map_map, Function.comp_def]

theorem openTags_plain (ts : List Str) (h : ∀ t ∈ ts, '%' ∉ t) : '%' ∉ openTags ts := by
  induction ts with
  | nil => simp [openTags]
  | cons t ts ih =>
    have h1 := h t (by simp)
    have h2 := ih (fun u hu => h u (by simp [hu]))
    simp [openTags, h1, h2]

theorem closeTags_plain (ts : List Str) (h : ∀ t ∈ ts, '%' ∉ t) : '%' ∉ closeTags ts := by
  induction ts with
  | nil => simp [closeTags]
  | cons t ts ih =>
    have h1 := h t (by simp)
    have h2 := ih (fun u hu => h u (by simp [hu]))
    simp [closeTags, h1, h2]

theorem Sprintf_pair (t : Str) :
    Sprintf "<%s>%s</%s>".toList [t, "%s".toList, t] =
      some ('<' :: t ++ '>' :: '%' :: 's' :: '<' :: '/' :: t ++ ['>']) := by
  have e : "<%s>%s</%s>".toList =
      ['<'] ++ '%' :: 's' :: (['>'] ++ '%' :: 's' :: (['<', '/'] ++ '%' :: 's' :: ['>'])) := by
    decide
  have e2 : "%s".toList = ['%', 's'] := by decide
  rw [e, Sprintf_hole _ _ _ _ (by decide), Sprintf_hole _ _ _ _ (by decide),
    Sprintf_hole _ _ _ _ (by decide), Sprintf_plain _ (by decide), e2]
  simp

theorem nestFormat_eq (ts : List Str) (h : ∀ t ∈ ts, '%' ∉ t) (pre post : Str)
    (hpre : '%' ∉ pre) (hpost : '%' ∉ post) :
    nestFormat ts (pre ++ '%' :: 's' :: post) =
      some (pre ++ openTags ts ++ '%' :: 's' :: (closeTags ts ++ post)) := by
  induction ts generalizing pre post with
  | nil => simp [nestFormat, openTags, closeTags]
  | cons t ts ih =>
    have h1 := h t (by simp)
    have h2 : ∀ u ∈ ts, '%' ∉ u := fun u hu => h u (by simp [hu])
    have hpre1 : '%' ∉ pre ++ ('<' :: t ++ ['>']) := by simp [hpre, h1]
    have hpost1 : '%' ∉ ('<' :: '/' :: t ++ ['>']) ++ post := by simp [hpost, h1]
    have step := ih h2 (pre ++ ('<' :: t ++ ['>'])) (('<' :: '/' :: t ++ ['>']) ++ post) hpre1 hpost1
    rw [nestFormat, Sprintf_pair t]
    dsimp only
    rw [Sprintf_hole _ _ _ _ hpre, Sprintf_plain _ hpost]
    simp only [Option.map_some']
    have e : pre ++ (('<' :: t ++ '>' :: '%' :: 's' :: '<' :: '/' :: t ++ ['>']) ++ post) =
        (pre ++ ('<' :: t ++ ['>'])) ++ '%' :: 's' :: (('<' :: '/' :: t ++ ['>']) ++ post) := by
      simp
    rw [e, step]
    simp [openTags, closeTags]

theorem nestSpec_eq (ts : List Str) (inner : Str) :
    nestSpec ts inner = openTags ts ++ inner ++ closeTags ts := by
  induction ts with
  | nil => simp [nestSpec, openTags, closeTags]
  | cons t ts ih => simp [nestSpec, openTags, closeTags, ih]

theorem splitGo_skip (sep : Str) (n : Nat) (a s : Str) (h : a.length = n) :
    splitGo sep n (a ++ s) = splitGo sep 0 s := by
  induction a generalizing n with
  | nil => simp at h; subst h; rfl
  | cons c a ih =>
    cases n with
    | zero => simp at h
    | succ n => simp at h; simp [splitGo, ih n h]

theorem splitGo_ne_nil (sep : Str) (n : Nat) (s : Str) : splitGo sep n s ≠ [] := by
  induction s generalizing n with
  | nil => simp [splitGo]
  | cons c s ih =>
    cases n with
    | succ n => simp [splitGo, ih]
    | zero =>
      rw [splitGo]
      split
      · simp
      · split <;> simp

theorem splitGo_single_free (x : Char) (t : Str) (h : x ∉ t) : splitGo [x] 0 t = [t] := by
  induction t with
  | nil => simp [splitGo]
  | cons c t ih =>
    have hc : ¬ (x = c) := fun e => h (by simp [e])
    have ht : x ∉ t := fun e => h (by simp [e])
    rw [splitGo]
    simp [List.isPrefixOf, hc, ih ht]

theorem splitGo_single_cons (x : Char) (t rest : Str) (h : x ∉ t) :
    splitGo [x] 0 (t ++ x :: rest) = t :: splitGo [x] 0 rest := by
  induction t with
  | nil =>
    rw [List.nil_append, splitGo]
    simp [List.isPrefixOf]
  | cons c t ih =>
    have hc : ¬ (x = c) := fun e => h (by simp [e])
    have ht : x ∉ t := fun e => h (by simp [e])
    rw [List.cons_append, splitGo]
    simp [List.isPrefixOf, hc, ih ht]

theorem splitGo_intercalate (x : Char) (t : Str) (ts : List Str) (h : ∀ u ∈ t :: ts, x ∉ u) :
    splitGo [x] 0 ([x].intercalate (t :: ts)) = t :: ts := by
  induction ts generalizing t with
  | nil =>
    simp [List.intercalate]
    exact splitGo_single_free x t (h t (by simp))
  | cons u ts ih =>
    have e : [x].intercalate (t :: u :: ts) = t ++ x :: [x].intercalate (u :: ts) := by
      simp [List.intercalate, List.intersperse]
    rw [e, splitGo_single_cons x t _ (h t (by simp)), ih u (fun v hv => h v (by simp [List.mem_cons.mp hv]))]

theorem ToHtmlList_eq (cs : List D) : D.ToHtmlList cs = concatHtml (cs.map D.ToHtml) := by
  induction cs with
  | nil => simp [D.ToHtmlList, concatHtml]
  | cons c cs ih =>
    rw [D.ToHtmlList, List.map_cons, ih]
    cases h : D.ToHtml c
    · simp [concatHtml]
    · simp only [concatHtml]

theorem ToHtml_eq (tag text : Str) (children : List D) :
    D.ToHtml (.mk tag text children) =
      match innerSpec text children with
      | some inner => wrapTag tag inner
      | none => none := by
  rw [D.ToHtml, innerSpec, ToHtmlList_eq]
  cases children with
  | nil => simp
  | cons c cs =>
    simp only [List.length_cons, Nat.zero_lt_succ, if_true, List.isEmpty_cons, Bool.false_eq_true, if_false]

theorem wrapTag_eq (names : List Str) (inner : Str) (h : ∀ t ∈ names, '%' ∉ t ∧ '+' ∉ t) :
    wrapTag (['+'].intercalate names) inner = some (wrapSpec names inner) := by
  unfold wrapTag wrapSpec
  by_cases h1 : ['+'].intercalate names = []
  · simp [h1]
  · by_cases h2 : inner = []
    · have e : "<%s>".toList = ['<'] ++ '%' :: 's' :: ['>'] := by decide
      rw [if_neg h1, if_neg h1, if_pos h2, if_pos h2, e, Sprintf_hole _ _ _ _ (by decide),
        Sprintf_plain _ (by decide)]
      simp
    · rw [if_neg h1, if_neg h1, if_neg h2, if_neg h2]
      cases names with
      | nil => simp [List.intercalate] at h1
      | cons t ts =>
        have e1 : "+".toList = ['+'] := by decide
        have e2 : "%s".toList = [] ++ '%' :: 's' :: [] := by decide
        have hs : Split (['+'].intercalate (t :: ts)) ['+'] = t :: ts := by
          simp only [Split, List.isEmpty_cons, Bool.false_eq_true, if_false]
          exact splitGo_intercalate '+' t ts (fun u hu => (h u hu).2)
        rw [e1, hs, e2, nestFormat_eq (t :: ts) (fun u hu => (h u hu).1) [] [] (by simp) (by simp)]
        simp only [List.nil_append, List.append_nil]
        rw [Sprintf_hole _ _ _ _ (openTags_plain _ (fun u hu => (h u hu).1)), Sprintf_plain]
        · simp [nestSpec_eq]
        · exact closeTags_plain _ (fun u hu => (h u hu).1)

/-- C3: for a node whose tag is the `+`-join of names free of `%` (and of `+`),
`ToHtml` is `wrap` applied to `inner`: the children's renderings concatenated in
child order when there is a child (the node's text is then ignored), the escaped
text otherwise; `wrap` gives `inner` for an empty tag, `<tag>` for an empty
`inner`, and nested pairs, first name outermost, otherwise. -/
theorem render_node (names : List Str) (text : Str) (children : List D)
    (h : ∀ t ∈ names, '%' ∉ t ∧ '+' ∉ t) :
    D.ToHtml (.mk (['+'].intercalate names) text children) =
      (innerSpec text children).map (wrapSpec names) := by
  rw [ToHtml_eq]
  cases innerSpec text children with
  | none => rfl
  | some inner => simp [wrapTag_eq names inner h]

theorem render_node_witness :
    (∀ t ∈ ["pre".toList, "code".toList], '%' ∉ t ∧ '+' ∉ t) ∧
    D.ToHtml (.mk (['+'].intercalate ["pre".toList, "code".toList]) "a<b".toList []) =
      (innerSpec "a<b".toList []).map (wrapSpec ["pre".toList, "code".toList]) :=
  ⟨by decide, render_node _ _ _ (by decide)⟩

/-! ### Blocks (`ParseDocument`) -/

theorem splitGo_blank_append (a b : Str) (n : Nat) (hn : n ≤ a.length)
    (ha : a.getLast? ≠ some nl) :
    splitGo [nl, nl] n (a ++ nl :: nl :: b) = splitGo [nl, nl] n a ++ splitGo [nl, nl] 0 b := by
  induction a generalizing n with
  | nil =>
    have : n = 0 := by simpa using hn
    subst this
    rw [List.nil_append, splitGo]
    simp [List.isPrefixOf, splitGo]
  | cons c a ih =>
    have ha1 : a.getLast? ≠ some nl := by
      cases a with
      | nil => simp
      | cons d a => simpa [List.getLast?] using ha
    cases n with
    | succ k =>
      have hk : k ≤ a.length := by simpa using hn
      simp only [List.cons_append, splitGo]
      exact ih k hk ha1
    | zero =>
      cases a with
      | nil =>
        have hc : c ≠ nl := by simpa [List.getLast?] using ha
        simp [splitGo, List.isPrefixOf, hc, Ne.symm hc]
      | cons d a =>
        have step := ih 0 (Nat.zero_le _) ha1
        have step1 := ih 1 (by simp) ha1
        rw [List.cons_append, splitGo, splitGo]
        by_cases hp : c = nl ∧ d = nl
        · obtain ⟨rfl, rfl⟩ := hp
          simp only [List.cons_append] at step1
          simp [List.isPrefixOf, step1]
        · have e1 : List.isPrefixOf [nl, nl] (c :: (d :: a ++ nl :: nl :: b)) = false := by
            simp only [List.cons_append, List.isPrefixOf]
            simp only [not_and_or] at hp
            rcases hp with h | h <;> simp [h, Ne.symm h]
          have e2 : List.isPrefixOf [nl, nl] (c :: d :: a) = false := by
            simp only [List.isPrefixOf]
            simp only [not_and_or] at hp
            rcases hp with h | h <;> simp [h, Ne.symm h]
          rw [e1, e2, step]
          simp only [Bool.false_eq_true, if_false]
          cases h : splitGo [nl, nl] 0 (d :: a) with
          | nil => exact absurd h (splitGo_ne_nil _ _ _)
          | cons x xs => simp

theorem Split_blank_append (a b : Str) (ha : a.getLast? ≠ some nl) :
    Split (a ++ nl :: nl :: b) [nl, nl] = Split a [nl, nl] ++ Split b [nl, nl] := by
  simp only [Split, List.isEmpty_cons, Bool.false_eq_true, if_false]
  exact splitGo_blank_append a b 0 (Nat.zero_le _) ha

theorem parseBlocks_eq (fuel : Nat) (blocks : List Str) (t x : Str) (cs : List D) :
    parseBlocks fuel blocks (.mk t x cs) =
      (blockNodes fuel blocks).map (fun n => D.mk t x (cs ++ n)) := by
  induction blocks generalizing cs with
  | nil => simp [parseBlocks, blockNodes]
  | cons b bs ih =>
    rw [parseBlocks.eq_def, blockNodes.eq_def]
    dsimp only
    cases h : parse fuel b [] topCategories with
    | none => simp
    | some r =>
      obtain ⟨c, e⟩ := r
      cases e with
      | none =>
        simp only [D.AddChild, ih]
        cases blockNodes fuel bs <;> simp
      | some e => simp only [ih]

theorem blockNodes_append (fuel : Nat) (xs ys : List Str) :
    blockNodes fuel (xs ++ ys) =
      match blockNodes fuel xs, blockNodes fuel ys with
      | some a, some b => some (a ++ b)
      | _, _ => none := by
  induction xs with
  | nil =>
    simp only [List.nil_append, blockNodes]
    cases blockNodes fuel ys <;> rfl
  | cons b bs ih =>
    rw [List.cons_append, blockNodes.eq_def, blockNodes.eq_def (fuel) (b :: bs)]
    dsimp only
    cases h : parse fuel b [] topCategories with
    | none => simp
    | some r =>
      obtain ⟨c, e⟩ := r
      cases e with
      | none =>
        dsimp only
        rw [ih]
        cases blockNodes fuel bs <;> cases blockNodes fuel ys <;> rfl
      | some e => simp only [ih]

theorem concatHtml_append (xs ys : List (Option Str)) :
    concatHtml (xs ++ ys) =
      match concatHtml xs, concatHtml ys with
      | some a, some b => some (a ++ b)
      | _, _ => none := by
  induction xs with
  | nil =>
    simp only [List.nil_append, concatHtml]
    cases concatHtml ys <;> rfl
  | cons x xs ih =>
    cases x with
    | none => simp [concatHtml]
    | some a =>
      rw [List.cons_append, concatHtml, ih, concatHtml]
      cases concatHtml xs <;> cases concatHtml ys <;> simp

/-- What `TextileToHtml` returns, from the nodes of the blocks. -/
theorem TextileToHtml_eq (fuel : Nat) (text : Str) :
    TextileToHtml fuel text =
      match blockNodes fuel (Split text [nl, nl]) with
      | some cs =>
        match concatHtml (cs.map D.ToHtml) with
        | some html => some (html, none)
        | none => none
      | none => none := by
  rw [TextileToHtml, ParseDocument, D.New, parseBlocks_eq]
  cases blockNodes fuel (Split text [nl, nl]) with
  | none => simp
  | some cs =>
    simp only [Option.map_some', List.nil_append]
    rw [ToHtml_eq, innerSpec]
    cases cs with
    | nil => simp [concatHtml, wrapTag, EscapeString]
    | cons c cs =>
      simp only [List.isEmpty_cons, Bool.false_eq_true, if_false]
      cases concatHtml (List.map D.ToHtml (c :: cs)) <;> simp [wrapTag]

/-- C2: when `a` does not end with a line break, converting `a`, a blank line
and `b` gives the rendering of `a` followed directly by the rendering of `b`,
for every fuel (and it gives no result exactly when one of the two gives none). -/
theorem blocks_independent (fuel : Nat) (a b : Str) (ha : a.getLast? ≠ some nl) :
    TextileToHtml fuel (a ++ nl :: nl :: b) =
      match TextileToHtml fuel a, TextileToHtml fuel b with
      | some (x, _), some (y, _) => some (x ++ y, none)
      | _, _ => none := by
  rw [TextileToHtml_eq, TextileToHtml_eq, TextileToHtml_eq, Split_blank_append a b ha,
    blockNodes_append]
  cases blockNodes fuel (Split a [nl, nl]) with
  | none => simp
  | some ca =>
    cases blockNodes fuel (Split b [nl, nl]) with
    | none =>
      simp only
      cases concatHtml (List.map D.ToHtml ca) <;> simp
    | some cb =>
      simp only [List.map_append, concatHtml_append]
      cases concatHtml (List.map D.ToHtml ca) <;> cases concatHtml (List.map D.ToHtml cb) <;> simp

theorem blocks_independent_witness :
    "p. a".toList.getLast? ≠ some nl ∧
    TextileToHtml 4 ("p. a".toList ++ nl :: nl :: "* b".toList) =
      match TextileToHtml 4 "p. a".toList, TextileToHtml 4 "* b".toList with
      | some (x, _), some (y, _) => some (x ++ y, none)
      | _, _ => none :=
  ⟨by decide, blocks_independent 4 _ _ (by decide)⟩

/-! ### The Dispatcher (selection loop of `parse`) -/

theorem selectStep_eq (text : Str) (parsed : Nat) (A : List Str) (b : Best) (i : Nat)
    (p : Parser) :
    selectStep text parsed A b i p =
      match candidate (text.drop parsed) A p with
      | some loc => if loc.start < b.pos0 then ⟨loc.start, loc.stop, some (i, p)⟩ else b
      | none => b := by
  unfold selectStep candidate
  rw [List.length_drop]
  by_cases h : canAddChild p.Typ A = true
  · simp only [h, if_true]
    cases hf : p.Re.find (List.drop parsed text ++ [nl]) with
    | none => rfl
    | some loc =>
      by_cases h1 : loc.start < text.length - parsed
      · by_cases h2 : loc.start < b.pos0 <;> simp [h1, h2]
      · simp [h1]
  · simp [h]

theorem selectFrom_spec (text : Str) (parsed : Nat) (A : List Str) (ps : List Parser)
    (i : Nat) (b : Best) :
    (selectFrom text parsed A ps i b = b ∧
      ∀ q ∈ ps, ∀ loc, candidate (text.drop parsed) A q = some loc → b.pos0 ≤ loc.start) ∨
    (∃ j q loc, ps.get? j = some q ∧ candidate (text.drop parsed) A q = some loc ∧
      selectFrom text parsed A ps i b = ⟨loc.start, loc.stop, some (i + j, q)⟩ ∧
      loc.start < b.pos0 ∧
      ∀ j2 q2 loc2, ps.get? j2 = some q2 → candidate (text.drop parsed) A q2 = some loc2 →
        loc.start ≤ loc2.start ∧ (loc2.start = loc.start → j ≤ j2)) := by
  induction ps generalizing i b with
  | nil => left; simp [selectFrom]
  | cons p ps ih =>
    rw [selectFrom, selectStep_eq]
    cases hc : candidate (text.drop parsed) A p with
    | none =>
      dsimp only
      rcases ih (i + 1) b with ⟨h1, h2⟩ | ⟨j, q, loc, h1, h2, h3, h4, h5⟩
      · left
        refine ⟨h1, ?_⟩
        intro q hq loc hl
        rcases List.mem_cons.mp hq with rfl | hq
        · rw [hc] at hl; cases hl
        · exact h2 q hq loc hl
      · right
        refine ⟨j + 1, q, loc, by simpa using h1, h2, by rw [h3]; congr 3; omega, h4, ?_⟩
        intro j2 q2 loc2 hj hl
        cases j2 with
        | zero =>
          simp at hj; subst hj; rw [hc] at hl; cases hl
        | succ j2 =>
          have := h5 j2 q2 loc2 (by simpa using hj) hl
          exact ⟨this.1, fun e => by have := this.2 e; omega⟩
    | some loc0 =>
      dsimp only
      by_cases hlt : loc0.start < b.pos0
      · rw [if_pos hlt]
        rcases ih (i + 1) ⟨loc0.start, loc0.stop, some (i, p)⟩ with
          ⟨h1, h2⟩ | ⟨j, q, loc, h1, h2, h3, h4, h5⟩
        · right
          refine ⟨0, p, loc0, by simp, hc, by rw [h1]; rfl, hlt, ?_⟩
          intro j2 q2 loc2 hj hl
          cases j2 with
          | zero =>
            simp at hj; subst hj; rw [hc] at hl; cases hl
            exact ⟨le_refl _, fun _ => le_refl _⟩
          | succ j2 =>
            have hq : q2 ∈ ps := List.get?_mem (n := j2) (by simpa using hj)
            exact ⟨h2 q2 hq loc2 hl, fun _ => Nat.zero_le _⟩
        · right
          dsimp only at h4
          refine ⟨j + 1, q, loc, by simpa using h1, h2, by rw [h3]; congr 3; omega,
            lt_trans h4 hlt, ?_⟩
          intro j2 q2 loc2 hj hl
          cases j2 with
          | zero =>
            simp at hj; subst hj; rw [hc] at hl; cases hl
            exact ⟨le_of_lt h4, fun e => by omega⟩
          | succ j2 =>
            have := h5 j2 q2 loc2 (by simpa using hj) hl
            exact ⟨this.1, fun e => by have := this.2 e; omega⟩
      · rw [if_neg hlt]
        rcases ih (i + 1) b with ⟨h1, h2⟩ | ⟨j, q, loc, h1, h2, h3, h4, h5⟩
        · left
          refine ⟨h1, ?_⟩
          intro q hq loc hl
          rcases List.mem_cons.mp hq with rfl | hq
          · rw [hc] at hl; cases hl; omega
          · exact h2 q hq loc hl
        · right
          refine ⟨j + 1, q, loc, by simpa using h1, h2, by rw [h3]; congr 3; omega, h4, ?_⟩
          intro j2 q2 loc2 hj hl
          cases j2 with
          | zero =>
            simp at hj; subst hj; rw [hc] at hl; cases hl
            exact ⟨by omega, fun e => by omega⟩
          | succ j2 =>
            have := h5 j2 q2 loc2 (by simpa using hj) hl
            exact ⟨this.1, fun e => by have := this.2 e; omega⟩

theorem candidate_start_lt (r : Str) (A : List Str) (p : Parser) (loc : Match)
    (h : candidate r A p = some loc) : loc.start < r.length := by
  unfold candidate at h
  split at h
  · split at h
    · split at h
      · cases h; assumption
      · cases h
    · cases h
  · cases h

theorem selectBest_spec (text : Str) (parsed : Nat) (A : List Str) :
    (selectBest text parsed A = ⟨text.length + 1, 0, none⟩ ∧
      ∀ q ∈ parsers, candidate (text.drop parsed) A q = none) ∨
    (∃ j q loc, parsers.get? j = some q ∧ candidate (text.drop parsed) A q = some loc ∧
      selectBest text parsed A = ⟨loc.start, loc.stop, some (j, q)⟩ ∧
      ∀ j2 q2 loc2, parsers.get? j2 = some q2 → candidate (text.drop parsed) A q2 = some loc2 →
        loc.start ≤ loc2.start ∧ (loc2.start = loc.start → j ≤ j2)) := by
  unfold selectBest
  rcases selectFrom_spec text parsed A parsers 0 ⟨text.length + 1, 0, none⟩ with
    ⟨h1, h2⟩ | ⟨j, q, loc, h1, h2, h3, _, h5⟩
  · left
    refine ⟨h1, ?_⟩
    intro q hq
    cases hc : candidate (text.drop parsed) A q with
    | none => rfl
    | some loc =>
      have h3 := h2 q hq loc hc
      have h4 := candidate_start_lt _ _ _ _ hc
      rw [List.length_drop] at h4
      dsimp only at h3
      omega
  · right
    exact ⟨j, q, loc, h1, h2, by rw [h3, Nat.zero_add], h5⟩

/-- C4: in a Driver cycle on the remaining text `r = text[parsed:]` with allowed
categories `A`, the rule selected is a candidate (its category is in `A` and its
leftmost match in `r` followed by the synthetic line break starts before
`len(r)`) whose start offset is minimal among all candidates and whose registry
index is smallest among the candidates at that offset; no rule is selected
exactly when there is no candidate. -/
theorem dispatcher_selects (text : Str) (parsed : Nat) (A : List Str) :
    match (selectBest text parsed A).parser with
    | some (i, p) =>
      parsers.get? i = some p ∧
      ∃ loc, candidate (text.drop parsed) A p = some loc ∧
        (selectBest text parsed A).pos0 = loc.start ∧
        ∀ j q loc2, parsers.get? j = some q → candidate (text.drop parsed) A q = some loc2 →
          loc.start ≤ loc2.start ∧ (loc2.start = loc.start → i ≤ j)
    | none => ∀ q ∈ parsers, candidate (text.drop parsed) A q = none := by
  rcases selectBest_spec text parsed A with ⟨h1, h2⟩ | ⟨j, q, loc, h1, h2, h3, h5⟩
  · rw [h1]; exact h2
  · rw [h3]; exact ⟨h1, loc, h2, rfl, h5⟩

theorem findFrom_start_ge (r : Re) (off : Nat) (prev : Option Char) (t : Str) (m : Match)
    (h : findFrom r off prev t = some m) : off ≤ m.start := by
  induction t generalizing off prev with
  | nil =>
    rw [findFrom] at h
    split at h
    · cases h; exact le_refl _
    · cases h
  | cons c cs ih =>
    rw [findFrom] at h
    split at h
    · cases h; exact le_refl _
    · exact le_trans (Nat.le_succ _) (ih _ _ h)

theorem find_of_start (r : Re) (t : Str) (e : St) (h : r.m some (startSt t) = some e) :
    r.find t = some ⟨0, e.off, t.take e.off, e.caps⟩ := by
  unfold Re.find
  unfold startSt at h
  cases t with
  | nil => rw [findFrom, h]; simp
  | cons c cs => rw [findFrom, h]; simp

theorem find_start_pos (r : Re) (t : Str) (m : Match) (h : r.m some (startSt t) = none)
    (hf : r.find t = some m) : 0 < m.start := by
  unfold Re.find at hf
  unfold startSt at h
  cases t with
  | nil => rw [findFrom, h] at hf; cases hf
  | cons c cs =>
    rw [findFrom, h] at hf
    exact findFrom_start_ge _ _ _ _ _ hf

theorem selectBest_none (text : Str) (parsed : Nat) (A : List Str)
    (h : ∀ q ∈ parsers, candidate (text.drop parsed) A q = none) :
    (selectBest text parsed A).parser = none := by
  rcases selectBest_spec text parsed A with ⟨h1, _⟩ | ⟨j, q, loc, h1, h2, _, _⟩
  · rw [h1]
  · rw [h q (List.get?_mem h1)] at h2; cases h2

theorem selectBest_zero (text : Str) (parsed : Nat) (A : List Str) (i : Nat) (p : Parser)
    (e : St) (hlen : parsed < text.length) (hp : parsers.get? i = some p)
    (hA : canAddChild p.Typ A = true)
    (hm : p.Re.m some (startSt (text.drop parsed ++ [nl])) = some e)
    (hno : ∀ q ∈ parsers.take i, canAddChild q.Typ A = true →
      q.Re.m some (startSt (text.drop parsed ++ [nl])) = none) :
    selectBest text parsed A = ⟨0, e.off, some (i, p)⟩ := by
  have hlen2 : 0 < (text.drop parsed).length := by rw [List.length_drop]; omega
  have hc : candidate (text.drop parsed) A p =
      some ⟨0, e.off, (text.drop parsed ++ [nl]).take e.off, e.caps⟩ := by
    unfold candidate
    rw [if_pos hA, find_of_start _ _ _ hm]
    simp [hlen]
  rcases selectBest_spec text parsed A with ⟨_, h2⟩ | ⟨j, q, loc, h1, h2, h3, h5⟩
  · rw [h2 p (List.get?_mem hp)] at hc; cases hc
  · have h6 := h5 i p _ hp hc
    have h7 : loc.start = 0 := by have := h6.1; simpa using this
    have h8 : j ≤ i := h6.2 (by rw [h7])
    rcases Nat.lt_or_eq_of_le h8 with hlt | heq
    · exfalso
      have hq : q ∈ parsers.take i := by
        rw [List.mem_iff_get?]
        exact ⟨j, by rw [List.get?_eq_getElem?, List.getElem?_take_of_lt hlt, ← List.get?_eq_getElem?]; exact h1⟩
      have hqA : canAddChild q.Typ A = true := by
        unfold candidate at h2
        by_contra hh
        rw [if_neg hh] at h2; cases h2
      have hq0 := hno q hq hqA
      unfold candidate at h2
      rw [if_pos hqA] at h2
      cases hf : q.Re.find (text.drop parsed ++ [nl]) with
      | none => rw [hf] at h2; cases h2
      | some m =>
        rw [hf] at h2
        have hpos := find_start_pos _ _ _ hq0 hf
        dsimp only at h2
        split at h2
        · cases h2; omega
        · cases h2
    · subst heq
      rw [hp] at h1; cases h1
      rw [hc] at h2; cases h2
      exact h3

/-! ### Fuel: more fuel keeps every result -/

theorem tableCells_mono (f g : ParseFn) (hfg : ParseFn.Le f g) (cells : List Str) (tr : D)
    (r : D × Err) (h : tableCells f cells tr = some r) : tableCells g cells tr = some r := by
  induction cells generalizing tr with
  | nil => simpa [tableCells] using h
  | cons c cs ih =>
    rw [tableCells] at h ⊢
    cases hf : f c "td".toList ["phrase".toList] with
    | none => rw [hf] at h; cases h
    | some x =>
      rw [hf] at h
      rw [hfg _ _ _ _ hf]
      obtain ⟨td, e⟩ := x
      cases e with
      | none => exact ih _ h
      | some e => exact h

theorem tableLoop_mono (f g : ParseFn) (hfg : ParseFn.Le f g) (text : Str) (n n2 : Nat)
    (hn : n ≤ n2) (parsed : Nat) (d : D) (r : D × Err)
    (h : tableLoop f text n parsed d = some r) : tableLoop g text n2 parsed d = some r := by
  induction n generalizing n2 parsed d with
  | zero =>
    rw [tableLoop] at h
    split at h
    · cases h
    · cases n2 <;> (rw [tableLoop, if_neg (by assumption)]; exact h)
  | succ n ih =>
    rw [tableLoop] at h
    split at h
    · rename_i hlt
      obtain ⟨k, rfl⟩ : ∃ k, n2 = k + 1 := ⟨n2 - 1, by omega⟩
      rw [tableLoop, if_pos hlt]
      cases hm : tableRe.find (List.drop parsed text ++ [nl]) with
      | none => rw [hm] at h; exact h
      | some m =>
        rw [hm] at h
        dsimp only at h ⊢
        cases hc : tableCells f (Split (m.group 1) "|".toList) (D.New "tr".toList) with
        | none => rw [hc] at h; cases h
        | some x =>
          rw [hc] at h
          rw [tableCells_mono f g hfg _ _ _ hc]
          obtain ⟨tr, e⟩ := x
          cases e with
          | none => exact ih k (by omega) _ _ h
          | some e => exact h
    · cases n2 <;> (rw [tableLoop, if_neg (by assumption)]; exact h)

theorem listLoop_mono (f g : ParseFn) (hfg : ParseFn.Le f g) (tag : Str) (n n2 : Nat)
    (hn : n ≤ n2) (re : Re) (text : Str) (level parsed : Nat) (d : D) (r : D × Nat × Err)
    (h : listLoop f tag n re text level parsed d = some r) :
    listLoop g tag n2 re text level parsed d = some r := by
  induction n generalizing n2 re text level parsed d r with
  | zero =>
    rw [listLoop] at h
    split at h
    · cases h
    · cases n2 <;> (rw [listLoop, if_neg (by assumption)]; exact h)
  | succ n ih =>
    rw [listLoop] at h
    split at h
    · rename_i hlt
      obtain ⟨k, rfl⟩ : ∃ k, n2 = k + 1 := ⟨n2 - 1, by omega⟩
      have hk : n ≤ k := by omega
      rw [listLoop, if_pos hlt]
      cases hm : re.find (List.drop parsed text) with
      | none => rw [hm] at h; exact h
      | some m =>
        rw [hm] at h
        dsimp only at h ⊢
        cases hc : f (Trim (m.group 3) [nl]) "li".toList ["phrase".toList] with
        | none => rw [hc] at h; cases h
        | some x =>
          rw [hc] at h
          rw [hfg _ _ _ _ hc]
          obtain ⟨c, e⟩ := x
          cases e with
          | some e => exact h
          | none =>
            dsimp only at h ⊢
            split at h
            · rename_i hgt
              rw [if_pos hgt]
              cases he : listEnter (List.drop (parsed + (m.group 1).length) text) (level + 1) with
              | none => rw [he] at h; cases h
              | some re1 =>
                rw [he] at h
                dsimp only at h ⊢
                cases hl : listLoop f tag n re1 (List.drop (parsed + (m.group 1).length) text)
                    (level + 1) 0 (D.New tag) with
                | none => rw [hl] at h; cases h
                | some y =>
                  rw [hl] at h
                  rw [ih k hk _ _ _ _ _ _ hl]
                  obtain ⟨cc, offset, e2⟩ := y
                  cases e2 with
                  | some e2 => exact h
                  | none => exact ih k hk _ _ _ _ _ _ h
            · rename_i hgt
              rw [if_neg hgt]
              split at h
              · rename_i hl2
                rw [if_pos hl2]; exact h
              · rename_i hl2
                rw [if_neg hl2]; exact ih k hk _ _ _ _ _ _ h
    · cases n2 <;> (rw [listLoop, if_neg (by assumption)]; exact h)

theorem parseList_mono (f g : ParseFn) (hfg : ParseFn.Le f g) (n n2 : Nat) (hn : n ≤ n2)
    (text tag : Str) (r : D × Err) (h : parseList f n text tag = some r) :
    parseList g n2 text tag = some r := by
  unfold parseList parseListAtLevel at h ⊢
  cases he : listEnter text 1 with
  | none => rw [he] at h; cases h
  | some re =>
    rw [he] at h
    dsimp only at h ⊢
    cases hl : listLoop f tag n re text 1 0 (D.New tag) with
    | none => rw [hl] at h; cases h
    | some y =>
      rw [hl] at h
      rw [listLoop_mono f g hfg tag n n2 hn _ _ _ _ _ _ hl]
      exact h

theorem addMatched_mono (f g : ParseFn) (hfg : ParseFn.Le f g)
    (sub sub2 : Custom → Str → Str → Option (D × Err))
    (hsub : ∀ c t tag r, sub c t tag = some r → sub2 c t tag = some r)
    (bp : Parser) (m : Match) (d r : D) (h : addMatched f sub bp m d = some r) :
    addMatched g sub2 bp m d = some r := by
  unfold addMatched at h ⊢
  split at h
  · rename_i hpos
    rw [if_pos hpos]
    cases hP : bp.Parse with
    | some c =>
      rw [hP] at h
      dsimp only at h ⊢
      cases hs : sub c (m.group 1) bp.Tag with
      | none => rw [hs] at h; cases h
      | some x => rw [hs] at h; rw [hsub _ _ _ _ hs]; exact h
    | none =>
      rw [hP] at h
      dsimp only at h ⊢
      cases hs : f (m.group 1) bp.Tag bp.AllowedChildren with
      | none => rw [hs] at h; cases h
      | some x => rw [hs] at h; rw [hfg _ _ _ _ hs]; exact h
  · rename_i hpos
    rw [if_neg hpos]; exact h

theorem parseLoop_mono (f g : ParseFn) (hfg : ParseFn.Le f g)
    (sub sub2 : Custom → Str → Str → Option (D × Err))
    (hsub : ∀ c t tag r, sub c t tag = some r → sub2 c t tag = some r)
    (text : Str) (al : List Str) (n n2 : Nat) (hn : n ≤ n2) (parsed : Nat) (d : D)
    (r : D × Err) (h : parseLoop f sub text al n parsed d = some r) :
    parseLoop g sub2 text al n2 parsed d = some r := by
  induction n generalizing n2 parsed d with
  | zero =>
    rw [parseLoop] at h
    split at h
    · cases h
    · cases n2 <;> (rw [parseLoop, if_neg (by assumption)]; exact h)
  | succ n ih =>
    rw [parseLoop] at h
    split at h
    · rename_i hlt
      obtain ⟨k, rfl⟩ : ∃ k, n2 = k + 1 := ⟨n2 - 1, by omega⟩
      have hk : n ≤ k := by omega
      rw [parseLoop, if_pos hlt]
      cases hb : (selectBest text parsed al).parser with
      | none => rw [hb] at h; exact h
      | some ib =>
        obtain ⟨i, bp⟩ := ib
        rw [hb] at h
        dsimp only at h ⊢
        cases hm : bp.Re.find (List.drop (gapEnd text parsed al) text ++ [nl]) with
        | none => rw [hm] at h; exact h
        | some m =>
          rw [hm] at h
          dsimp only at h ⊢
          cases ha : addMatched f sub bp m (gapChild text parsed al d) with
          | none => rw [ha] at h; cases h
          | some d2 =>
            rw [ha] at h
            rw [addMatched_mono f g hfg sub sub2 hsub _ _ _ _ ha]
            dsimp only at h ⊢
            split at h
            · cases h
            · rename_i hneg
              rw [if_neg hneg]
              exact ih k hk _ _ h
    · cases n2 <;> (rw [parseLoop, if_neg (by assumption)]; exact h)

theorem parseN_succ (n : Nat) : ParseFn.Le (parseN n) (parseN (n + 1)) := by
  induction n with
  | zero => intro t tag al r h; simp [parseN] at h
  | succ n ih =>
    intro t tag al r h
    rw [parseN] at h ⊢
    refine parseLoop_mono _ _ ih _ _ ?_ _ _ _ _ (by omega) _ _ _ h
    intro c t2 tag2 r2 h2
    cases c with
    | parseList => exact parseList_mono _ _ ih _ _ (by omega) _ _ _ h2
    | parseTable => exact tableLoop_mono _ _ ih _ _ _ (by omega) _ _ _ h2

theorem parseN_mono (n n2 : Nat) (hn : n ≤ n2) : ParseFn.Le (parseN n) (parseN n2) := by
  induction n2 with
  | zero =>
    have : n = 0 := by omega
    subst this
    intro _ _ _ _ h; exact h
  | succ k ih =>
    rcases Nat.lt_or_eq_of_le hn with hlt | rfl
    · intro t tag al r h
      exact parseN_succ k _ _ _ _ (ih (by omega) _ _ _ _ h)
    · intro _ _ _ _ h; exact h

theorem parseBlocks_mono (n n2 : Nat) (hn : n ≤ n2) (blocks : List Str) (d r : D)
    (h : parseBlocks n blocks d = some r) : parseBlocks n2 blocks d = some r := by
  induction blocks generalizing d with
  | nil => simpa [parseBlocks] using h
  | cons b bs ih =>
    rw [parseBlocks.eq_def] at h ⊢
    dsimp only at h ⊢
    cases hp : parse n b [] topCategories with
    | none => rw [hp] at h; cases h
    | some x =>
      rw [hp] at h
      rw [show parse n2 b [] topCategories = some x from parseN_mono n n2 hn _ _ _ _ hp]
      obtain ⟨c, e⟩ := x
      cases e with
      | none => exact ih _ h
      | some e => exact ih _ h

/-- More fuel keeps every result of `TextileToHtml`. -/
theorem TextileToHtml_mono (n n2 : Nat) (hn : n ≤ n2) (text : Str) (r : Str × Err)
    (h : TextileToHtml n text = some r) : TextileToHtml n2 text = some r := by
  unfold TextileToHtml ParseDocument at h ⊢
  cases hp : parseBlocks n (Split text [nl, nl]) (D.New []) with
  | none => rw [hp] at h; cases h
  | some d =>
    rw [hp] at h
    rw [parseBlocks_mono n n2 hn _ _ _ hp]
    exact h

/-! ### Inputs on which the code departs from the specification -/

/-- C1 (the code departs from the claim): the single-line input `pa x` is made of
letters and a space only, yet for every fuel of at least 3 `TextileToHtml`
returns `<p>x</p>` and not the paragraph-wrapped copy `<p>pa x</p>`, because the
unescaped `.` of the pattern `p. (.*)\n*$` accepts the `a`. -/
theorem plain_text_pa_x (k : Nat) :
    TextileToHtml (k + 3) "pa x".toList = some ("<p>x</p>".toList, none) ∧
    "<p>x</p>".toList ≠ "<p>".toList ++ EscapeString "pa x".toList ++ "</p>".toList :=
  ⟨TextileToHtml_mono 3 (k + 3) (by omega) _ _ (by decide!), by decide⟩

/-- C5 (the code departs from the claim): on the span `a!b!c d!e!f` under the
phrase categories the Dispatcher selects the image rule (index 16) for the match
`!b!` at offsets 1 to 4, but the search repeated on `text[1:]` finds `!e!` at
offset 6, not at the cursor; the Driver's children are the literal `a`, an `img`
node, the literal `c d` and the literal `!e!f`: the text `!b!` is in no piece and
`!e!` underlies two. -/
theorem driver_loses_text (k : Nat) :
    ((selectBest "a!b!c d!e!f".toList 0 ["phrase".toList]).pos0,
      (selectBest "a!b!c d!e!f".toList 0 ["phrase".toList]).pos1,
      (selectBest "a!b!c d!e!f".toList 0 ["phrase".toList]).parser.map Prod.fst) = (1, 4, some 16) ∧
    (parsers.get? 16).bind (fun p => (p.Re.find ("!b!c d!e!f".toList ++ [nl])).map
      (fun m => (m.start, m.whole))) = some (6, "!e!".toList) ∧
    parse (k + 2) "a!b!c d!e!f".toList [] ["phrase".toList] =
      some (D.mk [] [] [D.leaf "a".toList, D.mk "img".toList [] [], D.leaf "c d".toList,
        D.leaf "!e!f".toList], none) :=
  ⟨by decide!, by decide!, parseN_mono 2 (k + 2) (by omega) _ _ _ _ (by decide!)⟩

/-- C9 (the code departs from the claim): on the text `|a|`, `foo`, `|b|` (three
lines) `parseTable` does not stop at the line `foo`: it returns three row nodes,
for `a`, `b` and `b` again; `TextileToHtml` passes this text to `parseTable` and
renders the three rows. -/
theorem table_scans_past_bad_line (k : Nat) :
    parseTable (parse (k + 1)) (k + 3) ("|a|".toList ++ nl :: "foo".toList ++ nl :: "|b|".toList)
      "table".toList =
      some (D.mk "table".toList [] [
        D.mk "tr".toList [] [D.mk "td".toList [] [D.leaf "a".toList]],
        D.mk "tr".toList [] [D.mk "td".toList [] [D.leaf "b".toList]],
        D.mk "tr".toList [] [D.mk "td".toList [] [D.leaf "b".toList]]], none) ∧
    TextileToHtml (k + 4) ("|a|".toList ++ nl :: "foo".toList ++ nl :: "|b|".toList) =
      some ("<table><tr><td>a</td></tr><tr><td>b</td></tr><tr><td>b</td></tr></table>".toList,
        none) :=
  ⟨tableLoop_mono (parse 1) (parse (k + 1)) (parseN_mono 1 (k + 1) (by omega)) _ 3 (k + 3)
    (by omega) _ _ _ (by decide!),
   TextileToHtml_mono 4 (k + 4) (by omega) _ _ (by decide!)⟩

/-! ### The matcher -/

@[simp] theorem orElse_none {α : Type} (b : Option α) : orElse none b = b := rfl
@[simp] theorem orElse_some {α : Type} (x : α) (b : Option α) : orElse (some x) b = some x := rfl

theorem m_empty (k : St → Option St) (s : St) : Re.empty.m k s = k s := rfl
theorem m_seq (a b : Re) (k : St → Option St) (s : St) : (Re.seq a b).m k s = a.m (b.m k) s := rfl
theorem m_cls_nil (p : Cls) (k : St → Option St) (off : Nat) (prev : Option Char)
    (caps : List (Nat × Str)) : (Re.cls p).m k ⟨off, prev, [], caps⟩ = none := rfl
theorem m_cls_cons (p : Cls) (k : St → Option St) (off : Nat) (prev : Option Char) (c : Char)
    (cs : Str) (caps : List (Nat × Str)) :
    (Re.cls p).m k ⟨off, prev, c :: cs, caps⟩ =
      if p.test c then k ⟨off + 1, some c, cs, caps⟩ else none := rfl
theorem m_star (p : Cls) (g : Bool) (k : St → Option St) (s : St) :
    (Re.star p g).m k s = starM p g k s.caps s.off s.prev s.rest := rfl
theorem m_plus_nil (p : Cls) (g : Bool) (k : St → Option St) (off : Nat) (prev : Option Char)
    (caps : List (Nat × Str)) : (Re.plus p g).m k ⟨off, prev, [], caps⟩ = none := rfl
theorem m_plus_cons (p : Cls) (g : Bool) (k : St → Option St) (off : Nat) (prev : Option Char)
    (c : Char) (cs : Str) (caps : List (Nat × Str)) :
    (Re.plus p g).m k ⟨off, prev, c :: cs, caps⟩ =
      if p.test c then starM p g k caps (off + 1) (some c) cs else none := rfl
theorem m_rep (p : Cls) (n : Nat) (k : St → Option St) (s : St) :
    (Re.rep p n).m k s = repM p k s.caps n s.off s.prev s.rest := rfl
theorem m_opt (r : Re) (k : St → Option St) (s : St) :
    (Re.opt r).m k s = orElse (r.m k s) (k s) := rfl
theorem m_group (i : Nat) (r : Re) (k : St → Option St) (s : St) :
    (Re.group i r).m k s =
      r.m (fun e => k ⟨e.off, e.prev, e.rest, (i, s.rest.take (e.off - s.off)) :: e.caps⟩) s := rfl
theorem m_endText (k : St → Option St) (s : St) :
    Re.endText.m k s = if s.rest.isEmpty then k s else none := rfl
theorem m_wordBoundary (k : St → Option St) (s : St) :
    Re.wordBoundary.m k s = if s.atBoundary then k s else none := rfl
theorem m_noWordBoundary (k : St → Option St) (s : St) :
    Re.noWordBoundary.m k s = if s.atBoundary then none else k s := rfl

/-! No match when a needed character is absent -/

theorem Cls.deadOn_test (ok : Char → Bool) (p : Cls) (c : Char) (hp : p.deadOn ok = true)
    (hc : ok c = true) : p.test c = false := by
  cases p with
  | lit a =>
    simp only [Cls.deadOn, Bool.not_eq_true'] at hp
    simp only [Cls.test, beq_eq_false_iff_ne]
    rintro rfl
    rw [hc] at hp; cases hp
  | any => simp [Cls.deadOn] at hp
  | space => simp [Cls.deadOn] at hp
  | non cs => simp [Cls.deadOn] at hp
  | nonSpace cs => simp [Cls.deadOn] at hp

theorem starM_cont_none (ok : Char → Bool) (p : Cls) (g : Bool) (k : St → Option St)
    (caps : List (Nat × Str))
    (hk : ∀ s : St, (∀ c ∈ s.rest, ok c = true) → k s = none)
    (off : Nat) (prev : Option Char) (rest : Str) (hr : ∀ c ∈ rest, ok c = true) :
    starM p g k caps off prev rest = none := by
  induction rest generalizing off prev with
  | nil => rw [starM]; exact hk _ hr
  | cons c cs ih =>
    have h1 := hk ⟨off, prev, c :: cs, caps⟩ hr
    have h2 := ih (off + 1) (some c) (fun x hx => hr x (List.mem_cons_of_mem _ hx))
    rw [starM]
    split
    · split <;> simp [h1, h2]
    · exact h1

theorem repM_cont_none (ok : Char → Bool) (p : Cls) (k : St → Option St)
    (caps : List (Nat × Str))
    (hk : ∀ s : St, (∀ c ∈ s.rest, ok c = true) → k s = none)
    (n off : Nat) (prev : Option Char) (rest : Str) (hr : ∀ c ∈ rest, ok c = true) :
    repM p k caps n off prev rest = none := by
  induction n generalizing off prev rest with
  | zero => rw [repM]; exact hk _ hr
  | succ n ih =>
    cases rest with
    | nil => rw [repM]
    | cons c cs =>
      rw [repM]
      split
      · exact ih _ _ _ (fun x hx => hr x (List.mem_cons_of_mem _ hx))
      · rfl

/-- A continuation that fails on every text over `ok` makes the whole match fail. -/
theorem m_cont_none (ok : Char → Bool) (r : Re) (k : St → Option St)
    (hk : ∀ s : St, (∀ c ∈ s.rest, ok c = true) → k s = none)
    (s : St) (hs : ∀ c ∈ s.rest, ok c = true) : r.m k s = none := by
  induction r generalizing k s with
  | empty => exact hk s hs
  | cls p =>
    obtain ⟨off, prev, rest, caps⟩ := s
    cases rest with
    | nil => rfl
    | cons c cs =>
      rw [m_cls_cons]
      split
      · exact hk _ (fun x hx => hs x (List.mem_cons_of_mem _ hx))
      · rfl
  | star p g => exact starM_cont_none ok p g k _ hk _ _ _ hs
  | plus p g =>
    obtain ⟨off, prev, rest, caps⟩ := s
    cases rest with
    | nil => rfl
    | cons c cs =>
      rw [m_plus_cons]
      split
      · exact starM_cont_none ok p g k _ hk _ _ _ (fun x hx => hs x (List.mem_cons_of_mem _ hx))
      · rfl
  | rep p n => exact repM_cont_none ok p k _ hk _ _ _ _ hs
  | opt r ih => rw [m_opt, ih k hk s hs, hk s hs]; rfl
  | seq a b iha ihb => exact iha _ (fun s2 h2 => ihb k hk s2 h2) s hs
  | group i r ih =>
    rw [m_group]
    exact ih (fun e => k ⟨e.off, e.prev, e.rest, (i, s.rest.take (e.off - s.off)) :: e.caps⟩)
      (fun s2 h2 => hk _ h2) s hs
  | endText => rw [m_endText]; split; exact hk s hs; rfl
  | wordBoundary => rw [m_wordBoundary]; split; exact hk s hs; rfl
  | noWordBoundary => rw [m_noWordBoundary]; split; rfl; exact hk s hs

theorem starM_dead (ok : Char → Bool) (p : Cls) (g : Bool) (k : St → Option St)
    (caps : List (Nat × Str)) (hp : p.deadOn ok = true)
    (off : Nat) (prev : Option Char) (rest : Str) (hr : ∀ c ∈ rest, ok c = true) :
    starM p g k caps off prev rest = k ⟨off, prev, rest, caps⟩ := by
  cases rest with
  | nil => rfl
  | cons c cs =>
    rw [starM, Cls.deadOn_test ok p c hp (hr c (List.mem_cons_self _ _))]
    rfl

/-- A pattern that needs a character absent from the text does not match. -/
theorem m_dead (ok : Char → Bool) (r : Re) (hd : r.deadOn ok = true) (k : St → Option St)
    (s : St) (hs : ∀ c ∈ s.rest, ok c = true) : r.m k s = none := by
  induction r generalizing k s with
  | empty => simp [Re.deadOn] at hd
  | cls p =>
    obtain ⟨off, prev, rest, caps⟩ := s
    cases rest with
    | nil => rfl
    | cons c cs =>
      rw [m_cls_cons, Cls.deadOn_test ok p c hd (hs c (List.mem_cons_self _ _))]
      rfl
  | star p g => simp [Re.deadOn] at hd
  | plus p g =>
    obtain ⟨off, prev, rest, caps⟩ := s
    cases rest with
    | nil => rfl
    | cons c cs =>
      rw [m_plus_cons, Cls.deadOn_test ok p c hd (hs c (List.mem_cons_self _ _))]
      rfl
  | rep p n =>
    simp only [Re.deadOn, Bool.and_eq_true, decide_eq_true_eq] at hd
    obtain ⟨off, prev, rest, caps⟩ := s
    obtain ⟨n, rfl⟩ : ∃ j, n = j + 1 := ⟨n - 1, by omega⟩
    cases rest with
    | nil => rfl
    | cons c cs =>
      rw [m_rep, repM, Cls.deadOn_test ok p c hd.2 (hs c (List.mem_cons_self _ _))]
      rfl
  | opt r _ => simp [Re.deadOn] at hd
  | seq a b iha ihb =>
    simp only [Re.deadOn, Bool.or_eq_true] at hd
    rcases hd with h | h
    · exact iha h _ s hs
    · exact m_cont_none ok a _ (fun s2 h2 => ihb h k s2 h2) s hs
  | group i r ih => rw [m_group]; exact ih hd _ s hs
  | endText => simp [Re.deadOn] at hd
  | wordBoundary => simp [Re.deadOn] at hd
  | noWordBoundary => simp [Re.deadOn] at hd

theorem findFrom_dead (ok : Char → Bool) (r : Re) (hd : r.deadOn ok = true) (off : Nat)
    (prev : Option Char) (t : Str) (ht : ∀ c ∈ t, ok c = true) : findFrom r off prev t = none := by
  induction t generalizing off prev with
  | nil => rw [findFrom, m_dead ok r hd _ _ ht]
  | cons c cs ih =>
    rw [findFrom, m_dead ok r hd _ _ ht]
    exact ih _ _ (fun x hx => ht x (List.mem_cons_of_mem _ hx))

theorem find_dead (ok : Char → Bool) (r : Re) (hd : r.deadOn ok = true) (t : Str)
    (ht : ∀ c ∈ t, ok c = true) : r.find t = none :=
  findFrom_dead ok r hd 0 none t ht

/-! No match at the head of a text, from its first character -/

theorem m_passes (r : Re) (h : r.passes = true) (k : St → Option St) (s : St) :
    r.m k s = k s ∨ r.m k s = none := by
  cases r with
  | empty => left; rfl
  | endText => rw [m_endText]; split; left; rfl; right; rfl
  | wordBoundary => rw [m_wordBoundary]; split; left; rfl; right; rfl
  | noWordBoundary => rw [m_noWordBoundary]; split; right; rfl; left; rfl
  | cls p => simp [Re.passes] at h
  | star p g => simp [Re.passes] at h
  | plus p g => simp [Re.passes] at h
  | rep p n => simp [Re.passes] at h
  | opt r => simp [Re.passes] at h
  | seq a b => simp [Re.passes] at h
  | group i r => simp [Re.passes] at h

theorem m_rejects (c : Char) (r : Re) (h : r.rejects c = true) (k : St → Option St)
    (off : Nat) (cs : Str) (caps : List (Nat × Str)) :
    r.m k ⟨off, none, c :: cs, caps⟩ = none := by
  induction r generalizing k with
  | empty => simp [Re.rejects] at h
  | cls p =>
    simp only [Re.rejects, Bool.not_eq_true'] at h
    rw [m_cls_cons, h]; rfl
  | star p g => simp [Re.rejects] at h
  | plus p g =>
    simp only [Re.rejects, Bool.not_eq_true'] at h
    rw [m_plus_cons, h]; rfl
  | rep p n =>
    simp only [Re.rejects, Bool.and_eq_true, decide_eq_true_eq, Bool.not_eq_true'] at h
    obtain ⟨n, rfl⟩ : ∃ j, n = j + 1 := ⟨n - 1, by omega⟩
    rw [m_rep, repM, h.2]; rfl
  | opt r _ => simp [Re.rejects] at h
  | seq a b iha ihb =>
    simp only [Re.rejects, Bool.or_eq_true, Bool.and_eq_true] at h
    rw [m_seq]
    rcases h with h | ⟨h1, h2⟩
    · exact iha h _
    · rcases m_passes a h1 (b.m k) ⟨off, none, c :: cs, caps⟩ with e | e
      · rw [e]; exact ihb h2 k
      · exact e
  | group i r ih => rw [m_group]; exact ih h _
  | endText => rfl
  | wordBoundary =>
    simp only [Re.rejects, Bool.not_eq_true'] at h
    rw [m_wordBoundary]
    simp [St.atBoundary, h]
  | noWordBoundary =>
    simp only [Re.rejects] at h
    rw [m_noWordBoundary]
    simp [St.atBoundary, h]

/-! Runs of a repetition -/

theorem lastOr_append_singleton (prev : Option Char) (xs : Str) (c : Char) :
    lastOr prev (xs ++ [c]) = some c := by
  induction xs generalizing prev with
  | nil => rfl
  | cons x xs ih => exact ih _

theorem lastOr_cons_some (prev : Option Char) (x : Char) (xs : Str) :
    lastOr prev (x :: xs) = lastOr (some x) xs := rfl

/-- A lazy repetition passes a run of characters at which the continuation fails. -/
theorem starM_lazy_run (p : Cls) (k : St → Option St) (caps : List (Nat × Str)) (xs ys : Str)
    (off : Nat) (prev : Option Char) (hp : ∀ x ∈ xs, p.test x = true)
    (hk : ∀ a c b, xs = a ++ c :: b →
      k ⟨off + a.length, lastOr prev a, c :: b ++ ys, caps⟩ = none) :
    starM p false k caps off prev (xs ++ ys) =
      starM p false k caps (off + xs.length) (lastOr prev xs) ys := by
  induction xs generalizing off prev with
  | nil => rfl
  | cons x xs ih =>
    have h0 := hk [] x xs rfl
    simp only [List.length_nil, Nat.add_zero, lastOr] at h0
    rw [List.cons_append, starM, if_pos (hp x (List.mem_cons_self _ _))]
    simp only [Bool.false_eq_true, if_false]
    rw [List.cons_append] at h0
    rw [h0, orElse_none, ih (off + 1) (some x) (fun y hy => hp y (List.mem_cons_of_mem _ hy))]
    · simp only [List.length_cons, lastOr]
      congr 1; omega
    · intro a c b hab
      have := hk (x :: a) c b (by rw [hab]; rfl)
      simp only [List.length_cons, lastOr] at this
      rw [← this]; congr 2; omega

/-- A lazy repetition stops where the continuation succeeds. -/
theorem starM_lazy_stop (p : Cls) (k : St → Option St) (caps : List (Nat × Str)) (ys : Str)
    (off : Nat) (prev : Option Char) (r : St) (hk : k ⟨off, prev, ys, caps⟩ = some r) :
    starM p false k caps off prev ys = some r := by
  cases ys with
  | nil => rw [starM, hk]
  | cons y ys =>
    rw [starM]
    split
    · simp [hk]
    · exact hk

/-- A greedy repetition takes a whole run when the continuation succeeds after it. -/
theorem starM_greedy_run (p : Cls) (k : St → Option St) (caps : List (Nat × Str)) (xs ys : Str)
    (off : Nat) (prev : Option Char) (r : St) (hp : ∀ x ∈ xs, p.test x = true)
    (hk : starM p true k caps (off + xs.length) (lastOr prev xs) ys = some r) :
    starM p true k caps off prev (xs ++ ys) = some r := by
  induction xs generalizing off prev with
  | nil => exact hk
  | cons x xs ih =>
    rw [List.cons_append, starM, if_pos (hp x (List.mem_cons_self _ _))]
    simp only [if_true]
    rw [ih (off + 1) (some x) (fun y hy => hp y (List.mem_cons_of_mem _ hy)), orElse_some]
    simp only [List.length_cons, lastOr] at hk
    rw [← hk]; congr 1; omega

/-- A repetition stops at a character its class refuses, and at the end. -/
theorem starM_stop_cons (p : Cls) (g : Bool) (k : St → Option St) (caps : List (Nat × Str))
    (y : Char) (ys : Str) (off : Nat) (prev : Option Char) (hy : p.test y = false) :
    starM p g k caps off prev (y :: ys) = k ⟨off, prev, y :: ys, caps⟩ := by
  rw [starM, hy]; rfl

theorem starM_nil (p : Cls) (g : Bool) (k : St → Option St) (caps : List (Nat × Str))
    (off : Nat) (prev : Option Char) :
    starM p g k caps off prev [] = k ⟨off, prev, [], caps⟩ := rfl

/-- The tail `\n*$` fails where a character other than the line feed remains. -/
theorem nlStar_end_none (k : St → Option St) (caps : List (Nat × Str)) (rest : Str)
    (off : Nat) (prev : Option Char) (h : ∃ c ∈ rest, c ≠ nl) :
    starM (.lit nl) false (Re.endText.m k) caps off prev rest = none := by
  induction rest generalizing off prev with
  | nil => simp at h
  | cons c cs ih =>
    rw [starM]
    by_cases hc : c = nl
    · subst hc
      have h2 : ∃ c ∈ cs, c ≠ nl := by
        obtain ⟨x, hx, hne⟩ := h
        rcases List.mem_cons.mp hx with rfl | hx
        · exact absurd rfl hne
        · exact ⟨x, hx, hne⟩
      simp [Cls.test, m_endText, ih _ _ h2]
    · simp [Cls.test, hc, m_endText]

/-- The tail `\n*$` succeeds on the single synthetic line feed. -/
theorem nlStar_end_last (k : St → Option St) (caps : List (Nat × Str)) (off : Nat)
    (prev : Option Char) :
    starM (.lit nl) false (Re.endText.m k) caps off prev [nl] = k ⟨off + 1, some nl, [], caps⟩ := by
  simp [starM, Cls.test, m_endText]

/-! ### The Driver: single cycles, plain text -/

theorem findFrom_lit (a : Char) (t : Str) (off : Nat) (prev : Option Char) (ha : a ∉ t)
    (m : Match) (h : findFrom (.cls (.lit a)) off prev (t ++ [a]) = some m) :
    m.start = off + t.length := by
  induction t generalizing off prev with
  | nil =>
    rw [List.nil_append, findFrom, m_cls_cons] at h
    simp only [Cls.test, beq_self_eq_true, if_true] at h
    cases h; rfl
  | cons c cs ih =>
    have hc : c ≠ a := fun e => ha (by simp [e])
    rw [List.cons_append, findFrom, m_cls_cons] at h
    simp only [Cls.test, beq_iff_eq, hc, if_false] at h
    have := ih (off + 1) (some c) (fun e => ha (List.mem_cons_of_mem _ e)) h
    rw [this, List.length_cons]; omega

theorem phrase_rules_plain :
    parsers.all (fun q => !canAddChild q.Typ ["phrase".toList] || q.Re.deadOn okPlain
      || q.Re.isLit nl) = true := by decide!

theorem plainChar_ne_nl (c : Char) (h : plainChar c = true) : c ≠ nl := by
  rintro rfl; revert h; decide

/-- No phrase rule is a candidate in a text of plain characters. -/
theorem phrase_no_candidate (t : Str) (ht : ∀ c ∈ t, plainChar c = true) (q : Parser)
    (hq : q ∈ parsers) : candidate t ["phrase".toList] q = none := by
  have h := List.all_eq_true.mp phrase_rules_plain q hq
  simp only [Bool.or_eq_true, Bool.not_eq_true'] at h
  unfold candidate
  rcases h with (h | h) | h
  · rw [h]; rfl
  · have hok : ∀ c ∈ t ++ [nl], okPlain c = true := by
      intro c hc
      rcases List.mem_append.mp hc with hc | hc
      · simp [okPlain, ht c hc]
      · simp only [List.mem_singleton] at hc; subst hc; decide
    rw [find_dead okPlain q.Re h _ hok]
    split <;> rfl
  · have hre : q.Re = .cls (.lit nl) := by
      cases hr : q.Re with
      | cls p =>
        cases p with
        | lit c =>
          rw [hr] at h
          simp only [Re.isLit, beq_iff_eq] at h
          rw [h]
        | _ => rw [hr] at h; simp [Re.isLit] at h
      | _ => rw [hr] at h; simp [Re.isLit] at h
    rw [hre]
    split
    · cases hf : Re.find (.cls (.lit nl)) (t ++ [nl]) with
      | none => rfl
      | some m =>
        have := findFrom_lit nl t 0 none (fun e => plainChar_ne_nl _ (ht _ e) rfl) m hf
        dsimp only
        rw [if_neg (by omega)]
    · rfl

theorem parseLoop_literal (pf : ParseFn) (sub : Custom → Str → Str → Option (D × Err))
    (text : Str) (A : List Str) (fuel parsed : Nat) (d : D) (hlen : parsed < text.length)
    (h : ∀ q ∈ parsers, candidate (text.drop parsed) A q = none) :
    parseLoop pf sub text A (fuel + 1) parsed d =
      some (d.AddChild (D.leaf (text.drop parsed)), none) := by
  rw [parseLoop, if_pos hlen, selectBest_none text parsed A h]

theorem parseLoop_done (pf : ParseFn) (sub : Custom → Str → Str → Option (D × Err))
    (text : Str) (A : List Str) (fuel parsed : Nat) (d : D) (hlen : ¬ parsed < text.length) :
    parseLoop pf sub text A fuel parsed d = some (d, none) := by
  cases fuel <;> rw [parseLoop, if_neg hlen]

/-- One cycle of the Driver when the selected rule matches at the cursor. -/
theorem parseLoop_zero (pf : ParseFn) (sub : Custom → Str → Str → Option (D × Err))
    (text : Str) (A : List Str) (fuel parsed : Nat) (d : D) (i : Nat) (p : Parser) (e : St)
    (hlen : parsed < text.length) (hp : parsers.get? i = some p)
    (hA : canAddChild p.Typ A = true)
    (hm : p.Re.m some (startSt (text.drop parsed ++ [nl])) = some e)
    (hno : ∀ q ∈ parsers.take i, canAddChild q.Typ A = true →
      q.Re.m some (startSt (text.drop parsed ++ [nl])) = none) :
    parseLoop pf sub text A (fuel + 1) parsed d =
      match addMatched pf sub p ⟨0, e.off, (text.drop parsed ++ [nl]).take e.off, e.caps⟩ d with
      | none => none
      | some d2 =>
        if (parsed : Int) + (((text.drop parsed ++ [nl]).take e.off).length : Int)
            + p.OffsetEnd < 0 then none
        else parseLoop pf sub text A fuel
          ((parsed : Int) + (((text.drop parsed ++ [nl]).take e.off).length : Int)
            + p.OffsetEnd).toNat d2 := by
  have hb := selectBest_zero text parsed A i p e hlen hp hA hm hno
  have hg : gapEnd text parsed A = parsed := by simp [gapEnd, hb]
  have hc : gapChild text parsed A d = d := by simp [gapChild, hb]
  rw [parseLoop, if_pos hlen, hb]
  dsimp only
  rw [hg, hc, find_of_start _ _ _ hm]

theorem parseN_succ_eq (n : Nat) (text tag : Str) (A : List Str) :
    parseN (n + 1) text tag A =
      parseLoop (parseN n) (subParse (parseN n) n) text A (n + 1) 0 (D.New tag) := rfl

theorem parseN_plain (n : Nat) (w tag : Str) (hw : ∀ c ∈ w, plainChar c = true)
    (hne : w ≠ []) :
    parseN (n + 1) w tag ["phrase".toList] = some (.mk tag [] [D.leaf w], none) := by
  have hlen : 0 < w.length := List.length_pos.mpr hne
  rw [parseN_succ_eq, parseLoop_literal _ _ _ _ _ _ _ hlen]
  · rfl
  · intro q hq
    exact phrase_no_candidate _ hw q hq

theorem parseN_nil (n : Nat) (tag : Str) (A : List Str) :
    parseN (n + 1) [] tag A = some (.mk tag [] [], none) := by
  rw [parseN_succ_eq, parseLoop_done _ _ _ _ _ _ _ (by simp)]
  rfl

/-! ### The fallback paragraph rule -/

theorem exists_ne_nl_of_getLast (l : Str) (hne : l ≠ []) (h : l.getLast? ≠ some nl) :
    ∃ x ∈ l, x ≠ nl := by
  refine ⟨l.getLast hne, List.getLast_mem hne, ?_⟩
  intro e
  apply h
  rw [List.getLast?_eq_getLast _ hne, e]

theorem getLast?_suffix (a : Str) (c : Char) (b : Str) :
    (a ++ c :: b).getLast? = (c :: b).getLast? := by
  rw [List.getLast?_append_of_ne_nil _ (by simp)]

theorem m_endText_tail (k : St → Option St) :
    (Re.seq .endText .empty).m k = Re.endText.m k := rfl

/-- The fallback paragraph pattern `(.*)\n*$` at the head of a text that does not
end with a line feed: it captures the whole text and consumes the synthetic
line feed. -/
theorem paragraph_match (t : Str) (h : t.getLast? ≠ some nl) :
    (Re.cat [.group 1 anyStar, nlStar, .endText]).m some (startSt (t ++ [nl])) =
      some ⟨t.length + 1, some nl, [], [(1, t)]⟩ := by
  simp only [Re.cat, m_seq, m_group, anyStar, nlStar, m_star, startSt, m_empty, m_endText_tail]
  rw [starM_lazy_run .any _ _ t [nl] 0 none (fun _ _ => rfl)]
  · rw [starM_lazy_stop]
    simp only [Nat.zero_add]
    rw [nlStar_end_last]
    simp
  · intro a c b hab
    apply nlStar_end_none
    have h2 : (c :: b).getLast? ≠ some nl := by
      rw [← getLast?_suffix a c b, ← hab]; exact h
    obtain ⟨x, hx, hxn⟩ := exists_ne_nl_of_getLast (c :: b) (by simp) h2
    exact ⟨x, by simp only [List.cons_append, List.mem_cons, List.mem_append] at hx ⊢; tauto, hxn⟩

/-- The child a rule without sub-parser and with a capture group adds. -/
theorem addMatched_generic (pf : ParseFn) (sub : Custom → Str → Str → Option (D × Err))
    (bp : Parser) (m : Match) (d : D) (hP : bp.Parse = none) (hn : 0 < bp.Re.numSubexp) :
    addMatched pf sub bp m d =
      match pf (m.group 1) bp.Tag bp.AllowedChildren with
      | none => none
      | some (c, none) => some (d.AddChild c)
      | some (_, some _) => some d := by
  unfold addMatched
  rw [if_pos hn, hP]

/-- A block selected by the fallback paragraph rule (index 13): the Driver
returns one `p` child, parsed from the whole block under the phrase category. -/
theorem parseN_paragraph (n : Nat) (t tag : Str) (hne : t ≠ []) (h : t.getLast? ≠ some nl)
    (hno : ∀ q ∈ parsers.take 13, canAddChild q.Typ topCategories = true →
      q.Re.m some (startSt (t ++ [nl])) = none) :
    parseN (n + 1) t tag topCategories =
      match parseN n t "p".toList ["phrase".toList] with
      | none => none
      | some (c, none) => some (.mk tag [] [c], none)
      | some (_, some _) => some (.mk tag [] [], none) := by
  have hlen : 0 < t.length := List.length_pos.mpr hne
  rw [parseN_succ_eq, parseLoop_zero _ _ t topCategories n 0 _ 13
    ⟨Re.cat [.group 1 anyStar, nlStar, .endText], "p".toList, "block".toList,
      ["phrase".toList], 0, none⟩ _ hlen rfl (by decide) (paragraph_match t h) hno,
    addMatched_generic _ _ _ _ _ rfl (by decide)]
  have hg : Match.group ⟨0, t.length + 1, List.take (t.length + 1) (List.drop 0 t ++ [nl]),
      [(1, t)]⟩ 1 = t := rfl
  have hl : (List.take (t.length + 1) (List.drop 0 t ++ [nl])).length = t.length + 1 := by
    simp
  dsimp only
  rw [hg, hl]
  cases parseN n t "p".toList ["phrase".toList] with
  | none => rfl
  | some r =>
    obtain ⟨c, e⟩ := r
    have hd : ¬ (((0 : Nat) : Int) + ((t.length + 1 : Nat) : Int) + 0).toNat < t.length := by
      simp
    have hi : ¬ (((0 : Nat) : Int) + ((t.length + 1 : Nat) : Int) + 0 < 0) := by omega
    cases e with
    | none =>
      dsimp only
      rw [if_neg hi, parseLoop_done _ _ _ _ _ _ _ hd]
      all_goals rfl
    | some e =>
      dsimp only
      rw [if_neg hi, parseLoop_done _ _ _ _ _ _ _ hd]
      all_goals rfl

/-! ### Rendering of the trees the claims produce -/

theorem alnum_ne (c x : Char) (hc : c.isAlphanum = true) (hx : x.isAlphanum = false) : c ≠ x := by
  rintro rfl
  rw [hc] at hx; cases hx

theorem alnum_isWord (c : Char) (hc : c.isAlphanum = true) : isWord c = true := by
  simp [isWord, hc]

theorem alnum_plain (c : Char) (hc : c.isAlphanum = true) : plainChar c = true := by
  simp [plainChar, hc]

theorem escapeChar_plain (c : Char) (hc : plainChar c = true) : escapeChar c = [c] := by
  have h1 : c ≠ '&' := by rintro rfl; revert hc; decide
  have h2 : c ≠ Char.ofNat 39 := by rintro rfl; revert hc; decide
  have h3 : c ≠ '<' := by rintro rfl; revert hc; decide
  have h4 : c ≠ '>' := by rintro rfl; revert hc; decide
  have h5 : c ≠ dq := by rintro rfl; revert hc; decide
  simp [escapeChar, h1, h2, h3, h4, h5]

theorem EscapeString_plain (w : Str) (hw : ∀ c ∈ w, plainChar c = true) : EscapeString w = w := by
  induction w with
  | nil => rfl
  | cons c cs ih =>
    rw [EscapeString, escapeChar_plain c (hw c (List.mem_cons_self _ _)),
      ih (fun x hx => hw x (List.mem_cons_of_mem _ hx))]
    rfl

theorem wrapTag_simple (tag inner : Str) (h1 : '%' ∉ tag) (h2 : '+' ∉ tag) (hne : tag ≠ [])
    (hi : inner ≠ []) :
    wrapTag tag inner = some ('<' :: tag ++ '>' :: inner ++ ('<' :: '/' :: tag ++ ['>'])) := by
  have h := wrapTag_eq [tag] inner (by simp [h1, h2])
  have e : ['+'].intercalate [tag] = tag := by simp [List.intercalate]
  rw [e] at h
  rw [h, wrapSpec, e, if_neg hne, if_neg hi]
  simp [nestSpec]

theorem ToHtml_leaf (w : Str) : (D.leaf w).ToHtml = some (EscapeString w) := by
  simp [D.leaf, D.ToHtml, wrapTag]

/-- Rendering of a node with a simple tag around one child. -/
theorem ToHtml_one (tag x : Str) (c : D) (inner : Str) (h1 : '%' ∉ tag) (h2 : '+' ∉ tag)
    (hne : tag ≠ []) (hc : c.ToHtml = some inner) (hi : inner ≠ []) :
    (D.mk tag x [c]).ToHtml =
      some ('<' :: tag ++ '>' :: inner ++ ('<' :: '/' :: tag ++ ['>'])) := by
  rw [ToHtml_eq, innerSpec]
  simp only [List.isEmpty_cons, Bool.false_eq_true, if_false, List.map, concatHtml, hc,
    List.append_nil]
  exact wrapTag_simple tag inner h1 h2 hne hi

theorem splitGo_blank_free (t : Str) (h : nl ∉ t) : splitGo [nl, nl] 0 t = [t] := by
  induction t with
  | nil => rfl
  | cons c cs ih =>
    have hc : ¬ (nl = c) := fun e => h (by simp [e])
    rw [splitGo]
    simp [List.isPrefixOf, hc, ih (fun e => h (List.mem_cons_of_mem _ e))]

/-- `TextileToHtml` on a text that is one block. -/
theorem TextileToHtml_single (fuel : Nat) (t : Str) (c : D) (html : Str)
    (hs : Split t [nl, nl] = [t]) (hp : parse fuel t [] topCategories = some (c, none))
    (hh : c.ToHtml = some html) : TextileToHtml fuel t = some (html, none) := by
  rw [TextileToHtml_eq, hs]
  simp [blockNodes, hp, concatHtml, hh]

/-! ### Matches of the phrase patterns on marked words -/

theorem m_empty_k (k : St → Option St) : Re.empty.m k = k := rfl
theorem m_seq_k (a b : Re) (k : St → Option St) : (Re.seq a b).m k = a.m (b.m k) := rfl

theorem take_eq_of_length (n : Nat) (xs ys : Str) (h : n = xs.length) :
    (xs ++ ys).take n = xs := by
  subst h; exact List.take_left' rfl

theorem isWord_nl : isWord nl = false := by decide

/-- A phrase pattern `B x (.+) x B` with a one-character marker `x` and the
boundary assertion `B`, on `x w x` followed by the synthetic line feed, for a
word `w` of letters and digits: it captures `w`. -/
theorem mark1_match (bd : Re) (x : Char) (hx : x.isAlphanum = false)
    (hbd : ∀ (k : St → Option St) (s : St), s.atBoundary = isWord x → bd.m k s = k s)
    (w : Str) (hw : ∀ c ∈ w, c.isAlphanum = true) (hne : w ≠ []) :
    (Re.cat [bd, Re.lits [x], .group 1 anyPlus, Re.lits [x], bd]).m some
        (startSt (x :: w ++ [x, nl])) =
      some ⟨w.length + 2, some x, [nl], [(1, w)]⟩ := by
  cases w with
  | nil => exact absurd rfl hne
  | cons c w =>
    have hw2 : ∀ y ∈ w, y.isAlphanum = true := fun y hy => hw y (List.mem_cons_of_mem _ hy)
    simp only [Re.cat, Re.lits, m_seq, m_empty, m_empty_k, m_seq_k, startSt, List.cons_append]
    rw [hbd _ _ (by simp [St.atBoundary])]
    simp only [m_cls_cons, m_group, anyPlus, m_plus_cons, Cls.test, beq_self_eq_true, if_true]
    rw [starM_lazy_run .any _ _ w [x, nl] _ _ (fun _ _ => rfl), starM_lazy_stop]
    · simp only [m_cls_cons, Cls.test, beq_self_eq_true, if_true]
      rw [hbd _ _ (by simp [St.atBoundary, isWord_nl])]
      have ht : List.take (0 + 1 + 1 + w.length - (0 + 1)) (c :: (w ++ [x, nl])) = c :: w :=
        take_eq_of_length _ (c :: w) _ (by simp only [List.length_cons]; omega)
      rw [ht, List.length_cons, show 0 + 1 + 1 + w.length + 1 = w.length + 1 + 2 by omega]
    · intro a y b hab
      have hy : y ≠ x := alnum_ne y x (hw2 y (by rw [hab]; simp)) hx
      simp [m_cls_cons, Cls.test, hy]

/-- The same with a two-character marker `x x`. -/
theorem mark2_match (bd : Re) (x : Char) (hx : x.isAlphanum = false)
    (hbd : ∀ (k : St → Option St) (s : St), s.atBoundary = isWord x → bd.m k s = k s)
    (w : Str) (hw : ∀ c ∈ w, c.isAlphanum = true) (hne : w ≠ []) :
    (Re.cat [bd, Re.lits [x, x], .group 1 anyPlus, Re.lits [x, x], bd]).m some
        (startSt (x :: x :: w ++ [x, x, nl])) =
      some ⟨w.length + 4, some x, [nl], [(1, w)]⟩ := by
  cases w with
  | nil => exact absurd rfl hne
  | cons c w =>
    have hw2 : ∀ y ∈ w, y.isAlphanum = true := fun y hy => hw y (List.mem_cons_of_mem _ hy)
    simp only [Re.cat, Re.lits, m_seq, m_empty, m_empty_k, m_seq_k, startSt, List.cons_append]
    rw [hbd _ _ (by simp [St.atBoundary])]
    simp only [m_cls_cons, m_group, anyPlus, m_plus_cons, Cls.test, beq_self_eq_true, if_true]
    rw [starM_lazy_run .any _ _ w [x, x, nl] _ _ (fun _ _ => rfl), starM_lazy_stop]
    · simp only [m_cls_cons, Cls.test, beq_self_eq_true, if_true]
      rw [hbd _ _ (by simp [St.atBoundary, isWord_nl])]
      have ht : List.take (0 + 1 + 1 + 1 + w.length - (0 + 1 + 1)) (c :: (w ++ [x, x, nl])) =
          c :: w :=
        take_eq_of_length _ (c :: w) _ (by simp only [List.length_cons]; omega)
      rw [ht, List.length_cons, show 0 + 1 + 1 + 1 + w.length + 1 + 1 = w.length + 1 + 4 by omega]
    · intro a y b hab
      have hy : y ≠ x := alnum_ne y x (hw2 y (by rw [hab]; simp)) hx
      simp [m_cls_cons, Cls.test, hy]

/-- The pattern `\B\*(.+[^\*])\*\s` on `*w*` followed by the synthetic line
feed, for a word `w` of at least two letters and digits: it captures `w` and
consumes the line feed. -/
theorem strong_match (c z : Char) (w : Str) (hz : z.isAlphanum = true)
    (hw : ∀ y ∈ w, y.isAlphanum = true) :
    (Re.cat [.noWordBoundary, chr '*', .group 1 (Re.cat [anyPlus, .cls (.non ['*'])]), chr '*',
        .cls .space]).m some (startSt ('*' :: (c :: w ++ [z]) ++ ['*', nl])) =
      some ⟨w.length + 5, some nl, [], [(1, c :: w ++ [z])]⟩ := by
  have hzs : z ≠ '*' := alnum_ne z '*' hz (by decide)
  simp only [Re.cat, chr, m_seq, m_empty, m_empty_k, m_seq_k, startSt, List.cons_append,
    List.append_assoc, m_noWordBoundary, St.atBoundary, m_cls_cons, m_group, anyPlus,
    m_plus_cons, Cls.test, beq_self_eq_true, if_true, List.nil_append]
  rw [if_neg (by decide)]
  rw [starM_lazy_run .any _ _ w [z, '*', nl] _ _ (fun _ _ => rfl), starM_lazy_stop]
  · simp only [List.cons_append, List.nil_append, m_cls_cons, Cls.test, List.contains_cons,
      List.contains_nil, Bool.or_false, beq_iff_eq, hzs, Bool.not_false, if_true,
      beq_self_eq_true]
    have ht : List.take (0 + 1 + 1 + w.length + 1 - (0 + 1)) (c :: (w ++ [z, '*', nl])) =
        c :: (w ++ [z]) := by
      have := take_eq_of_length (0 + 1 + 1 + w.length + 1 - (0 + 1)) (c :: (w ++ [z])) ['*', nl]
        (by simp only [List.length_cons, List.length_append, List.length_nil]; omega)
      simpa using this
    have hs : isSpace nl = true := by decide
    simp only [ht, hs, if_true]
    have hb : (!z == '*') = true := by simp [hzs]
    rw [if_pos hb, show 0 + 1 + 1 + w.length + 1 + 1 + 1 = w.length + 5 by omega]
  · intro a y b hab
    have hy : y ≠ '*' := alnum_ne y '*' (hw y (by rw [hab]; simp)) (by decide)
    cases b with
    | nil => simp [m_cls_cons, Cls.test, hy, hzs]
    | cons y2 b =>
      have hy2 : y2 ≠ '*' := alnum_ne y2 '*' (hw y2 (by rw [hab]; simp)) (by decide)
      simp [m_cls_cons, Cls.test, hy, hy2]

/-! ### One phrase construct around a word -/

/-- No rule of the list `L` matches at the head of a text when each allowed one
is refused by the first character or needs a character the text lacks. -/
theorem no_match_of (L : List Parser) (A : List Str) (ok : Char → Bool) (c : Char) (cs : Str)
    (h : L.all (fun q => !canAddChild q.Typ A || q.Re.rejects c
      || q.Re.deadOn ok) = true)
    (hok : ∀ x ∈ c :: cs, ok x = true)
    (q : Parser) (hq : q ∈ L) (hA : canAddChild q.Typ A = true) :
    q.Re.m some (startSt (c :: cs)) = none := by
  have h1 := List.all_eq_true.mp h q hq
  simp only [Bool.or_eq_true, Bool.not_eq_true', hA] at h1
  rcases h1 with (h1 | h1) | h1
  · cases h1
  · exact m_rejects c q.Re h1 _ _ _ _
  · exact m_dead ok q.Re h1 _ _ hok

/-- A Driver call under the phrase category on a text that one phrase rule
matches entirely, capturing a plain word: the result is one child with the
rule's tag around the literal word. -/
theorem parseN_one_phrase (n i : Nat) (p : Parser) (e : St) (t tag w : Str)
    (ht : t ≠ []) (hp : parsers.get? i = some p)
    (hA : canAddChild p.Typ ["phrase".toList] = true) (hP : p.Parse = none)
    (hn : 0 < p.Re.numSubexp) (hC : p.AllowedChildren = ["phrase".toList])
    (hm : p.Re.m some (startSt (t ++ [nl])) = some e)
    (hg : e.caps.lookup 1 = some w) (hw : ∀ c ∈ w, plainChar c = true) (hwne : w ≠ [])
    (he : e.off ≤ t.length + 1) (hadv : (t.length : Int) ≤ (e.off : Int) + p.OffsetEnd)
    (hno : ∀ q ∈ parsers.take i, canAddChild q.Typ ["phrase".toList] = true →
      q.Re.m some (startSt (t ++ [nl])) = none) :
    parseN (n + 2) t tag ["phrase".toList] =
      some (.mk tag [] [.mk p.Tag [] [D.leaf w]], none) := by
  have hlen : 0 < t.length := List.length_pos.mpr ht
  rw [parseN_succ_eq, parseLoop_zero _ _ t _ (n + 1) 0 _ i p e hlen hp hA hm hno,
    addMatched_generic _ _ _ _ _ hP hn]
  have hg1 : Match.group ⟨0, e.off, List.take e.off (List.drop 0 t ++ [nl]), e.caps⟩ 1 = w := by
    simp only [Match.group, hg]
  have hl : (List.take e.off (List.drop 0 t ++ [nl])).length = e.off := by
    simp only [List.drop_zero, List.length_take, List.length_append, List.length_singleton]
    omega
  rw [hg1, hC, parseN_plain n w p.Tag hw hwne, hl]
  dsimp only
  rw [if_neg (by omega), parseLoop_done _ _ _ _ _ _ _ (by omega)]
  all_goals rfl

theorem getLast?_ne_of_not_mem (t : Str) (x : Char) (h : x ∉ t) : t.getLast? ≠ some x := by
  intro e
  exact h (List.mem_of_getLast?_eq_some e)

theorem ToHtml_root_one (x : Str) (c : D) (h : Str) (hc : c.ToHtml = some h) :
    (D.mk [] x [c]).ToHtml = some h := by
  rw [ToHtml_eq, innerSpec]
  simp [concatHtml, hc, wrapTag]

/-- A block that the fallback paragraph rule takes and in which one phrase rule
matches the whole text around a word of letters and digits. -/
theorem textile_marked (k i : Nat) (p : Parser) (e : St) (t w : Str)
    (ht : t ≠ []) (hnl : nl ∉ t)
    (hno13 : ∀ q ∈ parsers.take 13, canAddChild q.Typ topCategories = true →
      q.Re.m some (startSt (t ++ [nl])) = none)
    (hp : parsers.get? i = some p)
    (hA : canAddChild p.Typ ["phrase".toList] = true) (hP : p.Parse = none)
    (hn : 0 < p.Re.numSubexp) (hC : p.AllowedChildren = ["phrase".toList])
    (hm : p.Re.m some (startSt (t ++ [nl])) = some e)
    (hg : e.caps.lookup 1 = some w) (hw : ∀ c ∈ w, c.isAlphanum = true) (hwne : w ≠ [])
    (he : e.off ≤ t.length + 1) (hadv : (t.length : Int) ≤ (e.off : Int) + p.OffsetEnd)
    (hno : ∀ q ∈ parsers.take i, canAddChild q.Typ ["phrase".toList] = true →
      q.Re.m some (startSt (t ++ [nl])) = none)
    (h1 : '%' ∉ p.Tag) (h2 : '+' ∉ p.Tag) (h3 : p.Tag ≠ []) :
    TextileToHtml (k + 3) t =
      some ("<p>".toList ++ ('<' :: p.Tag ++ '>' :: w ++ ('<' :: '/' :: p.Tag ++ ['>']))
        ++ "</p>".toList, none) := by
  have hwp : ∀ c ∈ w, plainChar c = true := fun c hc => alnum_plain c (hw c hc)
  have hlast := getLast?_ne_of_not_mem t nl hnl
  have hs : Split t [nl, nl] = [t] := by
    simp only [Split, List.isEmpty_cons, Bool.false_eq_true, if_false]
    exact splitGo_blank_free t hnl
  have hparse : parse (k + 3) t [] topCategories =
      some (.mk [] [] [.mk "p".toList [] [.mk p.Tag [] [D.leaf w]]], none) := by
    rw [parse, parseN_paragraph (k + 2) t [] ht hlast hno13,
      parseN_one_phrase k i p e t "p".toList w ht hp hA hP hn hC hm hg hwp hwne he hadv hno]
  refine TextileToHtml_single _ t _ _ hs hparse ?_
  apply ToHtml_root_one
  have hleaf : (D.leaf w).ToHtml = some w := by rw [ToHtml_leaf, EscapeString_plain w hwp]
  have hin := ToHtml_one p.Tag [] (D.leaf w) w h1 h2 h3 hleaf hwne
  rw [ToHtml_one "p".toList [] _ _ (by decide) (by decide) (by decide) hin (by simp)]
  simp

/-! ### Emphasis markers around a word (claim C10) -/

theorem wordBoundary_pass (x : Char) (hx : isWord x = true) (k : St → Option St) (s : St)
    (h : s.atBoundary = isWord x) : Re.wordBoundary.m k s = k s := by
  rw [m_wordBoundary, h, hx]; rfl

theorem noWordBoundary_pass (x : Char) (hx : isWord x = false) (k : St → Option St) (s : St)
    (h : s.atBoundary = isWord x) : Re.noWordBoundary.m k s = k s := by
  rw [m_noWordBoundary, h, hx]; rfl

theorem em_html (k : Nat) (w : Str) (hw : ∀ c ∈ w, c.isAlphanum = true) (hne : w ≠ []) :
    TextileToHtml (k + 3) ('_' :: w ++ ['_']) =
      some ("<p><em>".toList ++ w ++ "</em></p>".toList, none) := by
  have hnl : nl ∉ '_' :: w ++ ['_'] := by
    intro h
    simp only [List.cons_append, List.mem_cons, List.mem_append, List.mem_singleton,
      List.not_mem_nil, or_false] at h
    rcases h with h | h | h
    · revert h; decide
    · exact alnum_ne _ nl (hw _ h) (by decide) rfl
    · revert h; decide
  have h := textile_marked k 23
    ⟨Re.cat [.wordBoundary, str "_", .group 1 anyPlus, str "_", .wordBoundary],
      "em".toList, "phrase".toList, ["phrase".toList], 0, none⟩
    ⟨w.length + 2, some '_', [nl], [(1, w)]⟩ ('_' :: w ++ ['_']) w (by simp) hnl
    (no_match_of _ _ okAll '_' _ (by decide!) (fun _ _ => rfl))
    rfl (by decide) rfl (by decide) rfl
    (by
      have := mark1_match .wordBoundary '_' (by decide) (wordBoundary_pass '_' (by decide)) w hw hne
      simpa using this)
    rfl hw hne (by simp) (by simp only [List.length_cons, List.length_append, List.length_nil]; omega)
    (by
      intro q hq hA
      have e : parsers.take 23 = parsers.take 21 ++ (parsers.drop 21).take 2 := by
        rw [← List.take_add]
      rw [e, List.mem_append] at hq
      rcases hq with hq | hq
      · exact no_match_of _ _ okAll '_' _ (by decide!) (fun _ _ => rfl) q hq hA
      · cases w with
        | nil => exact absurd rfl hne
        | cons c w =>
          have hc : c ≠ '_' := alnum_ne c '_' (hw c (List.mem_cons_self _ _)) (by decide)
          simp only [parsers, List.drop, List.take, List.mem_cons, List.mem_singleton,
            List.not_mem_nil, or_false] at hq
          rcases hq with rfl | rfl
          · simp [Re.cat, str, Re.lits, m_seq, m_empty, m_wordBoundary, m_cls_cons, startSt,
              St.atBoundary, isWord, Cls.test, hc]
          · exact m_rejects '_' _ (by decide) _ _ _ _)
    (by decide) (by decide) (by decide)
  rw [h]
  simp

theorem i_html (k : Nat) (w : Str) (hw : ∀ c ∈ w, c.isAlphanum = true) (hne : w ≠ []) :
    TextileToHtml (k + 3) ('_' :: '_' :: w ++ ['_', '_']) =
      some ("<p><i>".toList ++ w ++ "</i></p>".toList, none) := by
  have hnl : nl ∉ '_' :: '_' :: w ++ ['_', '_'] := by
    intro h
    simp only [List.cons_append, List.mem_cons, List.mem_append, List.mem_singleton,
      List.not_mem_nil, or_false] at h
    rcases h with h | h | h | h | h
    · revert h; decide
    · revert h; decide
    · exact alnum_ne _ nl (hw _ h) (by decide) rfl
    · revert h; decide
    · revert h; decide
  have h := textile_marked k 21
    ⟨Re.cat [.wordBoundary, str "__", .group 1 anyPlus, str "__", .wordBoundary],
      "i".toList, "phrase".toList, ["phrase".toList], 0, none⟩
    ⟨w.length + 4, some '_', [nl], [(1, w)]⟩ ('_' :: '_' :: w ++ ['_', '_']) w (by simp) hnl
    (no_match_of _ _ okAll '_' _ (by decide!) (fun _ _ => rfl))
    rfl (by decide) rfl (by decide) rfl
    (by
      have := mark2_match .wordBoundary '_' (by decide) (wordBoundary_pass '_' (by decide)) w hw hne
      simpa using this)
    rfl hw hne (by simp)
    (by simp only [List.length_cons, List.length_append, List.length_nil]; omega)
    (no_match_of _ _ okAll '_' _ (by decide!) (fun _ _ => rfl))
    (by decide) (by decide) (by decide)
  rw [h]
  simp

theorem star_text_ok (w : Str) (hw : ∀ c ∈ w, c.isAlphanum = true) (a b : Str)
    (ha : ∀ c ∈ a, c = '*') (hb : ∀ c ∈ b, c = '*' ∨ c = nl) :
    ∀ x ∈ a ++ w ++ b, okNoSpace x = true ∧ (x = nl → x ∈ b) := by
  intro x hx
  simp only [List.mem_append] at hx
  rcases hx with (hx | hx) | hx
  · rw [ha x hx]; exact ⟨by decide, fun h => absurd h (by decide)⟩
  · have h1 : x ≠ ' ' := alnum_ne x ' ' (hw x hx) (by decide)
    have h2 : x ≠ nl := alnum_ne x nl (hw x hx) (by decide)
    exact ⟨by simp [okNoSpace, h1], fun h => absurd h h2⟩
  · rcases hb x hx with rfl | rfl
    · exact ⟨by decide, fun _ => hx⟩
    · exact ⟨by decide, fun _ => hx⟩

theorem b_html (k : Nat) (w : Str) (hw : ∀ c ∈ w, c.isAlphanum = true) (hne : w ≠ []) :
    TextileToHtml (k + 3) ('*' :: '*' :: w ++ ['*', '*']) =
      some ("<p><b>".toList ++ w ++ "</b></p>".toList, none) := by
  have hnl : nl ∉ '*' :: '*' :: w ++ ['*', '*'] := by
    intro h
    have := (star_text_ok w hw ['*', '*'] ['*', '*'] (by simp) (by simp) nl (by simpa using h)).2 rfl
    revert this; decide
  have hok : ∀ x ∈ '*' :: ('*' :: w ++ ['*', '*'] ++ [nl]), okNoSpace x = true := by
    intro x hx
    exact (star_text_ok w hw ['*', '*'] ['*', '*', nl] (by simp) (by simp) x
      (by simpa using hx)).1
  have h := textile_marked k 17 (phraseB "**" "b")
    ⟨w.length + 4, some '*', [nl], [(1, w)]⟩ ('*' :: '*' :: w ++ ['*', '*']) w (by simp) hnl
    (no_match_of _ _ okNoSpace '*' _ (by decide!) hok)
    rfl (by decide) rfl (by decide) rfl
    (by
      have := mark2_match .noWordBoundary '*' (by decide) (noWordBoundary_pass '*' (by decide))
        w hw hne
      simpa using this)
    rfl hw hne (by simp)
    (by simp only [List.length_cons, List.length_append, List.length_nil, phraseB]; omega)
    (no_match_of _ _ okAll '*' _ (by decide!) (fun _ _ => rfl))
    (by decide) (by decide) (by decide)
  rw [h]
  simp [phraseB]

theorem sup_html (k : Nat) (w : Str) (hw : ∀ c ∈ w, c.isAlphanum = true) (hne : w ≠ []) :
    TextileToHtml (k + 3) ('^' :: w ++ ['^']) =
      some ("<p><sup>".toList ++ w ++ "</sup></p>".toList, none) := by
  have hnl : nl ∉ '^' :: w ++ ['^'] := by
    intro h
    simp only [List.cons_append, List.mem_cons, List.mem_append, List.mem_singleton,
      List.not_mem_nil, or_false] at h
    rcases h with h | h | h
    · revert h; decide
    · exact alnum_ne _ nl (hw _ h) (by decide) rfl
    · revert h; decide
  have h := textile_marked k 27 (phraseB "^" "sup")
    ⟨w.length + 2, some '^', [nl], [(1, w)]⟩ ('^' :: w ++ ['^']) w (by simp) hnl
    (no_match_of _ _ okAll '^' _ (by decide!) (fun _ _ => rfl))
    rfl (by decide) rfl (by decide) rfl
    (by
      have := mark1_match .noWordBoundary '^' (by decide) (noWordBoundary_pass '^' (by decide))
        w hw hne
      simpa using this)
    rfl hw hne (by simp)
    (by simp only [List.length_cons, List.length_append, List.length_nil, phraseB]; omega)
    (no_match_of _ _ okAll '^' _ (by decide!) (fun _ _ => rfl))
    (by decide) (by decide) (by decide)
  rw [h]
  simp [phraseB]

theorem sub_html (k : Nat) (w : Str) (hw : ∀ c ∈ w, c.isAlphanum = true) (hne : w ≠ []) :
    TextileToHtml (k + 3) ('~' :: w ++ ['~']) =
      some ("<p><sub>".toList ++ w ++ "</sub></p>".toList, none) := by
  have hnl : nl ∉ '~' :: w ++ ['~'] := by
    intro h
    simp only [List.cons_append, List.mem_cons, List.mem_append, List.mem_singleton,
      List.not_mem_nil, or_false] at h
    rcases h with h | h | h
    · revert h; decide
    · exact alnum_ne _ nl (hw _ h) (by decide) rfl
    · revert h; decide
  have h := textile_marked k 25 (phraseB "~" "sub")
    ⟨w.length + 2, some '~', [nl], [(1, w)]⟩ ('~' :: w ++ ['~']) w (by simp) hnl
    (no_match_of _ _ okAll '~' _ (by decide!) (fun _ _ => rfl))
    rfl (by decide) rfl (by decide) rfl
    (by
      have := mark1_match .noWordBoundary '~' (by decide) (noWordBoundary_pass '~' (by decide))
        w hw hne
      simpa using this)
    rfl hw hne (by simp)
    (by simp only [List.length_cons, List.length_append, List.length_nil, phraseB]; omega)
    (no_match_of _ _ okAll '~' _ (by decide!) (fun _ _ => rfl))
    (by decide) (by decide) (by decide)
  rw [h]
  simp [phraseB]

theorem strong_html (k : Nat) (w : Str) (hw : ∀ c ∈ w, c.isAlphanum = true)
    (h2 : 2 ≤ w.length) :
    TextileToHtml (k + 3) ('*' :: w ++ ['*']) =
      some ("<p><strong>".toList ++ w ++ "</strong></p>".toList, none) := by
  have hne : w ≠ [] := by intro e; rw [e] at h2; simp at h2
  obtain ⟨c, w1, rfl⟩ : ∃ c w1, w = c :: w1 := by
    cases w with
    | nil => exact absurd rfl hne
    | cons c w1 => exact ⟨c, w1, rfl⟩
  have hne1 : w1 ≠ [] := by intro e; rw [e] at h2; simp at h2
  obtain ⟨w0, z, rfl⟩ : ∃ w0 z, w1 = w0 ++ [z] :=
    ⟨w1.dropLast, w1.getLast hne1, (List.dropLast_append_getLast hne1).symm⟩
  have hc : c.isAlphanum = true := hw c (by simp)
  have hz : z.isAlphanum = true := hw z (by simp)
  have hw0 : ∀ y ∈ w0, y.isAlphanum = true := fun y hy => hw y (by simp [hy])
  have hnl : nl ∉ '*' :: (c :: (w0 ++ [z])) ++ ['*'] := by
    intro h
    have := (star_text_ok _ hw ['*'] ['*'] (by simp) (by simp) nl (by simpa using h)).2 rfl
    revert this; decide
  have hok : ∀ x ∈ '*' :: ((c :: (w0 ++ [z])) ++ ['*'] ++ [nl]), okNoSpace x = true := by
    intro x hx
    exact (star_text_ok _ hw ['*'] ['*', nl] (by simp) (by simp) x (by simpa using hx)).1
  have hcs : c ≠ '*' := alnum_ne c '*' hc (by decide)
  have h := textile_marked k 19
    ⟨Re.cat [.noWordBoundary, chr '*', .group 1 (Re.cat [anyPlus, .cls (.non ['*'])]), chr '*',
        .cls .space], "strong".toList, "phrase".toList, ["phrase".toList], -1, none⟩
    ⟨w0.length + 5, some nl, [], [(1, c :: w0 ++ [z])]⟩ ('*' :: (c :: (w0 ++ [z])) ++ ['*'])
    (c :: (w0 ++ [z])) (by simp) hnl
    (no_match_of _ _ okNoSpace '*' _ (by decide!) hok)
    rfl (by decide) rfl (by decide) rfl
    (by
      have := strong_match c z w0 hz hw0
      simpa using this)
    rfl hw (by simp) (by simp)
    (by simp only [List.length_cons, List.length_append, List.length_nil]; omega)
    (by
      intro q hq hA
      have e : parsers.take 19 = parsers.take 17 ++ (parsers.drop 17).take 2 := by
        rw [← List.take_add]
      rw [e, List.mem_append] at hq
      rcases hq with hq | hq
      · exact no_match_of _ _ okAll '*' _ (by decide!) (fun _ _ => rfl) q hq hA
      · simp only [parsers, List.drop, List.take, List.mem_cons, List.mem_singleton,
          List.not_mem_nil, or_false] at hq
        rcases hq with rfl | rfl
        · simp [phraseB, Re.cat, str, Re.lits, m_seq, m_empty, m_noWordBoundary, m_cls_cons,
            startSt, St.atBoundary, isWord, Cls.test, hcs]
        · exact m_rejects '*' _ (by decide) _ _ _ _)
    (by decide) (by decide) (by decide)
  rw [h]
  simp

/-- The phrase rules on a whole word: for every non-empty word `w` of ASCII
letters and digits, `_w_`, `__w__`, `**w**`, `^w^` and `~w~` convert to
`<p><em>w</em></p>`, `<p><i>w</i></p>`, `<p><b>w</b></p>`, `<p><sup>w</sup></p>`
and `<p><sub>w</sub></p>`, and `*w*` converts to `<p><strong>w</strong></p>` when
`w` has at least two characters.  Any fuel of at least 3 gives these results. -/
theorem phrase_markers (k : Nat) (w : Str) (hw : ∀ c ∈ w, c.isAlphanum = true) (hne : w ≠ []) :
    TextileToHtml (k + 3) ("_".toList ++ w ++ "_".toList) =
      some ("<p><em>".toList ++ w ++ "</em></p>".toList, none) ∧
    TextileToHtml (k + 3) ("__".toList ++ w ++ "__".toList) =
      some ("<p><i>".toList ++ w ++ "</i></p>".toList, none) ∧
    (2 ≤ w.length → TextileToHtml (k + 3) ("*".toList ++ w ++ "*".toList) =
      some ("<p><strong>".toList ++ w ++ "</strong></p>".toList, none)) ∧
    TextileToHtml (k + 3) ("**".toList ++ w ++ "**".toList) =
      some ("<p><b>".toList ++ w ++ "</b></p>".toList, none) ∧
    TextileToHtml (k + 3) ("^".toList ++ w ++ "^".toList) =
      some ("<p><sup>".toList ++ w ++ "</sup></p>".toList, none) ∧
    TextileToHtml (k + 3) ("~".toList ++ w ++ "~".toList) =
      some ("<p><sub>".toList ++ w ++ "</sub></p>".toList, none) :=
  ⟨em_html k w hw hne, i_html k w hw hne, strong_html k w hw, b_html k w hw hne,
    sup_html k w hw hne, sub_html k w hw hne⟩

theorem phrase_markers_witness :
    (∀ c ∈ "ab".toList, c.isAlphanum = true) ∧ "ab".toList ≠ [] ∧ 2 ≤ "ab".toList.length ∧
    TextileToHtml 3 "__ab__".toList = some ("<p><i>ab</i></p>".toList, none) ∧
    TextileToHtml 3 "*ab*".toList = some ("<p><strong>ab</strong></p>".toList, none) :=
  ⟨by decide, by decide, by decide,
    (phrase_markers 0 "ab".toList (by decide) (by decide)).2.1,
    (phrase_markers 0 "ab".toList (by decide) (by decide)).2.2.1 (by decide)⟩

/-! ### Tables (claim C8) -/

theorem splitGo_free_append (l rest : Str) (h : nl ∉ l)
    (hr : splitGo [nl, nl] 0 rest = [rest]) : splitGo [nl, nl] 0 (l ++ rest) = [l ++ rest] := by
  induction l with
  | nil => exact hr
  | cons c cs ih =>
    have hc : ¬ (nl = c) := fun e => h (by simp [e])
    rw [List.cons_append, splitGo]
    simp [List.isPrefixOf, hc, ih (fun e => h (List.mem_cons_of_mem _ e))]

theorem splitGo_nl_cons (c : Char) (rest : Str) (hc : c ≠ nl)
    (hr : splitGo [nl, nl] 0 (c :: rest) = [c :: rest]) :
    splitGo [nl, nl] 0 (nl :: c :: rest) = [nl :: c :: rest] := by
  rw [splitGo]
  simp [List.isPrefixOf, Ne.symm hc, hr]

/-- Non-empty lines without line feed, joined by single line feeds, have no blank line. -/
theorem splitGo_lines (lines : List Str) (h : ∀ l ∈ lines, l ≠ [] ∧ nl ∉ l) :
    splitGo [nl, nl] 0 ([nl].intercalate lines) = [[nl].intercalate lines] := by
  induction lines with
  | nil => rfl
  | cons l ls ih =>
    cases ls with
    | nil =>
      simp only [List.intercalate, List.intersperse, List.flatten, List.append_nil]
      exact splitGo_blank_free l (h l (by simp)).2
    | cons l2 ls =>
      have e : [nl].intercalate (l :: l2 :: ls) = l ++ nl :: [nl].intercalate (l2 :: ls) := by
        simp [List.intercalate, List.intersperse]
      have ih2 := ih (fun x hx => h x (List.mem_cons_of_mem _ hx))
      rw [e]
      apply splitGo_free_append _ _ (h l (by simp)).2
      have hl2 := h l2 (by simp)
      obtain ⟨c, r, hcr⟩ : ∃ c r, l2 = c :: r := by
        cases l2 with
        | nil => exact absurd rfl hl2.1
        | cons c r => exact ⟨c, r, rfl⟩
      have e2 : [nl].intercalate (l2 :: ls) = c :: (r ++ ([nl].intercalate (l2 :: ls)).drop l2.length) := by
        subst hcr
        cases ls with
        | nil => simp [List.intercalate, List.intersperse]
        | cons l3 ls => simp [List.intercalate, List.intersperse]
      have hc : c ≠ nl := by
        intro e3; apply hl2.2; rw [hcr, e3]; simp
      rw [e2] at ih2 ⊢
      exact splitGo_nl_cons c _ hc ih2

/-- The table rule `(\|.*\|)\n*$` at the head of a text that starts and ends with
a pipe: it captures the whole text. -/
theorem table_rule_match (t : Str) :
    (Re.cat [.group 1 (Re.cat [chr '|', anyStar, chr '|']), nlStar, .endText]).m some
        (startSt ('|' :: t ++ ['|'] ++ [nl])) =
      some ⟨t.length + 3, some nl, [], [(1, '|' :: t ++ ['|'])]⟩ := by
  simp only [Re.cat, chr, m_seq, m_seq_k, m_empty, m_empty_k, m_group, anyStar, nlStar, m_star,
    startSt, m_endText_tail, List.cons_append, List.append_assoc, m_cls_cons, Cls.test,
    beq_self_eq_true, if_true, List.nil_append]
  rw [starM_lazy_run .any _ _ t ['|', nl] _ _ (fun _ _ => rfl), starM_lazy_stop]
  · simp only [m_cls_cons, Cls.test, beq_self_eq_true, if_true, m_star]
    rw [nlStar_end_last]
    have ht : List.take (0 + 1 + t.length + 1 - 0) ('|' :: (t ++ ['|', nl])) =
        '|' :: (t ++ ['|']) := by
      have := take_eq_of_length (0 + 1 + t.length + 1 - 0) ('|' :: (t ++ ['|'])) [nl]
        (by simp only [List.length_cons, List.length_append, List.length_nil]; omega)
      simpa using this
    rw [ht, show 0 + 1 + t.length + 1 + 1 = t.length + 3 by omega]
  · intro a c b hab
    rw [List.cons_append, m_cls_cons]
    split
    · simp only [m_star]
      apply nlStar_end_none
      exact ⟨'|', by simp, by decide⟩
    · rfl

/-- The row pattern `\|(.*)\|\n` at the head of a row line followed by a line
feed: it captures the text between the outer pipes. -/
theorem row_match (t rest : Str) (hnl : nl ∉ t) :
    tableRe.m some (startSt ('|' :: t ++ '|' :: nl :: rest)) =
      some ⟨t.length + 3, some nl, rest, [(1, t)]⟩ := by
  simp only [tableRe, Re.cat, chr, m_seq, m_seq_k, m_empty, m_empty_k, m_group, anyStar, m_star,
    startSt, List.cons_append, m_cls_cons, Cls.test, beq_self_eq_true, if_true]
  rw [starM_lazy_run .any _ _ t ('|' :: nl :: rest) _ _ (fun _ _ => rfl), starM_lazy_stop]
  · simp only [m_cls_cons, Cls.test, beq_self_eq_true, if_true]
    have ht : List.take (0 + 1 + t.length - (0 + 1)) (t ++ '|' :: nl :: rest) = t :=
      take_eq_of_length _ t _ (by omega)
    rw [ht, show 0 + 1 + t.length + 1 + 1 = t.length + 3 by omega]
  · intro a c b hab
    rw [List.cons_append, m_cls_cons]
    split
    · cases b with
      | nil => simp [m_cls_cons, Cls.test]; decide
      | cons y b =>
        have hy : y ≠ nl := fun e => hnl (by rw [hab, e]; simp)
        simp [m_cls_cons, Cls.test, hy]
    · rfl

theorem cellChar_plain (c : Char) (h : cellChar c = true) : plainChar c = true := by
  simp only [cellChar, Bool.or_eq_true] at h
  simp only [plainChar, Bool.or_eq_true]
  tauto

theorem tableCells_plain (pf : ParseFn)
    (hpf : ∀ cell : Str, (∀ x ∈ cell, plainChar x = true) → cell ≠ [] →
      pf cell "td".toList ["phrase".toList] = some (tdNode cell, none))
    (cells : List Str) (hc : ∀ c ∈ cells, c ≠ [] ∧ ∀ x ∈ c, cellChar x = true)
    (t x : Str) (cs : List D) :
    tableCells pf cells (.mk t x cs) = some (.mk t x (cs ++ cells.map tdNode), none) := by
  induction cells generalizing cs with
  | nil => simp [tableCells]
  | cons c rest ih =>
    have h1 := hc c (by simp)
    rw [tableCells, hpf c (fun y hy => cellChar_plain y (h1.2 y hy)) h1.1]
    simp only [D.AddChild]
    rw [ih (fun u hu => hc u (List.mem_cons_of_mem _ hu))]
    simp

theorem tableText_cons_cons (r r2 : List Str) (rest : List (List Str)) :
    tableText (r :: r2 :: rest) = rowLine r ++ nl :: tableText (r2 :: rest) := by
  simp [tableText, List.intercalate, List.intersperse]

theorem tableText_single (r : List Str) : tableText [r] = rowLine r := by
  simp [tableText, List.intercalate, List.intersperse]

theorem mem_intersperse_imp (sep : Str) (l : List Str) (x : Str)
    (h : x ∈ l.intersperse sep) : x = sep ∨ x ∈ l := by
  induction l with
  | nil => simp at h
  | cons a l ih =>
    cases l with
    | nil => right; simpa using h
    | cons b l =>
      simp only [List.intersperse, List.mem_cons] at h
      rcases h with h | h | h
      · right; simp [h]
      · left; exact h
      · have : x ∈ (b :: l).intersperse sep := by
          cases l with
          | nil => simpa [List.intersperse] using h
          | cons c l => simpa [List.intersperse] using h
        rcases ih this with h2 | h2
        · left; exact h2
        · right; exact List.mem_cons_of_mem _ h2

theorem intercalate_pipe_no_nl (r : List Str) (hc : ∀ c ∈ r, c ≠ [] ∧ ∀ x ∈ c, cellChar x = true) :
    nl ∉ ['|'].intercalate r := by
  intro h
  simp only [List.intercalate, List.mem_flatten] at h
  obtain ⟨l, hl, hx⟩ := h
  rcases mem_intersperse_imp _ _ _ hl with rfl | hl2
  · revert hx; decide
  · have := (hc l hl2).2 nl hx
    revert this; decide

/-! #### The table loop and the rendering of tables -/

theorem tableLoop_done (pf : ParseFn) (text : Str) (fuel parsed : Nat) (d : D)
    (h : ¬ parsed < text.length) : tableLoop pf text fuel parsed d = some (d, none) := by
  cases fuel <;> rw [tableLoop, if_neg h]

/-- One pass of the loop of `parseTable` on a well-formed row line. -/
theorem tableLoop_row (pf : ParseFn)
    (hpf : ∀ cell : Str, (∀ x ∈ cell, plainChar x = true) → cell ≠ [] →
      pf cell "td".toList ["phrase".toList] = some (tdNode cell, none))
    (r : List Str) (hr : r ≠ [] ∧ ∀ c ∈ r, c ≠ [] ∧ ∀ x ∈ c, cellChar x = true)
    (text rest : Str) (fuel parsed : Nat) (t x : Str) (cs : List D)
    (hlen : parsed < text.length)
    (hd : text.drop parsed ++ [nl] = '|' :: ['|'].intercalate r ++ '|' :: nl :: rest) :
    tableLoop pf text (fuel + 1) parsed (.mk t x cs) =
      tableLoop pf text fuel (parsed + (['|'].intercalate r).length + 3)
        (.mk t x (cs ++ [trNode r])) := by
  have hnl := intercalate_pipe_no_nl r hr.2
  have hm := row_match (['|'].intercalate r) rest hnl
  rw [← hd] at hm
  rw [tableLoop, if_pos hlen, find_of_start _ _ _ hm]
  have hg : Match.group ⟨0, (['|'].intercalate r).length + 3,
      List.take ((['|'].intercalate r).length + 3) (List.drop parsed text ++ [nl]),
      [(1, ['|'].intercalate r)]⟩ 1 = ['|'].intercalate r := rfl
  have hsplit : Split (['|'].intercalate r) "|".toList = r := by
    obtain ⟨c, cs2, rfl⟩ : ∃ c cs2, r = c :: cs2 := by
      cases r with
      | nil => exact absurd rfl hr.1
      | cons c cs2 => exact ⟨c, cs2, rfl⟩
    have e1 : "|".toList = ['|'] := by decide
    rw [e1]
    simp only [Split, List.isEmpty_cons, Bool.false_eq_true, if_false]
    apply splitGo_intercalate
    intro u hu hmem
    have := (hr.2 u hu).2 '|' hmem
    revert this; decide
  have hl : (List.take ((['|'].intercalate r).length + 3) (List.drop parsed text ++ [nl])).length
      = (['|'].intercalate r).length + 3 := by
    rw [hd]
    simp only [List.length_take, List.length_cons, List.length_append]
    omega
  dsimp only
  rw [hg, hsplit, D.New, tableCells_plain pf hpf r hr.2]
  dsimp only
  rw [hl]
  simp only [D.AddChild, List.nil_append, trNode, Nat.add_assoc]

/-- The loop of `parseTable` over well-formed rows: one row node per line. -/
theorem tableLoop_rows (pf : ParseFn)
    (hpf : ∀ cell : Str, (∀ x ∈ cell, plainChar x = true) → cell ≠ [] →
      pf cell "td".toList ["phrase".toList] = some (tdNode cell, none))
    (rows : List (List Str))
    (hrows : ∀ r ∈ rows, r ≠ [] ∧ ∀ c ∈ r, c ≠ [] ∧ ∀ x ∈ c, cellChar x = true)
    (pre : Str) (fuel : Nat) (hf : rows.length ≤ fuel) (t x : Str) (cs : List D) :
    tableLoop pf (pre ++ tableText rows) fuel pre.length (.mk t x cs) =
      some (.mk t x (cs ++ rows.map trNode), none) := by
  induction rows generalizing pre fuel cs with
  | nil =>
    rw [tableLoop_done _ _ _ _ _ (by simp [tableText, List.intercalate])]
    simp
  | cons r rest ih =>
    obtain ⟨f, rfl⟩ : ∃ f, fuel = f + 1 := ⟨fuel - 1, by simp at hf; omega⟩
    have hr := hrows r (by simp)
    cases rest with
    | nil =>
      rw [tableText_single]
      rw [tableLoop_row pf hpf r hr _ [] f pre.length t x cs
        (by simp [rowLine]) (by simp [rowLine])]
      rw [tableLoop_done _ _ _ _ _ (by simp [rowLine]; omega)]
      simp
    | cons r2 rest =>
      rw [tableText_cons_cons]
      rw [tableLoop_row pf hpf r hr _ (tableText (r2 :: rest) ++ [nl]) f pre.length t x cs
        (by simp [rowLine]) (by simp [rowLine])]
      have e : pre ++ (rowLine r ++ nl :: tableText (r2 :: rest)) =
          (pre ++ rowLine r ++ [nl]) ++ tableText (r2 :: rest) := by simp
      have e2 : pre.length + (['|'].intercalate r).length + 3 = (pre ++ rowLine r ++ [nl]).length := by
        simp [rowLine]; omega
      rw [e, e2, ih (fun u hu => hrows u (List.mem_cons_of_mem _ hu)) _ f
        (by simp at hf ⊢; omega)]
      simp

/-- The child a rule with a sub-parser adds. -/
theorem addMatched_custom (pf : ParseFn) (sub : Custom → Str → Str → Option (D × Err))
    (bp : Parser) (m : Match) (d : D) (f : Custom) (hP : bp.Parse = some f)
    (hn : 0 < bp.Re.numSubexp) :
    addMatched pf sub bp m d =
      match sub f (m.group 1) bp.Tag with
      | none => none
      | some (c, none) => some (d.AddChild c)
      | some (_, some _) => some d := by
  unfold addMatched
  rw [if_pos hn, hP]

theorem tableText_shape (rows : List (List Str)) (hne : rows ≠ []) :
    ∃ t0, tableText rows = '|' :: t0 ++ ['|'] := by
  induction rows with
  | nil => exact absurd rfl hne
  | cons r rest ih =>
    cases rest with
    | nil => exact ⟨['|'].intercalate r, by rw [tableText_single, rowLine]⟩
    | cons r2 rest =>
      obtain ⟨t1, h1⟩ := ih (by simp)
      refine ⟨['|'].intercalate r ++ '|' :: nl :: '|' :: t1, ?_⟩
      rw [tableText_cons_cons, h1, rowLine]
      simp

/-- The Driver on the text of a well-formed table, at the top of a block: one
`table` child holding a row node per line. -/
theorem parseN_table (n : Nat) (rows : List (List Str)) (hne : rows ≠ [])
    (hrows : ∀ r ∈ rows, r ≠ [] ∧ ∀ c ∈ r, c ≠ [] ∧ ∀ x ∈ c, cellChar x = true)
    (hn : rows.length ≤ n) (tag : Str) :
    parseN (n + 1) (tableText rows) tag topCategories =
      some (.mk tag [] [.mk "table".toList [] (rows.map trNode)], none) := by
  obtain ⟨t0, ht0⟩ := tableText_shape rows hne
  obtain ⟨m, rfl⟩ : ∃ m, n = m + 1 := ⟨n - 1, by
    have : 0 < rows.length := List.length_pos.mpr hne
    omega⟩
  have hlen : 0 < (tableText rows).length := by rw [ht0]; simp
  have hm := table_rule_match t0
  rw [← ht0] at hm
  rw [parseN_succ_eq, parseLoop_zero _ _ _ topCategories (m + 1) 0 _ 12
    ⟨Re.cat [.group 1 (Re.cat [chr '|', anyStar, chr '|']), nlStar, .endText],
      "table".toList, "block".toList, [], 0, some .parseTable⟩ _ hlen rfl (by decide) hm
    (by
      rw [List.drop_zero, ht0]
      exact no_match_of _ _ okAll '|' _ (by decide!) (fun _ _ => rfl)),
    addMatched_custom _ _ _ _ _ .parseTable rfl (by decide)]
  have hg : Match.group ⟨0, t0.length + 3,
      List.take (t0.length + 3) (List.drop 0 (tableText rows) ++ [nl]),
      [(1, tableText rows)]⟩ 1 = tableText rows := rfl
  have hl : (List.take (t0.length + 3) (List.drop 0 (tableText rows) ++ [nl])).length
      = t0.length + 3 := by
    rw [ht0]; simp
  have hpf : ∀ cell : Str, (∀ x ∈ cell, plainChar x = true) → cell ≠ [] →
      parseN (m + 1) cell "td".toList ["phrase".toList] = some (tdNode cell, none) :=
    fun cell h1 h2 => parseN_plain m cell _ h1 h2
  have htab := tableLoop_rows (parseN (m + 1)) hpf rows hrows [] (m + 1) hn "table".toList [] []
  simp only [List.nil_append, List.length_nil] at htab
  dsimp only
  rw [hg, hl]
  simp only [subParse, parseTable, D.New]
  rw [htab]
  dsimp only
  rw [if_neg (by omega), parseLoop_done _ _ _ _ _ _ _ (by rw [ht0]; simp; omega)]
  all_goals rfl

theorem concatHtml_map (cs : List D) (f : D → Str) (h : ∀ c ∈ cs, c.ToHtml = some (f c)) :
    concatHtml (cs.map D.ToHtml) = some (cs.map f).flatten := by
  induction cs with
  | nil => rfl
  | cons c cs ih =>
    rw [List.map_cons, h c (List.mem_cons_self _ _), concatHtml,
      ih (fun u hu => h u (List.mem_cons_of_mem _ hu))]
    rfl

/-- Rendering of a node with a simple tag around its children. -/
theorem ToHtml_children (tag x : Str) (cs : List D) (inner : Str) (h1 : '%' ∉ tag)
    (h2 : '+' ∉ tag) (hne : tag ≠ []) (hcs : cs ≠ [])
    (hc : concatHtml (cs.map D.ToHtml) = some inner) (hi : inner ≠ []) :
    (D.mk tag x cs).ToHtml =
      some ('<' :: tag ++ '>' :: inner ++ ('<' :: '/' :: tag ++ ['>'])) := by
  rw [ToHtml_eq, innerSpec]
  have : cs.isEmpty = false := by cases cs with
    | nil => exact absurd rfl hcs
    | cons _ _ => rfl
  simp only [this, Bool.false_eq_true, if_false, hc]
  exact wrapTag_simple tag inner h1 h2 hne hi

theorem tdNode_html (c : Str) (hc : c ≠ [] ∧ ∀ x ∈ c, cellChar x = true) :
    (tdNode c).ToHtml = some ("<td>".toList ++ c ++ "</td>".toList) := by
  have hp : ∀ x ∈ c, plainChar x = true := fun x hx => cellChar_plain x (hc.2 x hx)
  have hleaf : (D.leaf c).ToHtml = some c := by rw [ToHtml_leaf, EscapeString_plain c hp]
  rw [tdNode, ToHtml_one "td".toList [] _ c (by decide) (by decide) (by decide) hleaf hc.1]
  simp

theorem trNode_html (r : List Str) (hr : r ≠ [] ∧ ∀ c ∈ r, c ≠ [] ∧ ∀ x ∈ c, cellChar x = true) :
    (trNode r).ToHtml = some (rowHtml r) := by
  have hc : concatHtml ((r.map tdNode).map D.ToHtml) =
      some ((r.map tdNode).map (fun d => match d.Children with
        | [l] => "<td>".toList ++ l.Text ++ "</td>".toList
        | _ => [])).flatten := by
    apply concatHtml_map
    intro d hd
    obtain ⟨c, hc, rfl⟩ := List.mem_map.mp hd
    rw [tdNode_html c (hr.2 c hc)]
    rfl
  have hf : ((r.map tdNode).map (fun d => match d.Children with
        | [l] => "<td>".toList ++ l.Text ++ "</td>".toList
        | _ => [])) = r.map (fun c => "<td>".toList ++ c ++ "</td>".toList) := by
    rw [List.map_map]; rfl
  rw [hf] at hc
  obtain ⟨c, cs, rfl⟩ : ∃ c cs, r = c :: cs := by
    cases r with
    | nil => exact absurd rfl hr.1
    | cons c cs => exact ⟨c, cs, rfl⟩
  rw [trNode, ToHtml_children "tr".toList [] _ _ (by decide) (by decide) (by decide) (by simp) hc
    (by simp)]
  simp [rowHtml]

theorem tableNode_html (rows : List (List Str)) (hne : rows ≠ [])
    (hrows : ∀ r ∈ rows, r ≠ [] ∧ ∀ c ∈ r, c ≠ [] ∧ ∀ x ∈ c, cellChar x = true) :
    (D.mk "table".toList [] (rows.map trNode)).ToHtml = some (tableHtml rows) := by
  have hc : concatHtml ((rows.map trNode).map D.ToHtml) =
      some ((rows.map trNode).map (fun d => rowHtml (d.Children.map (fun t =>
        match t.Children with
        | [l] => l.Text
        | _ => [])))).flatten := by
    apply concatHtml_map
    intro d hd
    obtain ⟨r, hr, rfl⟩ := List.mem_map.mp hd
    rw [trNode_html r (hrows r hr)]
    congr 2
    simp only [trNode, D.Children, List.map_map]
    conv_lhs => rw [← List.map_id r]
    rfl
  have hf : ((rows.map trNode).map (fun d => rowHtml (d.Children.map (fun t =>
        match t.Children with
        | [l] => l.Text
        | _ => [])))) = rows.map rowHtml := by
    rw [List.map_map]
    apply List.map_congr_left
    intro r _
    simp only [Function.comp, trNode, D.Children, List.map_map]
    congr 1
    conv_rhs => rw [← List.map_id r]
    rfl
  rw [hf] at hc
  obtain ⟨r, rs, rfl⟩ : ∃ r rs, rows = r :: rs := by
    cases rows with
    | nil => exact absurd rfl hne
    | cons r rs => exact ⟨r, rs, rfl⟩
  rw [ToHtml_children "table".toList [] _ _ (by decide) (by decide) (by decide) (by simp) hc
    (by simp [rowHtml])]
  simp [tableHtml]

theorem rowLine_no_nl (r : List Str) (hr : ∀ c ∈ r, c ≠ [] ∧ ∀ x ∈ c, cellChar x = true) :
    rowLine r ≠ [] ∧ nl ∉ rowLine r := by
  refine ⟨by simp [rowLine], ?_⟩
  intro h
  simp only [rowLine, List.cons_append, List.mem_cons, List.mem_append, List.mem_singleton,
    List.not_mem_nil, or_false] at h
  rcases h with h | h | h
  · revert h; decide
  · exact intercalate_pipe_no_nl r hr h
  · revert h; decide

/-- C8: for `n >= 1` rows of `k_i >= 1` non-empty cells of letters, digits and
dots, the text of the lines `|c_i1|...|c_ik|` joined by single line breaks
converts to `<table>`, then `<tr><td>c_i1</td>...<td>c_ik</td></tr>` for each row
in order, then `</table>`; any fuel above the number of rows gives this result. -/
theorem table_rows (k : Nat) (rows : List (List Str)) (hne : rows ≠ [])
    (hrows : ∀ r ∈ rows, r ≠ [] ∧ ∀ c ∈ r, c ≠ [] ∧ ∀ x ∈ c, cellChar x = true) :
    TextileToHtml (k + rows.length + 1) (tableText rows) = some (tableHtml rows, none) := by
  have hs : Split (tableText rows) [nl, nl] = [tableText rows] := by
    simp only [Split, List.isEmpty_cons, Bool.false_eq_true, if_false]
    apply splitGo_lines
    intro l hl
    obtain ⟨r, hr, rfl⟩ := List.mem_map.mp hl
    exact rowLine_no_nl r (hrows r hr).2
  refine TextileToHtml_single _ _ _ _ hs
    (parseN_table (k + rows.length) rows hne hrows (by omega) []) ?_
  exact ToHtml_root_one _ _ _ (tableNode_html rows hne hrows)

theorem table_rows_witness :
    ([["a".toList, "b1".toList], ["c.2".toList]] : List (List Str)) ≠ [] ∧
    (∀ r ∈ ([["a".toList, "b1".toList], ["c.2".toList]] : List (List Str)),
      r ≠ [] ∧ ∀ c ∈ r, c ≠ [] ∧ ∀ x ∈ c, cellChar x = true) ∧
    TextileToHtml (0 + 2 + 1) (tableText [["a".toList, "b1".toList], ["c.2".toList]]) =
      some (tableHtml [["a".toList, "b1".toList], ["c.2".toList]], none) :=
  ⟨by decide, by decide,
    table_rows 0 [["a".toList, "b1".toList], ["c.2".toList]] (by decide) (by decide)⟩

/-! ### Definition lists (claim C7) -/

/-- The definition-list rule `(- .* := .*)\n*$` at the head of `- t := r`, where
`t` is a word and `r` does not end with a line feed: it captures the whole text. -/
theorem dl_rule_match (t r : Str) (ht : ∀ c ∈ t, c.isAlphanum = true)
    (hr : r.getLast? ≠ some nl) :
    (Re.cat [.group 1 (Re.cat [str "- ", anyStar, str " := ", anyStar]), nlStar, .endText]).m some
        (startSt ('-' :: ' ' :: t ++ ' ' :: ':' :: '=' :: ' ' :: r ++ [nl])) =
      some ⟨t.length + r.length + 7, some nl, [],
        [(1, '-' :: ' ' :: t ++ ' ' :: ':' :: '=' :: ' ' :: r)]⟩ := by
  simp only [Re.cat, str, Re.lits, String.toList, m_seq, m_seq_k, m_empty, m_empty_k, m_group,
    anyStar, nlStar, m_star, startSt, m_endText_tail, List.cons_append, List.append_assoc,
    m_cls_cons, Cls.test, beq_self_eq_true, if_true]
  rw [starM_lazy_run .any _ _ t (' ' :: ':' :: '=' :: ' ' :: (r ++ [nl])) _ _ (fun _ _ => rfl),
    starM_lazy_stop]
  · simp only [m_cls_cons, Cls.test, beq_self_eq_true, if_true, m_star]
    rw [starM_lazy_run .any _ _ r [nl] _ _ (fun _ _ => rfl), starM_lazy_stop]
    · rw [nlStar_end_last]
      dsimp only
      have ht2 : List.take (0 + 1 + 1 + t.length + 1 + 1 + 1 + 1 + r.length - 0)
          ('-' :: ' ' :: (t ++ ' ' :: ':' :: '=' :: ' ' :: (r ++ [nl]))) =
          '-' :: ' ' :: (t ++ ' ' :: ':' :: '=' :: ' ' :: r) := by
        have := take_eq_of_length (0 + 1 + 1 + t.length + 1 + 1 + 1 + 1 + r.length - 0)
          ('-' :: ' ' :: (t ++ ' ' :: ':' :: '=' :: ' ' :: r)) [nl]
          (by simp only [List.length_cons, List.length_append, List.length_nil]; omega)
        simpa using this
      rw [ht2, show 0 + 1 + 1 + t.length + 1 + 1 + 1 + 1 + r.length + 1 = t.length + r.length + 7
        by omega]
    · intro a c b hab
      apply nlStar_end_none
      have h2 : (c :: b).getLast? ≠ some nl := by
        rw [← getLast?_suffix a c b, ← hab]; exact hr
      obtain ⟨x, hx, hxn⟩ := exists_ne_nl_of_getLast (c :: b) (by simp) h2
      exact ⟨x, by simp only [List.cons_append, List.mem_cons, List.mem_append] at hx ⊢; tauto,
        hxn⟩
  · intro a c b hab
    have hc : c ≠ ' ' := alnum_ne c ' ' (ht c (by rw [hab]; simp)) (by decide)
    simp [m_cls_cons, Cls.test, hc]

theorem non_nl_test (x : Char) (hx : x.isAlphanum = true) : (Cls.non [nl]).test x = true := by
  have h : x ≠ nl := alnum_ne x nl hx (by decide)
  simp [Cls.test, h]

/-- The term rule `- (.*) :=` at the head of `- t :=`: it captures the word `t`. -/
theorem dt_match (t r : Str) (ht : ∀ c ∈ t, c.isAlphanum = true) :
    (Re.cat [str "- ", .group 1 anyStar, str " :="]).m some
        (startSt ('-' :: ' ' :: t ++ ' ' :: ':' :: '=' :: r)) =
      some ⟨t.length + 5, some '=', r, [(1, t)]⟩ := by
  simp only [Re.cat, str, Re.lits, String.toList, m_seq, m_seq_k, m_empty, m_empty_k, m_group,
    anyStar, m_star, startSt, List.cons_append, m_cls_cons, Cls.test, beq_self_eq_true, if_true]
  rw [starM_lazy_run .any _ _ t (' ' :: ':' :: '=' :: r) _ _ (fun _ _ => rfl), starM_lazy_stop]
  · simp only [m_cls_cons, Cls.test, beq_self_eq_true, if_true]
    have ht2 : List.take (0 + 1 + 1 + t.length - (0 + 1 + 1)) (t ++ ' ' :: ':' :: '=' :: r) = t :=
      take_eq_of_length _ t _ (by omega)
    rw [ht2, show 0 + 1 + 1 + t.length + 1 + 1 + 1 = t.length + 5 by omega]
  · intro a c b hab
    have hc : c ≠ ' ' := alnum_ne c ' ' (ht c (by rw [hab]; simp)) (by decide)
    simp [m_cls_cons, Cls.test, hc]

/-- The definition rule `:= ([^\n]*)\n-` at the head of `:= d`, a line feed and a
dash: it captures the word `d`. -/
theorem dd_mid_match (d r : Str) (hd : ∀ c ∈ d, c.isAlphanum = true) :
    (Re.cat [str ":= ", .group 1 (.star (.non [nl]) false), chr nl, chr '-']).m some
        (startSt (':' :: '=' :: ' ' :: d ++ nl :: '-' :: r)) =
      some ⟨d.length + 5, some '-', r, [(1, d)]⟩ := by
  simp only [Re.cat, str, chr, Re.lits, String.toList, m_seq, m_seq_k, m_empty, m_empty_k,
    m_group, m_star, startSt, List.cons_append, m_cls_cons, Cls.test, beq_self_eq_true, if_true]
  rw [starM_lazy_run (.non [nl]) _ _ d (nl :: '-' :: r) _ _ (fun x hx => non_nl_test x (hd x hx)),
    starM_lazy_stop]
  · simp only [m_cls_cons, Cls.test, beq_self_eq_true, if_true]
    have ht2 : List.take (0 + 1 + 1 + 1 + d.length - (0 + 1 + 1 + 1)) (d ++ nl :: '-' :: r) = d :=
      take_eq_of_length _ d _ (by omega)
    rw [ht2, show 0 + 1 + 1 + 1 + d.length + 1 + 1 = d.length + 5 by omega]
  · intro a c b hab
    have hc : c ≠ nl := alnum_ne c nl (hd c (by rw [hab]; simp)) (by decide)
    simp [m_cls_cons, Cls.test, hc]

/-- The definition rule `:= ([^\n]*)\n$` at the head of `:= d` and the synthetic
line feed: it captures the word `d`. -/
theorem dd_last_match (d : Str) (hd : ∀ c ∈ d, c.isAlphanum = true) :
    (Re.cat [str ":= ", .group 1 (.star (.non [nl]) false), chr nl, .endText]).m some
        (startSt (':' :: '=' :: ' ' :: d ++ [nl])) =
      some ⟨d.length + 4, some nl, [], [(1, d)]⟩ := by
  simp only [Re.cat, str, chr, Re.lits, String.toList, m_seq, m_seq_k, m_empty, m_empty_k,
    m_group, m_star, startSt, List.cons_append, m_cls_cons, Cls.test, beq_self_eq_true, if_true]
  rw [starM_lazy_run (.non [nl]) _ _ d [nl] _ _ (fun x hx => non_nl_test x (hd x hx)),
    starM_lazy_stop]
  · simp only [m_cls_cons, Cls.test, beq_self_eq_true, if_true, m_endText, List.isEmpty_nil]
    have ht2 : List.take (0 + 1 + 1 + 1 + d.length - (0 + 1 + 1 + 1)) (d ++ [nl]) = d :=
      take_eq_of_length _ d _ (by omega)
    rw [ht2, show 0 + 1 + 1 + 1 + d.length + 1 = d.length + 4 by omega]
  · intro a c b hab
    have hc : c ≠ nl := alnum_ne c nl (hd c (by rw [hab]; simp)) (by decide)
    simp [m_cls_cons, Cls.test, hc]

/-- One cycle of the Driver in which the selected rule matches at the cursor and
captures a plain word: a child with the rule's tag around the word is added and
the cursor moves by the match length plus the rule's end-offset. -/
theorem parseLoop_word (pf : ParseFn) (sub : Custom → Str → Str → Option (D × Err))
    (hpf : ∀ w tag : Str, (∀ c ∈ w, plainChar c = true) → w ≠ [] →
      pf w tag ["phrase".toList] = some (.mk tag [] [D.leaf w], none))
    (text rem : Str) (A : List Str) (fuel parsed : Nat) (t x : Str) (cs : List D)
    (i : Nat) (p : Parser) (e : St) (w : Str)
    (hlen : parsed < text.length) (hd : text.drop parsed ++ [nl] = rem)
    (hp : parsers.get? i = some p) (hA : canAddChild p.Typ A = true) (hP : p.Parse = none)
    (hn : 0 < p.Re.numSubexp) (hC : p.AllowedChildren = ["phrase".toList])
    (hm : p.Re.m some (startSt rem) = some e)
    (hg : e.caps.lookup 1 = some w) (hw : ∀ c ∈ w, plainChar c = true) (hwne : w ≠ [])
    (he : e.off ≤ rem.length) (hadv : 0 ≤ (parsed : Int) + (e.off : Int) + p.OffsetEnd)
    (hno : ∀ q ∈ parsers.take i, canAddChild q.Typ A = true → q.Re.m some (startSt rem) = none) :
    parseLoop pf sub text A (fuel + 1) parsed (.mk t x cs) =
      parseLoop pf sub text A fuel ((parsed : Int) + (e.off : Int) + p.OffsetEnd).toNat
        (.mk t x (cs ++ [.mk p.Tag [] [D.leaf w]])) := by
  subst hd
  rw [parseLoop_zero _ _ text A fuel parsed _ i p e hlen hp hA hm hno,
    addMatched_generic _ _ _ _ _ hP hn]
  have hg1 : Match.group ⟨0, e.off, List.take e.off (List.drop parsed text ++ [nl]), e.caps⟩ 1
      = w := by
    simp only [Match.group, hg]
  have hl : (List.take e.off (List.drop parsed text ++ [nl])).length = e.off := by
    rw [List.length_take]; omega
  rw [hg1, hC, hpf w p.Tag hw hwne, hl]
  dsimp only
  rw [if_neg (by omega)]
  rfl

/-! #### The Driver on definition lines and the rendering of definition lists -/

theorem dlText_single (p : Str × Str) : dlText [p] = dlLine p := by
  simp [dlText, List.intercalate, List.intersperse]

theorem dlText_cons_cons (p p2 : Str × Str) (rest : List (Str × Str)) :
    dlText (p :: p2 :: rest) = dlLine p ++ nl :: dlText (p2 :: rest) := by
  simp [dlText, List.intercalate, List.intersperse]

theorem dlLine_eq (p : Str × Str) :
    dlLine p = '-' :: ' ' :: p.1 ++ ' ' :: ':' :: '=' :: ' ' :: p.2 := by
  simp [dlLine]

theorem dlText_head (p : Str × Str) (rest : List (Str × Str)) :
    ∃ r, dlText (p :: rest) = '-' :: r := by
  cases rest with
  | nil => exact ⟨_, by rw [dlText_single, dlLine_eq]; rfl⟩
  | cons p2 rest => exact ⟨_, by rw [dlText_cons_cons, dlLine_eq]; rfl⟩

/-- The Driver under the definition categories on well-formed definition lines:
a term node and a definition node per line, in order. -/
theorem parseLoop_dl (pf : ParseFn) (sub : Custom → Str → Str → Option (D × Err))
    (hpf : ∀ w tag : Str, (∀ c ∈ w, plainChar c = true) → w ≠ [] →
      pf w tag ["phrase".toList] = some (.mk tag [] [D.leaf w], none))
    (pairs : List (Str × Str))
    (hpairs : ∀ p ∈ pairs, (p.1 ≠ [] ∧ ∀ c ∈ p.1, c.isAlphanum = true) ∧
      (p.2 ≠ [] ∧ ∀ c ∈ p.2, c.isAlphanum = true))
    (pre : Str) (fuel : Nat) (hf : 2 * pairs.length ≤ fuel) (t x : Str) (cs : List D) :
    parseLoop pf sub (pre ++ dlText pairs) dlCats fuel pre.length (.mk t x cs) =
      some (.mk t x (cs ++ dlNodes pairs), none) := by
  induction pairs generalizing pre fuel cs with
  | nil =>
    rw [parseLoop_done _ _ _ _ _ _ _ (by simp [dlText, List.intercalate])]
    simp [dlNodes]
  | cons p rest ih =>
    obtain ⟨f, rfl⟩ : ∃ f, fuel = f + 2 := ⟨fuel - 2, by simp at hf; omega⟩
    have hp := hpairs p (by simp)
    have hw1 : ∀ c ∈ p.1, plainChar c = true := fun c hc => alnum_plain c (hp.1.2 c hc)
    have hw2 : ∀ c ∈ p.2, plainChar c = true := fun c hc => alnum_plain c (hp.2.2 c hc)
    cases rest with
    | nil =>
      rw [dlText_single, dlLine_eq]
      rw [parseLoop_word pf sub hpf _
        ('-' :: ' ' :: p.1 ++ ' ' :: ':' :: '=' :: (' ' :: p.2 ++ [nl])) dlCats (f + 1) pre.length
        t x cs 5
        ⟨Re.cat [str "- ", .group 1 anyStar, str " :="],
          "dt".toList, "definition-term".toList, ["phrase".toList], -2, none⟩
        ⟨p.1.length + 5, some '=', ' ' :: p.2 ++ [nl], [(1, p.1)]⟩ p.1
        (by simp) (by simp) rfl (by decide) rfl (by decide) rfl
        (dt_match p.1 _ hp.1.2) rfl hw1 hp.1.1 (by simp) (by dsimp only; omega)
        (no_match_of _ _ okAll '-' _ (by decide!) (fun _ _ => rfl))]
      have e1 : ((pre.length : Int) + ((p.1.length + 5 : Nat) : Int) + (-2)).toNat
          = pre.length + p.1.length + 3 := by omega
      dsimp only
      rw [e1]
      rw [parseLoop_word pf sub hpf _
        (':' :: '=' :: ' ' :: p.2 ++ [nl]) dlCats f (pre.length + p.1.length + 3)
        t x _ 7
        ⟨Re.cat [str ":= ", .group 1 (.star (.non [nl]) false), chr nl, .endText],
          "dd".toList, "definition-definition".toList, ["phrase".toList], 0, none⟩
        ⟨p.2.length + 4, some nl, [], [(1, p.2)]⟩ p.2
        (by simp; omega)
        (by
          have e : pre.length + p.1.length + 3 = (pre ++ ('-' :: ' ' :: p.1 ++ [' '])).length := by
            simp; omega
          have e2 : pre ++ ('-' :: ' ' :: p.1 ++ ' ' :: ':' :: '=' :: ' ' :: p.2) =
              (pre ++ ('-' :: ' ' :: p.1 ++ [' '])) ++ (':' :: '=' :: ' ' :: p.2) := by simp
          rw [e, e2, List.drop_left])
        rfl (by decide) rfl (by decide) rfl
        (dd_last_match p.2 hp.2.2) rfl hw2 hp.2.1 (by simp) (by dsimp only; omega)
        (no_match_of _ _ okNoDash ':' _ (by decide!) (by
          intro y hy
          simp at hy
          rcases hy with rfl | rfl | rfl | hy | rfl
          · decide
          · decide
          · decide
          · have : y ≠ '-' := alnum_ne y '-' (hp.2.2 y hy) (by decide)
            simp [okNoDash, this]
          · decide))]
      dsimp only
      rw [parseLoop_done _ _ _ _ _ _ _ (by simp; omega)]
      simp [dlNodes]
    | cons p2 rest =>
      obtain ⟨r2, hr2⟩ := dlText_head p2 rest
      rw [dlText_cons_cons, dlLine_eq]
      rw [parseLoop_word pf sub hpf _
        ('-' :: ' ' :: p.1 ++ ' ' :: ':' :: '=' :: (' ' :: p.2 ++ nl :: dlText (p2 :: rest) ++ [nl]))
        dlCats (f + 1) pre.length
        t x cs 5
        ⟨Re.cat [str "- ", .group 1 anyStar, str " :="],
          "dt".toList, "definition-term".toList, ["phrase".toList], -2, none⟩
        ⟨p.1.length + 5, some '=', ' ' :: p.2 ++ nl :: dlText (p2 :: rest) ++ [nl], [(1, p.1)]⟩ p.1
        (by simp) (by simp) rfl (by decide) rfl (by decide) rfl
        (dt_match p.1 _ hp.1.2) rfl hw1 hp.1.1 (by simp) (by dsimp only; omega)
        (no_match_of _ _ okAll '-' _ (by decide!) (fun _ _ => rfl))]
      have e1 : ((pre.length : Int) + ((p.1.length + 5 : Nat) : Int) + (-2)).toNat
          = pre.length + p.1.length + 3 := by omega
      dsimp only
      rw [e1]
      rw [parseLoop_word pf sub hpf _
        (':' :: '=' :: ' ' :: p.2 ++ nl :: '-' :: (r2 ++ [nl])) dlCats f
        (pre.length + p.1.length + 3)
        t x _ 6
        ⟨Re.cat [str ":= ", .group 1 (.star (.non [nl]) false), chr nl, chr '-'],
          "dd".toList, "definition-definition".toList, ["phrase".toList], -1, none⟩
        ⟨p.2.length + 5, some '-', r2 ++ [nl], [(1, p.2)]⟩ p.2
        (by simp; omega)
        (by
          have e : pre.length + p.1.length + 3 = (pre ++ ('-' :: ' ' :: p.1 ++ [' '])).length := by
            simp; omega
          have e2 : pre ++ ('-' :: ' ' :: p.1 ++ ' ' :: ':' :: '=' :: ' ' :: p.2
              ++ nl :: dlText (p2 :: rest)) =
              (pre ++ ('-' :: ' ' :: p.1 ++ [' '])) ++
                (':' :: '=' :: ' ' :: p.2 ++ nl :: dlText (p2 :: rest)) := by simp
          rw [e, e2, List.drop_left, hr2]
          simp)
        rfl (by decide) rfl (by decide) rfl
        (dd_mid_match p.2 _ hp.2.2) rfl hw2 hp.2.1 (by simp) (by dsimp only; omega)
        (no_match_of _ _ okAll ':' _ (by decide!) (fun _ _ => rfl))]
      have e3 : (((pre.length + p.1.length + 3 : Nat) : Int) + ((p.2.length + 5 : Nat) : Int)
          + (-1)).toNat = (pre ++ dlLine p ++ [nl]).length := by
        simp [dlLine]; omega
      have e4 : pre ++ ('-' :: ' ' :: p.1 ++ ' ' :: ':' :: '=' :: ' ' :: p.2
          ++ nl :: dlText (p2 :: rest)) = (pre ++ dlLine p ++ [nl]) ++ dlText (p2 :: rest) := by
        simp [dlLine]
      dsimp only
      rw [e3, e4, ih (fun u hu => hpairs u (List.mem_cons_of_mem _ hu)) _ f
        (by simp at hf ⊢; omega)]
      simp [dlNodes]

theorem getLast?_append_ne_nil (a b : Str) (hb : b ≠ []) : (a ++ b).getLast? = b.getLast? := by
  cases b with
  | nil => exact absurd rfl hb
  | cons c b => exact getLast?_suffix a c b

theorem alnum_getLast (w : Str) (_ : w ≠ []) (hw : ∀ c ∈ w, c.isAlphanum = true) :
    w.getLast? ≠ some nl := by
  intro e
  have := hw nl (List.mem_of_getLast?_eq_some e)
  revert this; decide

theorem dlText_shape (p : Str × Str) (rest : List (Str × Str))
    (hpairs : ∀ q ∈ p :: rest, (q.1 ≠ [] ∧ ∀ c ∈ q.1, c.isAlphanum = true) ∧
      (q.2 ≠ [] ∧ ∀ c ∈ q.2, c.isAlphanum = true)) :
    ∃ r, dlText (p :: rest) = '-' :: ' ' :: p.1 ++ ' ' :: ':' :: '=' :: ' ' :: r ∧
      r.getLast? ≠ some nl := by
  induction rest generalizing p with
  | nil =>
    have hp := hpairs p (by simp)
    exact ⟨p.2, by rw [dlText_single, dlLine_eq], alnum_getLast p.2 hp.2.1 hp.2.2⟩
  | cons p2 rest ih =>
    obtain ⟨r2, h2, h3⟩ := ih p2 (fun q hq => hpairs q (List.mem_cons_of_mem _ hq))
    refine ⟨p.2 ++ nl :: dlText (p2 :: rest), ?_, ?_⟩
    · rw [dlText_cons_cons, dlLine_eq]; simp
    · rw [getLast?_append_ne_nil _ _ (by simp), h2]
      have e : nl :: ('-' :: ' ' :: p2.1 ++ ' ' :: ':' :: '=' :: ' ' :: r2) =
          (nl :: '-' :: ' ' :: p2.1 ++ [' ', ':', '=']) ++ (' ' :: r2) := by simp
      rw [e, getLast?_append_ne_nil _ _ (by simp)]
      cases r2 with
      | nil => simp; decide
      | cons c r2 =>
        rw [show (' ' :: c :: r2) = [' '] ++ (c :: r2) from rfl,
          getLast?_append_ne_nil _ _ (by simp)]
        exact h3

/-- The Driver on the text of a well-formed definition list, at the top of a
block: one `dl` child holding the term and definition nodes. -/
theorem parseN_dl (n : Nat) (pairs : List (Str × Str)) (hne : pairs ≠ [])
    (hpairs : ∀ p ∈ pairs, (p.1 ≠ [] ∧ ∀ c ∈ p.1, c.isAlphanum = true) ∧
      (p.2 ≠ [] ∧ ∀ c ∈ p.2, c.isAlphanum = true))
    (hn : 2 * pairs.length ≤ n) (tag : Str) :
    parseN (n + 1) (dlText pairs) tag topCategories =
      some (.mk tag [] [.mk "dl".toList [] (dlNodes pairs)], none) := by
  obtain ⟨p, rest, rfl⟩ : ∃ p rest, pairs = p :: rest := by
    cases pairs with
    | nil => exact absurd rfl hne
    | cons p rest => exact ⟨p, rest, rfl⟩
  obtain ⟨r, hr, hlast⟩ := dlText_shape p rest hpairs
  obtain ⟨m, rfl⟩ : ∃ m, n = m + 2 := ⟨n - 2, by simp at hn; omega⟩
  have hlen : 0 < (dlText (p :: rest)).length := by rw [hr]; simp
  have hm := dl_rule_match p.1 r (hpairs p (by simp)).1.2 hlast
  rw [← hr] at hm
  rw [parseN_succ_eq, parseLoop_zero _ _ _ topCategories (m + 2) 0 _ 4
    ⟨Re.cat [.group 1 (Re.cat [str "- ", anyStar, str " := ", anyStar]), nlStar, .endText],
      "dl".toList, "list".toList, dlCats, 0, none⟩ _ hlen rfl (by decide) hm
    (by
      rw [List.drop_zero, hr]
      exact no_match_of _ _ okAll '-' _ (by decide!) (fun _ _ => rfl)),
    addMatched_generic _ _ _ _ _ rfl (by decide)]
  have hg : Match.group ⟨0, p.1.length + r.length + 7,
      List.take (p.1.length + r.length + 7) (List.drop 0 (dlText (p :: rest)) ++ [nl]),
      [(1, dlText (p :: rest))]⟩ 1 = dlText (p :: rest) := rfl
  have hl : (List.take (p.1.length + r.length + 7)
      (List.drop 0 (dlText (p :: rest)) ++ [nl])).length = p.1.length + r.length + 7 := by
    rw [hr]; simp; omega
  have hpf : ∀ w tag : Str, (∀ c ∈ w, plainChar c = true) → w ≠ [] →
      parseN (m + 1) w tag ["phrase".toList] = some (.mk tag [] [D.leaf w], none) :=
    fun w tag h1 h2 => parseN_plain m w tag h1 h2
  have hdl := parseLoop_dl (parseN (m + 1)) (subParse (parseN (m + 1)) (m + 1)) hpf (p :: rest)
    hpairs [] (m + 2) hn "dl".toList [] []
  simp only [List.nil_append, List.length_nil] at hdl
  dsimp only
  rw [hg, hl, parseN_succ_eq, D.New, hdl]
  dsimp only
  rw [if_neg (by omega), parseLoop_done _ _ _ _ _ _ _ (by rw [hr]; simp; omega)]
  all_goals rfl

theorem dlNodes_html (pairs : List (Str × Str))
    (hpairs : ∀ p ∈ pairs, (p.1 ≠ [] ∧ ∀ c ∈ p.1, c.isAlphanum = true) ∧
      (p.2 ≠ [] ∧ ∀ c ∈ p.2, c.isAlphanum = true)) :
    concatHtml ((dlNodes pairs).map D.ToHtml) =
      some (pairs.map (fun p => "<dt>".toList ++ p.1 ++ "</dt><dd>".toList ++ p.2
        ++ "</dd>".toList)).flatten := by
  induction pairs with
  | nil => rfl
  | cons p rest ih =>
    have hp := hpairs p (by simp)
    have hw1 : ∀ c ∈ p.1, plainChar c = true := fun c hc => alnum_plain c (hp.1.2 c hc)
    have hw2 : ∀ c ∈ p.2, plainChar c = true := fun c hc => alnum_plain c (hp.2.2 c hc)
    have hl1 : (D.leaf p.1).ToHtml = some p.1 := by rw [ToHtml_leaf, EscapeString_plain _ hw1]
    have hl2 : (D.leaf p.2).ToHtml = some p.2 := by rw [ToHtml_leaf, EscapeString_plain _ hw2]
    simp only [dlNodes, List.map_cons, concatHtml,
      ToHtml_one "dt".toList [] _ p.1 (by decide) (by decide) (by decide) hl1 hp.1.1,
      ToHtml_one "dd".toList [] _ p.2 (by decide) (by decide) (by decide) hl2 hp.2.1,
      ih (fun u hu => hpairs u (List.mem_cons_of_mem _ hu))]
    simp

theorem dlLine_no_nl (p : Str × Str)
    (hp : (p.1 ≠ [] ∧ ∀ c ∈ p.1, c.isAlphanum = true) ∧
      (p.2 ≠ [] ∧ ∀ c ∈ p.2, c.isAlphanum = true)) :
    dlLine p ≠ [] ∧ nl ∉ dlLine p := by
  refine ⟨by simp [dlLine], ?_⟩
  intro h
  rw [dlLine_eq] at h
  simp at h
  rcases h with h | h | h | h | h | h | h | h
  · revert h; decide
  · revert h; decide
  · exact alnum_ne _ nl (hp.1.2 _ h) (by decide) rfl
  · revert h; decide
  · revert h; decide
  · revert h; decide
  · revert h; decide
  · exact alnum_ne _ nl (hp.2.2 _ h) (by decide) rfl

/-- C7: for `n >= 1` pairs of non-empty words of letters and digits, the text of
the lines `- t_i := d_i` joined by single line breaks converts to `<dl>`, then
`<dt>t_i</dt><dd>d_i</dd>` for each pair in source order, then `</dl>`; any fuel
above twice the number of pairs gives this result. -/
theorem definition_list (k : Nat) (pairs : List (Str × Str)) (hne : pairs ≠ [])
    (hpairs : ∀ p ∈ pairs, (p.1 ≠ [] ∧ ∀ c ∈ p.1, c.isAlphanum = true) ∧
      (p.2 ≠ [] ∧ ∀ c ∈ p.2, c.isAlphanum = true)) :
    TextileToHtml (k + 2 * pairs.length + 1) (dlText pairs) = some (dlHtml pairs, none) := by
  have hs : Split (dlText pairs) [nl, nl] = [dlText pairs] := by
    simp only [Split, List.isEmpty_cons, Bool.false_eq_true, if_false]
    apply splitGo_lines
    intro l hl
    obtain ⟨p, hp, rfl⟩ := List.mem_map.mp hl
    exact dlLine_no_nl p (hpairs p hp)
  refine TextileToHtml_single _ _ _ _ hs
    (parseN_dl (k + 2 * pairs.length) pairs hne hpairs (by omega) []) ?_
  apply ToHtml_root_one
  obtain ⟨p, rest, rfl⟩ : ∃ p rest, pairs = p :: rest := by
    cases pairs with
    | nil => exact absurd rfl hne
    | cons p rest => exact ⟨p, rest, rfl⟩
  rw [ToHtml_children "dl".toList [] _ _ (by decide) (by decide) (by decide) (by simp [dlNodes])
    (dlNodes_html _ hpairs) (by simp)]
  simp [dlHtml]

theorem definition_list_witness :
    ([("name1".toList, "def1".toList), ("n2".toList, "d2".toList)] : List (Str × Str)) ≠ [] ∧
    (∀ p ∈ ([("name1".toList, "def1".toList), ("n2".toList, "d2".toList)] : List (Str × Str)),
      (p.1 ≠ [] ∧ ∀ c ∈ p.1, c.isAlphanum = true) ∧
      (p.2 ≠ [] ∧ ∀ c ∈ p.2, c.isAlphanum = true)) ∧
    TextileToHtml (0 + 2 * 2 + 1)
      (dlText [("name1".toList, "def1".toList), ("n2".toList, "d2".toList)]) =
      some (dlHtml [("name1".toList, "def1".toList), ("n2".toList, "d2".toList)], none) :=
  ⟨by decide, by decide,
    definition_list 0 [("name1".toList, "def1".toList), ("n2".toList, "d2".toList)]
      (by decide) (by decide)⟩

/-! ### Lists: the pattern of `parseListAtLevel` on a marker line -/

theorem repM_replicate (p : Cls) (k : St → Option St) (caps : List (Nat × Str)) (c : Char)
    (hc : p.test c = true) (n off : Nat) (prev : Option Char) (rest : Str) :
    repM p k caps n off prev (List.replicate n c ++ rest) =
      k ⟨off + n, lastOr prev (List.replicate n c), rest, caps⟩ := by
  induction n generalizing off prev with
  | zero => rfl
  | succ n ih =>
    rw [List.replicate_succ, List.cons_append, repM, if_pos hc, ih]
    simp only [lastOr]
    congr 2; omega

/-- A greedy `p+` takes a whole non-empty run when the class refuses what
follows and the continuation succeeds there. -/
theorem plus_greedy_run (p : Cls) (k : St → Option St) (caps : List (Nat × Str)) (xs ys : Str)
    (off : Nat) (prev : Option Char) (r : St) (hne : xs ≠ [])
    (hp : ∀ x ∈ xs, p.test x = true)
    (hy : ys = [] ∨ ∃ y t, ys = y :: t ∧ p.test y = false)
    (hk : k ⟨off + xs.length, lastOr prev xs, ys, caps⟩ = some r) :
    (Re.plus p true).m k ⟨off, prev, xs ++ ys, caps⟩ = some r := by
  cases xs with
  | nil => exact absurd rfl hne
  | cons x xs =>
    rw [List.cons_append, m_plus_cons, if_pos (hp x (List.mem_cons_self _ _))]
    apply starM_greedy_run p k caps xs ys _ _ r (fun y hy => hp y (List.mem_cons_of_mem _ hy))
    have e : off + 1 + xs.length = off + (x :: xs).length := by simp; omega
    rw [e]
    rcases hy with rfl | ⟨y, t, rfl, hy⟩
    · rw [starM_nil]; exact hk
    · rw [starM_stop_cons _ _ _ _ _ _ _ _ hy]; exact hk

/-- A greedy `p+` fails where the class refuses the next character or the text ends. -/
theorem plus_none (p : Cls) (g : Bool) (k : St → Option St) (caps : List (Nat × Str)) (ys : Str)
    (off : Nat) (prev : Option Char)
    (hy : ys = [] ∨ ∃ y t, ys = y :: t ∧ p.test y = false) :
    (Re.plus p g).m k ⟨off, prev, ys, caps⟩ = none := by
  rcases hy with rfl | ⟨y, t, rfl, hy⟩
  · rfl
  · rw [m_plus_cons, hy]; rfl

theorem orElse_of_some {a : Option St} {x : St} (b : Option St) (h : a = some x) :
    orElse a b = some x := by
  rw [h]; rfl

/-- A starred class does nothing where it refuses the next character or the text ends. -/
theorem star_stop (p : Cls) (g : Bool) (k : St → Option St) (caps : List (Nat × Str)) (ys : Str)
    (off : Nat) (prev : Option Char)
    (hy : ys = [] ∨ ∃ y t, ys = y :: t ∧ p.test y = false) :
    (Re.star p g).m k ⟨off, prev, ys, caps⟩ = k ⟨off, prev, ys, caps⟩ := by
  rcases hy with rfl | ⟨y, t, rfl, hy⟩
  · rfl
  · rw [m_star]; exact starM_stop_cons _ _ _ _ _ _ _ _ hy

theorem group_eq_capText (m : Match) (i : Nat) : m.group i = capText m.caps i := rfl

/-- The list pattern of `parseListAtLevel` at the head of a marker line of the
current level: the item body `b` runs up to the next marker run `s` (or to the
end of the text); the groups are the line, the body and the next marker run. -/
theorem list_match (m : Char) (hm : m ≠ nl) (level : Nat) (b : Str) (hb : b ≠ [])
    (hbm : ∀ c ∈ b, c ≠ m) (j : Nat) (rest : Str)
    (hrest : rest = [] ∨ ∃ y t, rest = y :: t ∧ y ≠ m) (hj : j = 0 → rest = []) :
    ∃ e, (listRe m level).m some
        (startSt (List.replicate level m ++ ' ' :: b ++ List.replicate j m ++ rest)) = some e ∧
      e.off = level + 1 + b.length + j ∧
      capText e.caps 1 = List.replicate level m ++ ' ' :: b ∧
      capText e.caps 3 = b ∧
      capText e.caps 4 = List.replicate j m := by
  have htest : ∀ x ∈ b, (Cls.non [m]).test x = true := by
    intro x hx
    have := hbm x hx
    simp [Cls.test, this]
  have hys : List.replicate j m ++ rest = [] ∨
      ∃ y t, List.replicate j m ++ rest = y :: t ∧ (Cls.non [m]).test y = false := by
    cases j with
    | zero => left; rw [hj rfl]; rfl
    | succ j => right; exact ⟨m, List.replicate j m ++ rest, by rw [List.replicate_succ]; rfl,
        by simp [Cls.test]⟩
  have hnls : List.replicate j m ++ rest = [] ∨
      ∃ y t, List.replicate j m ++ rest = y :: t ∧ (Cls.lit nl).test y = false := by
    cases j with
    | zero => left; rw [hj rfl]; rfl
    | succ j => right; exact ⟨m, List.replicate j m ++ rest, by rw [List.replicate_succ]; rfl,
        by simp [Cls.test, hm]⟩
  have hrm : rest = [] ∨ ∃ y t, rest = y :: t ∧ (Cls.lit m).test y = false := by
    rcases hrest with h | ⟨y, t, h, hy⟩
    · left; exact h
    · right; exact ⟨y, t, h, by simp [Cls.test, hy]⟩
  simp only [listRe, Re.cat, chr, m_seq, m_seq_k, m_empty, m_empty_k, m_opt, m_group, m_rep,
    startSt, List.append_assoc]
  rw [repM_replicate _ _ _ m (by simp [Cls.test])]
  simp only [List.cons_append, m_cls_cons, Cls.test, beq_self_eq_true, if_true, m_group]
  have t1 : ∀ z : Str, List.take (0 + level + 1 + b.length - 0)
      (List.replicate level m ++ ' ' :: (b ++ z)) = List.replicate level m ++ ' ' :: b := by
    intro z
    have := take_eq_of_length (0 + level + 1 + b.length - 0) (List.replicate level m ++ ' ' :: b) z
      (by simp; omega)
    simpa using this
  have t2 : ∀ z : Str, List.take (0 + level - 0)
      (List.replicate level m ++ z) = List.replicate level m := by
    intro z
    exact take_eq_of_length _ _ z (by simp)
  have t3 : ∀ z : Str, List.take (0 + level + 1 + b.length - (0 + level + 1)) (b ++ z) = b := by
    intro z
    exact take_eq_of_length _ _ z (by omega)
  cases j with
  | zero =>
    rw [hj rfl]
    refine ⟨⟨0 + level + 1 + b.length, lastOr (some ' ') b, [],
      [(1, List.replicate level m ++ ' ' :: b), (3, b), (2, List.replicate level m)]⟩, ?_, ?_, ?_, ?_, ?_⟩
    · apply orElse_of_some
      simp only [List.replicate_zero, List.nil_append]
      apply plus_greedy_run _ _ _ b [] _ _ _ hb htest (Or.inl rfl)
      dsimp only
      rw [star_stop _ _ _ _ _ _ _ (Or.inl rfl)]
      dsimp only
      rw [m_plus_nil, orElse_none, t1, t2, t3]
    · simp
    · simp [capText, List.lookup]
    · simp [capText, List.lookup]
    · simp [capText, List.lookup]
  | succ j =>
    refine ⟨⟨0 + level + 1 + b.length + (j + 1),
      lastOr (lastOr (some ' ') b) (List.replicate (j + 1) m), rest,
      [(4, List.replicate (j + 1) m), (1, List.replicate level m ++ ' ' :: b), (3, b),
        (2, List.replicate level m)]⟩, ?_, ?_, ?_, ?_, ?_⟩
    · apply orElse_of_some
      apply plus_greedy_run _ _ _ b _ _ _ _ hb htest hys
      dsimp only
      rw [star_stop _ _ _ _ _ _ _ hnls]
      dsimp only
      apply orElse_of_some
      apply plus_greedy_run _ _ _ (List.replicate (j + 1) m) rest _ _ _ (by simp)
        (by intro x hx; rw [List.eq_of_mem_replicate hx]; simp [Cls.test]) hrm
      dsimp only
      rw [t1, t2, t3]
      congr 3
      · simp
      · rw [take_eq_of_length _ _ rest (by omega)]
    · simp
    · simp [capText, List.lookup]
    · simp [capText, List.lookup]
    · simp [capText, List.lookup]

/-! ### Lists: one pass of the loop of `parseListAtLevel` -/

theorem plain_ne_nl (c : Char) (h : plainChar c = true) : c ≠ nl := by
  intro e; subst e; revert h; decide

theorem Trim_plain (w sep : Str) (hw : ∀ c ∈ w, plainChar c = true) (hne : w ≠ [])
    (hsep : sep = [] ∨ sep = [nl]) : Trim (w ++ sep) [nl] = w := by
  have hc : ∀ c ∈ w, List.contains [nl] c = false := by
    intro c hc
    have := plain_ne_nl c (hw c hc)
    simp [this]
  have h1 : (w ++ sep).dropWhile (List.contains [nl]) = w ++ sep := by
    cases w with
    | nil => exact absurd rfl hne
    | cons c cs =>
      rw [List.cons_append, List.dropWhile_cons_of_neg]
      rw [hc c (List.mem_cons_self _ _)]; simp
  have h2 : w.reverse.dropWhile (List.contains [nl]) = w.reverse := by
    cases h : w.reverse with
    | nil => rfl
    | cons y ys =>
      have hy : y ∈ w := by
        have : y ∈ w.reverse := by rw [h]; exact List.mem_cons_self _ _
        exact List.mem_reverse.mp this
      rw [List.dropWhile_cons_of_neg]
      rw [hc y hy]; simp
  unfold Trim
  rw [h1]
  rcases hsep with rfl | rfl
  · rw [List.append_nil, h2, List.reverse_reverse]
  · rw [List.reverse_append]
    have : ([nl] : Str).reverse ++ w.reverse = nl :: w.reverse := rfl
    rw [this, List.dropWhile_cons_of_pos (by simp), h2, List.reverse_reverse]

/-- The match of the list pattern at the head of a marker line of the current
level whose item is a plain word, followed by a run of `j` markers. -/
theorem list_line_find (m : Char) (hm : m = '*' ∨ m = '#')
    (level : Nat) (w sep : Str) (hw : ∀ c ∈ w, plainChar c = true) (hne : w ≠ [])
    (hsep : sep = [] ∨ sep = [nl]) (j : Nat) (rest : Str)
    (hrest : rest = [] ∨ ∃ y t, rest = y :: t ∧ y ≠ m) (hj : j = 0 → rest = [])
    (text : Str) (parsed : Nat)
    (ht : text.drop parsed =
      List.replicate level m ++ ' ' :: (w ++ sep) ++ List.replicate j m ++ rest) :
    ∃ mm, (listRe m level).find (text.drop parsed) = some mm ∧
      Trim (mm.group 3) [nl] = w ∧ (mm.group 4).length = j ∧
      (mm.group 1).length = level + 1 + (w ++ sep).length ∧ parsed < text.length := by
  have hmnl : m ≠ nl := by rcases hm with rfl | rfl <;> decide
  have hmp : plainChar m = false := by rcases hm with rfl | rfl <;> decide
  have hb : ∀ c ∈ w ++ sep, c ≠ m := by
    intro c hc
    rcases List.mem_append.mp hc with h | h
    · intro e; subst e; rw [hw c h] at hmp; cases hmp
    · rcases hsep with rfl | rfl
      · cases h
      · simp at h; subst h; exact Ne.symm hmnl
  obtain ⟨e, he, _, h1, h3, h4⟩ := list_match m hmnl level (w ++ sep) (by simp [hne]) hb j rest
    hrest hj
  have hfind := find_of_start _ _ _ he
  have hlen : parsed < text.length := by
    by_contra h
    rw [List.drop_of_length_le (by omega)] at ht
    simp at ht
  rw [ht]
  refine ⟨_, hfind, ?_, ?_, ?_, hlen⟩
  · rw [group_eq_capText]; dsimp only; rw [h3]; exact Trim_plain w sep hw hne hsep
  · rw [group_eq_capText]; dsimp only; rw [h4]; simp
  · rw [group_eq_capText]; dsimp only; rw [h1]; simp; omega

/-- A pass of the loop of `parseListAtLevel` on a line followed by a line of the
same level: the item is added and the loop goes on after the line. -/
theorem listLoop_same (pf : ParseFn) (tag : Str) (m : Char) (hm : m = '*' ∨ m = '#')
    (hpf : ∀ w : Str, (∀ x ∈ w, plainChar x = true) → w ≠ [] →
      pf w "li".toList ["phrase".toList] = some (liNode w, none))
    (level : Nat) (w sep : Str) (hw : ∀ c ∈ w, plainChar c = true) (hne : w ≠ [])
    (hsep : sep = [] ∨ sep = [nl]) (rest : Str)
    (hrest : rest = [] ∨ ∃ y t, rest = y :: t ∧ y ≠ m) (hj : level = 0 → rest = [])
    (fuel : Nat) (text : Str) (parsed : Nat) (d : D)
    (ht : text.drop parsed =
      List.replicate level m ++ ' ' :: (w ++ sep) ++ List.replicate level m ++ rest) :
    listLoop pf tag (fuel + 1) (listRe m level) text level parsed d =
      listLoop pf tag fuel (listRe m level) text level
        (parsed + (level + 1 + (w ++ sep).length)) (d.AddChild (liNode w)) := by
  obtain ⟨mm, hf, h3, h4, h1, hlen⟩ :=
    list_line_find m hm level w sep hw hne hsep level rest hrest hj text parsed ht
  rw [listLoop, if_pos hlen, hf]
  simp only [h3, h4, h1, hpf w hw hne, gt_iff_lt, lt_irrefl, if_false]

/-- A pass of the loop of `parseListAtLevel` on a line followed by a shorter
marker run, or by nothing: the item is added and the call returns. -/
theorem listLoop_up (pf : ParseFn) (tag : Str) (m : Char) (hm : m = '*' ∨ m = '#')
    (hpf : ∀ w : Str, (∀ x ∈ w, plainChar x = true) → w ≠ [] →
      pf w "li".toList ["phrase".toList] = some (liNode w, none))
    (level : Nat) (w sep : Str) (hw : ∀ c ∈ w, plainChar c = true) (hne : w ≠ [])
    (hsep : sep = [] ∨ sep = [nl]) (j : Nat) (hlt : j < level) (rest : Str)
    (hrest : rest = [] ∨ ∃ y t, rest = y :: t ∧ y ≠ m) (hj : j = 0 → rest = [])
    (fuel : Nat) (text : Str) (parsed : Nat) (d : D)
    (ht : text.drop parsed =
      List.replicate level m ++ ' ' :: (w ++ sep) ++ List.replicate j m ++ rest) :
    listLoop pf tag (fuel + 1) (listRe m level) text level parsed d =
      some (d.AddChild (liNode w), parsed + (level + 1 + (w ++ sep).length), none) := by
  obtain ⟨mm, hf, h3, h4, h1, hlen⟩ :=
    list_line_find m hm level w sep hw hne hsep j rest hrest hj text parsed ht
  rw [listLoop, if_pos hlen, hf]
  simp only [h3, h4, h1, hpf w hw hne, gt_iff_lt, if_neg (Nat.lt_asymm hlt), if_pos hlt]

/-- A pass of the loop of `parseListAtLevel` on a line followed by a longer
marker run: the nested call runs on the text after the line, its node becomes
the last child of the item, and the loop goes on where the nested call stopped. -/
theorem listLoop_down (pf : ParseFn) (tag : Str) (m : Char) (hm : m = '*' ∨ m = '#')
    (hpf : ∀ w : Str, (∀ x ∈ w, plainChar x = true) → w ≠ [] →
      pf w "li".toList ["phrase".toList] = some (liNode w, none))
    (level : Nat) (hlev : level < 1000)
    (w sep : Str) (hw : ∀ c ∈ w, plainChar c = true) (hne : w ≠ [])
    (hsep : sep = [] ∨ sep = [nl]) (j : Nat) (hlt : level < j) (rest : Str)
    (hrest : rest = [] ∨ ∃ y t, rest = y :: t ∧ y ≠ m)
    (fuel : Nat) (text : Str) (parsed : Nat) (d cc : D) (offset : Nat)
    (ht : text.drop parsed =
      List.replicate level m ++ ' ' :: (w ++ sep) ++ List.replicate j m ++ rest)
    (hn : listLoop pf tag fuel (listRe m (level + 1)) (List.replicate j m ++ rest)
      (level + 1) 0 (D.New tag) = some (cc, offset, none)) :
    listLoop pf tag (fuel + 1) (listRe m level) text level parsed d =
      listLoop pf tag fuel (listRe m level) text level
        (parsed + (level + 1 + (w ++ sep).length) + offset)
        (d.AddChild ((liNode w).AddChild cc)) := by
  obtain ⟨mm, hf, h3, h4, h1, hlen⟩ :=
    list_line_find m hm level w sep hw hne hsep j rest hrest (by omega) text parsed ht
  have hd : text.drop (parsed + (level + 1 + (w ++ sep).length)) = List.replicate j m ++ rest := by
    rw [← List.drop_drop, ht]
    have : List.replicate level m ++ ' ' :: (w ++ sep) ++ List.replicate j m ++ rest =
        (List.replicate level m ++ ' ' :: (w ++ sep)) ++ (List.replicate j m ++ rest) := by simp
    rw [this, List.drop_left' (by simp; omega)]
  have hen : listEnter (List.replicate j m ++ rest) (level + 1) = some (listRe m (level + 1)) := by
    obtain ⟨i, rfl⟩ : ∃ i, j = i + 1 := ⟨j - 1, by omega⟩
    rw [List.replicate_succ, List.cons_append, listEnter, if_neg (by omega)]
  rw [listLoop, if_pos hlen, hf]
  simp only [h3, h4, h1, hpf w hw hne, gt_iff_lt, if_pos hlt, hd, hen, hn]

theorem listLoop_done (pf : ParseFn) (tag : Str) (fuel : Nat) (re : Re) (text : Str)
    (level parsed : Nat) (d : D) (h : ¬ parsed < text.length) :
    listLoop pf tag fuel re text level parsed d = some (d, parsed, none) := by
  cases fuel <;> rw [listLoop, if_neg h]

/-! ### Lists: the loops of `parseListAtLevel` over a two-level list -/

theorem nlLines_nil : nlLines [] = [] := rfl
theorem nlLines_cons (l : Str) (ls : List Str) : nlLines (l :: ls) = nl :: l ++ nlLines ls := rfl
theorem nlLines_append (a b : List Str) : nlLines (a ++ b) = nlLines a ++ nlLines b := by
  simp [nlLines]

theorem intercalate_nl_cons (l : Str) (ls : List Str) :
    [nl].intercalate (l :: ls) = l ++ nlLines ls := by
  induction ls generalizing l with
  | nil => simp [List.intercalate, List.intersperse, nlLines]
  | cons l2 ls ih =>
    have e : [nl].intercalate (l :: l2 :: ls) = l ++ nl :: [nl].intercalate (l2 :: ls) := by
      simp [List.intercalate, List.intersperse]
    rw [e, ih, nlLines_cons]
    simp

/-- The nested call of `parseListAtLevel` on the lines of the second-level items
of one item: one `li` node per line, stopping before the next top-level marker. -/
theorem listLoop_subs (pf : ParseFn) (tag : Str) (m : Char) (hm : m = '*' ∨ m = '#')
    (hpf : ∀ w : Str, (∀ x ∈ w, plainChar x = true) → w ≠ [] →
      pf w "li".toList ["phrase".toList] = some (liNode w, none))
    (ss : List Str) (s : Str)
    (hs : ∀ w ∈ s :: ss, w ≠ [] ∧ ∀ c ∈ w, plainChar c = true)
    (tail : Str) (htail : tail = [] ∨ ∃ z, tail = nl :: m :: ' ' :: z)
    (pre : Str) (fuel : Nat) (hf : ss.length + 1 ≤ fuel) (t x : Str) (cs : List D) :
    listLoop pf tag fuel (listRe m 2)
        (pre ++ (subLine m s ++ nlLines (ss.map (subLine m)) ++ tail)) 2 pre.length (.mk t x cs) =
      some (.mk t x (cs ++ (s :: ss).map liNode),
        pre.length + (subLine m s ++ nlLines (ss.map (subLine m)) ++ tail.take 1).length,
        none) := by
  have hmsp : (' ' : Char) ≠ m := by rcases hm with rfl | rfl <;> decide
  induction ss generalizing s pre fuel cs with
  | nil =>
    obtain ⟨f, rfl⟩ : ∃ f, fuel = f + 1 := ⟨fuel - 1, by simp at hf; omega⟩
    have h1 := hs s (by simp)
    rcases htail with rfl | ⟨z, rfl⟩
    · rw [listLoop_up pf tag m hm hpf 2 s [] h1.2 h1.1 (Or.inl rfl) 0 (by omega) []
        (Or.inl rfl) (fun _ => rfl) f _ _ _ (by simp [subLine, nlLines, List.replicate])]
      simp [subLine, nlLines, D.AddChild]
      omega
    · rw [listLoop_up pf tag m hm hpf 2 s [nl] h1.2 h1.1 (Or.inr rfl) 1 (by omega) (' ' :: z)
        (Or.inr ⟨' ', z, rfl, hmsp⟩) (by simp) f _ _ _
        (by simp [subLine, nlLines, List.replicate])]
      simp [subLine, nlLines, D.AddChild]
      omega
  | cons s2 ss ih =>
    obtain ⟨f, rfl⟩ : ∃ f, fuel = f + 1 := ⟨fuel - 1, by simp at hf; omega⟩
    have h1 := hs s (by simp)
    rw [listLoop_same pf tag m hm hpf 2 s [nl] h1.2 h1.1 (Or.inr rfl)
      (' ' :: s2 ++ nlLines (ss.map (subLine m)) ++ tail)
      (Or.inr ⟨' ', _, rfl, hmsp⟩) (by simp) f _ _ _
      (by simp [subLine, nlLines, List.replicate])]
    have ht : pre ++ (subLine m s ++ nlLines ((s2 :: ss).map (subLine m)) ++ tail) =
        (pre ++ subLine m s ++ [nl]) ++
          (subLine m s2 ++ nlLines (ss.map (subLine m)) ++ tail) := by
      simp [nlLines_cons]
    have hl : pre.length + (2 + 1 + (s ++ [nl]).length) = (pre ++ subLine m s ++ [nl]).length := by
      simp [subLine]; omega
    rw [ht, hl]
    have := ih s2 (fun w hw => hs w (List.mem_cons_of_mem _ hw)) (pre ++ subLine m s ++ [nl]) f
      (by simp at hf; omega) (cs ++ [liNode s])
    simp only [D.AddChild]
    rw [this]
    simp [nlLines_cons, subLine]
    omega

theorem listLines_cons (m : Char) (it : Str × List Str) (more : List (Str × List Str)) :
    listLines m (it :: more) = (m :: ' ' :: it.1) :: (it.2.map (subLine m) ++ listLines m more) := rfl

/-- What follows the lines of an item: nothing, or a line feed and the marker
line of the next top-level item. -/
theorem nlLines_listLines (m : Char) (more : List (Str × List Str)) :
    nlLines (listLines m more) = [] ∨ ∃ z, nlLines (listLines m more) = nl :: m :: ' ' :: z := by
  cases more with
  | nil => left; rfl
  | cons it more => right; exact ⟨_, by rw [listLines_cons, nlLines_cons]; rfl⟩

/-- The nested call on the second-level lines of an item, from the head of the
text that follows the line of the item. -/
theorem listLoop_nested (pf : ParseFn) (tag : Str) (m : Char) (hm : m = '*' ∨ m = '#')
    (hpf : ∀ w : Str, (∀ x ∈ w, plainChar x = true) → w ≠ [] →
      pf w "li".toList ["phrase".toList] = some (liNode w, none))
    (ss : List Str) (s : Str)
    (hs : ∀ w ∈ s :: ss, w ≠ [] ∧ ∀ c ∈ w, plainChar c = true)
    (tail : Str) (htail : tail = [] ∨ ∃ z, tail = nl :: m :: ' ' :: z)
    (fuel : Nat) (hf : ss.length + 1 ≤ fuel) :
    listLoop pf tag fuel (listRe m (1 + 1))
        (List.replicate 2 m ++ (' ' :: s ++ nlLines (ss.map (subLine m)) ++ tail)) (1 + 1) 0
        (D.New tag) =
      some (.mk tag [] ((s :: ss).map liNode),
        (subLine m s ++ nlLines (ss.map (subLine m)) ++ tail.take 1).length, none) := by
  have := listLoop_subs pf tag m hm hpf ss s hs tail htail [] fuel hf tag [] []
  simp only [List.nil_append, List.length_nil, Nat.zero_add] at this
  have e : List.replicate 2 m ++ (' ' :: s ++ nlLines (ss.map (subLine m)) ++ tail) =
      subLine m s ++ nlLines (ss.map (subLine m)) ++ tail := by
    simp [subLine, List.replicate]
  rw [e]
  exact this

/-- The loop of `parseListAtLevel` at level 1 over the items of a two-level
list: one node per top-level item, the whole text consumed. -/
theorem listLoop_items (pf : ParseFn) (tag : Str) (m : Char) (hm : m = '*' ∨ m = '#')
    (hpf : ∀ w : Str, (∀ x ∈ w, plainChar x = true) → w ≠ [] →
      pf w "li".toList ["phrase".toList] = some (liNode w, none))
    (more : List (Str × List Str)) (a : Str) (subs : List Str)
    (hit : ∀ it ∈ (a, subs) :: more, (it.1 ≠ [] ∧ ∀ c ∈ it.1, plainChar c = true) ∧
      ∀ s ∈ it.2, s ≠ [] ∧ ∀ c ∈ s, plainChar c = true)
    (pre : Str) (fuel : Nat) (hf : (listLines m ((a, subs) :: more)).length ≤ fuel)
    (t x : Str) (cs : List D) :
    listLoop pf tag fuel (listRe m 1)
        (pre ++ (m :: ' ' :: a ++ nlLines (subs.map (subLine m) ++ listLines m more)))
        1 pre.length (.mk t x cs) =
      some (.mk t x (cs ++ ((a, subs) :: more).map (itemNode tag)),
        (pre ++ (m :: ' ' :: a ++ nlLines (subs.map (subLine m) ++ listLines m more))).length,
        none) := by
  have hmsp : (' ' : Char) ≠ m := by rcases hm with rfl | rfl <;> decide
  induction more generalizing a subs pre fuel cs with
  | nil =>
    obtain ⟨f, rfl⟩ : ∃ f, fuel = f + 1 := ⟨fuel - 1, by simp [listLines_cons] at hf; omega⟩
    have h1 := hit (a, subs) (by simp)
    cases subs with
    | nil =>
      rw [listLoop_up pf tag m hm hpf 1 a [] h1.1.2 h1.1.1 (Or.inl rfl) 0 (by omega) []
        (Or.inl rfl) (fun _ => rfl) f _ _ _
        (by simp [listLines, nlLines, List.replicate])]
      simp [listLines, nlLines, D.AddChild, itemNode, liNode]
      omega
    | cons s ss =>
      have hs : ∀ w ∈ s :: ss, w ≠ [] ∧ ∀ c ∈ w, plainChar c = true := h1.2
      have hn := listLoop_nested pf tag m hm hpf ss s hs [] (Or.inl rfl) f
        (by simp [listLines_cons] at hf; omega)
      rw [listLoop_down pf tag m hm hpf 1 (by omega) a [nl] h1.1.2 h1.1.1 (Or.inr rfl) 2
        (by omega) (' ' :: s ++ nlLines (ss.map (subLine m)) ++ [])
        (Or.inr ⟨' ', _, rfl, hmsp⟩) f _ _ _ _ _
        (by simp [listLines, nlLines_cons, nlLines_append, subLine, List.replicate]) hn]
      rw [listLoop_done _ _ _ _ _ _ _ _
        (by simp [listLines, nlLines_cons, nlLines_append, subLine]; omega)]
      simp [listLines, nlLines_cons, nlLines_append, subLine, D.AddChild, itemNode, liNode]
      omega
  | cons it2 more ih =>
    obtain ⟨f, rfl⟩ : ∃ f, fuel = f + 1 := ⟨fuel - 1, by simp [listLines_cons] at hf; omega⟩
    have h1 := hit (a, subs) (by simp)
    have hit2 : ∀ it ∈ (it2.1, it2.2) :: more, (it.1 ≠ [] ∧ ∀ c ∈ it.1, plainChar c = true) ∧
        ∀ s ∈ it.2, s ≠ [] ∧ ∀ c ∈ s, plainChar c = true :=
      fun it h => hit it (List.mem_cons_of_mem _ h)
    cases subs with
    | nil =>
      rw [listLoop_same pf tag m hm hpf 1 a [nl] h1.1.2 h1.1.1 (Or.inr rfl)
        (' ' :: it2.1 ++ nlLines (it2.2.map (subLine m) ++ listLines m more))
        (Or.inr ⟨' ', _, rfl, hmsp⟩) (by simp) f _ _ _
        (by simp [listLines_cons, nlLines_cons, List.replicate])]
      have ht : pre ++ (m :: ' ' :: a ++
          nlLines (([] : List Str).map (subLine m) ++ listLines m (it2 :: more))) =
          (pre ++ m :: ' ' :: a ++ [nl]) ++ (m :: ' ' :: it2.1 ++
            nlLines (it2.2.map (subLine m) ++ listLines m more)) := by
        simp [listLines_cons, nlLines_cons]
      have hl : pre.length + (1 + 1 + (a ++ [nl]).length) = (pre ++ m :: ' ' :: a ++ [nl]).length := by
        simp; omega
      rw [ht, hl]
      simp only [D.AddChild]
      rw [ih it2.1 it2.2 hit2 (pre ++ m :: ' ' :: a ++ [nl]) f
        (by simp [listLines_cons] at hf ⊢; omega) (cs ++ [liNode a])]
      simp [itemNode, liNode]
    | cons s ss =>
      have hs : ∀ w ∈ s :: ss, w ≠ [] ∧ ∀ c ∈ w, plainChar c = true := h1.2
      have hn := listLoop_nested pf tag m hm hpf ss s hs
        (nl :: m :: ' ' :: (it2.1 ++ nlLines (it2.2.map (subLine m) ++ listLines m more)))
        (Or.inr ⟨_, rfl⟩) f (by simp [listLines_cons] at hf; omega)
      rw [listLoop_down pf tag m hm hpf 1 (by omega) a [nl] h1.1.2 h1.1.1 (Or.inr rfl) 2
        (by omega) (' ' :: s ++ nlLines (ss.map (subLine m)) ++
          (nl :: m :: ' ' :: (it2.1 ++ nlLines (it2.2.map (subLine m) ++ listLines m more))))
        (Or.inr ⟨' ', _, rfl, hmsp⟩) f _ _ _ _ _
        (by simp [listLines_cons, nlLines_cons, nlLines_append, subLine, List.replicate]) hn]
      have ht : pre ++ (m :: ' ' :: a ++
          nlLines ((s :: ss).map (subLine m) ++ listLines m (it2 :: more))) =
          (pre ++ m :: ' ' :: a ++ [nl] ++ subLine m s ++ nlLines (ss.map (subLine m)) ++ [nl]) ++
            (m :: ' ' :: it2.1 ++ nlLines (it2.2.map (subLine m) ++ listLines m more)) := by
        simp [listLines_cons, nlLines_cons, nlLines_append, subLine]
      have hl : pre.length + (1 + 1 + (a ++ [nl]).length) +
          (subLine m s ++ nlLines (ss.map (subLine m)) ++
            (nl :: m :: ' ' :: (it2.1 ++ nlLines (it2.2.map (subLine m) ++ listLines m more))).take 1).length =
          (pre ++ m :: ' ' :: a ++ [nl] ++ subLine m s ++ nlLines (ss.map (subLine m)) ++ [nl]).length := by
        simp [subLine]; omega
      rw [ht, hl]
      simp only [D.AddChild, liNode]
      rw [ih it2.1 it2.2 hit2 _ f (by simp [listLines_cons] at hf ⊢; omega)]
      simp [itemNode, liNode]

/-! ### Lists: the list rules at the top of a block -/

/-- The list rules `(\*+ .*)\n*$` and `(\#+ .*)\n*$` at the head of `m r`, where the
text does not end with a line feed: group 1 is the whole text. -/
theorem list_rule_match (m : Char) (r : Str) (hr : r.getLast? ≠ some nl) :
    (Re.cat [.group 1 (Re.cat [.plus (.lit m) false, chr ' ', anyStar]), nlStar, .endText]).m some
        (startSt (m :: ' ' :: r ++ [nl])) =
      some ⟨r.length + 3, some nl, [], [(1, m :: ' ' :: r)]⟩ := by
  simp only [Re.cat, chr, m_seq, m_seq_k, m_empty, m_empty_k, m_group,
    anyStar, nlStar, startSt, m_endText_tail, List.cons_append, List.append_assoc,
    m_plus_cons, Cls.test, beq_self_eq_true, if_true]
  apply starM_lazy_stop
  simp only [m_cls_cons, Cls.test, beq_self_eq_true, if_true, m_star]
  rw [starM_lazy_run .any _ _ r [nl] _ _ (fun _ _ => rfl), starM_lazy_stop]
  · rw [nlStar_end_last]
    dsimp only
    have ht2 : List.take (0 + 1 + 1 + r.length - 0) (m :: ' ' :: (r ++ [nl])) = m :: ' ' :: r := by
      have := take_eq_of_length (0 + 1 + 1 + r.length - 0) (m :: ' ' :: r) [nl]
        (by simp only [List.length_cons]; omega)
      simpa using this
    rw [ht2, show 0 + 1 + 1 + r.length + 1 = r.length + 3 by omega]
  · intro a c b hab
    apply nlStar_end_none
    have h2 : (c :: b).getLast? ≠ some nl := by
      rw [← getLast?_suffix a c b, ← hab]; exact hr
    obtain ⟨x, hx, hxn⟩ := exists_ne_nl_of_getLast (c :: b) (by simp) h2
    exact ⟨x, by simp only [List.cons_append, List.mem_cons, List.mem_append] at hx ⊢; tauto,
      hxn⟩

theorem plain_getLast (w : Str) (hw : ∀ c ∈ w, plainChar c = true) :
    w.getLast? ≠ some nl := by
  intro e
  exact plain_ne_nl nl (hw nl (List.mem_of_getLast?_eq_some e)) rfl

theorem nlLines_getLast (ls : List Str) (hls : ∀ l ∈ ls, l ≠ [] ∧ l.getLast? ≠ some nl)
    (w : Str) (hw : w.getLast? ≠ some nl) : (w ++ nlLines ls).getLast? ≠ some nl := by
  induction ls generalizing w with
  | nil => simpa [nlLines] using hw
  | cons l ls ih =>
    have hl := hls l (by simp)
    have e : w ++ nlLines (l :: ls) = (w ++ [nl]) ++ (l ++ nlLines ls) := by
      simp [nlLines_cons]
    rw [e, getLast?_append_ne_nil _ _ (by simp [hl.1])]
    exact ih (fun x hx => hls x (List.mem_cons_of_mem _ hx)) l hl.2

/-- Every line of a two-level list of plain items is non-empty, free of line
feeds, and ends with a plain character. -/
theorem listLines_ok (m : Char) (hm : m = '*' ∨ m = '#') (items : List (Str × List Str))
    (hit : ∀ it ∈ items, (it.1 ≠ [] ∧ ∀ c ∈ it.1, plainChar c = true) ∧
      ∀ s ∈ it.2, s ≠ [] ∧ ∀ c ∈ s, plainChar c = true) :
    ∀ l ∈ listLines m items, (l ≠ [] ∧ nl ∉ l) ∧ l.getLast? ≠ some nl := by
  have hmnl : m ≠ nl := by rcases hm with rfl | rfl <;> decide
  have key : ∀ (p w : Str), w ≠ [] → (∀ c ∈ w, plainChar c = true) → nl ∉ p →
      ((p ++ w) ≠ [] ∧ nl ∉ (p ++ w)) ∧ (p ++ w).getLast? ≠ some nl := by
    intro p w hne hw hp
    refine ⟨⟨by simp [hne], ?_⟩, ?_⟩
    · intro h
      rcases List.mem_append.mp h with h | h
      · exact hp h
      · exact plain_ne_nl nl (hw nl h) rfl
    · rw [getLast?_append_ne_nil _ _ hne]; exact plain_getLast w hw
  intro l hl
  simp only [listLines, List.mem_flatten, List.mem_map] at hl
  obtain ⟨ls, ⟨it, hi, rfl⟩, hl⟩ := hl
  have h := hit it hi
  simp only [itemLines, List.mem_cons, List.mem_map] at hl
  rcases hl with rfl | ⟨s, hs, rfl⟩
  · exact key [m, ' '] it.1 h.1.1 h.1.2 (by simp [Ne.symm hmnl]; decide)
  · exact key [m, m, ' '] s (h.2 s hs).1 (h.2 s hs).2 (by simp [Ne.symm hmnl]; decide)

/-! ### Lists: the Driver on a two-level list -/

theorem listText_cons (m : Char) (it : Str × List Str) (more : List (Str × List Str)) :
    listText m (it :: more) =
      m :: ' ' :: (it.1 ++ nlLines (it.2.map (subLine m) ++ listLines m more)) := by
  rw [listText, listLines_cons, intercalate_nl_cons]; rfl

/-- The Driver on the text of a two-level list of plain items, at the top of a
block: one list child holding a node per top-level item. -/
theorem parseN_list (n : Nat) (m : Char) (hm : m = '*' ∨ m = '#')
    (items : List (Str × List Str)) (hne : items ≠ [])
    (hit : ∀ it ∈ items, (it.1 ≠ [] ∧ ∀ c ∈ it.1, plainChar c = true) ∧
      ∀ s ∈ it.2, s ≠ [] ∧ ∀ c ∈ s, plainChar c = true)
    (hn : (listLines m items).length ≤ n) (tag : Str) :
    parseN (n + 1) (listText m items) tag topCategories =
      some (.mk tag [] [.mk (listTag m) [] (items.map (itemNode (listTag m)))], none) := by
  obtain ⟨it, more, rfl⟩ : ∃ it more, items = it :: more := by
    cases items with
    | nil => exact absurd rfl hne
    | cons it more => exact ⟨it, more, rfl⟩
  obtain ⟨f, rfl⟩ : ∃ f, n = f + 1 := ⟨n - 1, by simp [listLines_cons] at hn; omega⟩
  have hok := listLines_ok m hm (it :: more) hit
  have hlast : (it.1 ++ nlLines (it.2.map (subLine m) ++ listLines m more)).getLast? ≠ some nl := by
    apply nlLines_getLast
    · intro l hl
      have := hok l (by rw [listLines_cons]; exact List.mem_cons_of_mem _ hl)
      exact ⟨this.1.1, this.2⟩
    · exact plain_getLast _ (hit it (by simp)).1.2
  have hr := listText_cons m it more
  have hlen : 0 < (listText m (it :: more)).length := by rw [hr]; simp
  have hmatch := list_rule_match m _ hlast
  rw [← hr] at hmatch
  have hpf : ∀ w : Str, (∀ x ∈ w, plainChar x = true) → w ≠ [] →
      parseN (f + 1) w "li".toList ["phrase".toList] = some (liNode w, none) :=
    fun w h1 h2 => parseN_plain f w _ h1 h2
  have hloop := listLoop_items (parseN (f + 1)) (listTag m) m hm hpf more it.1 it.2 hit []
    (f + 1) hn (listTag m) [] []
  simp only [List.nil_append, List.length_nil] at hloop
  have hr2 : m :: ' ' :: it.1 ++ nlLines (it.2.map (subLine m) ++ listLines m more) =
      listText m (it :: more) := by rw [hr]; rfl
  rw [hr2] at hloop
  have hsub : subParse (parseN (f + 1)) (f + 1) .parseList (listText m (it :: more)) (listTag m) =
      some (.mk (listTag m) [] ((it :: more).map (itemNode (listTag m))), none) := by
    simp only [subParse, parseList, parseListAtLevel]
    have hen : listEnter (listText m (it :: more)) 1 = some (listRe m 1) := by
      rw [hr]; rfl
    rw [hen]
    dsimp only
    rw [D.New, hloop]
  rw [parseN_succ_eq]
  rcases hm with rfl | rfl
  · have hg : Match.group ⟨0,
        (it.1 ++ nlLines (it.2.map (subLine '*') ++ listLines '*' more)).length + 3,
        List.take ((it.1 ++ nlLines (it.2.map (subLine '*') ++ listLines '*' more)).length + 3)
          (List.drop 0 (listText '*' (it :: more)) ++ [nl]),
        [(1, listText '*' (it :: more))]⟩ 1 = listText '*' (it :: more) := rfl
    have hl : (List.take
        ((it.1 ++ nlLines (it.2.map (subLine '*') ++ listLines '*' more)).length + 3)
        (List.drop 0 (listText '*' (it :: more)) ++ [nl])).length =
        (it.1 ++ nlLines (it.2.map (subLine '*') ++ listLines '*' more)).length + 3 := by
      rw [hr]; simp; omega
    have htag : listTag '*' = "ul".toList := rfl
    rw [htag] at hsub
    rw [parseLoop_zero _ _ _ topCategories (f + 1) 0 _ 2
      ⟨Re.cat [.group 1 (Re.cat [.plus (.lit '*') false, chr ' ', anyStar]), nlStar, .endText],
        "ul".toList, "list".toList, [], 0, some .parseList⟩ _ hlen rfl (by decide) hmatch
      (by
        rw [List.drop_zero, hr]
        exact no_match_of _ _ okAll '*' _ (by decide!) (fun _ _ => rfl)),
      addMatched_custom _ _ _ _ _ .parseList rfl (by decide)]
    dsimp only
    rw [hg, hl, hsub]
    dsimp only
    rw [if_neg (by omega), parseLoop_done _ _ _ _ _ _ _ (by rw [hr]; simp; omega)]
    all_goals rfl
  · have hg : Match.group ⟨0,
        (it.1 ++ nlLines (it.2.map (subLine '#') ++ listLines '#' more)).length + 3,
        List.take ((it.1 ++ nlLines (it.2.map (subLine '#') ++ listLines '#' more)).length + 3)
          (List.drop 0 (listText '#' (it :: more)) ++ [nl]),
        [(1, listText '#' (it :: more))]⟩ 1 = listText '#' (it :: more) := rfl
    have hl : (List.take
        ((it.1 ++ nlLines (it.2.map (subLine '#') ++ listLines '#' more)).length + 3)
        (List.drop 0 (listText '#' (it :: more)) ++ [nl])).length =
        (it.1 ++ nlLines (it.2.map (subLine '#') ++ listLines '#' more)).length + 3 := by
      rw [hr]; simp; omega
    have htag : listTag '#' = "ol".toList := rfl
    rw [htag] at hsub
    rw [parseLoop_zero _ _ _ topCategories (f + 1) 0 _ 3
      ⟨Re.cat [.group 1 (Re.cat [.plus (.lit '#') false, chr ' ', anyStar]), nlStar, .endText],
        "ol".toList, "list".toList, [], 0, some .parseList⟩ _ hlen rfl (by decide) hmatch
      (by
        rw [List.drop_zero, hr]
        exact no_match_of _ _ okAll '#' _ (by decide!) (fun _ _ => rfl)),
      addMatched_custom _ _ _ _ _ .parseList rfl (by decide)]
    dsimp only
    rw [hg, hl, hsub]
    dsimp only
    rw [if_neg (by omega), parseLoop_done _ _ _ _ _ _ _ (by rw [hr]; simp; omega)]
    all_goals rfl

/-! ### Lists: rendering, and claim C6 -/

theorem concatHtml_map_of {α : Type} (xs : List α) (g : α → D) (h : α → Str)
    (hx : ∀ x ∈ xs, (g x).ToHtml = some (h x)) :
    concatHtml ((xs.map g).map D.ToHtml) = some (xs.map h).flatten := by
  induction xs with
  | nil => rfl
  | cons x xs ih =>
    rw [List.map_cons, List.map_cons, hx x (List.mem_cons_self _ _), concatHtml,
      ih (fun u hu => hx u (List.mem_cons_of_mem _ hu))]
    rfl

theorem listTag_ok (m : Char) : '%' ∉ listTag m ∧ '+' ∉ listTag m ∧ listTag m ≠ [] := by
  unfold listTag
  split <;> decide

theorem liNode_html (w : Str) (hw : w ≠ [] ∧ ∀ x ∈ w, plainChar x = true) :
    (liNode w).ToHtml = some (liHtml w) := by
  have hleaf : (D.leaf w).ToHtml = some w := by rw [ToHtml_leaf, EscapeString_plain w hw.2]
  rw [liNode, ToHtml_one "li".toList [] _ w (by decide) (by decide) (by decide) hleaf hw.1]
  simp [liHtml]

theorem itemNode_html (tag : Str) (h1 : '%' ∉ tag) (h2 : '+' ∉ tag) (hne : tag ≠ [])
    (it : Str × List Str)
    (hit : (it.1 ≠ [] ∧ ∀ c ∈ it.1, plainChar c = true) ∧
      ∀ s ∈ it.2, s ≠ [] ∧ ∀ c ∈ s, plainChar c = true) :
    (itemNode tag it).ToHtml = some (itemHtml tag it) := by
  have hleaf : (D.leaf it.1).ToHtml = some it.1 := by
    rw [ToHtml_leaf, EscapeString_plain it.1 hit.1.2]
  have hc : concatHtml ((D.leaf it.1 ::
      (if it.2.isEmpty then [] else [D.mk tag [] (it.2.map liNode)])).map D.ToHtml) =
      some (it.1 ++ nestedHtml tag it.2) := by
    cases hs : it.2 with
    | nil => simp [concatHtml, hleaf, nestedHtml, EscapeString_plain it.1 hit.1.2]
    | cons s ss =>
      have hsub : (D.mk tag [] ((s :: ss).map liNode)).ToHtml =
          some ('<' :: tag ++ '>' :: ((s :: ss).map liHtml).flatten ++
            ('<' :: '/' :: tag ++ ['>'])) := by
        apply ToHtml_children tag [] _ _ h1 h2 hne (by simp)
        · apply concatHtml_map_of
          intro x hx
          exact liNode_html x (hit.2 x (by rw [hs]; exact hx))
        · simp [liHtml]
      rw [List.map_cons] at hsub
      simp [concatHtml, hleaf, nestedHtml, hsub, EscapeString_plain it.1 hit.1.2]
  rw [itemNode, ToHtml_children "li".toList [] _ _ (by decide) (by decide) (by decide)
    (by simp) hc (by simp [hit.1.1])]
  simp [itemHtml]

theorem listNode_html (tag : Str) (h1 : '%' ∉ tag) (h2 : '+' ∉ tag) (hne : tag ≠ [])
    (items : List (Str × List Str)) (hi : items ≠ [])
    (hit : ∀ it ∈ items, (it.1 ≠ [] ∧ ∀ c ∈ it.1, plainChar c = true) ∧
      ∀ s ∈ it.2, s ≠ [] ∧ ∀ c ∈ s, plainChar c = true) :
    (D.mk tag [] (items.map (itemNode tag))).ToHtml = some (listHtml tag items) := by
  obtain ⟨it, more, rfl⟩ : ∃ it more, items = it :: more := by
    cases items with
    | nil => exact absurd rfl hi
    | cons it more => exact ⟨it, more, rfl⟩
  rw [ToHtml_children tag [] _ _ h1 h2 hne (by simp)
    (concatHtml_map_of _ _ _ (fun x hx => itemNode_html tag h1 h2 hne x (hit x hx)))
    (by simp [itemHtml])]
  simp [listHtml]

/-- C6: for a marker `m` among `*` and `#` with list tag `T` (`ul` for `*`, `ol`
for `#`) and `n >= 1` top-level items `a_i`, each with `k_i >= 0` second-level
items `s_ij`, all of them non-empty strings of ASCII letters, digits, dots and
spaces, the text of the lines `m a_i` and `mm s_ij` in that order, joined by
single line breaks, converts to `<T>`, then for each `i` in order `<li>a_i`, the
nested `<T><li>s_i1</li>...<li>s_ik</li></T>` exactly when `k_i > 0`, and
`</li>`, then `</T>`; any fuel above the number of lines plus one gives this
result, with no error. -/
theorem two_level_list (k : Nat) (m : Char) (hm : m = '*' ∨ m = '#')
    (items : List (Str × List Str)) (hne : items ≠ [])
    (hit : ∀ it ∈ items, (it.1 ≠ [] ∧ ∀ c ∈ it.1, plainChar c = true) ∧
      ∀ s ∈ it.2, s ≠ [] ∧ ∀ c ∈ s, plainChar c = true) :
    TextileToHtml (k + (listLines m items).length + 1) (listText m items) =
      some (listHtml (listTag m) items, none) := by
  have hs : Split (listText m items) [nl, nl] = [listText m items] := by
    simp only [Split, List.isEmpty_cons, Bool.false_eq_true, if_false]
    apply splitGo_lines
    intro l hl
    exact (listLines_ok m hm items hit l hl).1
  have htag := listTag_ok m
  refine TextileToHtml_single _ _ _ _ hs
    (parseN_list (k + (listLines m items).length) m hm items hne hit (by omega) []) ?_
  exact ToHtml_root_one _ _ _ (listNode_html _ htag.1 htag.2.1 htag.2.2 items hne hit)

theorem two_level_list_witness :
    ('*' = '*' ∨ '*' = '#') ∧
    ([("a b".toList, ["c.1".toList, "d".toList]), ("e".toList, [])] :
      List (Str × List Str)) ≠ [] ∧
    (∀ it ∈ ([("a b".toList, ["c.1".toList, "d".toList]), ("e".toList, [])] :
        List (Str × List Str)),
      (it.1 ≠ [] ∧ ∀ c ∈ it.1, plainChar c = true) ∧
        ∀ s ∈ it.2, s ≠ [] ∧ ∀ c ∈ s, plainChar c = true) ∧
    TextileToHtml (0 + (listLines '*'
        [("a b".toList, ["c.1".toList, "d".toList]), ("e".toList, [])]).length + 1)
      (listText '*' [("a b".toList, ["c.1".toList, "d".toList]), ("e".toList, [])]) =
      some (listHtml (listTag '*')
        [("a b".toList, ["c.1".toList, "d".toList]), ("e".toList, [])], none) :=
  ⟨Or.inl rfl, by decide, by decide,
    two_level_list 0 '*' (Or.inl rfl)
      [("a b".toList, ["c.1".toList, "d".toList]), ("e".toList, [])] (by decide) (by decide)⟩

/-! ### The texts and renderings of the claims on concrete inputs -/

theorem tableText_example :
    tableText [["a".toList, "b1".toList], ["c.2".toList]] = "|a|b1|\n|c.2|".toList ∧
    tableHtml [["a".toList, "b1".toList], ["c.2".toList]] =
      "<table><tr><td>a</td><td>b1</td></tr><tr><td>c.2</td></tr></table>".toList := by
  decide

theorem dlText_example :
    dlText [("t1".toList, "d1".toList), ("t2".toList, "d2".toList)] =
      "- t1 := d1\n- t2 := d2".toList ∧
    dlHtml [("t1".toList, "d1".toList), ("t2".toList, "d2".toList)] =
      "<dl><dt>t1</dt><dd>d1</dd><dt>t2</dt><dd>d2</dd></dl>".toList := by
  decide

theorem listText_example :
    listText '#' [("a b".toList, ["c.1".toList, "d".toList]), ("e".toList, [])] =
      "# a b\n## c.1\n## d\n# e".toList ∧
    listHtml (listTag '#') [("a b".toList, ["c.1".toList, "d".toList]), ("e".toList, [])] =
      "<ol><li>a b<ol><li>c.1</li><li>d</li></ol></li><li>e</li></ol>".toList := by
  decide

/-! ### Blocks kept as one literal (claim C12) -/

theorem hasBlankLine_cons (c : Char) (t : Str) (h : hasBlankLine (c :: t) = false) :
    hasBlankLine t = false := by
  cases t with
  | nil => rfl
  | cons b rest =>
    rw [hasBlankLine] at h
    simp only [Bool.or_eq_false_iff] at h
    exact h.2

theorem hasBlankLine_cons_ne (c : Char) (t : Str) (hc : c ≠ nl) :
    hasBlankLine (c :: t) = hasBlankLine t := by
  cases t with
  | nil => rfl
  | cons b rest =>
    rw [hasBlankLine]
    simp [hc]

/-- A text without blank line is one block: `strings.Split` at blank lines
returns the text itself. -/
theorem splitGo_no_blank (t : Str) (h : hasBlankLine t = false) :
    splitGo [nl, nl] 0 t = [t] := by
  induction t with
  | nil => rfl
  | cons c cs ih =>
    have ih2 := ih (hasBlankLine_cons c cs h)
    have hp : List.isPrefixOf [nl, nl] (c :: cs) = false := by
      cases cs with
      | nil => simp [List.isPrefixOf]
      | cons b rest =>
        rw [hasBlankLine] at h
        simp only [Bool.or_eq_false_iff] at h
        have h1 := h.1
        by_cases hc : c = nl
        · by_cases hb : b = nl
          · subst hc; subst hb; simp at h1
          · simp [List.isPrefixOf, Ne.symm hb]
        · simp [List.isPrefixOf, Ne.symm hc]
    rw [splitGo, hp]
    simp [ih2]

theorem Split_no_blank (t : Str) (h : hasBlankLine t = false) : Split t [nl, nl] = [t] := by
  simp only [Split, List.isEmpty_cons, Bool.false_eq_true, if_false]
  exact splitGo_no_blank t h

/-- No rule is a candidate when no category is allowed. -/
theorem candidate_no_category (r : Str) (q : Parser) : candidate r [] q = none := rfl

/-- The Driver on a non-empty text with no allowed category: one literal child. -/
theorem parseN_leaf (n : Nat) (t tag : Str) (hne : t ≠ []) :
    parseN (n + 1) t tag [] = some (.mk tag [] [D.leaf t], none) := by
  have hlen : 0 < t.length := List.length_pos.mpr hne
  rw [parseN_succ_eq, parseLoop_literal _ _ _ _ _ _ _ hlen (fun q _ => candidate_no_category _ q)]
  rfl

/-- The rule `bc. (.*)\n*$` at the head of `bc. t`, where `t` does not end with a
line feed: group 1 is `t`. -/
theorem bc_match (t : Str) (h : t.getLast? ≠ some nl) :
    (Re.cat [str "bc", .cls .any, chr ' ', .group 1 anyStar, nlStar, .endText]).m some
        (startSt ("bc. ".toList ++ t ++ [nl])) =
      some ⟨t.length + 5, some nl, [], [(1, t)]⟩ := by
  simp only [Re.cat, str, chr, Re.lits, String.toList, m_seq, m_seq_k, m_empty, m_empty_k,
    m_group, anyStar, nlStar, m_star, startSt, m_endText_tail, List.cons_append,
    List.append_assoc, List.nil_append, m_cls_cons, Cls.test, beq_self_eq_true, if_true]
  rw [starM_lazy_run .any _ _ t [nl] _ _ (fun _ _ => rfl), starM_lazy_stop]
  · rw [nlStar_end_last]
    dsimp only
    rw [take_eq_of_length _ t [nl] (by omega),
      show 0 + 1 + 1 + 1 + 1 + t.length + 1 = t.length + 5 by omega]
  · intro a c b hab
    apply nlStar_end_none
    have h2 : (c :: b).getLast? ≠ some nl := by
      rw [← getLast?_suffix a c b, ← hab]; exact h
    obtain ⟨x, hx, hxn⟩ := exists_ne_nl_of_getLast (c :: b) (by simp) h2
    exact ⟨x, by simp only [List.cons_append, List.mem_cons, List.mem_append] at hx ⊢; tauto,
      hxn⟩

/-- The rule `pre. (.*)\n*$` at the head of `pre. t`, where `t` does not end with
a line feed: group 1 is `t`. -/
theorem pre_match (t : Str) (h : t.getLast? ≠ some nl) :
    (Re.cat [str "pre", .cls .any, chr ' ', .group 1 anyStar, nlStar, .endText]).m some
        (startSt ("pre. ".toList ++ t ++ [nl])) =
      some ⟨t.length + 6, some nl, [], [(1, t)]⟩ := by
  simp only [Re.cat, str, chr, Re.lits, String.toList, m_seq, m_seq_k, m_empty, m_empty_k,
    m_group, anyStar, nlStar, m_star, startSt, m_endText_tail, List.cons_append,
    List.append_assoc, List.nil_append, m_cls_cons, Cls.test, beq_self_eq_true, if_true]
  rw [starM_lazy_run .any _ _ t [nl] _ _ (fun _ _ => rfl), starM_lazy_stop]
  · rw [nlStar_end_last]
    dsimp only
    rw [take_eq_of_length _ t [nl] (by omega),
      show 0 + 1 + 1 + 1 + 1 + 1 + t.length + 1 = t.length + 6 by omega]
  · intro a c b hab
    apply nlStar_end_none
    have h2 : (c :: b).getLast? ≠ some nl := by
      rw [← getLast?_suffix a c b, ← hab]; exact h
    obtain ⟨x, hx, hxn⟩ := exists_ne_nl_of_getLast (c :: b) (by simp) h2
    exact ⟨x, by simp only [List.cons_append, List.mem_cons, List.mem_append] at hx ⊢; tauto,
      hxn⟩

theorem escapeChar_ne_nil (c : Char) : escapeChar c ≠ [] := by
  unfold escapeChar
  repeat' split
  all_goals simp

theorem EscapeString_ne_nil (t : Str) (h : t ≠ []) : EscapeString t ≠ [] := by
  cases t with
  | nil => exact absurd rfl h
  | cons c cs =>
    rw [EscapeString]
    intro e
    exact escapeChar_ne_nil c (List.append_eq_nil.mp e).1

/-- Rendering of a node with names free of `%` and `+` around one literal child. -/
theorem ToHtml_names_leaf (names : List Str) (x t : Str)
    (h : ∀ n ∈ names, '%' ∉ n ∧ '+' ∉ n) :
    (D.mk (['+'].intercalate names) x [D.leaf t]).ToHtml =
      some (wrapSpec names (EscapeString t)) := by
  rw [ToHtml_eq, innerSpec]
  simp only [List.isEmpty_cons, Bool.false_eq_true, if_false, List.map, concatHtml, ToHtml_leaf,
    List.append_nil]
  exact wrapTag_eq names _ h

/-- The Driver on the block `bc. t`: one `pre+code` child holding `t` as a literal. -/
theorem parseN_bc (n : Nat) (t tag : Str) (hne : t ≠ []) (hl : t.getLast? ≠ some nl) :
    parseN (n + 2) ("bc. ".toList ++ t) tag topCategories =
      some (.mk tag [] [.mk "pre+code".toList [] [D.leaf t]], none) := by
  have hlen : 0 < ("bc. ".toList ++ t).length := by simp
  rw [parseN_succ_eq, parseLoop_zero _ _ _ topCategories (n + 1) 0 _ 9
    ⟨Re.cat [str "bc", .cls .any, chr ' ', .group 1 anyStar, nlStar, .endText],
      "pre+code".toList, "block".toList, [], 0, none⟩ _ hlen rfl (by decide) (bc_match t hl)
    (no_match_of _ _ okAll 'b' _ (by decide!) (fun _ _ => rfl)),
    addMatched_generic _ _ _ _ _ rfl (by decide)]
  have hg : Match.group ⟨0, t.length + 5,
      List.take (t.length + 5) (List.drop 0 ("bc. ".toList ++ t) ++ [nl]), [(1, t)]⟩ 1 = t := rfl
  have hl2 : (List.take (t.length + 5) (List.drop 0 ("bc. ".toList ++ t) ++ [nl])).length =
      t.length + 5 := by simp
  dsimp only
  rw [hg, hl2, parseN_leaf n t _ hne]
  dsimp only
  rw [if_neg (by omega), parseLoop_done _ _ _ _ _ _ _ (by simp; omega)]
  all_goals rfl

/-- The Driver on the block `pre. t`: one `pre` child holding `t` as a literal. -/
theorem parseN_pre (n : Nat) (t tag : Str) (hne : t ≠ []) (hl : t.getLast? ≠ some nl) :
    parseN (n + 2) ("pre. ".toList ++ t) tag topCategories =
      some (.mk tag [] [.mk "pre".toList [] [D.leaf t]], none) := by
  have hlen : 0 < ("pre. ".toList ++ t).length := by simp
  have hno : ∀ q ∈ parsers.take 10, canAddChild q.Typ topCategories = true →
      q.Re.m some (startSt (List.drop 0 ("pre. ".toList ++ t) ++ [nl])) = none := by
    intro q hq hA
    have hq2 : q ∈ (parsers.take 1) ++ ((parsers.take 10).drop 1) := by
      rw [show parsers.take 1 ++ (parsers.take 10).drop 1 = parsers.take 10 from rfl]
      exact hq
    rcases List.mem_append.mp hq2 with h | h
    · have e : q = ⟨Re.cat [chr 'p', .cls .any, chr ' ', .group 1 anyStar, nlStar, .endText],
          "p".toList, "block".toList, ["phrase".toList], 0, none⟩ := by
        simpa [parsers] using h
      subst e
      simp [Re.cat, chr, m_seq, m_cls_cons, Cls.test, startSt]
    · exact no_match_of _ _ okAll 'p' _ (by decide!) (fun _ _ => rfl) q h hA
  rw [parseN_succ_eq, parseLoop_zero _ _ _ topCategories (n + 1) 0 _ 10
    ⟨Re.cat [str "pre", .cls .any, chr ' ', .group 1 anyStar, nlStar, .endText],
      "pre".toList, "block".toList, [], 0, none⟩ _ hlen rfl (by decide) (pre_match t hl) hno,
    addMatched_generic _ _ _ _ _ rfl (by decide)]
  have hg : Match.group ⟨0, t.length + 6,
      List.take (t.length + 6) (List.drop 0 ("pre. ".toList ++ t) ++ [nl]), [(1, t)]⟩ 1 = t := rfl
  have hl2 : (List.take (t.length + 6) (List.drop 0 ("pre. ".toList ++ t) ++ [nl])).length =
      t.length + 6 := by simp
  dsimp only
  rw [hg, hl2, parseN_leaf n t _ hne]
  dsimp only
  rw [if_neg (by omega), parseLoop_done _ _ _ _ _ _ _ (by simp; omega)]
  all_goals rfl

theorem hasBlankLine_after (p t : Str) (hp : nl ∉ p) (h : hasBlankLine t = false) :
    hasBlankLine (p ++ t) = false := by
  induction p with
  | nil => exact h
  | cons c cs ih =>
    rw [List.cons_append, hasBlankLine_cons_ne c _ (fun e => hp (by simp [e]))]
    exact ih (fun e => hp (List.mem_cons_of_mem _ e))

/-- C12: for every non-empty text `t` without blank line that does not end with a
line break, `bc. t` converts to `<pre><code>E(t)</code></pre>` and `pre. t` to
`<pre>E(t)</pre>`, where `E` is HTML escaping: the captured text is one literal
leaf, whatever markup or line break it holds.  Any fuel of at least 2 gives
these results. -/
theorem preformatted_blocks (k : Nat) (t : Str) (hne : t ≠ []) (hb : hasBlankLine t = false)
    (hl : t.getLast? ≠ some nl) :
    TextileToHtml (k + 2) ("bc. ".toList ++ t) =
      some ("<pre><code>".toList ++ EscapeString t ++ "</code></pre>".toList, none) ∧
    TextileToHtml (k + 2) ("pre. ".toList ++ t) =
      some ("<pre>".toList ++ EscapeString t ++ "</pre>".toList, none) := by
  have he := EscapeString_ne_nil t hne
  constructor
  · refine TextileToHtml_single _ _ _ _
      (Split_no_blank _ (hasBlankLine_after _ t (by decide) hb)) (parseN_bc k t [] hne hl) ?_
    refine ToHtml_root_one _ _ _ ?_
    have := ToHtml_names_leaf ["pre".toList, "code".toList] [] t (by decide)
    rw [show ['+'].intercalate ["pre".toList, "code".toList] = "pre+code".toList by decide] at this
    rw [this]
    simp [wrapSpec, nestSpec, he, List.intercalate]
  · refine TextileToHtml_single _ _ _ _
      (Split_no_blank _ (hasBlankLine_after _ t (by decide) hb)) (parseN_pre k t [] hne hl) ?_
    refine ToHtml_root_one _ _ _ ?_
    have := ToHtml_names_leaf ["pre".toList] [] t (by decide)
    rw [show ['+'].intercalate ["pre".toList] = "pre".toList by decide] at this
    rw [this]
    simp [wrapSpec, nestSpec, he, List.intercalate]

theorem preformatted_blocks_witness :
    "a *b*\n<c> _d_".toList ≠ [] ∧ hasBlankLine "a *b*\n<c> _d_".toList = false ∧
    "a *b*\n<c> _d_".toList.getLast? ≠ some nl ∧
    (TextileToHtml (0 + 2) ("bc. ".toList ++ "a *b*\n<c> _d_".toList) =
      some ("<pre><code>".toList ++ EscapeString "a *b*\n<c> _d_".toList ++
        "</code></pre>".toList, none) ∧
    TextileToHtml (0 + 2) ("pre. ".toList ++ "a *b*\n<c> _d_".toList) =
      some ("<pre>".toList ++ EscapeString "a *b*\n<c> _d_".toList ++ "</pre>".toList, none)) :=
  ⟨by decide, by decide, by decide,
    preformatted_blocks 0 "a *b*\n<c> _d_".toList (by decide) (by decide) (by decide)⟩

/-! ### The comment block (claim C13) -/

/-- The comment rule `###. .*$` at the head of `###. t`: the match runs to the end
of the text, whatever `t` is. -/
theorem comment_match (t : Str) :
    (Re.cat [str "###", .cls .any, chr ' ', anyStar, .endText]).m some
        (startSt ("###. ".toList ++ t ++ [nl])) =
      some ⟨t.length + 6, some nl, [], []⟩ := by
  simp only [Re.cat, str, chr, Re.lits, String.toList, m_seq, m_seq_k, m_empty, m_empty_k,
    anyStar, m_star, startSt, m_endText_tail, List.cons_append,
    List.append_assoc, List.nil_append, m_cls_cons, Cls.test, beq_self_eq_true, if_true]
  rw [← List.append_nil (t ++ [nl]),
    starM_lazy_run .any _ _ (t ++ [nl]) [] _ _ (fun _ _ => rfl), starM_lazy_stop]
  · rw [m_endText]
    simp [lastOr_append_singleton]
    omega
  · intro a c b _
    rw [m_endText]
    simp

/-- The Driver on the block `###. t`: one child without tag, text or child. -/
theorem parseN_comment (n : Nat) (t tag : Str) :
    parseN (n + 1) ("###. ".toList ++ t) tag topCategories =
      some (.mk tag [] [.mk [] [] []], none) := by
  have hlen : 0 < ("###. ".toList ++ t).length := by simp
  have hno : ∀ q ∈ parsers.take 11, canAddChild q.Typ topCategories = true →
      q.Re.m some (startSt (List.drop 0 ("###. ".toList ++ t) ++ [nl])) = none := by
    intro q hq hA
    have hq2 : q ∈ (parsers.take 3) ++ ((parsers.take 4).drop 3 ++ (parsers.take 11).drop 4) := by
      rw [show parsers.take 3 ++ ((parsers.take 4).drop 3 ++ (parsers.take 11).drop 4) =
        parsers.take 11 from rfl]
      exact hq
    rcases List.mem_append.mp hq2 with h | h
    · exact no_match_of _ _ okAll '#' _ (by decide!) (fun _ _ => rfl) q h hA
    · rcases List.mem_append.mp h with h | h
      · have e : q = ⟨Re.cat [.group 1 (Re.cat [.plus (.lit '#') false, chr ' ', anyStar]),
            nlStar, .endText], "ol".toList, "list".toList, [], 0, some .parseList⟩ := by
          simpa [parsers] using h
        subst e
        simp [Re.cat, chr, m_seq, m_group, m_plus_cons, m_cls_cons, Cls.test, startSt, starM,
          orElse]
      · exact no_match_of _ _ okAll '#' _ (by decide!) (fun _ _ => rfl) q h hA
  rw [parseN_succ_eq, parseLoop_zero _ _ _ topCategories n 0 _ 11
    ⟨Re.cat [str "###", .cls .any, chr ' ', anyStar, .endText],
      [], "block".toList, [], 0, none⟩ _ hlen rfl (by decide) (comment_match t) hno]
  have ha : ∀ m d, addMatched (parseN n) (subParse (parseN n) n)
      ⟨Re.cat [str "###", .cls .any, chr ' ', anyStar, .endText],
        [], "block".toList, [], 0, none⟩ m d = some (d.AddChild (.mk [] [] [])) := by
    intro m d; rfl
  rw [ha]
  dsimp only
  rw [if_neg (by omega), parseLoop_done _ _ _ _ _ _ _ (by simp; omega)]
  all_goals rfl

/-- C13: for every text `t` without blank line, `###. t` converts to the empty
string: the comment rule consumes the block to its end, later lines included,
and its node renders as nothing.  Any fuel of at least 1 gives this result. -/
theorem comment_block (k : Nat) (t : Str) (hb : hasBlankLine t = false) :
    TextileToHtml (k + 1) ("###. ".toList ++ t) = some ([], none) := by
  refine TextileToHtml_single _ _ _ _
    (Split_no_blank _ (hasBlankLine_after _ t (by decide) hb)) (parseN_comment k t []) ?_
  rfl

theorem comment_block_witness :
    hasBlankLine "a\nb *c*".toList = false ∧
    TextileToHtml (0 + 1) ("###. ".toList ++ "a\nb *c*".toList) = some ([], none) :=
  ⟨by decide, comment_block 0 "a\nb *c*".toList (by decide)⟩

/-! ### Lists that start at level 2 (claim C14) -/

/-- The list pattern of level 1 at the head of a line of level 2: the optional
item group does not match, and the marker run is the two markers. -/
theorem list_match_host (m : Char) (hm : m = '*' ∨ m = '#') (r : Str) :
    (listRe m 1).m some (startSt (m :: m :: ' ' :: r)) =
      some ⟨2, some m, ' ' :: r, [(4, [m, m])]⟩ := by
  rcases hm with rfl | rfl <;>
    simp [listRe, Re.cat, chr, m_seq, m_opt, m_group, m_rep, repM, m_cls_cons, m_plus_cons,
      Cls.test, startSt, starM, orElse, m_empty]

/-- The first pass of `parseListAtLevel` at level 1 on a text that starts with a
line of level 2: an item parsed from the empty text receives the node of the
nested call, which runs on the whole text. -/
theorem listLoop_host (pf : ParseFn) (tag : Str) (m : Char) (hm : m = '*' ∨ m = '#')
    (c0 : D) (hpf0 : pf [] "li".toList ["phrase".toList] = some (c0, none))
    (r : Str) (fuel : Nat) (d cc : D) (offset : Nat)
    (hn : listLoop pf tag fuel (listRe m 2) (m :: m :: ' ' :: r) 2 0 (D.New tag) =
      some (cc, offset, none)) :
    listLoop pf tag (fuel + 1) (listRe m 1) (m :: m :: ' ' :: r) 1 0 d =
      listLoop pf tag fuel (listRe m 1) (m :: m :: ' ' :: r) 1 offset
        (d.AddChild (c0.AddChild cc)) := by
  have hf := find_of_start _ _ _ (list_match_host m hm r)
  have h3 : Trim (Match.group ⟨0, 2, List.take 2 (m :: m :: ' ' :: r), [(4, [m, m])]⟩ 3) [nl] = [] :=
    rfl
  have h4 : (Match.group ⟨0, 2, List.take 2 (m :: m :: ' ' :: r), [(4, [m, m])]⟩ 4).length = 2 :=
    rfl
  have h1 : (Match.group ⟨0, 2, List.take 2 (m :: m :: ' ' :: r), [(4, [m, m])]⟩ 1).length = 0 :=
    rfl
  have hen : listEnter (m :: m :: ' ' :: r) (1 + 1) = some (listRe m 2) := rfl
  rw [listLoop, if_pos (by simp), List.drop_zero, hf]
  simp only [h3, h4, h1, hpf0, gt_iff_lt, Nat.lt_add_one, if_true, Nat.add_zero, List.drop_zero,
    hen, hn, Nat.zero_add]

theorem hostText_eq (m : Char) (s : Str) (ss tops : List Str) :
    hostText m (s :: ss) tops =
      m :: m :: ' ' :: (s ++ nlLines (ss.map (subLine m) ++
        listLines m (tops.map (fun a => (a, []))))) := by
  rw [hostText, List.map_cons, List.cons_append, intercalate_nl_cons]; rfl

/-- The call of `parseListAtLevel` at level 1 on a list that starts at level 2. -/
theorem listLoop_host_all (pf : ParseFn) (tag : Str) (m : Char) (hm : m = '*' ∨ m = '#')
    (hpf : ∀ w : Str, (∀ x ∈ w, plainChar x = true) → w ≠ [] →
      pf w "li".toList ["phrase".toList] = some (liNode w, none))
    (hpf0 : pf [] "li".toList ["phrase".toList] = some (.mk "li".toList [] [], none))
    (s : Str) (ss tops : List Str)
    (hs : ∀ w ∈ s :: ss, w ≠ [] ∧ ∀ c ∈ w, plainChar c = true)
    (ha : ∀ w ∈ tops, w ≠ [] ∧ ∀ c ∈ w, plainChar c = true)
    (fuel : Nat) (hf : ss.length + tops.length + 2 ≤ fuel) :
    listLoop pf tag fuel (listRe m 1) (hostText m (s :: ss) tops) 1 0 (D.New tag) =
      some (.mk tag [] (.mk "li".toList [] [.mk tag [] ((s :: ss).map liNode)] ::
        tops.map (fun a => itemNode tag (a, []))),
        (hostText m (s :: ss) tops).length, none) := by
  obtain ⟨f, rfl⟩ : ∃ f, fuel = f + 1 := ⟨fuel - 1, by omega⟩
  have htail := nlLines_listLines m (tops.map (fun a => (a, [])))
  have hn := listLoop_subs pf tag m hm hpf ss s hs _ htail [] f (by omega) tag [] []
  simp only [List.nil_append, List.length_nil, Nat.zero_add] at hn
  have ht : hostText m (s :: ss) tops = m :: m :: ' ' :: (s ++ (nlLines (ss.map (subLine m)) ++
      nlLines (listLines m (tops.map (fun a => (a, [])))))) := by
    rw [hostText_eq, nlLines_append]
  have ht2 : subLine m s ++ nlLines (ss.map (subLine m)) ++
      nlLines (listLines m (tops.map (fun a => (a, [])))) =
      m :: m :: ' ' :: (s ++ (nlLines (ss.map (subLine m)) ++
        nlLines (listLines m (tops.map (fun a => (a, [])))))) := by
    simp [subLine]
  rw [ht2] at hn
  rw [ht, listLoop_host pf tag m hm _ hpf0 _ f _ _ _ hn]
  cases tops with
  | nil =>
    rw [listLoop_done _ _ _ _ _ _ _ _ (by simp [listLines, nlLines, subLine])]
    simp [listLines, nlLines, subLine, D.AddChild, D.New]
  | cons a more =>
    have hit : ∀ it ∈ (a, ([] : List Str)) :: more.map (fun a => (a, [])),
        (it.1 ≠ [] ∧ ∀ c ∈ it.1, plainChar c = true) ∧
        ∀ s ∈ it.2, s ≠ [] ∧ ∀ c ∈ s, plainChar c = true := by
      intro it hi
      rcases List.mem_cons.mp hi with rfl | hi
      · exact ⟨ha a (by simp), by simp⟩
      · obtain ⟨b, hb, rfl⟩ := List.mem_map.mp hi
        exact ⟨ha b (List.mem_cons_of_mem _ hb), by simp⟩
    have hfl : (listLines m ((a, []) :: more.map (fun a => (a, [])))).length ≤ f := by
      have : ∀ l : List Str, (listLines m (l.map (fun a => (a, [])))).length = l.length := by
        intro l
        induction l with
        | nil => rfl
        | cons x l ih => rw [List.map_cons, listLines_cons]; simp [ih]
      have h2 := this (a :: more)
      rw [List.map_cons] at h2
      rw [h2]
      simp at hf ⊢
      omega
    have hi := listLoop_items pf tag m hm hpf (more.map (fun a => (a, []))) a [] hit
      (subLine m s ++ nlLines (ss.map (subLine m)) ++ [nl]) f hfl tag []
      [(D.mk "li".toList [] []).AddChild (.mk tag [] ((s :: ss).map liNode))]
    have e1 : subLine m s ++ nlLines (ss.map (subLine m)) ++ [nl] ++
        (m :: ' ' :: a ++ nlLines (([] : List Str).map (subLine m) ++
          listLines m (more.map (fun a => (a, []))))) =
        m :: m :: ' ' :: (s ++ (nlLines (ss.map (subLine m)) ++
          nlLines (listLines m ((a :: more).map (fun a => (a, [])))))) := by
      simp [subLine, listLines_cons, nlLines_cons]
    have e2 : (subLine m s ++ nlLines (ss.map (subLine m)) ++
        (nlLines (listLines m ((a :: more).map (fun a => (a, []))))).take 1).length =
        (subLine m s ++ nlLines (ss.map (subLine m)) ++ [nl]).length := by
      simp [subLine, listLines_cons, nlLines_cons]
    rw [e1] at hi
    rw [e2]
    simp only [D.New, D.AddChild, List.nil_append] at hi ⊢
    rw [hi]
    simp

/-- The list rules `(\*+ .*)\n*$` and `(\#+ .*)\n*$` at the head of `mm r`, where
the text does not end with a line feed: group 1 is the whole text. -/
theorem list_rule_match2 (m : Char) (hm : m = '*' ∨ m = '#') (r : Str)
    (hr : r.getLast? ≠ some nl) :
    (Re.cat [.group 1 (Re.cat [.plus (.lit m) false, chr ' ', anyStar]), nlStar, .endText]).m some
        (startSt (m :: m :: ' ' :: r ++ [nl])) =
      some ⟨r.length + 4, some nl, [], [(1, m :: m :: ' ' :: r)]⟩ := by
  have hmsp : (m == ' ') = false := by rcases hm with rfl | rfl <;> decide
  simp only [Re.cat, chr, m_seq, m_seq_k, m_empty, m_empty_k, m_group,
    anyStar, nlStar, startSt, m_endText_tail, List.cons_append, List.append_assoc,
    m_plus_cons, Cls.test, beq_self_eq_true, if_true]
  rw [starM]
  simp only [m_cls_cons, Cls.test, hmsp, Bool.false_eq_true, if_false, beq_self_eq_true, if_true]
  apply starM_lazy_stop
  simp only [m_cls_cons, Cls.test, beq_self_eq_true, if_true, m_star]
  rw [starM_lazy_run .any _ _ r [nl] _ _ (fun _ _ => rfl), starM_lazy_stop]
  · rw [nlStar_end_last]
    dsimp only
    have ht2 : List.take (0 + 1 + 1 + 1 + r.length - 0) (m :: m :: ' ' :: (r ++ [nl])) =
        m :: m :: ' ' :: r := by
      have := take_eq_of_length (0 + 1 + 1 + 1 + r.length - 0) (m :: m :: ' ' :: r) [nl]
        (by simp only [List.length_cons]; omega)
      simpa using this
    rw [ht2, show 0 + 1 + 1 + 1 + r.length + 1 = r.length + 4 by omega]
  · intro a c b hab
    apply nlStar_end_none
    have h2 : (c :: b).getLast? ≠ some nl := by
      rw [← getLast?_suffix a c b, ← hab]; exact hr
    obtain ⟨x, hx, hxn⟩ := exists_ne_nl_of_getLast (c :: b) (by simp) h2
    exact ⟨x, by simp only [List.cons_append, List.mem_cons, List.mem_append] at hx ⊢; tauto,
      hxn⟩

/-- Every line of a list that starts at level 2 is non-empty, free of line feeds,
and ends with a plain character. -/
theorem hostLines_ok (m : Char) (hm : m = '*' ∨ m = '#') (subs tops : List Str)
    (hs : ∀ w ∈ subs, w ≠ [] ∧ ∀ c ∈ w, plainChar c = true)
    (ha : ∀ w ∈ tops, w ≠ [] ∧ ∀ c ∈ w, plainChar c = true) :
    ∀ l ∈ subs.map (subLine m) ++ listLines m (tops.map (fun a => (a, []))),
      (l ≠ [] ∧ nl ∉ l) ∧ l.getLast? ≠ some nl := by
  have h2 := listLines_ok m hm (tops.map (fun a => (a, [])))
    (by
      intro it hi
      obtain ⟨b, hb, rfl⟩ := List.mem_map.mp hi
      exact ⟨ha b hb, by simp⟩)
  intro l hl
  rcases List.mem_append.mp hl with h | h
  · obtain ⟨w, hw, rfl⟩ := List.mem_map.mp h
    have hmnl : m ≠ nl := by rcases hm with rfl | rfl <;> decide
    have hw2 := hs w hw
    refine ⟨⟨by simp [subLine], ?_⟩, ?_⟩
    · intro hmem
      simp only [subLine, List.mem_cons] at hmem
      rcases hmem with e | e | e | e
      · exact hmnl e.symm
      · exact hmnl e.symm
      · revert e; decide
      · exact plain_ne_nl nl (hw2.2 nl e) rfl
    · rw [subLine, show m :: m :: ' ' :: w = [m, m, ' '] ++ w from rfl,
        getLast?_append_ne_nil _ _ hw2.1]
      exact plain_getLast w hw2.2
  · exact h2 l h

/-- The Driver on the text of a list that starts at level 2, at the top of a
block: one list child whose first item hosts the nested list. -/
theorem parseN_host (n : Nat) (m : Char) (hm : m = '*' ∨ m = '#')
    (s : Str) (ss tops : List Str)
    (hs : ∀ w ∈ s :: ss, w ≠ [] ∧ ∀ c ∈ w, plainChar c = true)
    (ha : ∀ w ∈ tops, w ≠ [] ∧ ∀ c ∈ w, plainChar c = true)
    (hn : ss.length + tops.length + 2 ≤ n) (tag : Str) :
    parseN (n + 1) (hostText m (s :: ss) tops) tag topCategories =
      some (.mk tag [] [.mk (listTag m) []
        (.mk "li".toList [] [.mk (listTag m) [] ((s :: ss).map liNode)] ::
          tops.map (fun a => itemNode (listTag m) (a, [])))], none) := by
  obtain ⟨f, rfl⟩ : ∃ f, n = f + 1 := ⟨n - 1, by omega⟩
  have hok := hostLines_ok m hm (s :: ss) tops hs ha
  obtain ⟨R, hR⟩ : ∃ R, R = s ++ nlLines (ss.map (subLine m) ++
      listLines m (tops.map (fun a => (a, [])))) := ⟨_, rfl⟩
  have hlast : R.getLast? ≠ some nl := by
    rw [hR]
    apply nlLines_getLast
    · intro l hl
      have := hok l (by rw [List.map_cons, List.cons_append]; exact List.mem_cons_of_mem _ hl)
      exact ⟨this.1.1, this.2⟩
    · exact plain_getLast _ (hs s (by simp)).2
  have hr : hostText m (s :: ss) tops = m :: m :: ' ' :: R := by rw [hR, hostText_eq]
  have hlen : 0 < (hostText m (s :: ss) tops).length := by rw [hr]; simp
  have hmatch := list_rule_match2 m hm R hlast
  rw [← hr] at hmatch
  have hpf : ∀ w : Str, (∀ x ∈ w, plainChar x = true) → w ≠ [] →
      parseN (f + 1) w "li".toList ["phrase".toList] = some (liNode w, none) :=
    fun w h1 h2 => parseN_plain f w _ h1 h2
  have hloop := listLoop_host_all (parseN (f + 1)) (listTag m) m hm hpf (parseN_nil f _ _)
    s ss tops hs ha (f + 1) hn
  have hsub : subParse (parseN (f + 1)) (f + 1) .parseList (hostText m (s :: ss) tops)
      (listTag m) =
      some (.mk (listTag m) [] (.mk "li".toList [] [.mk (listTag m) [] ((s :: ss).map liNode)] ::
        tops.map (fun a => itemNode (listTag m) (a, []))), none) := by
    simp only [subParse, parseList, parseListAtLevel]
    have hen : listEnter (hostText m (s :: ss) tops) 1 = some (listRe m 1) := by
      rw [hr]; rfl
    rw [hen]
    dsimp only
    rw [hloop]
  rw [parseN_succ_eq]
  rcases hm with rfl | rfl
  · have hg : Match.group ⟨0, R.length + 4,
        List.take (R.length + 4) (List.drop 0 (hostText '*' (s :: ss) tops) ++ [nl]),
        [(1, hostText '*' (s :: ss) tops)]⟩ 1 = hostText '*' (s :: ss) tops := rfl
    have hl : (List.take (R.length + 4)
        (List.drop 0 (hostText '*' (s :: ss) tops) ++ [nl])).length = R.length + 4 := by
      rw [hr]; simp
    have htag : listTag '*' = "ul".toList := rfl
    rw [htag] at hsub
    rw [parseLoop_zero _ _ _ topCategories (f + 1) 0 _ 2
      ⟨Re.cat [.group 1 (Re.cat [.plus (.lit '*') false, chr ' ', anyStar]), nlStar, .endText],
        "ul".toList, "list".toList, [], 0, some .parseList⟩ _ hlen rfl (by decide) hmatch
      (by
        rw [List.drop_zero, hr]
        exact no_match_of _ _ okAll '*' _ (by decide!) (fun _ _ => rfl)),
      addMatched_custom _ _ _ _ _ .parseList rfl (by decide)]
    dsimp only
    rw [hg, hl, hsub]
    dsimp only
    rw [if_neg (by omega), parseLoop_done _ _ _ _ _ _ _ (by rw [hr]; simp; omega)]
    all_goals rfl
  · have hg : Match.group ⟨0, R.length + 4,
        List.take (R.length + 4) (List.drop 0 (hostText '#' (s :: ss) tops) ++ [nl]),
        [(1, hostText '#' (s :: ss) tops)]⟩ 1 = hostText '#' (s :: ss) tops := rfl
    have hl : (List.take (R.length + 4)
        (List.drop 0 (hostText '#' (s :: ss) tops) ++ [nl])).length = R.length + 4 := by
      rw [hr]; simp
    have htag : listTag '#' = "ol".toList := rfl
    rw [htag] at hsub
    rw [parseLoop_zero _ _ _ topCategories (f + 1) 0 _ 3
      ⟨Re.cat [.group 1 (Re.cat [.plus (.lit '#') false, chr ' ', anyStar]), nlStar, .endText],
        "ol".toList, "list".toList, [], 0, some .parseList⟩ _ hlen rfl (by decide) hmatch
      (by
        rw [List.drop_zero, hr]
        exact no_match_of _ _ okAll '#' _ (by decide!) (fun _ _ => rfl)),
      addMatched_custom _ _ _ _ _ .parseList rfl (by decide)]
    dsimp only
    rw [hg, hl, hsub]
    dsimp only
    rw [if_neg (by omega), parseLoop_done _ _ _ _ _ _ _ (by rw [hr]; simp; omega)]
    all_goals rfl

/-- Rendering of the nested list node of an item. -/
theorem nestedNode_html (tag : Str) (h1 : '%' ∉ tag) (h2 : '+' ∉ tag) (hne : tag ≠ [])
    (s : Str) (ss : List Str) (hs : ∀ w ∈ s :: ss, w ≠ [] ∧ ∀ c ∈ w, plainChar c = true) :
    (D.mk tag [] ((s :: ss).map liNode)).ToHtml = some (nestedHtml tag (s :: ss)) := by
  rw [ToHtml_children tag [] _ _ h1 h2 hne (by simp)
    (concatHtml_map_of _ _ _ (fun x hx => liNode_html x (hs x hx))) (by simp [liHtml])]
  simp [nestedHtml]

/-- Rendering of the node of a list that starts at level 2. -/
theorem hostNode_html (tag : Str) (h1 : '%' ∉ tag) (h2 : '+' ∉ tag) (hne : tag ≠ [])
    (s : Str) (ss tops : List Str)
    (hs : ∀ w ∈ s :: ss, w ≠ [] ∧ ∀ c ∈ w, plainChar c = true)
    (ha : ∀ w ∈ tops, w ≠ [] ∧ ∀ c ∈ w, plainChar c = true) :
    (D.mk tag [] (.mk "li".toList [] [.mk tag [] ((s :: ss).map liNode)] ::
      tops.map (fun a => itemNode tag (a, [])))).ToHtml = some (hostHtml tag (s :: ss) tops) := by
  have hhost : (D.mk "li".toList [] [.mk tag [] ((s :: ss).map liNode)]).ToHtml =
      some ("<li>".toList ++ nestedHtml tag (s :: ss) ++ "</li>".toList) := by
    rw [ToHtml_one "li".toList [] _ _ (by decide) (by decide) (by decide)
      (nestedNode_html tag h1 h2 hne s ss hs) (by simp [nestedHtml])]
    simp
  have htops : concatHtml ((tops.map (fun a => itemNode tag (a, []))).map D.ToHtml) =
      some (tops.map liHtml).flatten := by
    apply concatHtml_map_of
    intro a hx
    rw [itemNode_html tag h1 h2 hne (a, []) ⟨ha a hx, by simp⟩]
    simp [itemHtml, nestedHtml, liHtml]
  have hc : concatHtml ((D.mk "li".toList [] [.mk tag [] ((s :: ss).map liNode)] ::
      tops.map (fun a => itemNode tag (a, []))).map D.ToHtml) =
      some ("<li>".toList ++ nestedHtml tag (s :: ss) ++ "</li>".toList ++
        (tops.map liHtml).flatten) := by
    rw [List.map_cons, hhost, concatHtml, htops]
  rw [ToHtml_children tag [] _ _ h1 h2 hne (by simp) hc (by simp)]
  simp [hostHtml]

/-- C14: for a marker `m` among `*` and `#` with list tag `T`, one or more
second-level items `s_j` and any number of top-level items `a_i`, all non-empty
strings of ASCII letters, digits, dots and spaces, the text of the lines `mm s_j`
followed by the lines `m a_i` converts to
`<T><li><T><li>s_1</li>...<li>s_m</li></T></li><li>a_1</li>...<li>a_n</li></T>`:
one item without text is made to host the nested list.  Any fuel above the
number of lines plus two gives this result. -/
theorem list_from_level_two (k : Nat) (m : Char) (hm : m = '*' ∨ m = '#')
    (subs tops : List Str) (hne : subs ≠ [])
    (hs : ∀ w ∈ subs, w ≠ [] ∧ ∀ c ∈ w, plainChar c = true)
    (ha : ∀ w ∈ tops, w ≠ [] ∧ ∀ c ∈ w, plainChar c = true) :
    TextileToHtml (k + subs.length + tops.length + 2) (hostText m subs tops) =
      some (hostHtml (listTag m) subs tops, none) := by
  obtain ⟨s, ss, rfl⟩ : ∃ s ss, subs = s :: ss := by
    cases subs with
    | nil => exact absurd rfl hne
    | cons s ss => exact ⟨s, ss, rfl⟩
  have hsp : Split (hostText m (s :: ss) tops) [nl, nl] = [hostText m (s :: ss) tops] := by
    simp only [Split, List.isEmpty_cons, Bool.false_eq_true, if_false]
    apply splitGo_lines
    intro l hl
    exact (hostLines_ok m hm (s :: ss) tops hs ha l hl).1
  have htag := listTag_ok m
  refine TextileToHtml_single _ _ _ _ hsp
    (parseN_host (k + (s :: ss).length + tops.length + 1) m hm s ss tops hs ha
      (by simp; omega) []) ?_
  exact ToHtml_root_one _ _ _ (hostNode_html _ htag.1 htag.2.1 htag.2.2 s ss tops hs ha)

theorem list_from_level_two_witness :
    ('#' = '*' ∨ '#' = '#') ∧
    (["b1".toList, "c.2".toList] : List Str) ≠ [] ∧
    (∀ w ∈ (["b1".toList, "c.2".toList] : List Str), w ≠ [] ∧ ∀ c ∈ w, plainChar c = true) ∧
    (∀ w ∈ (["a".toList] : List Str), w ≠ [] ∧ ∀ c ∈ w, plainChar c = true) ∧
    TextileToHtml (0 + (["b1".toList, "c.2".toList] : List Str).length +
        (["a".toList] : List Str).length + 2)
      (hostText '#' ["b1".toList, "c.2".toList] ["a".toList]) =
      some (hostHtml (listTag '#') ["b1".toList, "c.2".toList] ["a".toList], none) :=
  ⟨Or.inr rfl, by decide, by decide, by decide,
    list_from_level_two 0 '#' (Or.inr rfl) ["b1".toList, "c.2".toList] ["a".toList]
      (by decide) (by decide) (by decide)⟩

theorem hostText_example :
    hostText '#' ["b1".toList, "c.2".toList] ["a".toList] = "## b1\n## c.2\n# a".toList ∧
    hostHtml (listTag '#') ["b1".toList, "c.2".toList] ["a".toList] =
      "<ol><li><ol><li>b1</li><li>c.2</li></ol></li><li>a</li></ol>".toList := by
  decide

/-! ### The error result (claim C15) -/

/-- The Driver loop never reports an error. -/
theorem parseLoop_err (pf : ParseFn) (sub : Custom → Str → Str → Option (D × Err))
    (text : Str) (A : List Str) (fuel parsed : Nat) (d : D) (r : D × Err)
    (h : parseLoop pf sub text A fuel parsed d = some r) : r.2 = none := by
  induction fuel generalizing parsed d with
  | zero =>
    rw [parseLoop] at h
    split at h
    · cases h
    · cases h; rfl
  | succ f ih =>
    rw [parseLoop] at h
    split at h
    · split at h
      · split at h
        · split at h
          · cases h
          · split at h
            · cases h
            · exact ih _ _ h
        · cases h; rfl
      · cases h; rfl
    · cases h; rfl

theorem parseN_err (n : Nat) (t tag : Str) (A : List Str) (r : D × Err)
    (h : parseN n t tag A = some r) : r.2 = none := by
  cases n with
  | zero => cases h
  | succ n => exact parseLoop_err _ _ _ _ _ _ _ _ h

theorem ParseDocument_err (fuel : Nat) (text : Str) (r : D × Err)
    (h : ParseDocument fuel text = some r) : r.2 = none := by
  unfold ParseDocument at h
  split at h
  · cases h; rfl
  · cases h

theorem TextileToHtml_err (fuel : Nat) (text : Str) (r : Str × Err)
    (h : TextileToHtml fuel text = some r) : r.2 = none := by
  unfold TextileToHtml at h
  split at h
  · rename_i doc err hd
    split at h
    · cases h
      exact ParseDocument_err fuel text _ hd
    · cases h
  · cases h

/-- C15: whenever `TextileToHtml` returns, the error it returns is `nil`, and so
do `ParseDocument` and the Driver `parse` for every tag and allowed categories;
a non-empty span in which no rule is a candidate makes the Driver return one
literal child holding the span. -/
theorem error_is_nil (fuel : Nat) (text : Str) :
    (∀ r, TextileToHtml fuel text = some r → r.2 = none) ∧
    (∀ r, ParseDocument fuel text = some r → r.2 = none) ∧
    (∀ tag A r, parse fuel text tag A = some r → r.2 = none) ∧
    (∀ tag A, text ≠ [] → (∀ q ∈ parsers, candidate text A q = none) →
      parse (fuel + 1) text tag A = some (.mk tag [] [D.leaf text], none)) := by
  refine ⟨TextileToHtml_err fuel text, ParseDocument_err fuel text,
    fun tag A r h => parseN_err fuel text tag A r h, ?_⟩
  intro tag A hne hq
  have hlen : 0 < text.length := List.length_pos.mpr hne
  rw [parse, parseN_succ_eq, parseLoop_literal _ _ _ _ _ _ _ hlen hq]
  rfl

theorem error_is_nil_witness :
    TextileToHtml 2 "a<b".toList = some ("<p>a&lt;b</p>".toList, none) ∧
    (("<p>a&lt;b</p>".toList, none) : Str × Err).2 = none :=
  ⟨by decide, (error_is_nil 2 "a<b".toList).1 _ (by decide)⟩

/-! ### A list text on which `parseListAtLevel` does not return (claim C16) -/

/-- The list pattern of level 1 on `* `: the item group needs a character after
the space, so only the marker run matches, and the match is the marker alone. -/
theorem list_match_star_space :
    (listRe '*' 1).find "* ".toList =
      some ⟨0, 1, "*".toList, [(4, "*".toList)]⟩ := by rfl

/-- A pass of the loop of `parseListAtLevel` on `* ` at the cursor 0: an item is
added and the cursor stays at 0. -/
theorem listLoop_star_space (pf : ParseFn) (tag : Str) (c : D)
    (hpf : pf [] "li".toList ["phrase".toList] = some (c, none)) (fuel : Nat) (d : D) :
    listLoop pf tag (fuel + 1) (listRe '*' 1) "* ".toList 1 0 d =
      listLoop pf tag fuel (listRe '*' 1) "* ".toList 1 0 (d.AddChild c) := by
  have h3 : Trim (Match.group ⟨0, 1, "*".toList, [(4, "*".toList)]⟩ 3) [nl] = [] := rfl
  have h4 : (Match.group ⟨0, 1, "*".toList, [(4, "*".toList)]⟩ 4).length = 1 := rfl
  have h1 : (Match.group ⟨0, 1, "*".toList, [(4, "*".toList)]⟩ 1).length = 0 := rfl
  rw [listLoop, if_pos (by decide), List.drop_zero, list_match_star_space]
  simp only [h3, h4, h1, hpf, gt_iff_lt, lt_irrefl, if_false, Nat.add_zero]

/-- The loop of `parseListAtLevel` on `* ` returns for no fuel. -/
theorem listLoop_star_space_none (k : Nat) (tag : Str) (fuel : Nat) (d : D) :
    listLoop (parseN k) tag fuel (listRe '*' 1) "* ".toList 1 0 d = none := by
  induction fuel generalizing d with
  | zero => rfl
  | succ f ih =>
    cases k with
    | zero =>
      have h0 : parseN 0 [] "li".toList ["phrase".toList] = none := rfl
      have h3 : Trim (Match.group ⟨0, 1, "*".toList, [(4, "*".toList)]⟩ 3) [nl] = [] := rfl
      rw [listLoop, if_pos (by decide), List.drop_zero, list_match_star_space]
      simp only [h3, h0]
    | succ k =>
      rw [listLoop_star_space _ _ _ (parseN_nil k _ _)]
      exact ih _

/-- The Driver at the top of the block `* ` returns for no fuel: the bulleted
list rule captures the block and hands it to `parseList`. -/
theorem parseN_star_space_none (n : Nat) (tag : Str) :
    parseN n "* ".toList tag topCategories = none := by
  cases n with
  | zero => rfl
  | succ n =>
    have hm : (Re.cat [.group 1 (Re.cat [.plus (.lit '*') false, chr ' ', anyStar]), nlStar,
        .endText]).m some (startSt (List.drop 0 "* ".toList ++ [nl])) =
        some ⟨3, some nl, [], [(1, "* ".toList)]⟩ := list_rule_match '*' [] (by simp)
    have hsub : subParse (parseN n) n .parseList "* ".toList "ul".toList = none := by
      simp only [subParse, parseList, parseListAtLevel]
      have hen : listEnter "* ".toList 1 = some (listRe '*' 1) := rfl
      rw [hen]
      dsimp only
      rw [listLoop_star_space_none]
    have hg : Match.group ⟨0, 3, List.take 3 (List.drop 0 "* ".toList ++ [nl]),
        [(1, "* ".toList)]⟩ 1 = "* ".toList := rfl
    rw [parseN_succ_eq, parseLoop_zero _ _ "* ".toList topCategories n 0 _ 2
      ⟨Re.cat [.group 1 (Re.cat [.plus (.lit '*') false, chr ' ', anyStar]), nlStar, .endText],
        "ul".toList, "list".toList, [], 0, some .parseList⟩ _ (by decide) rfl (by decide) hm
      (no_match_of _ _ okAll '*' _ (by decide!) (fun _ _ => rfl)),
      addMatched_custom _ _ _ _ _ .parseList rfl (by decide)]
    dsimp only
    rw [hg, hsub]

/-- C16 (the code departs from the claim): the text `* ` begins with the marker
and a space and the bulleted list rule captures it whole, yet
`parseListAtLevel` at level 1 does not return on it.  The list pattern needs a
character after the space for the item group, so it matches the marker alone
with an empty group 1; the pass adds an empty item and leaves the cursor at 0,
and the next pass is the same.  No fuel gives a result, for `parseListAtLevel`
and for `TextileToHtml`. -/
theorem list_loop_stalls :
    (parsers.get? 2).bind (fun p => (p.Re.find ("* ".toList ++ [nl])).map
      (fun m => (m.start, m.group 1))) = some (0, "* ".toList) ∧
    (listRe '*' 1).find "* ".toList = some ⟨0, 1, "*".toList, [(4, "*".toList)]⟩ ∧
    (∀ (k fuel : Nat) (tag : Str) (d : D),
      listLoop (parse (k + 1)) tag (fuel + 1) (listRe '*' 1) "* ".toList 1 0 d =
        listLoop (parse (k + 1)) tag fuel (listRe '*' 1) "* ".toList 1 0
          (d.AddChild (.mk "li".toList [] []))) ∧
    (∀ k fuel : Nat, parseListAtLevel (parse k) fuel "* ".toList "ul".toList 1 = none) ∧
    (∀ fuel : Nat, TextileToHtml fuel "* ".toList = none) := by
  refine ⟨by decide!, list_match_star_space, ?_, ?_, ?_⟩
  · intro k fuel tag d
    exact listLoop_star_space _ tag _ (parseN_nil k _ _) fuel d
  · intro k fuel
    have hen : listEnter "* ".toList 1 = some (listRe '*' 1) := rfl
    rw [parseListAtLevel, hen]
    exact listLoop_star_space_none k _ fuel _
  · intro fuel
    rw [TextileToHtml_eq, show Split "* ".toList [nl, nl] = ["* ".toList] by decide]
    have : blockNodes fuel ["* ".toList] = none := by
      rw [blockNodes, parse, parseN_star_space_none]
    rw [this]

/-! ### Tags of the nodes the parsers build -/

theorem AddChild_Tag (d c : D) : (d.AddChild c).Tag = d.Tag := by
  cases d; rfl

theorem AddChild_Children (d c : D) : (d.AddChild c).Children = d.Children ++ [c] := by
  cases d; rfl

/-- The rule a Driver cycle selects is a registry rule whose category is allowed. -/
theorem selectBest_rule (text : Str) (parsed : Nat) (A : List Str) (i : Nat) (bp : Parser)
    (h : (selectBest text parsed A).parser = some (i, bp)) :
    bp ∈ parsers ∧ canAddChild bp.Typ A = true := by
  rcases selectBest_spec text parsed A with ⟨h1, _⟩ | ⟨j, q, loc, h1, h2, h3, _⟩
  · rw [h1] at h; cases h
  · rw [h3] at h
    cases h
    refine ⟨List.get?_mem h1, ?_⟩
    unfold candidate at h2
    split at h2
    · assumption
    · cases h2

/-- Where the child of a selected rule comes from. -/
theorem addMatched_cases (pf : ParseFn) (sub : Custom → Str → Str → Option (D × Err))
    (bp : Parser) (m : Match) (d d2 : D) (h : addMatched pf sub bp m d = some d2) :
    d2 = d ∨ d2 = d.AddChild (.mk bp.Tag [] []) ∨
    (∃ c f, bp.Parse = some f ∧ sub f (m.group 1) bp.Tag = some (c, none) ∧ d2 = d.AddChild c) ∨
    (∃ c, bp.Parse = none ∧ pf (m.group 1) bp.Tag bp.AllowedChildren = some (c, none) ∧
      d2 = d.AddChild c) := by
  unfold addMatched at h
  split at h
  · cases hP : bp.Parse with
    | none =>
      rw [hP] at h
      dsimp only at h
      cases hr : pf (m.group 1) bp.Tag bp.AllowedChildren with
      | none => rw [hr] at h; cases h
      | some r =>
        obtain ⟨c, e⟩ := r
        rw [hr] at h
        cases e with
        | none => cases h; right; right; right; exact ⟨c, rfl, rfl, rfl⟩
        | some e => cases h; left; rfl
    | some f =>
      rw [hP] at h
      dsimp only at h
      cases hr : sub f (m.group 1) bp.Tag with
      | none => rw [hr] at h; cases h
      | some r =>
        obtain ⟨c, e⟩ := r
        rw [hr] at h
        cases e with
        | none => cases h; right; right; left; exact ⟨c, f, rfl, hr, rfl⟩
        | some e => cases h; left; rfl
  · cases h; right; left; rfl

/-- Induction over the cycles of the Driver: a property of the node that holds at
the start, that adding a literal child keeps, and that the child of a selected
rule keeps, holds for the node the Driver returns. -/
theorem parseLoop_induct (pf : ParseFn) (sub : Custom → Str → Str → Option (D × Err))
    (text : Str) (A : List Str) (P : D → Prop)
    (hleaf : ∀ d s, P d → P (d.AddChild (D.leaf s)))
    (hadd : ∀ d bp m d2, bp ∈ parsers → canAddChild bp.Typ A = true → P d →
      addMatched pf sub bp m d = some d2 → P d2)
    (fuel parsed : Nat) (d : D) (r : D × Err) (hd : P d)
    (h : parseLoop pf sub text A fuel parsed d = some r) : P r.1 := by
  induction fuel generalizing parsed d with
  | zero =>
    rw [parseLoop] at h
    split at h
    · cases h
    · cases h; exact hd
  | succ f ih =>
    have hgap : P (gapChild text parsed A d) := by
      unfold gapChild
      split
      · exact hleaf _ _ hd
      · exact hd
    rw [parseLoop] at h
    split at h
    · split at h
      · rename_i i bp hsel
        have hbp := selectBest_rule text parsed A i bp hsel
        split at h
        · rename_i m hm
          split at h
          · cases h
          · rename_i d2 ha
            split at h
            · cases h
            · exact ih _ _ (hadd _ _ _ _ hbp.1 hbp.2 hgap ha) h
        · cases h; exact hleaf _ _ hgap
      · cases h; exact hleaf _ _ hd
    · cases h; exact hd

/-- The node the Driver returns keeps the tag of the node it started from. -/
theorem parseLoop_tag (pf : ParseFn) (sub : Custom → Str → Str → Option (D × Err))
    (text : Str) (A : List Str) (fuel parsed : Nat) (d : D) (r : D × Err)
    (h : parseLoop pf sub text A fuel parsed d = some r) : r.1.Tag = d.Tag := by
  refine parseLoop_induct pf sub text A (fun x => x.Tag = d.Tag) ?_ ?_ fuel parsed d r rfl h
  · intro x s hx; rw [AddChild_Tag]; exact hx
  · intro x bp m d2 _ _ hx ha
    rcases addMatched_cases pf sub bp m x d2 ha with e | e | ⟨c, f, _, _, e⟩ | ⟨c, _, _, e⟩
    · rw [e]; exact hx
    · rw [e, AddChild_Tag]; exact hx
    · rw [e, AddChild_Tag]; exact hx
    · rw [e, AddChild_Tag]; exact hx

/-- The node `parse` returns carries the tag it was called with. -/
theorem parseN_tag (n : Nat) (t tag : Str) (A : List Str) (r : D × Err)
    (h : parseN n t tag A = some r) : r.1.Tag = tag := by
  cases n with
  | zero => cases h
  | succ n => exact parseLoop_tag _ _ _ _ _ _ _ _ h

/-- The node the loop of `parseListAtLevel` returns keeps the tag of the node it
started from. -/
theorem listLoop_tag (pf : ParseFn) (tag : Str) (fuel : Nat) (re : Re) (text : Str)
    (level parsed : Nat) (d : D) (r : D × Nat × Err)
    (h : listLoop pf tag fuel re text level parsed d = some r) : r.1.Tag = d.Tag := by
  induction fuel generalizing re text level parsed d r with
  | zero =>
    rw [listLoop] at h
    split at h
    · cases h
    · cases h; rfl
  | succ f ih =>
    rw [listLoop] at h
    split at h
    · split at h
      · split at h
        · cases h
        · cases h; rfl
        · split at h
          · split at h
            · cases h
            · split at h
              · cases h
              · cases h; rfl
              · rw [ih _ _ _ _ _ _ h, AddChild_Tag]
          · split at h
            · cases h; rw [AddChild_Tag]
            · rw [ih _ _ _ _ _ _ h, AddChild_Tag]
      · cases h; rfl
    · cases h; rfl

theorem tableLoop_tag (pf : ParseFn) (text : Str) (fuel parsed : Nat) (d : D) (r : D × Err)
    (h : tableLoop pf text fuel parsed d = some r) : r.1.Tag = d.Tag := by
  induction fuel generalizing parsed d with
  | zero =>
    rw [tableLoop] at h
    split at h
    · cases h
    · cases h; rfl
  | succ f ih =>
    rw [tableLoop] at h
    split at h
    · split at h
      · split at h
        · cases h
        · cases h; rw [AddChild_Tag]
        · rw [ih _ _ h, AddChild_Tag]
      · cases h; rfl
    · cases h; rfl

/-- The node a sub-parser returns carries the tag it was called with. -/
theorem subParse_tag (pf : ParseFn) (n : Nat) (f : Custom) (t tag : Str) (r : D × Err)
    (h : subParse pf n f t tag = some r) : r.1.Tag = tag := by
  cases f with
  | parseList =>
    simp only [subParse, parseList, parseListAtLevel] at h
    split at h
    · rename_i d _ err hl
      cases h
      split at hl
      · cases hl
      · exact listLoop_tag _ _ _ _ _ _ _ _ _ hl
    · cases h
  | parseTable =>
    simp only [subParse, parseTable] at h
    exact tableLoop_tag _ _ _ _ _ _ h

/-! ### Nesting in `parseListAtLevel` (claim C17) -/

/-- Every child of the node `parse` returns is a literal or carries the tag of a
rule of an allowed category. -/
theorem parseN_children_tags (n : Nat) (t tag : Str) (A : List Str) (r : D × Err)
    (h : parseN n t tag A = some r) :
    ∀ ch ∈ r.1.Children, ch.Tag = [] ∨
      ∃ q ∈ parsers, canAddChild q.Typ A = true ∧ ch.Tag = q.Tag := by
  cases n with
  | zero => cases h
  | succ n =>
    refine parseLoop_induct (parseN n) (subParse (parseN n) n) t A
      (fun x => ∀ ch ∈ x.Children, ch.Tag = [] ∨
        ∃ q ∈ parsers, canAddChild q.Typ A = true ∧ ch.Tag = q.Tag) ?_ ?_ (n + 1) 0 (D.New tag) r
      (by intro ch hch; cases hch) h
    · intro x s hx ch hch
      rw [AddChild_Children] at hch
      rcases List.mem_append.mp hch with h1 | h1
      · exact hx ch h1
      · simp only [List.mem_singleton] at h1; subst h1; left; rfl
    · intro x bp m d2 hbp hA hx ha ch hch
      have key : ∀ c : D, c.Tag = bp.Tag → d2 = x.AddChild c → ch.Tag = [] ∨
          ∃ q ∈ parsers, canAddChild q.Typ A = true ∧ ch.Tag = q.Tag := by
        intro c hc e
        rw [e, AddChild_Children] at hch
        rcases List.mem_append.mp hch with h1 | h1
        · exact hx ch h1
        · simp only [List.mem_singleton] at h1; subst h1
          right; exact ⟨bp, hbp, hA, hc⟩
      rcases addMatched_cases _ _ bp m x d2 ha with e | e | ⟨c, f, _, hs, e⟩ | ⟨c, _, hp, e⟩
      · rw [e] at hch; exact hx ch hch
      · exact key (.mk bp.Tag [] []) rfl e
      · exact key c (subParse_tag _ _ _ _ _ _ hs) e
      · exact key c (parseN_tag _ _ _ _ _ hp) e

theorem phrase_tags_not_list :
    parsers.all (fun q => !canAddChild q.Typ ["phrase".toList] ||
      (q.Tag != "ul".toList && q.Tag != "ol".toList)) = true := by decide!

/-- C17: in a pass of the loop of `parseListAtLevel` at level `level`, for the
list tags `ul` and `ol`: the item `c` parsed from the captured item text has no
child carrying the list tag; when the marker run after the captured text (group
4) is not longer than `level`, the item is added as it is (and the call returns
when the run is shorter); when the run is longer than `level` and the nested
call returns the node `cc`, that node carries the list tag and is added as the
last child of the item before the item is added. -/
theorem nested_list_iff_longer_run (n : Nat) (tag : Str)
    (htag : tag = "ul".toList ∨ tag = "ol".toList)
    (fuel : Nat) (re : Re) (text : Str) (level parsed : Nat) (d : D) (mm : Match) (c : D)
    (hlen : parsed < text.length)
    (hfind : re.find (text.drop parsed) = some mm)
    (hc : parse n (Trim (mm.group 3) [nl]) "li".toList ["phrase".toList] = some (c, none)) :
    (∀ ch ∈ c.Children, ch.Tag ≠ tag) ∧
    ((mm.group 4).length ≤ level →
      listLoop (parse n) tag (fuel + 1) re text level parsed d =
        if (mm.group 4).length < level then
          some (d.AddChild c, parsed + (mm.group 1).length, none)
        else listLoop (parse n) tag fuel re text level (parsed + (mm.group 1).length)
          (d.AddChild c)) ∧
    (level < (mm.group 4).length → ∀ re1 cc offset,
      listEnter (text.drop (parsed + (mm.group 1).length)) (level + 1) = some re1 →
      listLoop (parse n) tag fuel re1 (text.drop (parsed + (mm.group 1).length)) (level + 1) 0
        (D.New tag) = some (cc, offset, none) →
      cc.Tag = tag ∧ (c.AddChild cc).Children = c.Children ++ [cc] ∧
      listLoop (parse n) tag (fuel + 1) re text level parsed d =
        listLoop (parse n) tag fuel re text level (parsed + (mm.group 1).length + offset)
          (d.AddChild (c.AddChild cc))) := by
  refine ⟨?_, ?_, ?_⟩
  · intro ch hch e
    rcases parseN_children_tags n _ _ _ _ hc ch hch with h0 | ⟨q, hq, hA, h1⟩
    · rw [h0] at e
      rcases htag with rfl | rfl <;> cases e
    · have h2 := List.all_eq_true.mp phrase_tags_not_list q hq
      rw [hA, ← h1, e] at h2
      rcases htag with rfl | rfl <;> simp at h2
  · intro hle
    rw [listLoop, if_pos hlen, hfind]
    simp only [hc, gt_iff_lt, if_neg (Nat.not_lt.mpr hle)]
  · intro hlt re1 cc offset hen hn
    refine ⟨?_, AddChild_Children c cc, ?_⟩
    · exact listLoop_tag _ _ _ _ _ _ _ _ _ hn
    · rw [listLoop, if_pos hlen, hfind]
      simp only [hc, gt_iff_lt, if_pos hlt, hen, hn]

theorem nested_list_iff_longer_run_witness :
    ("ul".toList = "ul".toList ∨ "ul".toList = "ol".toList) ∧
    0 < "* a\n** b".toList.length ∧
    (listRe '*' 1).find ("* a\n** b".toList.drop 0) =
      some ⟨0, 6, "* a\n**".toList,
        [(4, "**".toList), (1, "* a\n".toList), (3, "a\n".toList), (2, "*".toList)]⟩ ∧
    parse 1 (Trim "a\n".toList [nl]) "li".toList ["phrase".toList] =
      some (liNode "a".toList, none) ∧
    (∀ ch ∈ (liNode "a".toList).Children, ch.Tag ≠ "ul".toList) ∧
    listLoop (parse 1) "ul".toList (2 + 1) (listRe '*' 1) "* a\n** b".toList 1 0
        (D.New "ul".toList) =
      listLoop (parse 1) "ul".toList 2 (listRe '*' 1) "* a\n** b".toList 1 (0 + 4 + 4)
        ((D.New "ul".toList).AddChild
          ((liNode "a".toList).AddChild (.mk "ul".toList [] [liNode "b".toList]))) :=
  ⟨Or.inl rfl, by decide, rfl, rfl,
    (nested_list_iff_longer_run 1 "ul".toList (Or.inl rfl) 2 (listRe '*' 1) "* a\n** b".toList 1 0
      (D.New "ul".toList) ⟨0, 6, "* a\n**".toList,
        [(4, "**".toList), (1, "* a\n".toList), (3, "a\n".toList), (2, "*".toList)]⟩
      (liNode "a".toList) (by decide) rfl rfl).1,
    ((nested_list_iff_longer_run 1 "ul".toList (Or.inl rfl) 2 (listRe '*' 1) "* a\n** b".toList 1 0
      (D.New "ul".toList) ⟨0, 6, "* a\n**".toList,
        [(4, "**".toList), (1, "* a\n".toList), (3, "a\n".toList), (2, "*".toList)]⟩
      (liNode "a".toList) (by decide) rfl rfl).2.2 (by decide) (listRe '*' 2)
      (.mk "ul".toList [] [liNode "b".toList]) 4 rfl rfl).2.2⟩

/-! ### Markers inside a word: where a phrase pattern can start -/

theorem m_needs (x : Char) (r : Re) (h : r.needs x = true) (k : St → Option St)
    (off : Nat) (prev : Option Char) (rest : Str) (caps : List (Nat × Str))
    (hr : ∀ cs, rest ≠ x :: cs) : r.m k ⟨off, prev, rest, caps⟩ = none := by
  have hc : ∀ c cs, rest = c :: cs → (fun c => c != x) c = true := by
    intro c cs e
    have := hr cs
    rw [e] at this
    simp only [bne_iff_ne, ne_eq]
    intro e2; subst e2; exact this rfl
  induction r generalizing k with
  | empty => simp [Re.needs] at h
  | cls p =>
    cases rest with
    | nil => rfl
    | cons c cs =>
      rw [m_cls_cons, Cls.deadOn_test _ p c h (hc c cs rfl)]
      rfl
  | star p g => simp [Re.needs] at h
  | plus p g =>
    cases rest with
    | nil => rfl
    | cons c cs =>
      rw [m_plus_cons, Cls.deadOn_test _ p c h (hc c cs rfl)]
      rfl
  | rep p n =>
    simp only [Re.needs, Bool.and_eq_true, decide_eq_true_eq] at h
    obtain ⟨n, rfl⟩ : ∃ j, n = j + 1 := ⟨n - 1, by omega⟩
    cases rest with
    | nil => rfl
    | cons c cs =>
      rw [m_rep, repM, Cls.deadOn_test _ p c h.2 (hc c cs rfl)]
      rfl
  | opt r _ => simp [Re.needs] at h
  | seq a b iha ihb =>
    simp only [Re.needs, Bool.or_eq_true, Bool.and_eq_true] at h
    rw [m_seq]
    rcases h with h | ⟨h1, h2⟩
    · exact iha h _
    · rcases m_passes a h1 (b.m k) ⟨off, prev, rest, caps⟩ with e | e
      · rw [e]; exact ihb h2 k
      · exact e
  | group i r ih => rw [m_group]; exact ih h _
  | endText => simp [Re.needs] at h
  | wordBoundary => simp [Re.needs] at h
  | noWordBoundary => simp [Re.needs] at h

/-- The search passes a stretch of characters other than the needed one. -/
theorem findFrom_skip (x : Char) (r : Re) (h : r.needs x = true) (xs ys : Str)
    (hx : ∀ c ∈ xs, c ≠ x) (off : Nat) (prev : Option Char) :
    findFrom r off prev (xs ++ ys) = findFrom r (off + xs.length) (lastOr prev xs) ys := by
  induction xs generalizing off prev with
  | nil => rfl
  | cons c cs ih =>
    rw [List.cons_append, findFrom, m_needs x r h some _ _ _ _
      (by intro t e; injection e with e1 _; exact hx c (List.mem_cons_self _ _) e1)]
    dsimp only
    rw [ih (fun y hy => hx y (List.mem_cons_of_mem _ hy)), lastOr_cons_some, List.length_cons]
    congr 1
    omega

theorem findFrom_step (r : Re) (off : Nat) (prev : Option Char) (c : Char) (cs : Str)
    (h : r.m some ⟨off, prev, c :: cs, []⟩ = none) :
    findFrom r off prev (c :: cs) = findFrom r (off + 1) (some c) cs := by
  rw [findFrom, h]

theorem findFrom_nil_needs (x : Char) (r : Re) (h : r.needs x = true) (off : Nat)
    (prev : Option Char) : findFrom r off prev [] = none := by
  rw [findFrom, m_needs x r h some _ _ _ _ (by intro t e; cases e)]

theorem lastOr_word (prev : Option Char) (u : Str) (hne : u ≠ [])
    (hu : ∀ c ∈ u, c.isAlphanum = true) :
    ∃ p, lastOr prev u = some p ∧ isWord p = true := by
  induction u generalizing prev with
  | nil => exact absurd rfl hne
  | cons c cs ih =>
    cases cs with
    | nil => exact ⟨c, rfl, alnum_isWord c (hu c (by simp))⟩
    | cons c2 cs => exact ih (some c) (by simp) (fun y hy => hu y (List.mem_cons_of_mem _ hy))

/-- A pattern whose first item is the literal `x`, and which fails at an `x` that
follows a word character, has no match in `u x w x v` followed by a line feed,
for words `u`, `w`, `v` of letters and digits. -/
theorem find_marker_one (x : Char) (hxa : x.isAlphanum = false) (hxn : x ≠ nl) (r : Re)
    (h : r.needs x = true)
    (hfail : ∀ off p cs, isWord p = true → r.m some ⟨off, some p, x :: cs, []⟩ = none)
    (u w v : Str) (hu : ∀ c ∈ u, c.isAlphanum = true) (hw : ∀ c ∈ w, c.isAlphanum = true)
    (hv : ∀ c ∈ v, c.isAlphanum = true) (hune : u ≠ []) (hwne : w ≠ []) :
    r.find (u ++ x :: (w ++ x :: (v ++ [nl]))) = none := by
  have hne : ∀ t : Str, (∀ c ∈ t, c.isAlphanum = true) → ∀ c ∈ t, c ≠ x :=
    fun t ht c hc => alnum_ne c x (ht c hc) hxa
  obtain ⟨p1, hp1, hw1⟩ := lastOr_word none u hune hu
  obtain ⟨p2, hp2, hw2⟩ := lastOr_word (some x) w hwne hw
  rw [Re.find, findFrom_skip x r h u _ (hne u hu), hp1, findFrom_step r _ _ _ _ (hfail _ _ _ hw1),
    findFrom_skip x r h w _ (hne w hw), hp2, findFrom_step r _ _ _ _ (hfail _ _ _ hw2),
    findFrom_skip x r h v _ (hne v hv),
    findFrom_step r _ _ _ _ (m_needs x r h some _ _ _ _
      (by intro t e; injection e with e1 _; exact hxn e1.symm)),
    findFrom_nil_needs x r h]

/-! ### Markers inside a word: the patterns that hold the marker -/

theorem m_guard (x : Char) (r : Re) (h : r.guard (isWord x) = true) (k : St → Option St)
    (off : Nat) (p : Char) (hp : isWord p = true) (cs : Str) (caps : List (Nat × Str)) :
    r.m k ⟨off, some p, x :: cs, caps⟩ = none := by
  cases r with
  | seq a b =>
    cases a with
    | wordBoundary =>
      simp only [Re.guard] at h
      rw [m_seq, m_wordBoundary]
      simp [St.atBoundary, hp, h]
    | noWordBoundary =>
      simp only [Re.guard, Bool.not_eq_true'] at h
      rw [m_seq, m_noWordBoundary]
      simp [St.atBoundary, hp, h]
    | _ => simp [Re.guard] at h
  | _ => simp [Re.guard] at h

/-- As `find_marker_one`, for the doubled marker: the pattern must also fail at
the second `x` of each pair. -/
theorem find_marker_two (x : Char) (hxa : x.isAlphanum = false) (hxn : x ≠ nl) (r : Re)
    (h : r.needs x = true)
    (hfail : ∀ off p cs, isWord p = true → r.m some ⟨off, some p, x :: cs, []⟩ = none)
    (u w v : Str) (hu : ∀ c ∈ u, c.isAlphanum = true) (hw : ∀ c ∈ w, c.isAlphanum = true)
    (hv : ∀ c ∈ v, c.isAlphanum = true) (hune : u ≠ []) (hwne : w ≠ [])
    (hfail1 : ∀ off, r.m some ⟨off, some x, x :: (w ++ x :: x :: (v ++ [nl])), []⟩ = none)
    (hfail2 : ∀ off, r.m some ⟨off, some x, x :: (v ++ [nl]), []⟩ = none) :
    r.find (u ++ x :: x :: (w ++ x :: x :: (v ++ [nl]))) = none := by
  have hne : ∀ t : Str, (∀ c ∈ t, c.isAlphanum = true) → ∀ c ∈ t, c ≠ x :=
    fun t ht c hc => alnum_ne c x (ht c hc) hxa
  obtain ⟨p1, hp1, hw1⟩ := lastOr_word none u hune hu
  obtain ⟨p2, hp2, hw2⟩ := lastOr_word (some x) w hwne hw
  rw [Re.find, findFrom_skip x r h u _ (hne u hu), hp1, findFrom_step r _ _ _ _ (hfail _ _ _ hw1),
    findFrom_step r _ _ _ _ (hfail1 _),
    findFrom_skip x r h w _ (hne w hw), hp2, findFrom_step r _ _ _ _ (hfail _ _ _ hw2),
    findFrom_step r _ _ _ _ (hfail2 _),
    findFrom_skip x r h v _ (hne v hv),
    findFrom_step r _ _ _ _ (m_needs x r h some _ _ _ _
      (by intro t e; injection e with e1 _; exact hxn e1.symm)),
    findFrom_nil_needs x r h]

theorem starM_cont_none_suffix (P : Str → Prop) (hP : ∀ c cs, P (c :: cs) → P cs)
    (p : Cls) (g : Bool) (k : St → Option St) (caps : List (Nat × Str))
    (hk : ∀ s : St, P s.rest → k s = none)
    (off : Nat) (prev : Option Char) (rest : Str) (hr : P rest) :
    starM p g k caps off prev rest = none := by
  induction rest generalizing off prev with
  | nil => rw [starM]; exact hk _ hr
  | cons c cs ih =>
    have h1 := hk ⟨off, prev, c :: cs, caps⟩ hr
    have h2 := ih (off + 1) (some c) (hP c cs hr)
    rw [starM]
    split
    · split <;> simp [h1, h2]
    · exact h1

theorem repM_cont_none_suffix (P : Str → Prop) (hP : ∀ c cs, P (c :: cs) → P cs)
    (p : Cls) (k : St → Option St) (caps : List (Nat × Str))
    (hk : ∀ s : St, P s.rest → k s = none)
    (n off : Nat) (prev : Option Char) (rest : Str) (hr : P rest) :
    repM p k caps n off prev rest = none := by
  induction n generalizing off prev rest with
  | zero => rw [repM]; exact hk _ hr
  | succ n ih =>
    cases rest with
    | nil => rw [repM]
    | cons c cs =>
      rw [repM]
      split
      · exact ih _ _ _ (hP c cs hr)
      · rfl

/-- A continuation that fails on every text with a property that suffixes inherit
makes the whole match fail on such a text. -/
theorem m_cont_none_suffix (P : Str → Prop) (hP : ∀ c cs, P (c :: cs) → P cs)
    (r : Re) (k : St → Option St) (hk : ∀ s : St, P s.rest → k s = none)
    (s : St) (hs : P s.rest) : r.m k s = none := by
  induction r generalizing k s with
  | empty => exact hk s hs
  | cls p =>
    obtain ⟨off, prev, rest, caps⟩ := s
    cases rest with
    | nil => rfl
    | cons c cs =>
      rw [m_cls_cons]
      split
      · exact hk _ (hP c cs hs)
      · rfl
  | star p g => exact starM_cont_none_suffix P hP p g k _ hk _ _ _ hs
  | plus p g =>
    obtain ⟨off, prev, rest, caps⟩ := s
    cases rest with
    | nil => rfl
    | cons c cs =>
      rw [m_plus_cons]
      split
      · exact starM_cont_none_suffix P hP p g k _ hk _ _ _ (hP c cs hs)
      · rfl
  | rep p n => exact repM_cont_none_suffix P hP p k _ hk _ _ _ _ hs
  | opt r ih => rw [m_opt, ih k hk s hs, hk s hs]; rfl
  | seq a b iha ihb => exact iha _ (fun s2 h2 => ihb k hk s2 h2) s hs
  | group i r ih =>
    rw [m_group]
    exact ih (fun e => k ⟨e.off, e.prev, e.rest, (i, s.rest.take (e.off - s.off)) :: e.caps⟩)
      (fun s2 h2 => hk _ h2) s hs
  | endText => rw [m_endText]; split; exact hk s hs; rfl
  | wordBoundary => rw [m_wordBoundary]; split; exact hk s hs; rfl
  | noWordBoundary => rw [m_noWordBoundary]; split; rfl; exact hk s hs

theorem noStarSpace_tail (c : Char) (cs : Str) (h : noStarSpace (c :: cs) = true) :
    noStarSpace cs = true := by
  cases cs with
  | nil => rfl
  | cons b rest =>
    rw [noStarSpace] at h
    simp only [Bool.and_eq_true] at h
    exact h.2

theorem noStarSpace_word (xs ys : Str) (hx : ∀ c ∈ xs, c ≠ '*') (hy : noStarSpace ys = true) :
    noStarSpace (xs ++ ys) = true := by
  induction xs with
  | nil => exact hy
  | cons c cs ih =>
    have ih2 := ih (fun y hy => hx y (List.mem_cons_of_mem _ hy))
    have hc : c ≠ '*' := hx c (List.mem_cons_self _ _)
    rw [List.cons_append]
    cases h : cs ++ ys with
    | nil => rfl
    | cons b rest =>
      rw [noStarSpace, ← h, ih2]
      simp [hc]

/-- The tail `\*\s` of the strong pattern fails where no `*` is followed by white
space. -/
theorem star_space_none (k : St → Option St) (s : St) (h : noStarSpace s.rest = true) :
    (Re.seq (chr '*') (.seq (.cls .space) .empty)).m k s = none := by
  obtain ⟨off, prev, rest, caps⟩ := s
  cases rest with
  | nil => rfl
  | cons a t =>
    cases t with
    | nil =>
      simp only [chr, m_seq, m_cls_cons]
      split <;> rfl
    | cons b t =>
      rw [noStarSpace] at h
      simp only [Bool.and_eq_true, Bool.not_eq_true', Bool.and_eq_false_imp, beq_iff_eq] at h
      simp only [chr, m_seq, m_cls_cons, Cls.test, beq_iff_eq]
      split
      · rename_i e
        rw [if_neg (by rw [h.1 e]; simp)]
      · rfl

/-- The strong pattern `\B\*(.+[^\*])\*\s` fails at a `*` after which no `*` is
followed by white space. -/
theorem strong_none (off : Nat) (prev : Option Char) (cs : Str) (caps : List (Nat × Str))
    (h : noStarSpace cs = true) :
    (Re.cat [.noWordBoundary, chr '*', .group 1 (Re.cat [anyPlus, .cls (.non ['*'])]), chr '*',
      .cls .space]).m some ⟨off, prev, '*' :: cs, caps⟩ = none := by
  simp only [Re.cat, m_seq_k, m_seq]
  rw [m_noWordBoundary]
  split
  · rfl
  · rw [chr, m_cls_cons]
    simp only [Cls.test, beq_self_eq_true, if_true]
    apply m_cont_none_suffix (fun t => noStarSpace t = true) noStarSpace_tail
    · intro s hs
      exact star_space_none _ s hs
    · exact h

/-- The bold pattern `\B\*\*(.+)\*\*\B` fails at a `*` followed by another
character. -/
theorem bold_none (off : Nat) (prev : Option Char) (c : Char) (cs : Str)
    (caps : List (Nat × Str)) (hc : c ≠ '*') :
    (phraseB "**" "b").Re.m some ⟨off, prev, '*' :: c :: cs, caps⟩ = none := by
  simp only [phraseB, Re.cat, str, Re.lits, String.toList, m_seq, m_seq_k]
  rw [m_noWordBoundary]
  split
  · rfl
  · simp [m_cls_cons, Cls.test, hc, Ne.symm hc]

/-! ### Blocks that stay literal text -/

theorem candidate_none_of_find (t : Str) (A : List Str) (q : Parser)
    (h : q.Re.find (t ++ [nl]) = none) : candidate t A q = none := by
  unfold candidate
  rw [h]
  split <;> rfl

/-- A rule that is not a phrase rule, or needs a character that is not in the
text, or is the line-feed rule, is no candidate in a text without line feed. -/
theorem candidate_none_of (ok : Char → Bool) (t : Str) (ht : ∀ c ∈ t, ok c = true)
    (hok : ok nl = true) (hnl : nl ∉ t) (q : Parser)
    (h : (!canAddChild q.Typ ["phrase".toList] || q.Re.deadOn ok || q.Re.isLit nl) = true) :
    candidate t ["phrase".toList] q = none := by
  simp only [Bool.or_eq_true, Bool.not_eq_true'] at h
  rcases h with (h | h) | h
  · unfold candidate; rw [h]; rfl
  · apply candidate_none_of_find
    apply find_dead ok q.Re h
    intro c hc
    rcases List.mem_append.mp hc with hc | hc
    · exact ht c hc
    · simp only [List.mem_singleton] at hc; subst hc; exact hok
  · have hre : q.Re = .cls (.lit nl) := by
      cases hr : q.Re with
      | cls p =>
        cases p with
        | lit c =>
          rw [hr] at h
          simp only [Re.isLit, beq_iff_eq] at h
          rw [h]
        | _ => rw [hr] at h; simp [Re.isLit] at h
      | _ => rw [hr] at h; simp [Re.isLit] at h
    unfold candidate
    rw [hre]
    split
    · cases hf : Re.find (.cls (.lit nl)) (t ++ [nl]) with
      | none => rfl
      | some m =>
        have := findFrom_lit nl t 0 none hnl m hf
        dsimp only
        rw [if_neg (by omega)]
    · rfl

/-- A block that the fallback paragraph rule takes and in which no phrase rule is
a candidate converts to the paragraph around the escaped text. -/
theorem textile_literal (k : Nat) (t : Str) (hne : t ≠ []) (hnl : nl ∉ t)
    (hno13 : ∀ q ∈ parsers.take 13, canAddChild q.Typ topCategories = true →
      q.Re.m some (startSt (t ++ [nl])) = none)
    (hnc : ∀ q ∈ parsers, candidate t ["phrase".toList] q = none) :
    TextileToHtml (k + 2) t =
      some ("<p>".toList ++ EscapeString t ++ "</p>".toList, none) := by
  have hlen : 0 < t.length := List.length_pos.mpr hne
  have hs : Split t [nl, nl] = [t] := by
    simp only [Split, List.isEmpty_cons, Bool.false_eq_true, if_false]
    exact splitGo_blank_free t hnl
  have hp : parseN (k + 1) t "p".toList ["phrase".toList] =
      some (.mk "p".toList [] [D.leaf t], none) := by
    rw [parseN_succ_eq, parseLoop_literal _ _ _ _ _ _ _ hlen hnc]
    rfl
  have hpar : parse (k + 2) t [] topCategories =
      some (.mk [] [] [.mk "p".toList [] [D.leaf t]], none) := by
    rw [parse, parseN_paragraph (k + 1) t [] hne (getLast?_ne_of_not_mem t nl hnl) hno13, hp]
  refine TextileToHtml_single _ _ _ _ hs hpar ?_
  refine ToHtml_root_one _ _ _ ?_
  rw [ToHtml_one "p".toList [] _ _ (by decide) (by decide) (by decide) (ToHtml_leaf t)
    (EscapeString_ne_nil t hne)]
  simp

theorem escapeChar_okMark (x c : Char) (hx : x = '_' ∨ x = '*' ∨ x = '^' ∨ x = '~')
    (hc : okMark x c = true) (hn : c ≠ nl) : escapeChar c = [c] := by
  have key : c.isAlphanum = true ∨ c = x := by
    simp only [okMark, Bool.or_eq_true, beq_iff_eq] at hc
    rcases hc with (h | h) | h
    · left; exact h
    · right; exact h
    · exact absurd h hn
  have h1 : c ≠ '&' ∧ c ≠ Char.ofNat 39 ∧ c ≠ '<' ∧ c ≠ '>' ∧ c ≠ dq := by
    rcases key with h | h
    · refine ⟨?_, ?_, ?_, ?_, ?_⟩ <;> (rintro rfl; revert h; decide)
    · subst h
      rcases hx with rfl | rfl | rfl | rfl <;> decide
  simp [escapeChar, h1.1, h1.2.1, h1.2.2.1, h1.2.2.2.1, h1.2.2.2.2]

theorem EscapeString_okMark (x : Char) (hx : x = '_' ∨ x = '*' ∨ x = '^' ∨ x = '~')
    (t : Str) (ht : ∀ c ∈ t, okMark x c = true) (hnl : nl ∉ t) : EscapeString t = t := by
  induction t with
  | nil => rfl
  | cons c cs ih =>
    rw [EscapeString, escapeChar_okMark x c hx (ht c (List.mem_cons_self _ _))
      (fun e => hnl (by simp [e])),
      ih (fun y hy => ht y (List.mem_cons_of_mem _ hy)) (fun e => hnl (List.mem_cons_of_mem _ e))]
    rfl

/-- No block or list rule before the fallback paragraph rule matches at the head
of a text of letters, digits and markers. -/
theorem top_rules_dead (x : Char) (hx : x = '_' ∨ x = '*' ∨ x = '^' ∨ x = '~') (t : Str)
    (ht : ∀ c ∈ t, okMark x c = true) :
    ∀ q ∈ parsers.take 13, canAddChild q.Typ topCategories = true →
      q.Re.m some (startSt (t ++ [nl])) = none := by
  intro q hq hA
  have hall : (parsers.take 13).all (fun q => !canAddChild q.Typ topCategories ||
      q.Re.deadOn (okMark x)) = true := by
    rcases hx with rfl | rfl | rfl | rfl <;> decide!
  have h := List.all_eq_true.mp hall q hq
  rw [hA] at h
  simp only [Bool.not_true, Bool.false_or] at h
  apply m_dead (okMark x) q.Re h
  intro c hc
  rcases List.mem_append.mp hc with hc | hc
  · exact ht c hc
  · simp only [List.mem_singleton] at hc; subst hc; simp [okMark]

theorem okMark_word (x : Char) (t : Str) (ht : ∀ c ∈ t, c.isAlphanum = true) :
    (∀ c ∈ t, okMark x c = true) ∧ nl ∉ t := by
  refine ⟨fun c hc => by simp [okMark, ht c hc], ?_⟩
  intro h
  have := ht nl h
  revert this; decide

/-! ### Markers inside a word (claim C11) -/

theorem mark_facts (x : Char) (hx : x = '_' ∨ x = '*' ∨ x = '^' ∨ x = '~') :
    x.isAlphanum = false ∧ x ≠ nl ∧ okMark x x = true ∧ okMark x nl = true := by
  rcases hx with rfl | rfl | rfl | rfl <;> decide

/-- Every phrase rule needs a character foreign to words around the marker `x`, or
is the line-feed rule, or starts with the boundary test that fails at an `x`
after a word character. -/
theorem phrase_rules_mark (x : Char) (hx : x = '_' ∨ x = '*' ∨ x = '^' ∨ x = '~') :
    parsers.all (fun q => (!canAddChild q.Typ ["phrase".toList] || q.Re.deadOn (okMark x)
      || q.Re.isLit nl) || (q.Re.needs x && q.Re.guard (isWord x))) = true := by
  rcases hx with rfl | rfl | rfl | rfl <;> decide!

/-- No phrase rule is a candidate in `u x w x v`. -/
theorem no_candidate_one (x : Char) (hx : x = '_' ∨ x = '*' ∨ x = '^' ∨ x = '~')
    (u w v : Str) (hu : ∀ c ∈ u, c.isAlphanum = true) (hw : ∀ c ∈ w, c.isAlphanum = true)
    (hv : ∀ c ∈ v, c.isAlphanum = true) (hune : u ≠ []) (hwne : w ≠ [])
    (q : Parser) (hq : q ∈ parsers) :
    candidate (u ++ x :: (w ++ x :: v)) ["phrase".toList] q = none := by
  obtain ⟨hxa, hxn, hxx, hxnl⟩ := mark_facts x hx
  have h := List.all_eq_true.mp (phrase_rules_mark x hx) q hq
  rw [Bool.or_eq_true] at h
  rcases h with h | h
  · apply candidate_none_of (okMark x) _ _ hxnl _ q h
    · intro c hc
      simp only [List.mem_append, List.mem_cons] at hc
      rcases hc with hc | rfl | hc | rfl | hc
      · exact (okMark_word x u hu).1 c hc
      · exact hxx
      · exact (okMark_word x w hw).1 c hc
      · exact hxx
      · exact (okMark_word x v hv).1 c hc
    · intro hc
      simp only [List.mem_append, List.mem_cons] at hc
      rcases hc with hc | e | hc | e | hc
      · exact (okMark_word x u hu).2 hc
      · exact hxn e.symm
      · exact (okMark_word x w hw).2 hc
      · exact hxn e.symm
      · exact (okMark_word x v hv).2 hc
  · rw [Bool.and_eq_true] at h
    apply candidate_none_of_find
    have e : u ++ x :: (w ++ x :: v) ++ [nl] = u ++ x :: (w ++ x :: (v ++ [nl])) := by simp
    rw [e]
    exact find_marker_one x hxa hxn q.Re h.1
      (fun off p cs hp => m_guard x q.Re h.2 some off p hp cs []) u w v hu hw hv hune hwne

/-- No phrase rule is a candidate in `u __ w __ v`. -/
theorem no_candidate_two_under (u w v : Str) (hu : ∀ c ∈ u, c.isAlphanum = true)
    (hw : ∀ c ∈ w, c.isAlphanum = true) (hv : ∀ c ∈ v, c.isAlphanum = true)
    (hune : u ≠ []) (hwne : w ≠ []) (q : Parser) (hq : q ∈ parsers) :
    candidate (u ++ '_' :: '_' :: (w ++ '_' :: '_' :: v)) ["phrase".toList] q = none := by
  have hx : '_' = '_' ∨ '_' = '*' ∨ '_' = '^' ∨ '_' = '~' := Or.inl rfl
  obtain ⟨hxa, hxn, hxx, hxnl⟩ := mark_facts '_' hx
  have h := List.all_eq_true.mp (phrase_rules_mark '_' hx) q hq
  rw [Bool.or_eq_true] at h
  rcases h with h | h
  · apply candidate_none_of (okMark '_') _ _ hxnl _ q h
    · intro c hc
      simp only [List.mem_append, List.mem_cons] at hc
      rcases hc with hc | rfl | rfl | hc | rfl | rfl | hc
      · exact (okMark_word _ u hu).1 c hc
      · exact hxx
      · exact hxx
      · exact (okMark_word _ w hw).1 c hc
      · exact hxx
      · exact hxx
      · exact (okMark_word _ v hv).1 c hc
    · intro hc
      simp only [List.mem_append, List.mem_cons] at hc
      rcases hc with hc | e | e | hc | e | e | hc
      · exact (okMark_word '_' u hu).2 hc
      · exact hxn e.symm
      · exact hxn e.symm
      · exact (okMark_word '_' w hw).2 hc
      · exact hxn e.symm
      · exact hxn e.symm
      · exact (okMark_word '_' v hv).2 hc
  · rw [Bool.and_eq_true] at h
    apply candidate_none_of_find
    have e : u ++ '_' :: '_' :: (w ++ '_' :: '_' :: v) ++ [nl] =
        u ++ '_' :: '_' :: (w ++ '_' :: '_' :: (v ++ [nl])) := by simp
    rw [e]
    exact find_marker_two '_' hxa hxn q.Re h.1
      (fun off p cs hp => m_guard '_' q.Re h.2 some off p hp cs []) u w v hu hw hv hune hwne
      (fun off => m_guard '_' q.Re h.2 some off '_' (by decide) _ [])
      (fun off => m_guard '_' q.Re h.2 some off '_' (by decide) _ [])

theorem alnum_not_space (c : Char) (h : c.isAlphanum = true) : isSpace c = false := by
  cases hs : isSpace c with
  | false => rfl
  | true =>
    exfalso
    simp only [isSpace, Bool.or_eq_true, beq_iff_eq] at hs
    rcases hs with (((hs | hs) | hs) | hs) | hs <;> (subst hs; revert h; decide)

theorem noStarSpace_word_nl (v : Str) (hv : ∀ c ∈ v, c.isAlphanum = true) :
    noStarSpace (v ++ [nl]) = true :=
  noStarSpace_word v [nl] (fun c hc => alnum_ne c '*' (hv c hc) (by decide)) rfl

theorem noStarSpace_stars (v : Str) (hv : ∀ c ∈ v, c.isAlphanum = true) (hne : v ≠ []) :
    noStarSpace ('*' :: '*' :: (v ++ [nl])) = true := by
  cases v with
  | nil => exact absurd rfl hne
  | cons c t =>
    have hc := alnum_not_space c (hv c (List.mem_cons_self _ _))
    have h2 := noStarSpace_word_nl (c :: t) hv
    rw [List.cons_append] at h2 ⊢
    rw [noStarSpace, noStarSpace, h2, hc]
    decide

/-- No phrase rule is a candidate in `u ** w ** v`. -/
theorem no_candidate_two_star (u w v : Str) (hu : ∀ c ∈ u, c.isAlphanum = true)
    (hw : ∀ c ∈ w, c.isAlphanum = true) (hv : ∀ c ∈ v, c.isAlphanum = true)
    (hune : u ≠ []) (hwne : w ≠ []) (hvne : v ≠ []) (q : Parser) (hq : q ∈ parsers) :
    candidate (u ++ '*' :: '*' :: (w ++ '*' :: '*' :: v)) ["phrase".toList] q = none := by
  have hx : '*' = '_' ∨ '*' = '*' ∨ '*' = '^' ∨ '*' = '~' := Or.inr (Or.inl rfl)
  obtain ⟨hxa, hxn, hxx, hxnl⟩ := mark_facts '*' hx
  have e : u ++ '*' :: '*' :: (w ++ '*' :: '*' :: v) ++ [nl] =
      u ++ '*' :: '*' :: (w ++ '*' :: '*' :: (v ++ [nl])) := by simp
  have hq2 : q ∈ (parsers.take 17 ++ ((parsers.take 19).drop 18 ++ parsers.drop 20)) ++
      ((parsers.take 18).drop 17 ++ (parsers.take 20).drop 19) := by
    have hp : ∀ p ∈ parsers, p ∈ (parsers.take 17 ++ ((parsers.take 19).drop 18 ++
        parsers.drop 20)) ++ ((parsers.take 18).drop 17 ++ (parsers.take 20).drop 19) := by
      intro p hp
      rw [List.mem_append, List.mem_append, List.mem_append, List.mem_append]
      have h1 : p ∈ parsers.take 17 ++ ((parsers.take 18).drop 17 ++ ((parsers.take 19).drop 18 ++
          ((parsers.take 20).drop 19 ++ parsers.drop 20))) := by
        rw [show parsers.take 17 ++ ((parsers.take 18).drop 17 ++ ((parsers.take 19).drop 18 ++
          ((parsers.take 20).drop 19 ++ parsers.drop 20))) = parsers from rfl]
        exact hp
      rw [List.mem_append, List.mem_append, List.mem_append, List.mem_append] at h1
      tauto
    exact hp q hq
  rcases List.mem_append.mp hq2 with h | h
  · have hall : (parsers.take 17 ++ ((parsers.take 19).drop 18 ++ parsers.drop 20)).all
        (fun q => !canAddChild q.Typ ["phrase".toList] || q.Re.deadOn (okMark '*')
          || q.Re.isLit nl) = true := by decide!
    apply candidate_none_of (okMark '*') _ _ hxnl _ q (List.all_eq_true.mp hall q h)
    · intro c hc
      simp only [List.mem_append, List.mem_cons] at hc
      rcases hc with hc | rfl | rfl | hc | rfl | rfl | hc
      · exact (okMark_word _ u hu).1 c hc
      · exact hxx
      · exact hxx
      · exact (okMark_word _ w hw).1 c hc
      · exact hxx
      · exact hxx
      · exact (okMark_word _ v hv).1 c hc
    · intro hc
      simp only [List.mem_append, List.mem_cons] at hc
      rcases hc with hc | e | e | hc | e | e | hc
      · exact (okMark_word '*' u hu).2 hc
      · exact hxn e.symm
      · exact hxn e.symm
      · exact (okMark_word '*' w hw).2 hc
      · exact hxn e.symm
      · exact hxn e.symm
      · exact (okMark_word '*' v hv).2 hc
  · apply candidate_none_of_find
    rw [e]
    obtain ⟨cw, tw, rfl⟩ : ∃ c t, w = c :: t := by
      cases w with
      | nil => exact absurd rfl hwne
      | cons c t => exact ⟨c, t, rfl⟩
    obtain ⟨cv, tv, rfl⟩ : ∃ c t, v = c :: t := by
      cases v with
      | nil => exact absurd rfl hvne
      | cons c t => exact ⟨c, t, rfl⟩
    rcases List.mem_append.mp h with h | h
    · have hq3 : q = phraseB "**" "b" := by simpa [parsers] using h
      subst hq3
      exact find_marker_two '*' hxa hxn _ (by decide)
        (fun off p cs hp => m_guard '*' _ (by decide) some off p hp cs []) u _ _ hu hw hv hune hwne
        (fun off => bold_none off _ cw _ [] (alnum_ne cw '*' (hw cw (by simp)) (by decide)))
        (fun off => bold_none off _ cv _ [] (alnum_ne cv '*' (hv cv (by simp)) (by decide)))
    · have hq3 : q = ⟨Re.cat [.noWordBoundary, chr '*',
          .group 1 (Re.cat [anyPlus, .cls (.non ['*'])]), chr '*', .cls .space],
          "strong".toList, "phrase".toList, ["phrase".toList], -1, none⟩ := by
        simpa [parsers] using h
      subst hq3
      exact find_marker_two '*' hxa hxn _ (by decide)
        (fun off p cs hp => m_guard '*' _ (by decide) some off p hp cs []) u _ _ hu hw hv hune hwne
        (fun off => strong_none off _ _ []
          (noStarSpace_word _ _ (fun c hc => alnum_ne c '*' (hw c hc) (by decide))
            (noStarSpace_stars _ hv (by simp))))
        (fun off => strong_none off _ _ [] (noStarSpace_word_nl _ hv))

/-- The conversion of a text of letters, digits and copies of the marker `x` in
which no phrase rule is a candidate. -/
theorem textile_marker_literal (k : Nat) (x : Char)
    (hx : x = '_' ∨ x = '*' ∨ x = '^' ∨ x = '~') (t : Str) (hne : t ≠ [])
    (ht : ∀ c ∈ t, okMark x c = true) (hnl : nl ∉ t)
    (hnc : ∀ q ∈ parsers, candidate t ["phrase".toList] q = none) :
    TextileToHtml (k + 2) t = some ("<p>".toList ++ t ++ "</p>".toList, none) := by
  have h := textile_literal k t hne hnl (top_rules_dead x hx t ht) hnc
  rw [EscapeString_okMark x hx t ht hnl] at h
  exact h

theorem okMark_one (x : Char) (hx : x = '_' ∨ x = '*' ∨ x = '^' ∨ x = '~')
    (u w v : Str) (hu : ∀ c ∈ u, c.isAlphanum = true) (hw : ∀ c ∈ w, c.isAlphanum = true)
    (hv : ∀ c ∈ v, c.isAlphanum = true) :
    (∀ c ∈ u ++ x :: (w ++ x :: v), okMark x c = true) ∧ nl ∉ u ++ x :: (w ++ x :: v) := by
  obtain ⟨_, hxn, hxx, _⟩ := mark_facts x hx
  constructor
  · intro c hc
    simp only [List.mem_append, List.mem_cons] at hc
    rcases hc with hc | rfl | hc | rfl | hc
    · exact (okMark_word x u hu).1 c hc
    · exact hxx
    · exact (okMark_word x w hw).1 c hc
    · exact hxx
    · exact (okMark_word x v hv).1 c hc
  · intro hc
    simp only [List.mem_append, List.mem_cons] at hc
    rcases hc with hc | e | hc | e | hc
    · exact (okMark_word x u hu).2 hc
    · exact hxn e.symm
    · exact (okMark_word x w hw).2 hc
    · exact hxn e.symm
    · exact (okMark_word x v hv).2 hc

theorem okMark_two (x : Char) (hx : x = '_' ∨ x = '*' ∨ x = '^' ∨ x = '~')
    (u w v : Str) (hu : ∀ c ∈ u, c.isAlphanum = true) (hw : ∀ c ∈ w, c.isAlphanum = true)
    (hv : ∀ c ∈ v, c.isAlphanum = true) :
    (∀ c ∈ u ++ x :: x :: (w ++ x :: x :: v), okMark x c = true) ∧
      nl ∉ u ++ x :: x :: (w ++ x :: x :: v) := by
  obtain ⟨_, hxn, hxx, _⟩ := mark_facts x hx
  constructor
  · intro c hc
    simp only [List.mem_append, List.mem_cons] at hc
    rcases hc with hc | rfl | rfl | hc | rfl | rfl | hc
    · exact (okMark_word x u hu).1 c hc
    · exact hxx
    · exact hxx
    · exact (okMark_word x w hw).1 c hc
    · exact hxx
    · exact hxx
    · exact (okMark_word x v hv).1 c hc
  · intro hc
    simp only [List.mem_append, List.mem_cons] at hc
    rcases hc with hc | e | e | hc | e | e | hc
    · exact (okMark_word x u hu).2 hc
    · exact hxn e.symm
    · exact hxn e.symm
    · exact (okMark_word x w hw).2 hc
    · exact hxn e.symm
    · exact hxn e.symm
    · exact (okMark_word x v hv).2 hc

theorem marker_one_literal (k : Nat) (x : Char)
    (hx : x = '_' ∨ x = '*' ∨ x = '^' ∨ x = '~') (u w v : Str)
    (hu : ∀ c ∈ u, c.isAlphanum = true) (hw : ∀ c ∈ w, c.isAlphanum = true)
    (hv : ∀ c ∈ v, c.isAlphanum = true) (hune : u ≠ []) (hwne : w ≠ []) :
    TextileToHtml (k + 2) (u ++ [x] ++ w ++ [x] ++ v) =
      some ("<p>".toList ++ (u ++ [x] ++ w ++ [x] ++ v) ++ "</p>".toList, none) := by
  have e : u ++ [x] ++ w ++ [x] ++ v = u ++ x :: (w ++ x :: v) := by simp
  have h := okMark_one x hx u w v hu hw hv
  rw [e]
  exact textile_marker_literal k x hx _ (by simp) h.1 h.2
    (no_candidate_one x hx u w v hu hw hv hune hwne)

/-- C11 (as it holds on the code): for non-empty words `u`, `w`, `v` of ASCII
letters and digits and every marker `M` among `_`, `__`, `*`, `**`, `^` and `~`,
the text `u M w M v` converts to the paragraph around the unchanged text: the
word-boundary form of a phrase rule does not fire when its markers are inside a
word of ASCII letters and digits.  Any fuel of at least 2 gives this result. -/
theorem markers_inside_word (k : Nat) (u w v : Str)
    (hu : ∀ c ∈ u, c.isAlphanum = true) (hw : ∀ c ∈ w, c.isAlphanum = true)
    (hv : ∀ c ∈ v, c.isAlphanum = true) (hune : u ≠ []) (hwne : w ≠ []) (hvne : v ≠ [])
    (M : Str)
    (hM : M ∈ ["_".toList, "__".toList, "*".toList, "**".toList, "^".toList, "~".toList]) :
    TextileToHtml (k + 2) (u ++ M ++ w ++ M ++ v) =
      some ("<p>".toList ++ (u ++ M ++ w ++ M ++ v) ++ "</p>".toList, none) := by
  simp only [List.mem_cons, List.mem_singleton, List.not_mem_nil, or_false] at hM
  rcases hM with rfl | rfl | rfl | rfl | rfl | rfl
  · exact marker_one_literal k '_' (Or.inl rfl) u w v hu hw hv hune hwne
  · have e : u ++ "__".toList ++ w ++ "__".toList ++ v =
        u ++ '_' :: '_' :: (w ++ '_' :: '_' :: v) := by simp
    have h := okMark_two '_' (Or.inl rfl) u w v hu hw hv
    rw [e]
    exact textile_marker_literal k '_' (Or.inl rfl) _ (by simp) h.1 h.2
      (no_candidate_two_under u w v hu hw hv hune hwne)
  · exact marker_one_literal k '*' (Or.inr (Or.inl rfl)) u w v hu hw hv hune hwne
  · have e : u ++ "**".toList ++ w ++ "**".toList ++ v =
        u ++ '*' :: '*' :: (w ++ '*' :: '*' :: v) := by simp
    have h := okMark_two '*' (Or.inr (Or.inl rfl)) u w v hu hw hv
    rw [e]
    exact textile_marker_literal k '*' (Or.inr (Or.inl rfl)) _ (by simp) h.1 h.2
      (no_candidate_two_star u w v hu hw hv hune hwne hvne)
  · exact marker_one_literal k '^' (Or.inr (Or.inr (Or.inl rfl))) u w v hu hw hv hune hwne
  · exact marker_one_literal k '~' (Or.inr (Or.inr (Or.inr rfl))) u w v hu hw hv hune hwne

theorem markers_inside_word_witness :
    (∀ c ∈ "foo".toList, c.isAlphanum = true) ∧ (∀ c ∈ "bar1".toList, c.isAlphanum = true) ∧
    (∀ c ∈ "baz".toList, c.isAlphanum = true) ∧ "foo".toList ≠ [] ∧ "bar1".toList ≠ [] ∧
    "baz".toList ≠ [] ∧
    "**".toList ∈ ["_".toList, "__".toList, "*".toList, "**".toList, "^".toList, "~".toList] ∧
    TextileToHtml (0 + 2) ("foo".toList ++ "**".toList ++ "bar1".toList ++ "**".toList ++
        "baz".toList) =
      some ("<p>".toList ++ ("foo".toList ++ "**".toList ++ "bar1".toList ++ "**".toList ++
        "baz".toList) ++ "</p>".toList, none) :=
  ⟨by decide, by decide, by decide, by decide, by decide, by decide, by decide,
    markers_inside_word 0 "foo".toList "bar1".toList "baz".toList (by decide) (by decide)
      (by decide) (by decide) (by decide) (by decide) "**".toList (by decide)⟩

/-- C11 as stated fails.  The character `é` (U+00E9) is a letter, but `\b` and
`\B` look at ASCII word characters only, so a marker next to it is not inside a
word for them.  Between two `é` the rules fire: `é_b_é` converts to
`<p>é<em>b</em>é</p>`, not to `<p>é_b_é</p>`, and `__`, `**`, `^` and `~` fire in
the same way.  Only `*` stays literal there, since the strong pattern wants white
space after the closing star. -/
theorem markers_fire_between_accents :
    "é".toList = [Char.ofNat 233] ∧ (Char.ofNat 233).isAlphanum = false ∧
    isWord (Char.ofNat 233) = false ∧
    TextileToHtml 3 "é_b_é".toList = some ("<p>é<em>b</em>é</p>".toList, none) ∧
    TextileToHtml 3 "é_b_é".toList ≠ some ("<p>é_b_é</p>".toList, none) ∧
    TextileToHtml 3 "é__b__é".toList = some ("<p>é<i>b</i>é</p>".toList, none) ∧
    TextileToHtml 3 "é**b**é".toList = some ("<p>é<b>b</b>é</p>".toList, none) ∧
    TextileToHtml 3 "é^b^é".toList = some ("<p>é<sup>b</sup>é</p>".toList, none) ∧
    TextileToHtml 3 "é~b~é".toList = some ("<p>é<sub>b</sub>é</p>".toList, none) ∧
    TextileToHtml 3 "é*b*é".toList = some ("<p>é*b*é</p>".toList, none) := by
  decide!

/-! ### The strong rule on a one-letter word (claim C10) -/

/-- The strong pattern `\B\*(.+[^\*])\*\s` has no match at the head of `*c*`
followed by the line feed: its group needs two characters before the closing
star. -/
theorem strong_head_none (c : Char) (off : Nat) (prev : Option Char) :
    (Re.cat [.noWordBoundary, chr '*', .group 1 (Re.cat [anyPlus, .cls (.non ['*'])]), chr '*',
      .cls .space]).m some ⟨off, prev, ['*', c, '*', nl], []⟩ = none := by
  simp only [Re.cat, m_seq_k, m_seq]
  rw [m_noWordBoundary]
  split
  · rfl
  · simp [chr, anyPlus, Re.m, starM, orElse, Cls.test, nl]

/-- A pattern that needs a `*` at its head, and fails at both stars of `*c*`,
has no match in `*c*` followed by the line feed. -/
theorem find_one_letter (r : Re) (h : r.needs '*' = true) (c : Char) (hc : c ≠ '*')
    (h0 : r.m some ⟨0, none, ['*', c, '*', nl], []⟩ = none)
    (h2 : r.m some ⟨2, some c, ['*', nl], []⟩ = none) :
    r.find ['*', c, '*', nl] = none := by
  rw [Re.find, findFrom_step _ _ _ _ _ h0,
    findFrom_step _ _ _ _ _ (m_needs '*' r h some _ _ _ _
      (by intro t e; injection e with e1 _; exact hc e1)),
    findFrom_step _ _ _ _ _ h2,
    findFrom_step _ _ _ _ _ (m_needs '*' r h some _ _ _ _
      (by intro t e; injection e with e1 _; revert e1; decide))]
  exact findFrom_nil_needs '*' r h _ _

/-- No phrase rule is a candidate in `*c*` for a letter or digit `c`. -/
theorem no_candidate_one_letter (c : Char) (hc : c.isAlphanum = true) (q : Parser)
    (hq : q ∈ parsers) : candidate ['*', c, '*'] ["phrase".toList] q = none := by
  have hcs : c ≠ '*' := alnum_ne c '*' hc (by decide)
  have hcn : c ≠ nl := alnum_ne c nl hc (by decide)
  have hq2 : q ∈ (parsers.take 17 ++ ((parsers.take 19).drop 18 ++ parsers.drop 20)) ++
      ((parsers.take 18).drop 17 ++ (parsers.take 20).drop 19) := by
    have e : parsers = parsers.take 17 ++ ((parsers.take 18).drop 17 ++
        ((parsers.take 19).drop 18 ++ ((parsers.take 20).drop 19 ++ parsers.drop 20))) := rfl
    rw [e] at hq
    simp only [List.mem_append] at hq ⊢
    tauto
  rcases List.mem_append.mp hq2 with h | h
  · have hall : (parsers.take 17 ++ ((parsers.take 19).drop 18 ++ parsers.drop 20)).all
        (fun q => !canAddChild q.Typ ["phrase".toList] || q.Re.deadOn (okMark '*')
          || q.Re.isLit nl) = true := by decide!
    apply candidate_none_of (okMark '*') _ _ (by decide) _ q (List.all_eq_true.mp hall q h)
    · intro x hx
      simp only [List.mem_cons, List.mem_singleton, List.not_mem_nil, or_false] at hx
      rcases hx with rfl | rfl | rfl
      · decide
      · simp [okMark, hc]
      · decide
    · intro hx
      simp only [List.mem_cons, List.mem_singleton, List.not_mem_nil, or_false] at hx
      rcases hx with e | e | e
      · revert e; decide
      · exact hcn e.symm
      · revert e; decide
  · apply candidate_none_of_find
    rcases List.mem_append.mp h with h | h
    · have hq3 : q = phraseB "**" "b" := by simpa [parsers] using h
      subst hq3
      exact find_one_letter _ (by decide) c hcs (bold_none 0 none c _ [] hcs)
        (bold_none 2 (some c) nl [] [] (by decide))
    · have hq3 : q = ⟨Re.cat [.noWordBoundary, chr '*',
          .group 1 (Re.cat [anyPlus, .cls (.non ['*'])]), chr '*', .cls .space],
          "strong".toList, "phrase".toList, ["phrase".toList], -1, none⟩ := by
        simpa [parsers] using h
      subst hq3
      exact find_one_letter _ (by decide) c hcs (strong_head_none c 0 none)
        (strong_none 2 (some c) [nl] [] rfl)

/-- The text `*c*`, for a letter or digit `c`, converts to the paragraph around
the unchanged text. -/
theorem one_letter_literal (k : Nat) (c : Char) (hc : c.isAlphanum = true) :
    TextileToHtml (k + 2) ['*', c, '*'] =
      some ("<p>".toList ++ ['*', c, '*'] ++ "</p>".toList, none) := by
  have hcn : c ≠ nl := alnum_ne c nl hc (by decide)
  refine textile_marker_literal k '*' (Or.inr (Or.inl rfl)) _ (by simp) ?_ ?_
    (no_candidate_one_letter c hc)
  · intro x hx
    simp only [List.mem_cons, List.mem_singleton, List.not_mem_nil, or_false] at hx
    rcases hx with rfl | rfl | rfl
    · decide
    · simp [okMark, hc]
    · decide
  · intro hx
    simp only [List.mem_cons, List.mem_singleton, List.not_mem_nil, or_false] at hx
    rcases hx with e | e | e
    · revert e; decide
    · exact hcn e.symm
    · revert e; decide

/-- C10 (the code departs from the claim): on a one-letter word the strong rule
does not fire.  For every ASCII letter or digit `c` and every fuel of at least 2,
`*c*` converts to `<p>*c*</p>`, not to `<p><strong>c</strong></p>`, and no phrase
rule is a candidate in `*c*`: the strong pattern `\B\*(.+[^\*])\*\s` needs two
characters between the stars.  The text `*a*` is an instance.  The same pattern
has no match in `**ab**` followed by the line feed, where the bold rule matches
at offset 0 with group `ab`; so the rules for `b` and `strong` do not both match
there, while in `__ab__` the rules for `i` and `em` both match at offset 0. -/
theorem strong_one_letter :
    (∀ (k : Nat) (c : Char), c.isAlphanum = true →
      TextileToHtml (k + 2) ['*', c, '*'] =
        some ("<p>".toList ++ ['*', c, '*'] ++ "</p>".toList, none) ∧
      TextileToHtml (k + 2) ['*', c, '*'] ≠
        some ("<p><strong>".toList ++ [c] ++ "</strong></p>".toList, none) ∧
      ∀ q ∈ parsers, candidate ['*', c, '*'] ["phrase".toList] q = none) ∧
    TextileToHtml 2 "*a*".toList = some ("<p>*a*</p>".toList, none) ∧
    TextileToHtml 2 "*a*".toList ≠ some ("<p><strong>a</strong></p>".toList, none) ∧
    (parsers.get? 19).map (fun p => (p.Tag, (p.Re.find ("**ab**".toList ++ [nl])).isSome)) =
      some ("strong".toList, false) ∧
    (parsers.get? 17).map (fun p => (p.Tag, (p.Re.find ("**ab**".toList ++ [nl])).map
      (fun m => (m.start, m.group 1)))) = some ("b".toList, some (0, "ab".toList)) ∧
    (parsers.get? 21).map (fun p => (p.Tag, (p.Re.find ("__ab__".toList ++ [nl])).map
      (fun m => (m.start, m.group 1)))) = some ("i".toList, some (0, "ab".toList)) ∧
    (parsers.get? 23).map (fun p => (p.Tag, (p.Re.find ("__ab__".toList ++ [nl])).map
      (fun m => (m.start, m.group 1)))) = some ("em".toList, some (0, "_ab_".toList)) := by
  refine ⟨?_, by decide!, by decide!, by decide!, by decide!, by decide!, by decide!⟩
  intro k c hc
  have h := one_letter_literal k c hc
  refine ⟨h, ?_, no_candidate_one_letter c hc⟩
  rw [h]
  intro e
  have e2 := congrArg (fun o => (o.map (fun x => x.1.length)).getD 0) e
  simp at e2

/-! ### Lengths of matches -/

theorem starM_factor (p : Cls) (g : Bool) (k : St → Option St) (caps : List (Nat × Str))
    (off : Nat) (prev : Option Char) (rest : Str) (e : St)
    (h : starM p g k caps off prev rest = some e) :
    ∃ e1, k e1 = some e ∧ off ≤ e1.off ∧ e1.off + e1.rest.length = off + rest.length ∧
      e1.caps = caps := by
  induction rest generalizing off prev with
  | nil => exact ⟨_, h, Nat.le_refl _, rfl, rfl⟩
  | cons c cs ih =>
    have here : k ⟨off, prev, c :: cs, caps⟩ = some e →
        ∃ e1, k e1 = some e ∧ off ≤ e1.off ∧
          e1.off + e1.rest.length = off + (c :: cs).length ∧ e1.caps = caps :=
      fun hk => ⟨_, hk, Nat.le_refl _, rfl, rfl⟩
    have next : starM p g k caps (off + 1) (some c) cs = some e →
        ∃ e1, k e1 = some e ∧ off ≤ e1.off ∧
          e1.off + e1.rest.length = off + (c :: cs).length ∧ e1.caps = caps := by
      intro hs
      obtain ⟨e1, h1, h2, h3, h4⟩ := ih _ _ hs
      exact ⟨e1, h1, by omega, by rw [h3, List.length_cons]; omega, h4⟩
    rw [starM] at h
    split at h
    · split at h
      · cases hn : starM p g k caps (off + 1) (some c) cs with
        | some x => rw [hn] at h; simp only [orElse] at h; exact next (hn.trans h)
        | none => rw [hn] at h; simp only [orElse] at h; exact here h
      · cases hn : k ⟨off, prev, c :: cs, caps⟩ with
        | some x => rw [hn] at h; simp only [orElse] at h; exact here (hn.trans h)
        | none => rw [hn] at h; simp only [orElse] at h; exact next h
    · exact here h

theorem repM_factor (p : Cls) (k : St → Option St) (caps : List (Nat × Str))
    (n off : Nat) (prev : Option Char) (rest : Str) (e : St)
    (h : repM p k caps n off prev rest = some e) :
    ∃ e1, k e1 = some e ∧ off + n ≤ e1.off ∧ e1.off + e1.rest.length = off + rest.length ∧
      e1.caps = caps := by
  induction n generalizing off prev rest with
  | zero => exact ⟨_, h, Nat.le_refl _, rfl, rfl⟩
  | succ n ih =>
    cases rest with
    | nil => rw [repM] at h; cases h
    | cons c cs =>
      rw [repM] at h
      split at h
      · obtain ⟨e1, h1, h2, h3, h4⟩ := ih _ _ _ h
        exact ⟨e1, h1, by omega, by rw [h3, List.length_cons]; omega, h4⟩
      · cases h

theorem capText_cons (i : Nat) (t : Str) (caps : List (Nat × Str)) :
    capText ((i, t) :: caps) 1 = if i = 1 then t else capText caps 1 := by
  by_cases h : i = 1
  · subst h; simp [capText, List.lookup]
  · have h2 : (1 == i) = false := by simp [Ne.symm h]
    simp [capText, List.lookup, h2, h]

/-- Every result of a match with a continuation is a result of the continuation
from a state that the pattern reaches. -/
theorem m_factor (r : Re) (k : St → Option St) (s e : St) (h : r.m k s = some e) :
    ∃ e1, k e1 = some e ∧ Reach r s e1 := by
  induction r generalizing k s with
  | empty => exact ⟨s, h, by simp [Reach, Re.minLen, Re.outLen]⟩
  | cls p =>
    obtain ⟨off, prev, rest, caps⟩ := s
    cases rest with
    | nil => cases h
    | cons c cs =>
      rw [m_cls_cons] at h
      split at h
      · exact ⟨_, h, by simp [Reach, Re.minLen, Re.outLen]; omega⟩
      · cases h
  | star p g =>
    obtain ⟨e1, h1, h2, h3, h4⟩ := starM_factor p g k _ _ _ _ e h
    exact ⟨e1, h1, by simp only [Reach, Re.minLen, Re.outLen, h4]; omega⟩
  | plus p g =>
    obtain ⟨off, prev, rest, caps⟩ := s
    cases rest with
    | nil => cases h
    | cons c cs =>
      rw [m_plus_cons] at h
      split at h
      · obtain ⟨e1, h1, h2, h3, h4⟩ := starM_factor p g k _ _ _ _ e h
        exact ⟨e1, h1, by simp only [Reach, Re.minLen, Re.outLen, h4, List.length_cons]; omega⟩
      · cases h
  | rep p n =>
    obtain ⟨e1, h1, h2, h3, h4⟩ := repM_factor p k _ _ _ _ _ e h
    exact ⟨e1, h1, by simp only [Reach, Re.minLen, Re.outLen, h4]; omega⟩
  | opt r ih =>
    rw [m_opt] at h
    cases hn : r.m k s with
    | some x =>
      rw [hn] at h
      simp only [orElse] at h
      obtain ⟨e1, h1, h2, h3, h4⟩ := ih k s (hn.trans h)
      exact ⟨e1, h1, by simp only [Reach, Re.minLen, Re.outLen]; omega⟩
    | none =>
      rw [hn] at h
      simp only [orElse] at h
      exact ⟨s, h, by simp [Reach, Re.minLen, Re.outLen]⟩
  | seq a b iha ihb =>
    rw [m_seq] at h
    obtain ⟨ea, ha1, ha2, ha3, ha4⟩ := iha _ s h
    obtain ⟨eb, hb1, hb2, hb3, hb4⟩ := ihb _ ea ha1
    exact ⟨eb, hb1, by simp only [Reach, Re.minLen, Re.outLen]; omega⟩
  | group i r ih =>
    rw [m_group] at h
    obtain ⟨e1, h1, h2, h3, h4⟩ := ih _ s h
    refine ⟨_, h1, ?_⟩
    simp only [Reach, Re.minLen, Re.outLen, capText_cons]
    refine ⟨h2, h3, ?_⟩
    by_cases hi : i = 1
    · rw [if_pos hi, if_pos hi]
      have := List.length_take_le (e1.off - s.off) s.rest
      omega
    · rw [if_neg hi, if_neg hi]
      exact h4
  | endText =>
    rw [m_endText] at h
    split at h
    · exact ⟨s, h, by simp [Reach, Re.minLen, Re.outLen]⟩
    · cases h
  | wordBoundary =>
    rw [m_wordBoundary] at h
    split at h
    · exact ⟨s, h, by simp [Reach, Re.minLen, Re.outLen]⟩
    · cases h
  | noWordBoundary =>
    rw [m_noWordBoundary] at h
    split at h
    · cases h
    · exact ⟨s, h, by simp [Reach, Re.minLen, Re.outLen]⟩

/-! ### Lengths of the matches of the search -/

/-- A match that the search returns is a match of the pattern at the head of a
suffix of the text. -/
theorem findFrom_factor (r : Re) (off : Nat) (prev : Option Char) (t : Str) (m : Match)
    (h : findFrom r off prev t = some m) :
    ∃ a b p e, t = a ++ b ∧ m.start = off + a.length ∧
      r.m some ⟨m.start, p, b, []⟩ = some e ∧ m.stop = e.off ∧ m.caps = e.caps ∧
      m.whole = b.take (e.off - m.start) := by
  induction t generalizing off prev with
  | nil =>
    rw [findFrom] at h
    split at h
    · rename_i e he
      cases h
      exact ⟨[], [], prev, e, rfl, rfl, he, rfl, rfl, by simp⟩
    · cases h
  | cons c cs ih =>
    rw [findFrom] at h
    split at h
    · rename_i e he
      cases h
      exact ⟨[], c :: cs, prev, e, rfl, rfl, he, rfl, rfl, rfl⟩
    · obtain ⟨a, b, p, e, h1, h2, h3, h4, h5, h6⟩ := ih _ _ h
      exact ⟨c :: a, b, p, e, by rw [h1]; rfl, by rw [h2, List.length_cons]; omega, h3, h4, h5, h6⟩

/-- The length of a match is at least the least length of the pattern, group 1 is
shorter than the match by the least outside length at least, and the match lies
inside the text. -/
theorem find_lengths (r : Re) (t : Str) (m : Match) (h : r.find t = some m) :
    r.minLen ≤ m.whole.length ∧ (m.group 1).length + r.outLen ≤ m.whole.length ∧
      m.start + m.whole.length ≤ t.length := by
  obtain ⟨a, b, p, e, h1, h2, h3, h4, h5, h6⟩ := findFrom_factor r 0 none t m h
  obtain ⟨e1, he1, hr1, hr2, hr3⟩ := m_factor r some _ e h3
  cases he1
  have h0 : capText ([] : List (Nat × Str)) 1 = [] := rfl
  rw [h0] at hr3
  dsimp only at hr1 hr2 hr3
  have hw : m.whole.length = e.off - m.start := by
    rw [h6, List.length_take]
    omega
  rw [hw, group_eq_capText, h5, h1, List.length_append]
  simp only [List.length_nil, Nat.add_zero] at hr3
  refine ⟨by omega, by omega, by omega⟩

/-- A match of a pattern that ends with `$` runs to the end of the text. -/
theorem m_endText_last (r : Re) (s e : St)
    (h : (Re.seq r (.seq .endText .empty)).m some s = some e) : e.rest = [] := by
  rw [m_seq] at h
  obtain ⟨e1, h1, _⟩ := m_factor r _ s e h
  rw [m_seq, m_endText] at h1
  split at h1
  · rename_i hempty
    cases h1
    cases hr : e.rest with
    | nil => rfl
    | cons c cs => rw [hr] at hempty; cases hempty
  · cases h1

/-- The search in a text that ends with a suffix at whose head the pattern
matches finds a match that starts in front of that suffix or at its head. -/
theorem findFrom_start_le (r : Re) (ys : Str)
    (hy : ∀ off prev, ∃ e, r.m some ⟨off, prev, ys, []⟩ = some e)
    (xs : Str) (off : Nat) (prev : Option Char) (m : Match)
    (h : findFrom r off prev (xs ++ ys) = some m) : m.start ≤ off + xs.length := by
  induction xs generalizing off prev with
  | nil =>
    obtain ⟨e, he⟩ := hy off prev
    rw [List.nil_append] at h
    cases ys with
    | nil => rw [findFrom, he] at h; cases h; simp
    | cons c cs => rw [findFrom, he] at h; cases h; simp
  | cons c cs ih =>
    rw [List.cons_append, findFrom] at h
    split at h
    · cases h; simp
    · have := ih _ _ h
      rw [List.length_cons]; omega

/-- The fallback paragraph rule `(.*)\n*$`: every match in a text followed by a
line feed has at least one character. -/
theorem paragraph_match_length (t : Str) (m : Match)
    (h : (Re.cat [.group 1 anyStar, nlStar, .endText]).find (t ++ [nl]) = some m) :
    1 ≤ m.whole.length := by
  have hs := findFrom_start_le _ [nl]
    (by
      intro off prev
      exact ⟨_, by simp [Re.cat, anyStar, nlStar, m_seq, m_group, m_star, starM, m_endText,
        Cls.test, orElse, m_empty]; rfl⟩) t 0 none m h
  obtain ⟨a, b, p, e, h1, h2, h3, h4, h5, h6⟩ := findFrom_factor _ 0 none _ m h
  have hlast : e.rest = [] := by
    have h3b : (Re.seq (Re.seq (.group 1 anyStar) nlStar) (.seq .endText .empty)).m some
        ⟨m.start, p, b, []⟩ = some e := h3
    exact m_endText_last _ _ _ h3b
  obtain ⟨e1, he1, hr1, hr2, _⟩ := m_factor _ some _ e h3
  cases he1
  dsimp only at hr1 hr2
  rw [hlast] at hr2
  have hl : (t ++ [nl]).length = a.length + b.length := by rw [h1, List.length_append]
  rw [List.length_append, List.length_singleton] at hl
  rw [h6, List.length_take]
  simp only [List.length_nil, Nat.add_zero] at hr2
  omega

/-! ### Termination of the Driver (claim C18) -/

/-- Every registry rule but the fallback paragraph rule: the least length of a
match plus the end-offset is at least 1. -/
theorem rules_advance_static :
    (parsers.take 13 ++ parsers.drop 14).all
      (fun p => decide (1 ≤ (p.Re.minLen : Int) + p.OffsetEnd)) = true := by decide!

/-- For every registry rule and every text the Driver searches, the length of the
match plus the end-offset of the rule is at least 1. -/
theorem rules_advance (p : Parser) (hp : p ∈ parsers) (t : Str) (m : Match)
    (h : p.Re.find (t ++ [nl]) = some m) : 1 ≤ (m.whole.length : Int) + p.OffsetEnd := by
  have hp2 : p ∈ (parsers.take 13 ++ parsers.drop 14) ++ (parsers.take 14).drop 13 := by
    have h1 : p ∈ parsers.take 13 ++ ((parsers.take 14).drop 13 ++ parsers.drop 14) := by
      rw [show parsers.take 13 ++ ((parsers.take 14).drop 13 ++ parsers.drop 14) = parsers
        from rfl]
      exact hp
    rw [List.mem_append, List.mem_append] at h1
    rw [List.mem_append, List.mem_append]
    tauto
  rcases List.mem_append.mp hp2 with h1 | h1
  · have h2 := List.all_eq_true.mp rules_advance_static p h1
    simp only [decide_eq_true_eq] at h2
    have h3 := (find_lengths p.Re _ m h).1
    omega
  · have e : p = ⟨Re.cat [.group 1 anyStar, nlStar, .endText], "p".toList, "block".toList,
        ["phrase".toList], 0, none⟩ := by simpa [parsers] using h1
    subst e
    have := paragraph_match_length t m h
    simp only [Int.add_zero]
    omega

/-- The rules of a category other than `list` and `block` have no sub-parser,
allow the phrase category or none below them, advance by one character at
least, and consume two characters at least outside their capture group. -/
theorem inner_rules_static :
    parsers.all (fun p => p.Typ == "list".toList || p.Typ == "block".toList ||
      (p.Parse.isNone && (p.AllowedChildren == ["phrase".toList] || p.AllowedChildren == [])
        && (p.Re.numSubexp == 0 || decide (2 ≤ p.Re.outLen)))) = true := by decide!

theorem inner_rule_facts (A : List Str) (hl : canAddChild "list".toList A = false)
    (hb : canAddChild "block".toList A = false) (p : Parser) (hp : p ∈ parsers)
    (hA : canAddChild p.Typ A = true) :
    p.Parse = none ∧ (p.AllowedChildren = ["phrase".toList] ∨ p.AllowedChildren = []) ∧
      (0 < p.Re.numSubexp → 2 ≤ p.Re.outLen) := by
  have h := List.all_eq_true.mp inner_rules_static p hp
  have h1 : p.Typ ≠ "list".toList := by
    intro e; rw [e, hl] at hA; cases hA
  have h2 : p.Typ ≠ "block".toList := by
    intro e; rw [e, hb] at hA; cases hA
  simp only [Bool.or_eq_true, Bool.and_eq_true, beq_iff_eq, h1, h2, false_or,
    decide_eq_true_eq, Option.isNone_iff_eq_none] at h
  refine ⟨h.1.1, h.1.2, ?_⟩
  intro hn
  rcases h.2 with h3 | h3
  · omega
  · exact h3

theorem gapEnd_ge (text : Str) (parsed : Nat) (A : List Str) :
    parsed ≤ gapEnd text parsed A := by
  unfold gapEnd
  split <;> omega

/-- The loop of the Driver returns within as many cycles as the span has
characters after the cursor, when no `list` or `block` rule is allowed and the
recursive calls on shorter texts return. -/
theorem parseLoop_returns (pf : ParseFn) (sub : Custom → Str → Str → Option (D × Err))
    (text : Str) (A : List Str) (hl : canAddChild "list".toList A = false)
    (hb : canAddChild "block".toList A = false)
    (hpf : ∀ g tag2 A2, g.length < text.length → (A2 = ["phrase".toList] ∨ A2 = []) →
      ∃ c, pf g tag2 A2 = some (c, none))
    (fuel parsed : Nat) (d : D) (hf : text.length ≤ parsed + fuel) :
    ∃ d2, parseLoop pf sub text A fuel parsed d = some (d2, none) := by
  induction fuel generalizing parsed d with
  | zero => exact ⟨d, by rw [parseLoop, if_neg (by omega)]⟩
  | succ f ih =>
    rw [parseLoop]
    split
    · rename_i hlen
      split
      · rename_i i bp hsel
        have hbp := selectBest_rule text parsed A i bp hsel
        obtain ⟨hP, hC, hout⟩ := inner_rule_facts A hl hb bp hbp.1 hbp.2
        split
        · rename_i m hm
          have hlen3 := find_lengths bp.Re _ m hm
          have hadv := rules_advance bp hbp.1 _ m hm
          have hge := gapEnd_ge text parsed A
          have hd : (text.drop (gapEnd text parsed A) ++ [nl]).length =
              text.length - gapEnd text parsed A + 1 := by simp
          have hadd : ∃ d3, addMatched pf sub bp m (gapChild text parsed A d) = some d3 := by
            unfold addMatched
            split
            · rename_i hn
              rw [hP]
              dsimp only
              have h2 := hout hn
              obtain ⟨c, hc⟩ := hpf (m.group 1) bp.Tag bp.AllowedChildren (by omega) hC
              rw [hc]
              exact ⟨_, rfl⟩
            · exact ⟨_, rfl⟩
          obtain ⟨d3, hd3⟩ := hadd
          rw [hd3]
          dsimp only
          rw [if_neg (by omega)]
          exact ih _ _ (by omega)
        · exact ⟨_, rfl⟩
      · exact ⟨_, rfl⟩
    · exact ⟨_, rfl⟩

/-- The Driver returns on every span when no `list` or `block` rule is allowed,
for every fuel above the length of the span. -/
theorem parseN_returns (n : Nat) (t tag : Str) (A : List Str)
    (hl : canAddChild "list".toList A = false) (hb : canAddChild "block".toList A = false)
    (hn : t.length < n) : ∃ d, parseN n t tag A = some (d, none) := by
  induction n generalizing t tag A with
  | zero => omega
  | succ n ih =>
    apply parseLoop_returns _ _ t A hl hb _ (n + 1) 0 _ (by omega)
    intro g tag2 A2 hg hA2
    apply ih g tag2 A2 _ _ (by omega)
    · rcases hA2 with rfl | rfl <;> decide
    · rcases hA2 with rfl | rfl <;> decide

/-- C18: for every span and every set of allowed categories without `list` and
`block` (the categories of the list and table rules), the Driver returns, with
no error, for every fuel above the length of the span, and its loop returns
within as many cycles as the span has characters.  The reasons: a cycle that
selects a rule moves the cursor forward by one character at least, since for
every registry rule the length of a match in a searched text plus the
end-offset of the rule is at least 1; and a rule of an allowed category has no
sub-parser, allows the phrase category or none below it, and its capture group
is shorter than the match by two characters at least. -/
theorem driver_terminates (text tag : Str) (A : List Str)
    (hl : canAddChild "list".toList A = false) (hb : canAddChild "block".toList A = false) :
    (∀ fuel, text.length < fuel → ∃ d, parse fuel text tag A = some (d, none)) ∧
    (∀ d, ∃ d2, parseLoop (parse text.length) (subParse (parse text.length) text.length)
      text A text.length 0 d = some (d2, none)) ∧
    (∀ p ∈ parsers, ∀ t m, p.Re.find (t ++ [nl]) = some m →
      1 ≤ (m.whole.length : Int) + p.OffsetEnd) ∧
    (∀ parsed i bp m, (selectBest text parsed A).parser = some (i, bp) →
      bp.Re.find (text.drop (gapEnd text parsed A) ++ [nl]) = some m →
      (parsed : Int) + 1 ≤ (gapEnd text parsed A : Int) + (m.whole.length : Int) + bp.OffsetEnd) ∧
    (∀ p ∈ parsers, canAddChild p.Typ A = true →
      p.Parse = none ∧ (p.AllowedChildren = ["phrase".toList] ∨ p.AllowedChildren = []) ∧
      ∀ t m, 0 < p.Re.numSubexp → p.Re.find t = some m →
        (m.group 1).length + 2 ≤ m.whole.length) := by
  refine ⟨?_, ?_, ?_, ?_, ?_⟩
  · intro fuel hf
    exact parseN_returns fuel text tag A hl hb hf
  · intro d
    apply parseLoop_returns _ _ text A hl hb _ text.length 0 d (by omega)
    intro g tag2 A2 hg hA2
    apply parseN_returns _ g tag2 A2 _ _ hg
    · rcases hA2 with rfl | rfl <;> decide
    · rcases hA2 with rfl | rfl <;> decide
  · intro p hp t m h
    exact rules_advance p hp t m h
  · intro parsed i bp m hsel hm
    have hbp := selectBest_rule text parsed A i bp hsel
    have h1 := rules_advance bp hbp.1 _ m hm
    have h2 := gapEnd_ge text parsed A
    omega
  · intro p hp hA
    obtain ⟨hP, hC, hout⟩ := inner_rule_facts A hl hb p hp hA
    refine ⟨hP, hC, ?_⟩
    intro t m hn hm
    have h1 := (find_lengths p.Re t m hm).2.1
    have h2 := hout hn
    omega

theorem driver_terminates_witness :
    canAddChild "list".toList ["phrase".toList] = false ∧
    canAddChild "block".toList ["phrase".toList] = false ∧
    "a *b* c".toList.length < 8 ∧
    ∃ d, parse 8 "a *b* c".toList "p".toList ["phrase".toList] = some (d, none) :=
  ⟨by decide, by decide, by decide,
    (driver_terminates "a *b* c".toList "p".toList ["phrase".toList] (by decide) (by decide)).1
      8 (by decide)⟩

/-! ### The pieces of the output -/

theorem escapeChar_raw_free (a : Char) :
    ∀ c ∈ escapeChar a, c ≠ '<' ∧ c ≠ '>' ∧ c ≠ dq ∧ c ≠ Char.ofNat 39 := by
  unfold escapeChar
  split
  · decide
  · split
    · decide
    · split
      · decide
      · split
        · decide
        · split
          · decide
          · rename_i h1 h2 h3 h4 h5
            intro c hc
            simp only [List.mem_singleton] at hc
            subst hc
            exact ⟨h3, h4, h5, h2⟩

theorem EscapeString_text_piece (x : Str) : isTextPiece (EscapeString x) := by
  refine ⟨⟨x, rfl⟩, ?_⟩
  induction x with
  | nil => intro c hc; cases hc
  | cons a t ih =>
    intro c hc
    rw [EscapeString] at hc
    rcases List.mem_append.mp hc with h | h
    · exact escapeChar_raw_free a c h
    · exact ih c h

theorem Pieces_nil : Pieces [] := ⟨[], rfl, by intro p hp; cases hp⟩

theorem Pieces_one (s : Str) (h : isTagPiece s ∨ isTextPiece s) : Pieces s :=
  ⟨[s], by simp, by intro p hp; simp only [List.mem_singleton] at hp; subst hp; exact h⟩

theorem Pieces_append (a b : Str) (ha : Pieces a) (hb : Pieces b) : Pieces (a ++ b) := by
  obtain ⟨pa, ea, ha⟩ := ha
  obtain ⟨pb, eb, hb⟩ := hb
  refine ⟨pa ++ pb, by rw [ea, eb, List.flatten_append], ?_⟩
  intro p hp
  rcases List.mem_append.mp hp with h | h
  · exact ha p h
  · exact hb p h

theorem Pieces_open (n : Str) (hn : n ∈ tagNames) : Pieces ('<' :: n ++ ['>']) :=
  Pieces_one _ (Or.inl ⟨n, hn, Or.inl rfl⟩)

theorem Pieces_close (n : Str) (hn : n ∈ tagNames) : Pieces ('<' :: '/' :: n ++ ['>']) :=
  Pieces_one _ (Or.inl ⟨n, hn, Or.inr rfl⟩)

theorem Pieces_nest (names : List Str) (hn : ∀ n ∈ names, n ∈ tagNames) (inner : Str)
    (hi : Pieces inner) : Pieces (nestSpec names inner) := by
  induction names with
  | nil => exact hi
  | cons n ns ih =>
    rw [nestSpec]
    have h1 := Pieces_open n (hn n (List.mem_cons_self _ _))
    have h2 := Pieces_close n (hn n (List.mem_cons_self _ _))
    have h3 := ih (fun y hy => hn y (List.mem_cons_of_mem _ hy))
    have := Pieces_append _ _ (Pieces_append _ _ h1 h3) h2
    simpa using this

theorem Pieces_concat (l : List (Option Str)) (inner : Str) (h : concatHtml l = some inner)
    (hl : ∀ o ∈ l, ∀ x, o = some x → Pieces x) : Pieces inner := by
  induction l generalizing inner with
  | nil => cases h; exact Pieces_nil
  | cons o os ih =>
    cases o with
    | none => cases h
    | some a =>
      rw [concatHtml] at h
      cases hr : concatHtml os with
      | none => rw [hr] at h; cases h
      | some b =>
        rw [hr] at h
        cases h
        exact Pieces_append _ _ (hl _ (List.mem_cons_self _ _) a rfl)
          (ih b hr (fun o ho => hl o (List.mem_cons_of_mem _ ho)))

/-- Every fixed tag is the `+`-join of fixed names free of `%` and `+`. -/
theorem tagNames_split :
    tagNames.all (fun t => (['+'].intercalate (Split t "+".toList) == t) &&
      (Split t "+".toList).all (fun n => tagNames.contains n && !n.contains '%' &&
        !n.contains '+')) = true := by decide

/-- The rendering of a node with a fixed tag around an inner text made of pieces. -/
theorem Pieces_wrap (tag inner h : Str) (htag : tag = [] ∨ tag ∈ tagNames)
    (hi : Pieces inner) (hw : wrapTag tag inner = some h) : Pieces h := by
  rcases htag with rfl | htag
  · simp only [wrapTag, if_true] at hw
    cases hw; exact hi
  · have hs := List.all_eq_true.mp tagNames_split tag htag
    simp only [Bool.and_eq_true, beq_iff_eq, List.all_eq_true, List.contains_iff_exists_mem_beq,
      Bool.not_eq_true'] at hs
    obtain ⟨hjoin, hnames⟩ := hs
    have hfree : ∀ n ∈ Split tag "+".toList, '%' ∉ n ∧ '+' ∉ n := by
      intro n hn
      have := hnames n hn
      constructor
      · intro hc
        have h2 := this.1.2
        simp [List.contains_iff_exists_mem_beq] at h2
        exact h2 hc
      · intro hc
        have h2 := this.2
        simp [List.contains_iff_exists_mem_beq] at h2
        exact h2 hc
    have hmem : ∀ n ∈ Split tag "+".toList, n ∈ tagNames := by
      intro n hn
      obtain ⟨y, hy, hyn⟩ := (hnames n hn).1.1
      subst hyn; exact hy
    have hw2 := wrapTag_eq (Split tag "+".toList) inner hfree
    rw [hjoin, hw] at hw2
    cases hw2
    unfold wrapSpec
    rw [hjoin]
    split
    · exact hi
    · split
      · exact Pieces_open tag htag
      · exact Pieces_nest _ hmem inner hi

/-- The rendering of a tree whose tags are fixed names is made of pieces. -/
theorem Pieces_ToHtml (d : D) (hd : D.Wf d) (h : Str) (hh : d.ToHtml = some h) : Pieces h := by
  induction hd generalizing h with
  | mk tag x cs htag hcs ih =>
    rw [ToHtml_eq] at hh
    cases hin : innerSpec x cs with
    | none => rw [hin] at hh; cases hh
    | some inner =>
      rw [hin] at hh
      apply Pieces_wrap tag inner h htag _ hh
      unfold innerSpec at hin
      split at hin
      · cases hin
        exact Pieces_one _ (Or.inr (EscapeString_text_piece x))
      · apply Pieces_concat _ inner hin
        intro o ho y hy
        obtain ⟨c, hc, rfl⟩ := List.mem_map.mp ho
        exact ih c hc y hy

/-! ### The trees the parsers build, and claim C19 -/

theorem Wf_New (tag : Str) (h : tag = [] ∨ tag ∈ tagNames) : D.Wf (D.New tag) :=
  D.Wf.mk tag [] [] h (by intro c hc; cases hc)

theorem Wf_leaf (s : Str) : D.Wf (D.leaf s) :=
  D.Wf.mk [] s [] (Or.inl rfl) (by intro c hc; cases hc)

theorem Wf_AddChild (d c : D) (hd : D.Wf d) (hc : D.Wf c) : D.Wf (d.AddChild c) := by
  cases hd with
  | mk tag x cs htag hcs =>
    refine D.Wf.mk tag x (cs ++ [c]) htag ?_
    intro y hy
    rcases List.mem_append.mp hy with h | h
    · exact hcs y h
    · simp only [List.mem_singleton] at h; subst h; exact hc

/-- The tag of every registry rule is empty or a fixed name. -/
theorem rule_tags :
    parsers.all (fun p => p.Tag == [] || tagNames.contains p.Tag) = true := by decide

theorem rule_tag_ok (p : Parser) (hp : p ∈ parsers) : p.Tag = [] ∨ p.Tag ∈ tagNames := by
  have h := List.all_eq_true.mp rule_tags p hp
  simp only [Bool.or_eq_true, beq_iff_eq, List.contains_iff_exists_mem_beq] at h
  rcases h with h | ⟨y, hy, hyn⟩
  · left; exact h
  · right; subst hyn; exact hy

theorem tableCells_wf (pf : ParseFn)
    (hpf : ∀ t tag A r, pf t tag A = some r → (tag = [] ∨ tag ∈ tagNames) → D.Wf r.1)
    (cells : List Str) (tr : D) (htr : D.Wf tr) (r : D × Err)
    (h : tableCells pf cells tr = some r) : D.Wf r.1 := by
  induction cells generalizing tr with
  | nil => rw [tableCells] at h; cases h; exact htr
  | cons cell cells ih =>
    rw [tableCells] at h
    split at h
    · cases h
    · cases h; exact htr
    · rename_i td hc
      exact ih _ (Wf_AddChild _ _ htr (hpf _ _ _ _ hc (Or.inr (by decide)))) h

theorem tableLoop_wf (pf : ParseFn)
    (hpf : ∀ t tag A r, pf t tag A = some r → (tag = [] ∨ tag ∈ tagNames) → D.Wf r.1)
    (text : Str) (fuel parsed : Nat) (d : D) (hd : D.Wf d) (r : D × Err)
    (h : tableLoop pf text fuel parsed d = some r) : D.Wf r.1 := by
  induction fuel generalizing parsed d with
  | zero =>
    rw [tableLoop] at h
    split at h
    · cases h
    · cases h; exact hd
  | succ f ih =>
    rw [tableLoop] at h
    split at h
    · split at h
      · split at h
        · cases h
        · rename_i tr err hc
          cases h
          exact Wf_AddChild _ _ hd (tableCells_wf pf hpf _ _ (Wf_New _ (Or.inr (by decide))) _ hc)
        · rename_i tr hc
          exact ih _ _ (Wf_AddChild _ _ hd
            (tableCells_wf pf hpf _ _ (Wf_New _ (Or.inr (by decide))) _ hc)) h
      · cases h; exact hd
    · cases h; exact hd

theorem listLoop_wf (pf : ParseFn)
    (hpf : ∀ t tag A r, pf t tag A = some r → (tag = [] ∨ tag ∈ tagNames) → D.Wf r.1)
    (tag : Str) (htag : tag = [] ∨ tag ∈ tagNames) (fuel : Nat) (re : Re) (text : Str)
    (level parsed : Nat) (d : D) (hd : D.Wf d) (r : D × Nat × Err)
    (h : listLoop pf tag fuel re text level parsed d = some r) : D.Wf r.1 := by
  induction fuel generalizing re text level parsed d r with
  | zero =>
    rw [listLoop] at h
    split at h
    · cases h
    · cases h; exact hd
  | succ f ih =>
    rw [listLoop] at h
    split at h
    · split at h
      · split at h
        · cases h
        · cases h; exact hd
        · rename_i c hc
          have hcw : D.Wf c := hpf _ _ _ _ hc (Or.inr (by decide))
          split at h
          · split at h
            · cases h
            · split at h
              · cases h
              · cases h; exact hd
              · rename_i cc offset hn
                have hccw : D.Wf cc := ih _ _ _ _ _ (Wf_New tag htag) _ hn
                exact ih _ _ _ _ _
                  (Wf_AddChild _ _ hd (Wf_AddChild _ _ hcw hccw)) _ h
          · split at h
            · cases h; exact Wf_AddChild _ _ hd hcw
            · exact ih _ _ _ _ _ (Wf_AddChild _ _ hd hcw) _ h
      · cases h; exact hd
    · cases h; exact hd

theorem subParse_wf (pf : ParseFn)
    (hpf : ∀ t tag A r, pf t tag A = some r → (tag = [] ∨ tag ∈ tagNames) → D.Wf r.1)
    (n : Nat) (f : Custom) (t tag : Str) (htag : tag = [] ∨ tag ∈ tagNames) (r : D × Err)
    (h : subParse pf n f t tag = some r) : D.Wf r.1 := by
  cases f with
  | parseList =>
    simp only [subParse, parseList, parseListAtLevel] at h
    split at h
    · rename_i d _ err hl
      cases h
      split at hl
      · cases hl
      · exact listLoop_wf pf hpf tag htag _ _ _ _ _ _ (Wf_New tag htag) _ hl
    · cases h
  | parseTable =>
    simp only [subParse, parseTable] at h
    exact tableLoop_wf pf hpf _ _ _ _ (Wf_New tag htag) _ h

/-- Every node of the tree `parse` returns has no tag or a fixed tag name, when
the tag of the call is such. -/
theorem parseN_wf (n : Nat) (t tag : Str) (A : List Str) (r : D × Err)
    (h : parseN n t tag A = some r) (htag : tag = [] ∨ tag ∈ tagNames) : D.Wf r.1 := by
  induction n generalizing t tag A r with
  | zero => cases h
  | succ n ih =>
    have hpf : ∀ t tag A r, parseN n t tag A = some r → (tag = [] ∨ tag ∈ tagNames) →
        D.Wf r.1 := fun t tag A r h1 h2 => ih t tag A r h1 h2
    refine parseLoop_induct (parseN n) (subParse (parseN n) n) t A D.Wf ?_ ?_ (n + 1) 0
      (D.New tag) r (Wf_New tag htag) h
    · intro d s hd
      exact Wf_AddChild _ _ hd (Wf_leaf s)
    · intro d bp m d2 hbp _ hd ha
      have hbt := rule_tag_ok bp hbp
      rcases addMatched_cases _ _ bp m d d2 ha with e | e | ⟨c, f, _, hs, e⟩ | ⟨c, _, hp, e⟩
      · rw [e]; exact hd
      · rw [e]; exact Wf_AddChild _ _ hd (D.Wf.mk _ _ _ hbt (by intro c hc; cases hc))
      · rw [e]; exact Wf_AddChild _ _ hd (subParse_wf _ hpf _ _ _ _ hbt _ hs)
      · rw [e]; exact Wf_AddChild _ _ hd (hpf _ _ _ _ hp hbt)

theorem blockNodes_mem (fuel : Nat) (blocks : List Str) (cs : List D)
    (h : blockNodes fuel blocks = some cs) :
    ∀ c ∈ cs, ∃ t, parse fuel t [] topCategories = some (c, none) := by
  induction blocks generalizing cs with
  | nil => rw [blockNodes] at h; cases h; intro c hc; cases hc
  | cons b bs ih =>
    rw [blockNodes] at h
    split at h
    · cases h
    · rename_i c0 hp
      split at h
      · rename_i cs0 hb
        cases h
        intro c hc
        rcases List.mem_cons.mp hc with rfl | hc
        · exact ⟨b, hp⟩
        · exact ih cs0 hb c hc
      · cases h
    · exact ih cs h

/-- C19: whenever `TextileToHtml` returns, its output is a concatenation of
pieces, each an opening or closing tag whose name is one of the fixed names
(`p`, `h1`, `ul`, `ol`, `li`, `dl`, `dt`, `dd`, `pre`, `code`, `pre+code`,
`table`, `tr`, `td`, `br`, `a`, `img`, `b`, `strong`, `i`, `em`, `sub`, `sup`,
`ins`, `del`, `cite`) or an escaped text, which holds none of the characters
`<`, `>`, the double quote and the apostrophe. -/
theorem output_pieces (fuel : Nat) (text html : Str) (err : Err)
    (h : TextileToHtml fuel text = some (html, err)) :
    ∃ ps : List Str, html = ps.flatten ∧ ∀ p ∈ ps,
      (∃ n ∈ tagNames, p = '<' :: n ++ ['>'] ∨ p = '<' :: '/' :: n ++ ['>']) ∨
      ((∃ x, p = EscapeString x) ∧
        ∀ c ∈ p, c ≠ '<' ∧ c ≠ '>' ∧ c ≠ dq ∧ c ≠ Char.ofNat 39) := by
  rw [TextileToHtml_eq] at h
  cases hb : blockNodes fuel (Split text [nl, nl]) with
  | none => rw [hb] at h; cases h
  | some cs =>
    rw [hb] at h
    dsimp only at h
    cases hc : concatHtml (cs.map D.ToHtml) with
    | none => rw [hc] at h; cases h
    | some out =>
      rw [hc] at h
      cases h
      apply Pieces_concat _ _ hc
      intro o ho y hy
      obtain ⟨c, hcm, rfl⟩ := List.mem_map.mp ho
      obtain ⟨t, ht⟩ := blockNodes_mem fuel _ cs hb c hcm
      exact Pieces_ToHtml c (parseN_wf fuel t [] topCategories _ ht (Or.inl rfl)) y hy

theorem output_pieces_witness :
    TextileToHtml 3 "a *b<* c".toList =
      some ("<p>a <strong>b&lt;</strong> c</p>".toList, none) ∧
    ∃ ps : List Str, "<p>a <strong>b&lt;</strong> c</p>".toList = ps.flatten ∧ ∀ p ∈ ps,
      (∃ n ∈ tagNames, p = '<' :: n ++ ['>'] ∨ p = '<' :: '/' :: n ++ ['>']) ∨
      ((∃ x, p = EscapeString x) ∧
        ∀ c ∈ p, c ≠ '<' ∧ c ≠ '>' ∧ c ≠ dq ∧ c ≠ Char.ofNat 39) :=
  ⟨by decide, output_pieces 3 "a *b<* c".toList _ none (by decide)⟩

end Gotextile
